import Mathlib

/-!
Verification of the sovereign-blog plugin: frontmatter codec and markdown editor.

A shallow embedding of the string-processing core of the plugin:

* `src/handlers/blog/posts/patch.js`: `yamlQuote`, `renderTags`, `updateFrontmatter`,
  `splitFrontmatter`, `hasFrontmatter`, the text that `updatePost` saves and the tags it
  returns;
* `src/handlers/blog/posts/get.js`: `FRONTMATTER_REGEX`, `parseFrontmatter`,
  `normalizeTags`;
* `src/public/blog/js/editor.js`: `escapeHtml`, `markdownToHtml`, `htmlToMarkdown`,
  `getOffsetsFromRange`, `getTextNodeAtOffset`, `restoreSelectionFromOffsets`,
  `syncEditors`, `rangeIsValid`, `restoreSelection`, `setMode`;
* `src/handlers/blog/_utils.js`: `CONTRIBUTOR_ROLE_WEIGHT`, `normalizeRoles`,
  `isRoleAllowed`.

JavaScript strings are modelled as lists of characters.  The functions below single out
ASCII characters and the white space of the Basic Multilingual Plane only, so a character
that JavaScript stores as two code units behaves like any other ordinary character.
Every regular expression of the source is translated into a function that computes what
the backtracking matcher returns for it; the doc comment of each function quotes the
expression it stands for.  A loop over an array is a fold with the loop variables as its
state.

Two built-ins are not modelled.  `new Date(v)` followed by `toISOString()` depends on the
host; it is a parameter `toISO` of the functions that call it (`none` stands for an
invalid date).  The HTML parser behind `container.innerHTML = html` is the browser's;
`htmlToMarkdown` takes the tree it builds.  Where the editor assigns to `innerHTML` or
reads it, the parser and the serializer of the browser are the parameters `parseHtml`
and `serializeHtml`.

`markdownToHtmlOrderedFirst` is no function of the source: it is `markdownToHtml` with
its two list rules in the other order, the pipeline that the specification describes,
and it is only compared with `markdownToHtml`.

`renderRules` is the part of `markdownToHtml` between the extraction of the fences and
the last replacement, under a name of its own (`markdownToHtml_eq` relates the two).  The
statements on whole documents describe their inputs and outputs with the definitions of
the section "Vocabulary of the statements": a document is a text and fenced blocks, each
followed by a text (`Piece`, `FencedPart`, `fencedText`); `Marked` says where the
U+0000 of a text stand; `knownTags` says which tags a text has; `isLiteralChar`,
`lineStarts` and `startsBlock` describe a text in which no rule has a match, and
`plainParagraphs` is such a text written as paragraphs.

A boundary point of a DOM range in the editor view is modelled by its place among the
text nodes of the view in document order, the order of a `TreeWalker` with `SHOW_TEXT`;
the text of a range that starts at the root is the text of the text nodes before its end.
-/

namespace SovereignBlog

/-- JavaScript strings, as sequences of characters. -/
abbrev Str := List Char

/-! ## Built-in string operations -/

/-- The characters matched by `\s` in a regular expression and stripped by `trim`:
white space and line terminators. -/
def isWhiteSpace (c : Char) : Bool :=
  c == '\t' || c == '\n' || c == '\x0b' || c == '\x0c' || c == '\r' || c == ' ' ||
  c == '\u00a0' || c == '\u1680' || (0x2000 ≤ c.toNat && c.toNat ≤ 0x200a) ||
  c == '\u2028' || c == '\u2029' || c == '\u202f' || c == '\u205f' || c == '\u3000' ||
  c == '\ufeff'

/-- The characters that `.` does not match in a regular expression. -/
def isLineTerminator (c : Char) : Bool :=
  c == '\n' || c == '\r' || c == '\u2028' || c == '\u2029'

/-- The characters matched by `\d`. -/
def isDigit (c : Char) : Bool := 48 ≤ c.toNat && c.toNat ≤ 57

/-- The characters matched by `[A-Za-z0-9_-]`. -/
def isKeyChar (c : Char) : Bool :=
  (65 ≤ c.toNat && c.toNat ≤ 90) || (97 ≤ c.toNat && c.toNat ≤ 122) || isDigit c ||
  c == '_' || c == '-'

/-- The method `trimStart`. -/
def trimStart (s : Str) : Str := s.dropWhile isWhiteSpace

/-- The method `trimEnd`. -/
def trimEnd (s : Str) : Str := (s.reverse.dropWhile isWhiteSpace).reverse

/-- The method `trim`. -/
def trim (s : Str) : Str := trimEnd (trimStart s)

/-- The call `s.split(sep)` for a one-character separator: the result is never empty. -/
def splitChar (sep : Char) : Str → List Str
  | [] => [[]]
  | c :: rest =>
    if c = sep then [] :: splitChar sep rest
    else match splitChar sep rest with
      | [] => [[c]]
      | l :: ls => (c :: l) :: ls

/-- The call `s.split(/\r?\n/)`: a line ends at a line feed, and a carriage return right
before that line feed belongs to the separator. -/
def splitLines : Str → List Str
  | [] => [[]]
  | c :: rest =>
    if c = '\n' then [] :: splitLines rest
    else if c = '\r' ∧ rest.head? = some '\n' then splitLines rest
    else match splitLines rest with
      | [] => [[c]]
      | l :: ls => (c :: l) :: ls

/-- The call `parts.join(sep)`. -/
def joinWith (sep : Str) : List Str → Str
  | [] => []
  | [x] => x
  | x :: y :: rest => x ++ sep ++ joinWith sep (y :: rest)

/-- The filter `.filter(Boolean)` on an array of strings: the empty strings are dropped. -/
def filterNonEmpty (xs : List Str) : List Str := xs.filter (fun s => !s.isEmpty)

/-- The chain `.split(",").map((s) => s.trim()).filter(Boolean)`. -/
def splitCommaList (s : Str) : List Str := filterNonEmpty ((splitChar ',' s).map trim)

/-! ## Values of the change set (`patch.js`) -/

/-- The values `updateFrontmatter` can find under a key of `updates`: the strings, booleans
and arrays of strings that `updatePost` stores there, and the members that every object
inherits from `Object.prototype` (functions and objects), kept with the text `String(v)`
gives for them. -/
inductive JSValue
  | str (s : Str)
  | bool (b : Bool)
  | arr (items : List Str)
  | obj (text : Str)
  deriving DecidableEq, Repr

/-- The conversion `String(v)`. -/
def JSValue.toStr : JSValue → Str
  | .str s => s
  | .bool true => "true".toList
  | .bool false => "false".toList
  | .arr items => joinWith [','] items
  | .obj text => text

/-- JavaScript truthiness, as tested by `v ? "true" : "false"`. -/
def JSValue.truthy : JSValue → Bool
  | .str s => !s.isEmpty
  | .bool b => b
  | .arr _ => true
  | .obj _ => true

/-- The own enumerable properties of the object `changes`, in the order of
`Object.keys(changes)`. -/
abbrev ChangeSet := List (Str × JSValue)

/-- The property names of `Object.prototype`, which `k in changes` finds on every object
made by `const updates = {}`. -/
def objectPrototypeKeys : List Str :=
  ["constructor", "__defineGetter__", "__defineSetter__", "hasOwnProperty",
   "__lookupGetter__", "__lookupSetter__", "isPrototypeOf", "propertyIsEnumerable",
   "toString", "valueOf", "__proto__", "toLocaleString"].map String.toList

/-- The value read through the prototype chain for an inherited name: `__proto__` is
`Object.prototype` itself, `constructor` is the function `Object`, and every other name is
the built-in function of that name. -/
def inheritedValue (k : Str) : JSValue :=
  if k = "__proto__".toList then .obj "[object Object]".toList
  else if k = "constructor".toList then
    .obj "function Object() \x7b [native code] \x7d".toList
  else .obj ("function ".toList ++ k ++ "() \x7b [native code] \x7d".toList)

/-- The test `k in changes`: own properties and inherited ones. -/
def hasProperty (k : Str) (changes : ChangeSet) : Bool :=
  changes.any (fun e => e.1 == k) || objectPrototypeKeys.contains k

/-- The read `changes[k]`, for a `k` with `k in changes`. -/
def getProperty (k : Str) (changes : ChangeSet) : JSValue :=
  match changes.find? (fun e => e.1 == k) with
  | some e => e.2
  | none => inheritedValue k

/-! ## `updateFrontmatter` (`patch.js`) -/

/-- The replacement `.replace(/"/g, '\\"')`. -/
def escapeQuotes : Str → Str
  | [] => []
  | c :: rest => if c = '"' then '\\' :: '"' :: escapeQuotes rest else c :: escapeQuotes rest

/-- The helper `yamlQuote` on the text `String(v ?? "")`. -/
def yamlQuote (s : Str) : Str := '"' :: (escapeQuotes s ++ ['"'])

/-- The helper `renderTags`. -/
def renderTags (val : JSValue) : Str :=
  let arr : List Str :=
    match val with
    | .arr items => items
    | .str s => splitCommaList s
    | _ => []
  '[' :: (joinWith ", ".toList (arr.map yamlQuote) ++ [']'])

/-- The inner function `apply` of `updateFrontmatter`: the line written for key `k` with
value `v`. -/
def applyChange (toISO : JSValue → Option Str) (k : Str) (v : JSValue) : Str :=
  if k = "tags".toList then k ++ ": ".toList ++ renderTags v
  else if k = "draft".toList then
    k ++ ": ".toList ++ (if v.truthy then "true".toList else "false".toList)
  else if k = "pubDate".toList ∨ k = "updatedDate".toList then
    k ++ ": ".toList ++ (match toISO v with
      | some iso => iso
      | none => [])
  else k ++ ": ".toList ++ yamlQuote v.toStr

/-- The capture `m[1]` of `line.match(/^\s*([A-Za-z0-9_-]+)\s*:\s*(.*)$/)`, or `none` when
the line does not match.  The expression has no `m` flag, so `$` is the end of the line
text, and `.` matches no line terminator. -/
def lineKey (line : Str) : Option Str :=
  let s1 := line.dropWhile isWhiteSpace
  let key := s1.takeWhile isKeyChar
  match (s1.dropWhile isKeyChar).dropWhile isWhiteSpace with
  | c :: s3 =>
    if c = ':' ∧ key ≠ [] ∧ ((s3.dropWhile isWhiteSpace).all (fun x => !isLineTerminator x))
    then some key else none
  | [] => none

/-- One round of the first loop of `updateFrontmatter`: the state is the array `lines` as
rewritten so far and the set of keys that matched. -/
def updateStep (toISO : JSValue → Option Str) (changes : ChangeSet)
    (st : List Str × List Str) (line : Str) : List Str × List Str :=
  match lineKey line with
  | none => (st.1 ++ [line], st.2)
  | some k =>
    if hasProperty k changes then
      (st.1 ++ [applyChange toISO k (getProperty k changes)], st.2 ++ [k])
    else (st.1 ++ [line], st.2)

/-- One round of the second loop of `updateFrontmatter`, over `Object.keys(changes)`. -/
def appendStep (toISO : JSValue → Option Str) (changes : ChangeSet) (set : List Str)
    (lines : List Str) (e : Str × JSValue) : List Str :=
  if set.contains e.1 then lines
  else lines ++ [applyChange toISO e.1 (getProperty e.1 changes)]

/-- The array `lines` at the end of `updateFrontmatter`, before `join`. -/
def updatedLines (toISO : JSValue → Option Str) (fmText : Str) (changes : ChangeSet) :
    List Str :=
  let st := (splitLines fmText).foldl (updateStep toISO changes) ([], [])
  changes.foldl (appendStep toISO changes st.2) st.1

/-- The function `updateFrontmatter`. -/
def updateFrontmatter (toISO : JSValue → Option Str) (fmText : Str) (changes : ChangeSet) :
    Str :=
  joinWith ['\n'] (updatedLines toISO fmText changes)

/-! ## `parseFrontmatter` (`get.js`) -/

/-- The typed values `parseFrontmatter` stores in `meta`. -/
inductive MetaValue
  | str (s : Str)
  | bool (b : Bool)
  | list (items : List Str)
  deriving DecidableEq, Repr

/-- The own properties of the object `meta`, in the order they were created. -/
abbrev Meta := List (Str × MetaValue)

/-- The test that `s` begins with `p`. -/
def startsWith (p s : Str) : Bool := p.isPrefixOf s

/-- The lazy group `([\s\S]*?)` of `FRONTMATTER_REGEX` together with the `\n---` after
it: the shortest prefix of the text that is followed by a line feed and three dashes, and
what comes after those dashes. -/
def findClosing : Str → Option (Str × Str)
  | [] => none
  | c :: rest =>
    if startsWith "\n---".toList (c :: rest) then some ([], rest.drop 3)
    else match findClosing rest with
      | some r => some (c :: r.1, r.2)
      | none => none

/-- The call `text.match(FRONTMATTER_REGEX)` for `/^---\n([\s\S]*?)\n---\n?([\s\S]*)$/`:
the captures `m[1]` and `m[2]`, or `none` when the text does not match. -/
def matchFrontmatter (text : Str) : Option (Str × Str) :=
  if startsWith "---\n".toList text then
    match findClosing (text.drop 4) with
    | some r =>
      some (r.1, match r.2 with
        | c :: body => if c = '\n' then body else c :: body
        | [] => [])
    | none => none
  else none

/-- The capture of `/^O(.*)C$/` for an opening character `O` and a closing character `C`:
the text between them, when the value starts with `O`, ends with `C` two or more
characters later, and holds no line terminator in between. -/
def wrapped (o c : Char) (value : Str) : Option Str :=
  match value with
  | x :: rest =>
    if x = o ∧ rest.getLast? = some c ∧ rest.dropLast.all (fun y => !isLineTerminator y)
    then some rest.dropLast else none
  | [] => none

/-- The replacement `.replace(/^Q(.*)Q$/, "$1")` for a quote character `Q`. -/
def stripQuotes (q : Char) (value : Str) : Str :=
  match wrapped q q value with
  | some inner => inner
  | none => value

/-- The test `/^(true|false)$/i`. -/
def isBoolLiteral (value : Str) : Bool :=
  value.map Char.toLower == "true".toList || value.map Char.toLower == "false".toList

/-- The test `/^\d{4}-\d{2}-\d{2}T/`. -/
def hasDatePrefix (value : Str) : Bool :=
  match value with
  | y1 :: y2 :: y3 :: y4 :: s1 :: m1 :: m2 :: s2 :: d1 :: d2 :: t :: _ =>
    isDigit y1 && isDigit y2 && isDigit y3 && isDigit y4 && s1 == '-' &&
    isDigit m1 && isDigit m2 && s2 == '-' && isDigit d1 && isDigit d2 && t == 'T'
  | _ => false

/-- The type coercion of `parseFrontmatter` on a trimmed, unquoted value. -/
def coerceValue (toISO : JSValue → Option Str) (value : Str) : MetaValue :=
  if isBoolLiteral value then .bool (value.map Char.toLower == "true".toList)
  else if hasDatePrefix value then
    match toISO (.str value) with
    | some iso => .str iso
    | none => .str value
  else
    match wrapped '[' ']' value with
    | some inner => .list (splitCommaList inner)
    | none => .str value

/-- The call `line.indexOf(ch)`, with `none` for `-1`. -/
def indexOfChar (ch : Char) : Str → Option Nat
  | [] => none
  | c :: rest =>
    if c = ch then some 0
    else match indexOfChar ch rest with
      | some i => some (i + 1)
      | none => none

/-- The body of the `forEach` callback of `parseFrontmatter`, up to the assignment: the
key and value assigned for a line, or `none` when the callback returns early. -/
def parseLine (toISO : JSValue → Option Str) (line : Str) : Option (Str × MetaValue) :=
  match indexOfChar ':' line with
  | none => none
  | some i =>
    let key := trim (line.take i)
    let value := trim (line.drop (i + 1))
    let value := stripQuotes (Char.ofNat 39) (stripQuotes '"' value)
    some (key, coerceValue toISO value)

/-- The assignment `meta[key] = value` on own properties: an existing key is overwritten
in place, a new one is added last, and the name `__proto__` creates no own property. -/
def metaSet (m : Meta) (key : Str) (value : MetaValue) : Meta :=
  if key = "__proto__".toList then m
  else if m.any (fun e => e.1 == key) then
    m.map (fun e => if e.1 = key then (key, value) else e)
  else m ++ [(key, value)]

/-- One round of the `forEach` of `parseFrontmatter`. -/
def parseStep (toISO : JSValue → Option Str) (m : Meta) (line : Str) : Meta :=
  match parseLine toISO line with
  | none => m
  | some e => metaSet m e.1 e.2

/-- The object `meta` built from the lines of the metadata text. -/
def parseLines (toISO : JSValue → Option Str) (yaml : Str) : Meta :=
  (splitLines yaml).foldl (parseStep toISO) []

/-- The function `parseFrontmatter`: the pair `[meta, body]`. -/
def parseFrontmatter (toISO : JSValue → Option Str) (src : Str) : Meta × Str :=
  match matchFrontmatter src with
  | none => ([], src)
  | some r => (parseLines toISO r.1, r.2)

/-! ## `markdownToHtml` (`editor.js`) -/

/-- The replacement of one character by `escapeHtml`. -/
def escapeChar (c : Char) : Str :=
  if c = '&' then "&amp;".toList
  else if c = '<' then "&lt;".toList
  else if c = '>' then "&gt;".toList
  else if c = '"' then "&quot;".toList
  else if c = Char.ofNat 39 then "&#39;".toList
  else [c]

/-- The function `escapeHtml`. -/
def escapeHtml : Str → Str
  | [] => []
  | c :: rest => escapeChar c ++ escapeHtml rest

/-- The replacement `.replace(/\r\n/g, "\n")`. -/
def normalizeNewlines : Str → Str
  | [] => []
  | c :: rest =>
    if c = '\r' ∧ rest.head? = some '\n' then normalizeNewlines rest
    else c :: normalizeNewlines rest

/-- A lazy group `(X*?)` in front of the literal `pat`, for a class `X` given by `ok`: the
shortest run of `ok` characters that is followed by `pat`. -/
def lazyScan (ok : Char → Bool) (pat : Str) : Str → Option Str
  | [] => none
  | c :: rest =>
    if startsWith pat (c :: rest) then some []
    else if ok c then
      match lazyScan ok pat rest with
      | some content => some (c :: content)
      | none => none
    else none

/-- A lazy group `(X+?)` in front of the literal `pat`: as `lazyScan`, with one character
at least. -/
def lazyPlus (ok : Char → Bool) (pat : Str) : Str → Option Str
  | [] => none
  | c :: rest =>
    if ok c then
      match lazyScan ok pat rest with
      | some content => some (c :: content)
      | none => none
    else none

/-- The call `s.replace(re, f)` for a global expression `re` that matches no empty text.
`rule prev t` is the match of `re` that starts where the rest of the input is `t` and
the character before is `prev` (`none` at the start of the input): the length of the match
and the text that replaces it.  The search goes on after each match; `skip` counts the
characters of the last match still to pass. -/
def replaceAll (rule : Option Char → Str → Option (Nat × Str)) :
    Option Char → Nat → Str → Str
  | _, _, [] => []
  | prev, 0, c :: rest =>
    match rule prev (c :: rest) with
    | some r => r.2 ++ replaceAll rule (some c) (r.1 - 1) rest
    | none => c :: replaceAll rule (some c) 0 rest
  | _, skip + 1, c :: rest => replaceAll rule (some c) skip rest

/-- The characters of `[a-z0-9+-]` under the `i` flag. -/
def isLangChar (c : Char) : Bool :=
  (65 ≤ c.toNat && c.toNat ≤ 90) || (97 ≤ c.toNat && c.toNat ≤ 122) || isDigit c ||
  c == '+' || c == '-'

/-- The placeholder of the code block with index `n`: U+0000, `CODE`, the decimal digits
of `n`, U+0000. -/
def codeToken (n : Nat) : Str := '\x00' :: ("CODE".toList ++ Nat.toDigits 10 n ++ ['\x00'])

/-- The markup pushed on `codeBlocks` for one fence. -/
def renderCodeBlock (language code : Str) : Str :=
  let lang := trim language
  let clean := if code.getLast? = some '\n' then code.dropLast else code
  let cls := if lang.isEmpty then [] else " class=\"language-".toList ++ lang ++ ['"']
  let data := if lang.isEmpty then [] else " data-lang=\"".toList ++ lang ++ ['"']
  "<pre><code".toList ++ cls ++ data ++ ['>'] ++ clean ++ "</code></pre>".toList

/-- The match of `CODE_FENCE`, three backticks, `([a-z0-9+-]*)`, a line feed,
`([\s\S]*?)` and three backticks, at the start of `t`: its length and the two captures. -/
def matchFence (t : Str) : Option (Nat × Str × Str) :=
  if startsWith "```".toList t then
    let lang := (t.drop 3).takeWhile isLangChar
    match (t.drop 3).dropWhile isLangChar with
    | c :: v =>
      if c = '\n' then
        match lazyScan (fun _ => true) "```".toList v with
        | some code => some (3 + lang.length + 1 + code.length + 3, lang, code)
        | none => none
      else none
    | [] => none
  else none

/-- The call `normalized.replace(CODE_FENCE, ...)`: the text with every fence replaced by
its placeholder, and the array `codeBlocks`.  `n` is `codeBlocks.length`. -/
def extractFences : Nat → Nat → Str → Str × List Str
  | _, _, [] => ([], [])
  | n, 0, c :: rest =>
    match matchFence (c :: rest) with
    | some m =>
      let r := extractFences (n + 1) (m.1 - 1) rest
      (codeToken n ++ r.1, renderCodeBlock m.2.1 m.2.2 :: r.2)
    | none =>
      let r := extractFences n 0 rest
      (c :: r.1, r.2)
  | n, skip + 1, _ :: rest => extractFences n skip rest

/-- The assertion `^` under the `m` flag. -/
def atLineStart (prev : Option Char) : Bool :=
  match prev with
  | none => true
  | some c => isLineTerminator c

/-- The heading rule of one level, `/^#{level} (.*)$/gm` with the replacement
`<hN>$1</hN>`. -/
def headingRule (level : Nat) (prev : Option Char) (t : Str) : Option (Nat × Str) :=
  let marker := List.replicate level '#' ++ [' ']
  if atLineStart prev && startsWith marker t then
    let content := (t.drop marker.length).takeWhile (fun c => !isLineTerminator c)
    some (marker.length + content.length,
      "<h".toList ++ Nat.toDigits 10 level ++ ['>'] ++ content ++
      "</h".toList ++ Nat.toDigits 10 level ++ ['>'])
  else none

/-- The group `(^|\n)` without the `m` flag, followed by a block: `blockLen` gives the
length of the block that starts a text, `render` is the callback on the prefix and the
block. -/
def anchored (blockLen : Str → Option Nat) (render : Str → Str → Str)
    (prev : Option Char) (t : Str) : Option (Nat × Str) :=
  match (if prev.isNone then blockLen t else none) with
  | some n => some (n, render [] (t.take n))
  | none =>
    match t with
    | c :: u =>
      if c = '\n' then
        match blockLen u with
        | some n => some (n + 1, render ['\n'] (u.take n))
        | none => none
      else none
    | [] => none

/-- The length of what `.*(?:\n&gt; ?.*)*` matches. -/
def quoteScan : Str → Nat
  | [] => 0
  | c :: rest =>
    if !isLineTerminator c then quoteScan rest + 1
    else if c = '\n' ∧ startsWith "&gt;".toList rest then quoteScan rest + 1
    else 0

/-- The length of the block `(?:&gt; ?.*(?:\n&gt; ?.*)*)` of `BLOCKQUOTE` at the start of
`t`. -/
def quoteBlock (t : Str) : Option Nat :=
  if startsWith "&gt;".toList t then some (quoteScan t) else none

/-- The replacement `line.replace(/^&gt; ?/, "")`. -/
def stripQuoteMarker (line : Str) : Str :=
  if startsWith "&gt;".toList line then
    match line.drop 4 with
    | c :: rest => if c = ' ' then rest else c :: rest
    | [] => []
  else line

/-- The callback of the `BLOCKQUOTE` replacement. -/
def renderQuote (pfx block : Str) : Str :=
  pfx ++ "<blockquote>".toList ++
    joinWith "<br/>".toList ((splitChar '\n' block).map stripQuoteMarker) ++
    "</blockquote>".toList

/-- The start of a list item: `[-*]\s` for an unordered list, `\d+\.\s` for an ordered
one. -/
def itemStart (ordered : Bool) (t : Str) : Bool :=
  if ordered then
    !(t.takeWhile isDigit).isEmpty &&
      (match t.dropWhile isDigit with
       | p :: w :: _ => p == '.' && isWhiteSpace w
       | _ => false)
  else
    match t with
    | m :: w :: _ => (m == '-' || m == '*') && isWhiteSpace w
    | _ => false

/-- Where the matcher stands inside a list item `M\s+.*`: in the marker `M`, in the white
space after it, or in the content. -/
inductive ScanState
  | marker
  | space
  | content
  deriving DecidableEq, Repr

/-- The length of what is left of `M\s+.*(?:\nM\s+.*)*` from the given state on: `\s+`
takes all the white space there is, line feeds included, and a line feed after the
content goes on with the next item only when an item starts after it. -/
def listScan (ordered : Bool) : ScanState → Str → Nat
  | _, [] => 0
  | .marker, c :: rest =>
    if isWhiteSpace c then listScan ordered .space rest + 1
    else listScan ordered .marker rest + 1
  | .space, c :: rest =>
    if isWhiteSpace c then listScan ordered .space rest + 1
    else listScan ordered .content rest + 1
  | .content, c :: rest =>
    if !isLineTerminator c then listScan ordered .content rest + 1
    else if c = '\n' ∧ itemStart ordered rest then listScan ordered .marker rest + 1
    else 0

/-- The length of the block of `UL` or `OL` at the start of `t`. -/
def listBlock (ordered : Bool) (t : Str) : Option Nat :=
  if itemStart ordered t then some (listScan ordered .marker t) else none

/-- The replacement `line.replace(/^\d+\.\s+/, "")` or `line.replace(/^[-*]\s+/, "")`. -/
def stripListMarker (ordered : Bool) (line : Str) : Str :=
  if itemStart ordered line then
    if ordered then ((line.dropWhile isDigit).drop 1).dropWhile isWhiteSpace
    else (line.drop 1).dropWhile isWhiteSpace
  else line

/-- The name of the list element. -/
def listTag (ordered : Bool) : Str := if ordered then "ol".toList else "ul".toList

/-- The function `renderList`. -/
def renderList (ordered : Bool) (pfx block : Str) : Str :=
  let items := filterNonEmpty
    ((splitChar '\n' block).map (fun line => trim (stripListMarker ordered line)))
  if items.isEmpty then pfx ++ block
  else
    pfx ++ ['<'] ++ listTag ordered ++ ['>'] ++
      (items.map (fun item => "<li>".toList ++ item ++ "</li>".toList)).flatten ++
      "</".toList ++ listTag ordered ++ ['>']

/-- A rule `D(.+?)D` for a delimiter `D`, replaced by the content between two tags. -/
def spanRule (delim opening closing : Str) (_ : Option Char) (t : Str) :
    Option (Nat × Str) :=
  if startsWith delim t then
    match lazyPlus (fun c => !isLineTerminator c) delim (t.drop delim.length) with
    | some content =>
      some (delim.length + content.length + delim.length, opening ++ content ++ closing)
    | none => none
  else none

/-- The inline code rule: a backtick, `([^`]+?)`, a backtick. -/
def codeRule (_ : Option Char) (t : Str) : Option (Nat × Str) :=
  match t with
  | c :: u =>
    if c = Char.ofNat 96 then
      match lazyPlus (fun x => x != Char.ofNat 96) [Char.ofNat 96] u with
      | some content =>
        some (content.length + 2, "<code>".toList ++ content ++ "</code>".toList)
      | none => none
    else none
  | [] => none

/-- The link rule `/\[([^\]]+?)\]\(([^)]+?)\)/g`. -/
def linkRule (_ : Option Char) (t : Str) : Option (Nat × Str) :=
  match t with
  | c :: u =>
    if c = '[' then
      match lazyPlus (fun x => x != ']') "](".toList u with
      | some text =>
        match lazyPlus (fun x => x != ')') [')'] (u.drop (text.length + 2)) with
        | some url =>
          some (text.length + url.length + 4,
            "<a href=\"".toList ++ url ++ "\" rel=\"noopener\" target=\"_blank\">".toList ++
            text ++ "</a>".toList)
        | none => none
      | none => none
    else none
  | [] => none

/-- The call `html.split(/\n{2,}/)`: `skipping` says that the line feeds of a separator
are being passed. -/
def splitBlocks : Bool → Str → List Str
  | _, [] => [[]]
  | skipping, c :: rest =>
    if c = '\n' ∧ (skipping = true ∨ rest.head? = some '\n') then
      if skipping then splitBlocks true rest else [] :: splitBlocks true rest
    else
      match splitBlocks false rest with
      | [] => [[c]]
      | b :: bs => (c :: b) :: bs

/-- The test `/^\u0000CODE\d+\u0000$/`. -/
def isPlaceholder (trimmed : Str) : Bool :=
  startsWith "\x00CODE".toList trimmed &&
    !((trimmed.drop 5).takeWhile isDigit).isEmpty &&
    (trimmed.drop 5).dropWhile isDigit == ['\x00']

/-- The test `/^\s*<(h\d|pre|blockquote|ul|ol)/`. -/
def startsWithBlockTag (trimmed : Str) : Bool :=
  match trimmed.dropWhile isWhiteSpace with
  | c :: v =>
    c == '<' &&
      ((match v with
        | h :: d :: _ => h == 'h' && isDigit d
        | _ => false) ||
       startsWith "pre".toList v || startsWith "blockquote".toList v ||
       startsWith "ul".toList v || startsWith "ol".toList v)
  | [] => false

/-- The rule of `.replace(/\n/g, "<br/>")`. -/
def breakRule (_ : Option Char) (t : Str) : Option (Nat × Str) :=
  match t with
  | c :: _ => if c = '\n' then some (1, "<br/>".toList) else none
  | [] => none

/-- The callback of the `map` over the blocks. -/
def wrapBlock (block : Str) : Str :=
  let trimmed := trim block
  if trimmed.isEmpty || isPlaceholder trimmed || startsWithBlockTag trimmed then trimmed
  else "<p>".toList ++ replaceAll breakRule none 0 trimmed ++ "</p>".toList

/-- The number `Number(index)` for a text of decimal digits. -/
def digitsToNat (digits : Str) : Nat :=
  digits.foldl (fun acc d => 10 * acc + (d.toNat - 48)) 0

/-- The rule of the last replacement, `/\u0000CODE(\d+)\u0000/g` with
`codeBlocks[Number(index)] || ""`. -/
def placeholderRule (codeBlocks : List Str) (_ : Option Char) (t : Str) :
    Option (Nat × Str) :=
  if startsWith "\x00CODE".toList t then
    let digits := (t.drop 5).takeWhile isDigit
    if !digits.isEmpty && startsWith ['\x00'] ((t.drop 5).dropWhile isDigit) then
      some (digits.length + 6, (codeBlocks.get? (digitsToNat digits)).getD [])
    else none
  else none

/-- The function `markdownToHtml`. -/
def markdownToHtml (markdown : Str) : Str :=
  if markdown.isEmpty then []
  else
    let normalized := normalizeNewlines (escapeHtml markdown)
    let fenced := extractFences 0 0 normalized
    let html := fenced.1
    let html := replaceAll (headingRule 6) none 0 html
    let html := replaceAll (headingRule 5) none 0 html
    let html := replaceAll (headingRule 4) none 0 html
    let html := replaceAll (headingRule 3) none 0 html
    let html := replaceAll (headingRule 2) none 0 html
    let html := replaceAll (headingRule 1) none 0 html
    let html := replaceAll (anchored quoteBlock renderQuote) none 0 html
    let html := replaceAll (anchored (listBlock false) (renderList false)) none 0 html
    let html := replaceAll (anchored (listBlock true) (renderList true)) none 0 html
    let html := replaceAll
      (spanRule "**".toList "<strong>".toList "</strong>".toList) none 0 html
    let html := replaceAll (spanRule "*".toList "<em>".toList "</em>".toList) none 0 html
    let html := replaceAll codeRule none 0 html
    let html := replaceAll linkRule none 0 html
    let html := joinWith ['\n'] (filterNonEmpty ((splitBlocks false html).map wrapBlock))
    replaceAll (placeholderRule fenced.2) none 0 html

/-! ## `htmlToMarkdown` (`editor.js`) -/

/-- A node of the tree that the assignment `container.innerHTML = html` builds: a text
node, an element with its lower-case tag name, attributes and child nodes, or a node of
another kind (a comment).  The HTML parser itself is the browser's and is not modelled:
`htmlToMarkdown` below takes the child nodes of `container`. -/
inductive Node
  | text (value : Str)
  | element (tag : Str) (attrs : List (Str × Str)) (children : List Node)
  | other
  deriving Repr

/-- The call `getAttribute(name)`, with `none` for `null`. -/
def getAttr (name : Str) (attrs : List (Str × Str)) : Option Str :=
  match attrs.find? (fun a => a.1 == name) with
  | some a => some a.2
  | none => none

/-- The replacement `.replace(/\s+/g, " ")`: `inRun` says that the character before was
white space. -/
def collapseWhiteSpace : Bool → Str → Str
  | _, [] => []
  | inRun, c :: rest =>
    if isWhiteSpace c then
      if inRun then collapseWhiteSpace true rest else ' ' :: collapseWhiteSpace true rest
    else c :: collapseWhiteSpace false rest

mutual
/-- The property `textContent` of a node. -/
def textContent : Node → Str
  | .text value => value
  | .element _ _ children => textContentAll children
  | .other => []
/-- The concatenated `textContent` of a list of nodes. -/
def textContentAll : List Node → Str
  | [] => []
  | n :: rest => textContent n ++ textContentAll rest
end

mutual
/-- The first `code` element among a node and its descendants, in tree order: its
attributes and its `textContent`. -/
def findCode : Node → Option (List (Str × Str) × Str)
  | .text _ => none
  | .other => none
  | .element tag attrs children =>
    if tag = "code".toList then some (attrs, textContentAll children)
    else findCodeAll children
/-- The call `node.querySelector("code")` on the child nodes of `node`. -/
def findCodeAll : List Node → Option (List (Str × Str) × Str)
  | [] => none
  | n :: rest =>
    match findCode n with
    | some r => some r
    | none => findCodeAll rest
end

/-- The capture of `className.match(/language-([^\s]+)/)`, with `none` when there is no
match. -/
def matchLanguageClass : Str → Option Str
  | [] => none
  | c :: rest =>
    if startsWith "language-".toList (c :: rest) ∧
        !(((c :: rest).drop 9).takeWhile (fun x => !isWhiteSpace x)).isEmpty then
      some (((c :: rest).drop 9).takeWhile (fun x => !isWhiteSpace x))
    else matchLanguageClass rest

/-- The language of a `pre` block: `dataset.lang` when it is not empty, else the capture
of the class name, else the empty text. -/
def codeLanguage (codeChild : Option (List (Str × Str) × Str)) : Str :=
  match codeChild with
  | none => []
  | some c =>
    match getAttr "data-lang".toList c.1 with
    | some (x :: lang) => x :: lang
    | _ =>
      match matchLanguageClass ((getAttr "class".toList c.1).getD []) with
      | some lang => lang
      | none => []

/-- The markdown of a `blockquote` from the markdown of its children. -/
def quoteLines (childMd : Str) : Str :=
  joinWith ['\n']
    ((filterNonEmpty ((splitChar '\n' childMd).map trim)).map (fun line => "> ".toList ++ line))
  ++ "\n\n".toList

/-- The lines of a list from the markdown of its items: `- ` or the 1-based position,
the trimmed item and a line feed. -/
def listLines (ordered : Bool) : Nat → List Str → Str
  | _, [] => []
  | i, item :: rest =>
    (if ordered then Nat.toDigits 10 (i + 1) ++ ". ".toList else "- ".toList) ++
      trim item ++ ['\n'] ++ listLines ordered (i + 1) rest

/-- The `switch` of `walk` on the tag of an element, given the markdown `childMd` of its
child nodes, the markdown `items` of its element children, the tag of its parent, its
attributes and its first `code` descendant. -/
def walkElement (parentTag tag : Str) (attrs : List (Str × Str)) (childMd : Str)
    (items : List Str) (codeChild : Option (List (Str × Str) × Str)) : Str :=
  if tag = "h1".toList then "# ".toList ++ trim childMd ++ "\n\n".toList
  else if tag = "h2".toList then "## ".toList ++ trim childMd ++ "\n\n".toList
  else if tag = "h3".toList then "### ".toList ++ trim childMd ++ "\n\n".toList
  else if tag = "h4".toList then "#### ".toList ++ trim childMd ++ "\n\n".toList
  else if tag = "h5".toList then "##### ".toList ++ trim childMd ++ "\n\n".toList
  else if tag = "h6".toList then "###### ".toList ++ trim childMd ++ "\n\n".toList
  else if tag = "strong".toList ∨ tag = "b".toList then
    "**".toList ++ childMd ++ "**".toList
  else if tag = "em".toList ∨ tag = "i".toList then ['*'] ++ childMd ++ ['*']
  else if tag = "code".toList then
    if parentTag = "pre".toList then childMd
    else [Char.ofNat 96] ++ childMd ++ [Char.ofNat 96]
  else if tag = "pre".toList then
    let raw := match codeChild with
      | some c => c.2
      | none => childMd
    let lang := codeLanguage codeChild
    let fence := if lang.isEmpty then "```\n".toList else "```".toList ++ lang ++ ['\n']
    fence ++ raw ++ "\n```\n".toList
  else if tag = "blockquote".toList then quoteLines childMd
  else if tag = "ul".toList then listLines false 0 items ++ ['\n']
  else if tag = "ol".toList then listLines true 0 items ++ ['\n']
  else if tag = "li".toList then childMd
  else if tag = "a".toList then
    let href := match getAttr "href".toList attrs with
      | some (x :: h) => x :: h
      | _ => ['#']
    ['['] ++ childMd ++ "](".toList ++ href ++ [')']
  else if tag = "br".toList then "  \n".toList
  else if tag = "p".toList then trim childMd ++ "\n\n".toList
  else childMd

mutual
/-- The inner function `walk` of `htmlToMarkdown`; `parentTag` is the tag of the parent
element of the node. -/
def walk (parentTag : Str) : Node → Str
  | .text value =>
    if parentTag = "code".toList ∨ parentTag = "pre".toList then value
    else collapseWhiteSpace false value
  | .other => []
  | .element tag attrs children =>
    walkElement parentTag tag attrs (walkAll tag children) (walkItems tag children)
      (findCodeAll children)
/-- The text `Array.from(node.childNodes).map(walk).join("")`. -/
def walkAll (parentTag : Str) : List Node → Str
  | [] => []
  | n :: rest => walk parentTag n ++ walkAll parentTag rest
/-- The array `Array.from(node.children).map(walk)`: the element children only. -/
def walkItems (parentTag : Str) : List Node → List Str
  | [] => []
  | .element tag attrs children :: rest =>
    walkElement parentTag tag attrs (walkAll tag children) (walkItems tag children)
      (findCodeAll children) :: walkItems parentTag rest
  | .text _ :: rest => walkItems parentTag rest
  | .other :: rest => walkItems parentTag rest
end

/-- The rule of `.replace(/\n{3,}/g, "\n\n")`. -/
def newlineRunRule (_ : Option Char) (t : Str) : Option (Nat × Str) :=
  if startsWith "\n\n\n".toList t then
    some ((t.takeWhile (fun c => c == '\n')).length, "\n\n".toList)
  else none

/-- The rule of `.replace(/^[ \t]+>(?=\s?)/gm, ">")`. -/
def quoteIndentRule (prev : Option Char) (t : Str) : Option (Nat × Str) :=
  let blanks := t.takeWhile (fun c => c == ' ' || c == '\t')
  if atLineStart prev && !blanks.isEmpty &&
      startsWith ['>'] (t.dropWhile (fun c => c == ' ' || c == '\t')) then
    some (blanks.length + 1, ['>'])
  else none

/-- The `map` callback of `normalizeLeadingWhitespace` over the lines, with the variable
`inFence`. -/
def normalizeLines : Bool → List Str → List Str
  | _, [] => []
  | inFence, line :: rest =>
    if startsWith "```".toList (trimStart line) then
      trimStart line :: normalizeLines (!inFence) rest
    else if inFence then line :: normalizeLines inFence rest
    else line.dropWhile (fun c => c == ' ' || c == '\t') :: normalizeLines inFence rest

/-- The inner function `normalizeLeadingWhitespace`. -/
def normalizeLeadingWhitespace (markdown : Str) : Str :=
  joinWith ['\n'] (normalizeLines false (splitChar '\n' markdown))

/-- The function `htmlToMarkdown`, on the child nodes that `container` has after
`container.innerHTML = html`. -/
def htmlToMarkdown (nodes : List Node) : Str :=
  let md := walkAll "div".toList nodes
  let md := md.map (fun c => if c = '\u00a0' then ' ' else c)
  let md := replaceAll newlineRunRule none 0 md
  let md := replaceAll quoteIndentRule none 0 md
  normalizeLeadingWhitespace (trim md)

/-! ## The saved text and the returned metadata (`patch.js`, `get.js`) -/

/-- The function `normalizeTags` of `get.js`, on the value read from `meta.tags`
(`none` for `undefined`). -/
def normalizeTags (value : Option MetaValue) : List Str :=
  match value with
  | some (.list items) => filterNonEmpty (items.map trim)
  | some (.str s) => splitCommaList s
  | _ => []

/-- The read `meta.key` for a key that no prototype defines: the own property. -/
def metaGet (m : Meta) (key : Str) : Option MetaValue :=
  match m.find? (fun e => e.1 == key) with
  | some e => some e.2
  | none => none

/-- The helper `hasFrontmatter`: the test of `/^---\n[\s\S]*?\n---\n?/`. -/
def hasFrontmatter (src : Str) : Bool :=
  startsWith "---\n".toList src && (findClosing (src.drop 4)).isSome

/-- The helper `splitFrontmatter`: the captures of `/^---\n([\s\S]*?)\n---\n?([\s\S]*)$/`,
with `none` for `has: false`. -/
def splitFrontmatter (src : Str) : Option (Str × Str) := matchFrontmatter src

/-- The text `finalText` that `updatePost` writes, from the stored file, the incoming
content and the normalized `updates`. -/
def composeSavedText (toISO : JSValue → Option Str) (originalRaw incoming : Str)
    (updates : ChangeSet) : Str :=
  if hasFrontmatter incoming then incoming
  else
    match splitFrontmatter originalRaw with
    | some parts =>
      "---\n".toList ++
        (if updates.isEmpty then parts.1 else updateFrontmatter toISO parts.1 updates) ++
        "\n---\n\n".toList ++ incoming
    | none => incoming

/-- The field `latestMeta.tags` of the response of `updatePost`: the saved text parsed
again with `parseFrontmatter` and `normalizeTags`. -/
def returnedTags (toISO : JSValue → Option Str) (finalText : Str) : List Str :=
  normalizeTags (metaGet (parseFrontmatter toISO finalText).1 "tags".toList)

/-! ## The selection and offset mapper (`editor.js`) -/

mutual
/-- The text nodes below a node, in document order: what a `TreeWalker` with `SHOW_TEXT`
visits. -/
def textNodes : Node → List Str
  | .text value => [value]
  | .element _ _ children => textNodesAll children
  | .other => []
/-- The text nodes of the view whose root has the given child nodes. -/
def textNodesAll : List Node → List Str
  | [] => []
  | n :: rest => textNodes n ++ textNodesAll rest
end

/-- A boundary point of a range, as `getTextNodeAtOffset` returns it: an offset inside
the text node with the given index (counted in document order), or the end of the root,
`(rtfEditor, rtfEditor.childNodes.length)`. -/
inductive Point
  | inText (index : Nat) (offset : Nat)
  | rootEnd
  deriving DecidableEq, Repr

/-- The loop of `getTextNodeAtOffset` over the text nodes still to visit: `index` is the
index of the next node and `remaining` the offset left. -/
def seekText : Nat → Nat → List Str → Point
  | _, _, [] => .rootEnd
  | index, remaining, t :: rest =>
    if remaining ≤ t.length then .inText index (min remaining t.length)
    else seekText (index + 1) (remaining - t.length) rest

/-- The function `getTextNodeAtOffset`, for an integer offset. -/
def getTextNodeAtOffset (nodes : List Node) (offset : Int) : Point :=
  seekText 0 (max 0 offset).toNat (textNodesAll nodes)

/-- The length of `range.toString()` for the range from the start of the root to a
boundary point: the text of the text nodes before the point. -/
def offsetOfPoint (nodes : List Node) : Point → Nat
  | .inText index offset => (((textNodesAll nodes).take index).map List.length).sum + offset
  | .rootEnd => (textContentAll nodes).length

/-- The order of two boundary points in the document. -/
def pointBefore : Point → Point → Bool
  | .inText i a, .inText j b => i < j || (i == j && a < b)
  | .inText _ _, .rootEnd => true
  | .rootEnd, _ => false

/-- The range that `restoreSelectionFromOffsets` selects: `setStart` at the point of
`start`, then `setEnd` at the point of `end`, which moves the start as well when the new
end lies before it. -/
def restoreSelectionFromOffsets (nodes : List Node) (start stop : Int) : Point × Point :=
  let startPoint := getTextNodeAtOffset nodes start
  let endPoint := getTextNodeAtOffset nodes stop
  if pointBefore endPoint startPoint then (endPoint, endPoint) else (startPoint, endPoint)

/-- The function `getOffsetsFromRange` on a range of the view: the pair `start`, `end`. -/
def getOffsetsFromRange (nodes : List Node) (range : Point × Point) : Nat × Nat :=
  (offsetOfPoint nodes range.1, offsetOfPoint nodes range.2)

/-! ## The editor modes (`editor.js`) -/

/-- The function `htmlToMarkdown` on the text `html`: the empty text gives the empty
text, and any other text is parsed into `container`.  `parseHtml` stands for the HTML
parser of the browser: the child nodes of an element after `innerHTML = html`. -/
def htmlToMarkdownOf (parseHtml : Str → List Node) (html : Str) : Str :=
  if html.isEmpty then [] else htmlToMarkdown (parseHtml html)

/-- The state that `setMode` reads and writes: the variable `editorMode`, the value of the
markdown field `mdEditor`, the child nodes of the view `rtfEditor`, the variable
`savedRange` (`none` for `null`) and the range of the window selection. -/
structure EditorState where
  editorMode : Str
  markdown : Str
  view : List Node
  savedRange : Option (Point × Point)
  selection : Option (Point × Point)

/-- The function `syncEditors`.  `serializeHtml` stands for the getter of `innerHTML`. -/
def syncEditors (parseHtml : Str → List Node) (serializeHtml : List Node → Str)
    (targetMode : Str) (s : EditorState) : EditorState :=
  if targetMode = "markdown".toList then
    { s with markdown := htmlToMarkdownOf parseHtml (serializeHtml s.view) }
  else { s with view := parseHtml (markdownToHtml s.markdown) }

/-- The test that a boundary point is a position of the view: a text node of the view and
an offset inside it, or the end of the root. -/
def pointInView (nodes : List Node) : Point → Bool
  | .inText index offset =>
    match (textNodesAll nodes).get? index with
    | some t => offset ≤ t.length
    | none => false
  | .rootEnd => true

/-- The function `rangeIsValid` on `savedRange`: `null` is not valid, and a range is valid
when its two containers are connected nodes of the view. -/
def rangeIsValid (nodes : List Node) (range : Option (Point × Point)) : Bool :=
  match range with
  | none => false
  | some r => pointInView nodes r.1 && pointInView nodes r.2

/-- The function `restoreSelection`: a `savedRange` that is not valid is replaced by the
range of `selectNodeContents(rtfEditor)` collapsed to its end, and `savedRange` becomes
the selection of the window. -/
def restoreSelection (s : EditorState) : EditorState :=
  let saved :=
    if rangeIsValid s.view s.savedRange then s.savedRange else some (.rootEnd, .rootEnd)
  { s with savedRange := saved, selection := saved }

/-- The function `setMode`. -/
def setMode (parseHtml : Str → List Node) (serializeHtml : List Node → Str) (mode : Str)
    (s : EditorState) : EditorState :=
  if mode = s.editorMode then s
  else
    let synced :=
      if mode = "markdown".toList then
        syncEditors parseHtml serializeHtml "markdown".toList s
      else if mode = "rtf".toList then syncEditors parseHtml serializeHtml "html".toList s
      else s
    let switched := { synced with editorMode := mode }
    if switched.editorMode = "rtf".toList then
      restoreSelection { switched with savedRange := none }
    else switched

/-! ## The roles of the contributors (`_utils.js`) -/

/-- The own properties of `CONTRIBUTOR_ROLE_WEIGHT`. -/
def contributorRoleWeight (role : Str) : Option Nat :=
  if role = "viewer".toList then some 1
  else if role = "editor".toList then some 2
  else if role = "owner".toList then some 3
  else none

/-- The argument `allowedRoles` of `isRoleAllowed`: a missing value (`undefined`,
`null`), one role name, or an array of role names. -/
inductive AllowedRoles
  | missing
  | one (role : Str)
  | many (roles : List Str)
  deriving DecidableEq, Repr

/-- The function `normalizeRoles`: the empty names are falsy and dropped. -/
def normalizeRoles (roles : AllowedRoles) : List Str :=
  match roles with
  | .missing => []
  | .many rs => filterNonEmpty rs
  | .one r => filterNonEmpty [r]

/-- The function `isRoleAllowed`; `none` is a missing role (`undefined`, `null`).  A
name that `CONTRIBUTOR_ROLE_WEIGHT` only inherits from `Object.prototype` reads as a
function or an object, which is no number in the filter and compares as `NaN`. -/
def isRoleAllowed (role : Option Str) (allowedRoles : AllowedRoles) : Bool :=
  let normalized := normalizeRoles allowedRoles
  if normalized.isEmpty then false
  else
    match role with
    | none => false
    | some r =>
      if r.isEmpty then false
      else if normalized.contains r then true
      else
        match normalized.filterMap contributorRoleWeight with
        | [] => false
        | w :: ws =>
          let minRequired := ws.foldl min w
          match contributorRoleWeight r with
          | some roleWeight => decide (minRequired ≤ roleWeight)
          | none =>
            if objectPrototypeKeys.contains r then false else decide (minRequired ≤ 0)

/-! ## The renderer with the ordered lists first -/

/-- The pipeline of `markdownToHtml` as the specification words it, with the ordered-list
rule before the unordered-list rule: every other step is the step of `markdownToHtml`. -/
def markdownToHtmlOrderedFirst (markdown : Str) : Str :=
  if markdown.isEmpty then []
  else
    let normalized := normalizeNewlines (escapeHtml markdown)
    let fenced := extractFences 0 0 normalized
    let html := fenced.1
    let html := replaceAll (headingRule 6) none 0 html
    let html := replaceAll (headingRule 5) none 0 html
    let html := replaceAll (headingRule 4) none 0 html
    let html := replaceAll (headingRule 3) none 0 html
    let html := replaceAll (headingRule 2) none 0 html
    let html := replaceAll (headingRule 1) none 0 html
    let html := replaceAll (anchored quoteBlock renderQuote) none 0 html
    let html := replaceAll (anchored (listBlock true) (renderList true)) none 0 html
    let html := replaceAll (anchored (listBlock false) (renderList false)) none 0 html
    let html := replaceAll
      (spanRule "**".toList "<strong>".toList "</strong>".toList) none 0 html
    let html := replaceAll (spanRule "*".toList "<em>".toList "</em>".toList) none 0 html
    let html := replaceAll codeRule none 0 html
    let html := replaceAll linkRule none 0 html
    let html := joinWith ['\n'] (filterNonEmpty ((splitBlocks false html).map wrapBlock))
    replaceAll (placeholderRule fenced.2) none 0 html

/-! ## Vocabulary of the statements -/

/-- The test that `s` contains `p` as a substring. -/
def hasSubstr (p : Str) : Str → Bool
  | [] => p.isEmpty
  | c :: rest => startsWith p (c :: rest) || hasSubstr p rest

/-- What the first loop of `updateFrontmatter` leaves in the place of one line: the line
rendered by `apply` when the key of the line is found by `k in changes`, the line itself
otherwise. -/
def rewriteLine (toISO : JSValue → Option Str) (changes : ChangeSet) (line : Str) : Str :=
  match lineKey line with
  | some k => if hasProperty k changes then applyChange toISO k (getProperty k changes) else line
  | none => line

/-- The key that the first loop of `updateFrontmatter` adds to `set` for one line. -/
def matchedKey (changes : ChangeSet) (line : Str) : Option Str :=
  match lineKey line with
  | some k => if hasProperty k changes then some k else none
  | none => none

/-- A text in double quotes with every inner double quote backslash-escaped, in the words
of the rule for written lines. -/
def quotedEscaped (s : Str) : Str :=
  ['"'] ++ (s.map (fun c => if c = '"' then ['\\', '"'] else [c])).flatten ++ ['"']

/-- The test that a text has an opening delimiter line and, further down, a closing
delimiter line: its first line is `---` and a later line is `---` too. -/
def hasDelimiterLines (text : Str) : Bool :=
  match splitChar '\n' text with
  | first :: later => first == "---".toList && later.contains "---".toList
  | [] => false

/-- The characters that follow `<` in the tags the renderer writes, `s` apart: the first
letters of `p`, `pre`, `h1`, `blockquote`, `br`, `ul`, `ol`, `li`, `em`, `code`, `a`, and
the `/` of an end tag. -/
def tagStart (c : Char) : Bool :=
  c == '/' || c == 'p' || c == 'h' || c == 'b' || c == 'u' || c == 'o' || c == 'l' ||
  c == 'e' || c == 'c' || c == 'a'

/-- The test on the text after a `<`: it begins with one of the characters of `tagStart`,
or with the `st` of `strong`. -/
def okAfterLt (rest : Str) : Bool :=
  match rest with
  | c :: r => tagStart c || (c == 's' && r.head? == some 't')
  | [] => false

/-- The test that every `<` of a text begins a tag name of the renderer. -/
def safeTags : Str → Bool
  | [] => true
  | c :: rest => (c != '<' || okAfterLt rest) && safeTags rest

/-- The characters before which a text can be cut without cutting the start of a tag:
those that `okAfterLt` does not look for. -/
def cutChar (c : Char) : Bool := !(tagStart c || c == 's' || c == 't')

/-- The test that a text is empty or begins with a character of `cutChar`. -/
def cutAt (t : Str) : Bool :=
  match t with
  | c :: _ => cutChar c
  | [] => true

/-- The condition on a rule of `replaceAll` under which the replacement keeps `safeTags`:
a match starts at a character of `cutChar`, and what replaces it passes `safeTags`. -/
def RuleSafe (rule : Option Char → Str → Option (Nat × Str)) : Prop :=
  ∀ prev t r, rule prev t = some r → safeTags t = true →
    cutAt t = true ∧ safeTags r.2 = true

/-- The total length of a list of texts. -/
def sumLengths (texts : List Str) : Nat := (texts.map List.length).sum

/-- The characters of a plain text: no line terminator, none of the characters that
`escapeHtml` replaces (`&`, `<`, `>`, the double quote, the apostrophe), none of the
characters that start a rule of `markdownToHtml` inside a line (`*`, the backtick, `[`,
`#`), and not the U+0000 of the placeholders. -/
def isPlainChar (c : Char) : Bool :=
  !isLineTerminator c && c != '&' && c != '<' && c != '>' && c != '"' &&
  c != Char.ofNat 39 && c != '*' && c != Char.ofNat 96 && c != '[' && c != '#' &&
  c != '\x00'

/-- The characters that the inline rules, the split in blocks and the last replacement
of `markdownToHtml` leave alone: no line terminator, no `*`, backtick or `[`, no
U+0000. -/
def isInertChar (c : Char) : Bool :=
  !isLineTerminator c && c != '*' && c != Char.ofNat 96 && c != '[' && c != '\x00'

/-- The test that a rule matches at no position of a text: `prev` is the character before
the text, as in `replaceAll`. -/
def neverMatches (rule : Option Char → Str → Option (Nat × Str)) : Option Char → Str → Bool
  | _, [] => true
  | prev, c :: rest => (rule prev (c :: rest)).isNone && neverMatches rule (some c) rest

/-- The weight of a role in the hierarchy, as the specification gives it: `viewer` 1,
`editor` 2, `owner` 3, and 0 for any other name. -/
def roleRank (role : Str) : Nat :=
  if role = "viewer".toList then 1
  else if role = "editor".toList then 2
  else if role = "owner".toList then 3
  else 0

/-- The test that a name is one of the three roles. -/
def isRole (role : Str) : Bool :=
  role == "viewer".toList || role == "editor".toList || role == "owner".toList

/-- The test that a node is an element. -/
def isElement : Node → Bool
  | .element _ _ _ => true
  | _ => false

/-! ### Marked texts and documents -/

/-- The characters of a placeholder: U+0000, the letters of `CODE` and the digits. -/
def isMarkChar (c : Char) : Bool :=
  c == '\x00' || c == 'C' || c == 'O' || c == 'D' || c == 'E' || isDigit c

/-- The placeholder pattern with the digits `d`: U+0000, `CODE`, `d`, U+0000. -/
def markText (d : Str) : Str := '\x00' :: 'C' :: 'O' :: 'D' :: 'E' :: (d ++ ['\x00'])

/-- The texts in which every U+0000 belongs to a placeholder pattern of its own, with the
digits of these patterns in the order of the text. -/
inductive Marked : Str → List Str → Prop
  | nil : Marked [] []
  | char (c : Char) (s : Str) (ms : List Str) : c ≠ '\x00' → Marked s ms → Marked (c :: s) ms
  | mark (d s : Str) (ms : List Str) : d ≠ [] → (∀ c ∈ d, isDigit c = true) → Marked s ms →
      Marked ('\x00' :: 'C' :: 'O' :: 'D' :: 'E' :: (d ++ '\x00' :: s)) (d :: ms)

/-- The condition on a rule of `replaceAll` under which the replacement keeps the
placeholders: the rule matches at no character of a placeholder, and a match in a marked
text takes whole placeholders and gives them back. -/
def RuleMarked (rule : Option Char → Str → Option (Nat × Str)) : Prop :=
  (∀ prev c t, isMarkChar c = true → (prev = none → c = '\x00') →
    rule prev (c :: t) = none) ∧
  (∀ prev t ms r, Marked t ms → rule prev t = some r →
    1 ≤ r.1 ∧ ∃ m1 m2, Marked r.2 m1 ∧ Marked (t.drop r.1) m2 ∧ (m1 ++ m2).Perm ms)

/-- The lists of marked texts, with the digits of their placeholders in order. -/
inductive MarkedAll : List Str → List Str → Prop
  | nil : MarkedAll [] []
  | cons (l : Str) (ls : List Str) (m ms : List Str) : Marked l m → MarkedAll ls ms →
      MarkedAll (l :: ls) (m ++ ms)

/-- The steps of `markdownToHtml` between the extraction of the fences and the last
replacement: the block rules, the inline rules and the paragraphs. -/
def renderRules (html : Str) : Str :=
  let html := replaceAll (headingRule 6) none 0 html
  let html := replaceAll (headingRule 5) none 0 html
  let html := replaceAll (headingRule 4) none 0 html
  let html := replaceAll (headingRule 3) none 0 html
  let html := replaceAll (headingRule 2) none 0 html
  let html := replaceAll (headingRule 1) none 0 html
  let html := replaceAll (anchored quoteBlock renderQuote) none 0 html
  let html := replaceAll (anchored (listBlock false) (renderList false)) none 0 html
  let html := replaceAll (anchored (listBlock true) (renderList true)) none 0 html
  let html := replaceAll
    (spanRule "**".toList "<strong>".toList "</strong>".toList) none 0 html
  let html := replaceAll (spanRule "*".toList "<em>".toList "</em>".toList) none 0 html
  let html := replaceAll codeRule none 0 html
  let html := replaceAll linkRule none 0 html
  joinWith ['\n'] (filterNonEmpty ((splitBlocks false html).map wrapBlock))

/-- The text that replaces the placeholder with the digits `d`: the code block of that
index, or nothing. -/
def fillMark (codeBlocks : List Str) (d : Str) : Str :=
  (codeBlocks.get? (digitsToNat d)).getD []

/-- A piece of a text: ordinary characters, or a placeholder pattern given by its
digits. -/
inductive Piece
  | text (s : Str)
  | mark (digits : Str)
  deriving Repr

/-- The test that a piece is well formed: a text without U+0000, or a placeholder with one
decimal digit at least. -/
def Piece.ok : Piece → Bool
  | .text s => s.all (fun c => c != '\x00')
  | .mark d => !d.isEmpty && d.all isDigit

/-- The characters of a piece. -/
def Piece.raw : Piece → Str
  | .text s => s
  | .mark d => markText d

/-- The text made of a list of pieces. -/
def rawText (ps : List Piece) : Str := (ps.map Piece.raw).flatten

/-- The digits of the placeholders of a list of pieces, in order. -/
def marksOf : List Piece → List Str
  | [] => []
  | .text _ :: ps => marksOf ps
  | .mark d :: ps => d :: marksOf ps

/-- What the last replacement of `markdownToHtml` leaves of a piece: the text itself, or
the code block with the index of the placeholder, nothing when there is no such block. -/
def Piece.fill (codeBlocks : List Str) : Piece → Str
  | .text s => s
  | .mark d => fillMark codeBlocks d

/-- A fenced block of a document with the text that follows it: the language tag, the end
of the opening line (a line feed, after a carriage return when `cr` is set), the content
up to the closing backticks, and the pieces of the text after them. -/
structure FencedPart where
  lang : Str
  cr : Bool
  code : Str
  after : List Piece

/-- The characters of a fenced block and of the text after it. -/
def FencedPart.raw (p : FencedPart) : Str :=
  "```".toList ++ (p.lang ++ ((if p.cr then "\r\n".toList else "\n".toList) ++
    (p.code ++ ("```".toList ++ rawText p.after))))

/-- The test that a fenced block is one for the renderer and ends where it says: the tag
is made of the characters of `[a-z0-9+-]`, the closing backticks are the first three
backticks in a row after the opening line, and the text after them is made of well-formed
pieces and has no three backticks in a row. -/
def FencedPart.ok (p : FencedPart) : Bool :=
  p.lang.all isLangChar && !hasSubstr "```".toList (p.code ++ "``".toList) &&
    p.after.all Piece.ok && !hasSubstr "```".toList (rawText p.after)

/-- The document made of a text and of fenced blocks, each with the text after it. -/
def fencedText (before : List Piece) (parts : List FencedPart) : Str :=
  rawText before ++ (parts.map FencedPart.raw).flatten

/-- The code block that the renderer writes for a fenced block. -/
def FencedPart.block (p : FencedPart) : Str :=
  renderCodeBlock p.lang (normalizeNewlines (escapeHtml p.code))

/-- The digits of the placeholders in a document after the extraction of its fences, the
first of which gets the index `n`: for each fence the digits of its index, then those of
the placeholder patterns of the text after it. -/
def documentMarks : Nat → List FencedPart → List Str
  | _, [] => []
  | n, p :: ps => Nat.toDigits 10 n :: (marksOf p.after ++ documentMarks (n + 1) ps)

/-- A fenced block and the text after it as `markdownToHtml` sees them after the escaping
and the normalisation of the line ends. -/
def FencedPart.normalized (p : FencedPart) : Str :=
  "```".toList ++ (p.lang ++ '\n' :: (normalizeNewlines (escapeHtml p.code) ++ "```".toList ++
    normalizeNewlines (escapeHtml (rawText p.after))))

/-! ### Tags and literal text -/

/-- The characters that follow `<` in the tags that the rules of the renderer write, `p`
apart: the first letters of `strong`, `h1`, `blockquote`, `br`, `ul`, `ol`, `li`, `em`,
`code`, `a`, and the `/` of an end tag. -/
def tagHead (c : Char) : Bool :=
  c == '/' || c == 's' || c == 'h' || c == 'b' || c == 'u' || c == 'o' || c == 'l' ||
  c == 'e' || c == 'c' || c == 'a'

/-- The test on the text after a `<`: it begins with one of the characters of `tagHead`,
or with `p>`, the rest of the tag of a paragraph. -/
def okAfterOpen (rest : Str) : Bool :=
  match rest with
  | c :: r => tagHead c || (c == 'p' && r.head? == some '>')
  | [] => false

/-- The test that every `<` of a text begins a tag that the rules of the renderer write:
no `<` is followed by `pr`. -/
def knownTags : Str → Bool
  | [] => true
  | c :: rest => (c != '<' || okAfterOpen rest) && knownTags rest

/-- The characters before which a text can be cut without cutting the start of a tag:
those that `okAfterOpen` does not look for. -/
def breakChar (c : Char) : Bool := !(tagHead c || c == 'p' || c == '>')

/-- The test that a text is empty or begins with a character of `breakChar`. -/
def breakAt (t : Str) : Bool :=
  match t with
  | c :: _ => breakChar c
  | [] => true

/-- The condition on a rule of `replaceAll` under which the replacement keeps
`knownTags`: a match starts at a character of `breakChar`, and what replaces it passes
`knownTags`. -/
def RuleKnown (rule : Option Char → Str → Option (Nat × Str)) : Prop :=
  ∀ prev t r, rule prev t = some r → knownTags t = true →
    breakAt t = true ∧ knownTags r.2 = true

/-- The characters of a text that the inline rules and the last replacement leave alone:
no `*`, no backtick, no `[`, no U+0000, and no line terminator other than the line
feed. -/
def isLiteralChar (c : Char) : Bool :=
  (!isLineTerminator c || c == '\n') && c != '*' && c != Char.ofNat 96 && c != '[' &&
    c != '\x00'

/-- The texts that follow a line feed of a text: what its lines after the first begin
with. -/
def afterBreaks : Str → List Str
  | [] => []
  | c :: rest => if c = '\n' then rest :: afterBreaks rest else afterBreaks rest

/-- The places where the lines of a text begin: the text itself and what follows each of
its line feeds. -/
def lineStarts (text : Str) : List Str := text :: afterBreaks text

/-- The test that a text begins like a heading: one to six `#` and a space. -/
def startsHeading (t : Str) : Bool :=
  startsWith "# ".toList t || startsWith "## ".toList t || startsWith "### ".toList t ||
  startsWith "#### ".toList t || startsWith "##### ".toList t ||
  startsWith "###### ".toList t

/-- The test that a text begins like a block of markdown: a heading, a quote (`>`), or an
item of a list (`-` or `*` and white space, or digits, `.` and white space). -/
def startsBlock (t : Str) : Bool :=
  startsHeading t || startsWith ">".toList t || itemStart false t || itemStart true t

/-- The paragraph written for a trimmed block of text: nothing for an empty block,
otherwise the lines of the block between `<p>` and `</p>`, with `<br/>` between two
lines. -/
def paragraphOf (t : Str) : Str :=
  if t.isEmpty then []
  else "<p>".toList ++ joinWith "<br/>".toList (splitChar '\n' t) ++ "</p>".toList

/-- A text written as paragraphs and nothing else: the text is cut at its blank lines (two
line feeds or more), every block is trimmed, the empty ones are dropped, and the
paragraphs of the others are joined by a line feed. -/
def plainParagraphs (text : Str) : Str :=
  joinWith ['\n'] (filterNonEmpty ((splitBlocks false text).map (fun b => paragraphOf (trim b))))

/-! # Theorems -/

/-! ## Built-in string operations -/

theorem splitLines_ne_nil (s : Str) : splitLines s ≠ [] := by
  induction s with
  | nil => simp [splitLines]
  | cons c rest ih =>
    unfold splitLines
    split
    · simp
    · split
      · exact ih
      · split <;> simp

theorem joinWith_cons_cons (sep : Str) (c : Char) (l : Str) (ls : List Str) :
    joinWith sep ((c :: l) :: ls) = c :: joinWith sep (l :: ls) := by
  cases ls <;> simp [joinWith]

theorem joinWith_nil_cons (sep : Str) (ls : List Str) (h : ls ≠ []) :
    joinWith sep ([] :: ls) = sep ++ joinWith sep ls := by
  cases ls with
  | nil => exact absurd rfl h
  | cons y rest => simp [joinWith]

theorem hasSubstr_cons_false {p : Str} {c : Char} {rest : Str}
    (h : hasSubstr p (c :: rest) = false) :
    startsWith p (c :: rest) = false ∧ hasSubstr p rest = false := by
  simpa [hasSubstr] using h

/-- Splitting a text without a carriage return before a line feed into lines and joining
them with line feeds gives the text back. -/
theorem joinWith_splitLines (s : Str) (h : hasSubstr ['\r', '\n'] s = false) :
    joinWith ['\n'] (splitLines s) = s := by
  induction s with
  | nil => simp [splitLines, joinWith]
  | cons c rest ih =>
    obtain ⟨h1, h2⟩ := hasSubstr_cons_false h
    have ih := ih h2
    unfold splitLines
    split
    · rename_i hc
      rw [joinWith_nil_cons _ _ (splitLines_ne_nil rest), ih, hc]
      rfl
    · split
      · rename_i hc
        obtain ⟨hc1, hc2⟩ := hc
        cases rest with
        | nil => simp at hc2
        | cons d rest2 =>
          simp at hc2
          subst hc1 hc2
          simp [startsWith] at h1
      · split
        · rename_i heq
          exact absurd heq (splitLines_ne_nil rest)
        · rename_i l ls heq
          rw [joinWith_cons_cons, ← heq, ih]

/-! ## `updateFrontmatter` -/

theorem updateStep_eq (toISO : JSValue → Option Str) (changes : ChangeSet)
    (st : List Str × List Str) (line : Str) :
    updateStep toISO changes st line =
      (st.1 ++ [rewriteLine toISO changes line],
       st.2 ++ (matchedKey changes line).toList) := by
  unfold updateStep rewriteLine matchedKey
  cases lineKey line with
  | none => simp
  | some k => by_cases hk : hasProperty k changes = true <;> simp [hk]

theorem foldl_updateStep (toISO : JSValue → Option Str) (changes : ChangeSet)
    (lines : List Str) (st : List Str × List Str) :
    lines.foldl (updateStep toISO changes) st =
      (st.1 ++ lines.map (rewriteLine toISO changes),
       st.2 ++ lines.filterMap (matchedKey changes)) := by
  induction lines generalizing st with
  | nil => simp
  | cons line rest ih =>
    rw [List.foldl_cons, ih, updateStep_eq]
    cases h : matchedKey changes line <;> simp [List.filterMap_cons, h]

theorem foldl_appendStep (toISO : JSValue → Option Str) (changes : ChangeSet)
    (set : List Str) (es : ChangeSet) (lines : List Str) :
    es.foldl (appendStep toISO changes set) lines =
      lines ++ (es.filter (fun e => !set.contains e.1)).map
        (fun e => applyChange toISO e.1 (getProperty e.1 changes)) := by
  induction es generalizing lines with
  | nil => simp
  | cons e rest ih =>
    rw [List.foldl_cons, ih]
    unfold appendStep
    by_cases h : e.1 ∈ set <;> simp [h, List.filter_cons]

theorem hasProperty_of_mem {changes : ChangeSet} {e : Str × JSValue} (h : e ∈ changes) :
    hasProperty e.1 changes = true := by
  unfold hasProperty
  simp only [Bool.or_eq_true, List.any_eq_true]
  exact Or.inl ⟨e, h, by simp⟩

theorem mem_matchedKeys (changes : ChangeSet) (lines : List Str) (k : Str) :
    k ∈ lines.filterMap (matchedKey changes) ↔
      (∃ line ∈ lines, lineKey line = some k) ∧ hasProperty k changes = true := by
  simp only [List.mem_filterMap]
  constructor
  · rintro ⟨line, hl, hm⟩
    unfold matchedKey at hm
    cases hk : lineKey line with
    | none => simp [hk] at hm
    | some k2 =>
      by_cases hp : hasProperty k2 changes = true
      · simp [hk, hp] at hm
        subst hm
        exact ⟨⟨line, hl, hk⟩, hp⟩
      · simp [hk, hp] at hm
  · rintro ⟨⟨line, hl, hk⟩, hp⟩
    exact ⟨line, hl, by simp [matchedKey, hk, hp]⟩

/-- The array `lines` that `updateFrontmatter` joins: every original line in its place,
rewritten or kept, then one rendered line for every key of the change set that is the key
of no original line, in the order of the change set. -/
theorem updatedLines_eq (toISO : JSValue → Option Str) (fmText : Str) (changes : ChangeSet) :
    updatedLines toISO fmText changes =
      (splitLines fmText).map (rewriteLine toISO changes) ++
      (changes.filter (fun e => (splitLines fmText).all (fun l => lineKey l != some e.1))).map
        (fun e => applyChange toISO e.1 (getProperty e.1 changes)) := by
  unfold updatedLines
  simp only [foldl_updateStep, foldl_appendStep, List.nil_append]
  congr 2
  apply List.filter_congr
  intro e he
  have hp := hasProperty_of_mem he
  have hm := mem_matchedKeys changes (splitLines fmText) e.1
  by_cases hc : e.1 ∈ (splitLines fmText).filterMap (matchedKey changes)
  · obtain ⟨⟨line, hl, hk⟩, _⟩ := hm.mp hc
    have h1 : ((splitLines fmText).filterMap (matchedKey changes)).contains e.1 = true := by
      simpa using hc
    have h2 : (splitLines fmText).all (fun l => lineKey l != some e.1) = false := by
      rw [Bool.eq_false_iff]
      intro hall
      rw [List.all_eq_true] at hall
      have := hall line hl
      simp [hk] at this
    rw [h1, h2]
    rfl
  · have h1 : ((splitLines fmText).filterMap (matchedKey changes)).contains e.1 = false := by
      simpa using hc
    have h2 : (splitLines fmText).all (fun l => lineKey l != some e.1) = true := by
      rw [List.all_eq_true]
      intro line hl
      simp only [bne_iff_ne, ne_eq]
      intro hk
      exact hc (hm.mpr ⟨⟨line, hl, hk⟩, hp⟩)
    rw [h1, h2]
    rfl

theorem joinWith_eq_intercalate (sep : Str) (xs : List Str) :
    joinWith sep xs = sep.intercalate xs := by
  induction xs with
  | nil => rfl
  | cons x rest ih =>
    cases rest with
    | nil => simp [joinWith, List.intercalate]
    | cons y rest2 =>
      have h : sep.intercalate (x :: y :: rest2) = x ++ sep ++ sep.intercalate (y :: rest2) := by
        simp [List.intercalate, List.intersperse]
      rw [h, ← ih]
      rfl

theorem escapeQuotes_eq (s : Str) :
    escapeQuotes s = (s.map (fun c => if c = '"' then ['\\', '"'] else [c])).flatten := by
  induction s with
  | nil => rfl
  | cons c rest ih =>
    unfold escapeQuotes
    by_cases h : c = '"' <;> simp [h, ih]

theorem yamlQuote_eq (s : Str) : yamlQuote s = quotedEscaped s := by
  simp [yamlQuote, quotedEscaped, escapeQuotes_eq]

theorem mem_updatedLines (toISO : JSValue → Option Str) (fmText : Str) (changes : ChangeSet)
    (l : Str) (h : l ∈ updatedLines toISO fmText changes) :
    l ∈ splitLines fmText ∨
      ∃ k, hasProperty k changes = true ∧ l = applyChange toISO k (getProperty k changes) := by
  rw [updatedLines_eq, List.mem_append] at h
  rcases h with h | h
  · obtain ⟨line, hl, rfl⟩ := List.mem_map.mp h
    unfold rewriteLine
    cases hk : lineKey line with
    | none => exact Or.inl hl
    | some k =>
      by_cases hp : hasProperty k changes = true
      · simp only [hp, if_true]
        exact Or.inr ⟨k, hp, rfl⟩
      · simp only [hp]
        exact Or.inl hl
  · obtain ⟨e, he, rfl⟩ := List.mem_map.mp h
    exact Or.inr ⟨e.1, hasProperty_of_mem (List.mem_filter.mp he).1, rfl⟩

/-- C1: on the frontmatter text `constructor: x` and the change set with the one key
`title`, `updateFrontmatter` rewrites the line keyed `constructor`, a key that is not in
the change set: `k in changes` finds it on `Object.prototype`. -/
theorem updateFrontmatter_rewrites_inherited_key (toISO : JSValue → Option Str) :
    updateFrontmatter toISO "constructor: x".toList [("title".toList, .str "A".toList)] =
      "constructor: \"function Object() \x7b [native code] \x7d\"\ntitle: \"A\"".toList := by
  rfl

/-- C2, as stated, fails: with an empty change set the text `a\r\nb` comes back as
`a\nb`, the carriage return of the line break is gone. -/
theorem updateFrontmatter_empty_crlf :
    (∀ toISO : JSValue → Option Str,
      updateFrontmatter toISO "a\r\nb".toList [] = "a\nb".toList) ∧
    "a\nb".toList ≠ "a\r\nb".toList := by
  constructor
  · intro toISO
    rfl
  · decide

/-- C2, amended: when no line of the frontmatter text is keyed by a property name of
`Object.prototype`, `updateFrontmatter` with an empty change set returns the lines of the
text joined by line feeds, and exactly the text when it holds no carriage return followed
by a line feed. -/
theorem updateFrontmatter_empty (toISO : JSValue → Option Str) (body : Str)
    (hkeys : ∀ line ∈ splitLines body, ∀ k ∈ objectPrototypeKeys, lineKey line ≠ some k) :
    updateFrontmatter toISO body [] = joinWith ['\n'] (splitLines body) ∧
    (hasSubstr ['\r', '\n'] body = false → updateFrontmatter toISO body [] = body) := by
  have h : updateFrontmatter toISO body [] = joinWith ['\n'] (splitLines body) := by
    unfold updateFrontmatter
    rw [updatedLines_eq]
    simp only [List.filter_nil, List.map_nil, List.append_nil]
    congr 1
    conv => rhs; rw [← List.map_id (splitLines body)]
    apply List.map_congr_left
    intro line hl
    unfold rewriteLine
    cases hk : lineKey line with
    | none => rfl
    | some k =>
      have hn : hasProperty k [] = false := by
        unfold hasProperty
        simp only [List.any_nil, Bool.false_or]
        rw [Bool.eq_false_iff]
        intro hc
        exact hkeys line hl k (by simpa using hc) hk
      simp [hn]
  exact ⟨h, fun hcr => by rw [h, joinWith_splitLines body hcr]⟩

/-- C2, amended, at the frontmatter text of the selective-update example. -/
theorem updateFrontmatter_empty_witness :
    updateFrontmatter (fun _ => none) "title: \"A\"\ntags: [x, y]".toList [] =
      "title: \"A\"\ntags: [x, y]".toList :=
  (updateFrontmatter_empty (fun _ => none) "title: \"A\"\ntags: [x, y]".toList
    (by decide)).2 (by decide)

/-- C9: the text `updateFrontmatter` returns is the join of the original lines, each in
its place (rewritten or kept), followed by one rendered line for every key of the change
set that is the key of no original line, in the order of the change set; a key of the
change set that is the key of an original line is not appended. -/
theorem updateFrontmatter_appends (toISO : JSValue → Option Str) (fmText : Str)
    (changes : ChangeSet) :
    updateFrontmatter toISO fmText changes =
      joinWith ['\n'] ((splitLines fmText).map (rewriteLine toISO changes) ++
        (changes.filter
          (fun e => (splitLines fmText).all (fun l => lineKey l != some e.1))).map
          (fun e => applyChange toISO e.1 (getProperty e.1 changes))) := by
  unfold updateFrontmatter
  rw [updatedLines_eq]

/-- C10, as stated, fails for a tag that holds a double quote: the tag is not only
wrapped in double quotes, its inner double quote is backslash-escaped as well. -/
theorem updateFrontmatter_tags_inner_quote :
    (∀ toISO : JSValue → Option Str,
      updateFrontmatter toISO "tags: [x]".toList [("tags".toList, .arr ["a\"b".toList])] =
        "tags: [\"a\\\"b\"]".toList) ∧
    "tags: [\"a\\\"b\"]".toList ≠
      "tags: [".toList ++
        ", ".toList.intercalate (["a\"b".toList].map (fun t => ['"'] ++ t ++ ['"'])) ++
        "]".toList := by
  constructor
  · intro toISO
    rfl
  · decide

/-- C10, amended: every line of the result of `updateFrontmatter` is an original line or
the line rendered for a key `k` found in the change set with its value `v`, and that line
is: for `tags` with a list of tags, `tags: [` + the tags, each in double quotes with every
inner double quote backslash-escaped, joined by `, ` + `]`; for `draft`, `draft: true` or
`draft: false`; for `pubDate` and `updatedDate`, `k: ` + the ISO string of `v`, or nothing
when `v` is no date; for any other key, `k: ` + the text of `v` in double quotes with
every inner double quote backslash-escaped. -/
theorem updateFrontmatter_line_rule (toISO : JSValue → Option Str) :
    (∀ fmText changes, ∀ l ∈ updatedLines toISO fmText changes,
      l ∈ splitLines fmText ∨
        ∃ k, hasProperty k changes = true ∧
          l = applyChange toISO k (getProperty k changes)) ∧
    (∀ tags : List Str, applyChange toISO "tags".toList (.arr tags) =
      "tags: [".toList ++ ", ".toList.intercalate (tags.map quotedEscaped) ++ "]".toList) ∧
    (∀ v : JSValue, applyChange toISO "draft".toList v =
      if v.truthy then "draft: true".toList else "draft: false".toList) ∧
    (∀ (k : Str) (v : JSValue), k = "pubDate".toList ∨ k = "updatedDate".toList →
      applyChange toISO k v = k ++ ": ".toList ++ (toISO v).getD []) ∧
    (∀ (k : Str) (v : JSValue), k ≠ "tags".toList → k ≠ "draft".toList →
      k ≠ "pubDate".toList → k ≠ "updatedDate".toList →
      applyChange toISO k v = k ++ ": ".toList ++ quotedEscaped v.toStr) := by
  refine ⟨fun fmText changes l h => mem_updatedLines toISO fmText changes l h, ?_, ?_, ?_, ?_⟩
  · intro tags
    have hq : List.map yamlQuote tags = List.map quotedEscaped tags :=
      List.map_congr_left (fun t _ => yamlQuote_eq t)
    simp [applyChange, renderTags, joinWith_eq_intercalate, hq]
  · intro v
    have h1 : "draft".toList ≠ "tags".toList := by decide
    cases hv : v.truthy <;> simp [applyChange, h1, hv]
  · intro k v hk
    have h1 : k ≠ "tags".toList := by
      rcases hk with rfl | rfl <;> decide
    have h2 : k ≠ "draft".toList := by
      rcases hk with rfl | rfl <;> decide
    unfold applyChange
    rw [if_neg h1, if_neg h2, if_pos hk]
    cases toISO v <;> rfl
  · intro k v h1 h2 h3 h4
    unfold applyChange
    rw [if_neg h1, if_neg h2, if_neg (by
      intro h
      rcases h with h | h
      · exact h3 h
      · exact h4 h), yamlQuote_eq]

/-- C10, amended, on the `tags` line of the selective-update example and on a `title`
with an inner double quote. -/
theorem updateFrontmatter_line_rule_witness :
    applyChange (fun _ => none) "tags".toList (.arr ["z".toList]) = "tags: [\"z\"]".toList ∧
    applyChange (fun _ => none) "title".toList (.str "a\"b".toList) =
      "title: \"a\\\"b\"".toList :=
  ⟨(updateFrontmatter_line_rule (fun _ => none)).2.1 ["z".toList],
   (updateFrontmatter_line_rule (fun _ => none)).2.2.2.2 "title".toList (.str "a\"b".toList)
     (by decide) (by decide) (by decide) (by decide)⟩

/-! ## `parseFrontmatter` -/

theorem startsWith_eq_append {p s : Str} (h : startsWith p s = true) :
    s = p ++ s.drop p.length := by
  unfold startsWith at h
  rw [List.isPrefixOf_iff_prefix] at h
  obtain ⟨t, rfl⟩ := h
  simp

/-- What `findClosing` returns is a split of the text around a line feed and three
dashes. -/
theorem findClosing_sound (s yaml after : Str) (h : findClosing s = some (yaml, after)) :
    s = yaml ++ "\n---".toList ++ after := by
  induction s generalizing yaml with
  | nil => simp [findClosing] at h
  | cons c rest ih =>
    unfold findClosing at h
    split at h
    · rename_i hs
      simp only [Option.some.injEq, Prod.mk.injEq] at h
      obtain ⟨rfl, rfl⟩ := h
      have := startsWith_eq_append hs
      simpa using this
    · cases hr : findClosing rest with
      | none => simp [hr] at h
      | some r =>
        simp only [hr, Option.some.injEq, Prod.mk.injEq] at h
        obtain ⟨rfl, rfl⟩ := h
        have := ih r.1 (by simp [hr])
        simp [this]

theorem startsWith_closing_false (c : Char) (fm rest : Str)
    (h : startsWith "\n---".toList (c :: fm) = false) :
    startsWith "\n---".toList (c :: (fm ++ "\n---".toList ++ rest)) = false := by
  rcases fm with _ | ⟨d, _ | ⟨e, _ | ⟨f, fm⟩⟩⟩
  all_goals simp_all [startsWith, List.isPrefixOf]
  assumption

/-- The lazy group of `FRONTMATTER_REGEX` stops at the first line feed followed by three
dashes: for a metadata text without one it captures the whole metadata text. -/
theorem findClosing_append (fm rest : Str) (h : hasSubstr "\n---".toList fm = false) :
    findClosing (fm ++ "\n---".toList ++ rest) = some (fm, rest) := by
  induction fm with
  | nil => simp [findClosing, startsWith, List.isPrefixOf]
  | cons c fm ih =>
    obtain ⟨h1, h2⟩ := hasSubstr_cons_false h
    have h3 := startsWith_closing_false c fm rest h1
    have h4 : c :: fm ++ "\n---".toList ++ rest = c :: (fm ++ "\n---".toList ++ rest) := by
      simp
    rw [h4]
    unfold findClosing
    rw [h3, ih h2]
    simp

theorem indexOfChar_none (ch : Char) (s : Str) (h : ch ∉ s) : indexOfChar ch s = none := by
  induction s with
  | nil => rfl
  | cons c rest ih =>
    simp only [List.mem_cons, not_or] at h
    unfold indexOfChar
    rw [if_neg (fun hc => h.1 hc.symm), ih h.2]

theorem indexOfChar_append (ch : Char) (pre post : Str) (h : ch ∉ pre) :
    indexOfChar ch (pre ++ ch :: post) = some pre.length := by
  induction pre with
  | nil => simp [indexOfChar]
  | cons c rest ih =>
    simp only [List.mem_cons, not_or] at h
    have h4 : c :: rest ++ ch :: post = c :: (rest ++ ch :: post) := by simp
    rw [h4]
    unfold indexOfChar
    rw [if_neg (fun hc => h.1 hc.symm), ih h.2]
    simp

theorem wrapped_append (o c : Char) (inner : Str)
    (h : ∀ x ∈ inner, isLineTerminator x = false) :
    wrapped o c (o :: (inner ++ [c])) = some inner := by
  unfold wrapped
  have hall : inner.all (fun y => !isLineTerminator y) = true := by
    rw [List.all_eq_true]
    intro x hx
    simp [h x hx]
  simp [hall]

theorem matchFrontmatter_sound (text : Str) (r : Str × Str)
    (h : matchFrontmatter text = some r) :
    ∃ rest, text = "---\n".toList ++ r.1 ++ "\n---".toList ++ rest := by
  unfold matchFrontmatter at h
  split at h
  · rename_i hs
    cases hc : findClosing (text.drop 4) with
    | none => simp [hc] at h
    | some q =>
      have h1 := findClosing_sound (text.drop 4) q.1 q.2 (by simp [hc])
      have h2 := startsWith_eq_append hs
      simp only [hc, Option.some.injEq] at h
      subst h
      refine ⟨q.2, ?_⟩
      have h3 : "---\n".toList.length = 4 := by decide
      rw [h3] at h2
      rw [h1] at h2
      simpa using h2
  · simp at h

/-- C5, as stated, fails: the text `---\na: b\n---xyz` has no closing `---` delimiter line
(its last line is `---xyz`), and `parseFrontmatter` still returns the metadata `a` and
the body `xyz`, not empty metadata and the whole input. -/
theorem parseFrontmatter_closing_not_a_line :
    hasDelimiterLines "---\na: b\n---xyz".toList = false ∧
    (∀ toISO : JSValue → Option Str,
      parseFrontmatter toISO "---\na: b\n---xyz".toList =
        ([("a".toList, .str "b".toList)], "xyz".toList)) ∧
    (([("a".toList, .str "b".toList)], "xyz".toList) : Meta × Str) ≠
      ([], "---\na: b\n---xyz".toList) := by
  refine ⟨by decide, fun toISO => rfl, by decide⟩

/-- C5, amended: for every input text that is not `---`, a line feed, a metadata text, a
line feed and `---` followed by anything at all, `parseFrontmatter` returns empty
metadata together with the whole input as the body.  `parseFrontmatter` is a total
function: it returns a pair on every input. -/
theorem parseFrontmatter_no_frontmatter (toISO : JSValue → Option Str) (text : Str)
    (h : ¬ ∃ fm rest, text = "---\n".toList ++ fm ++ "\n---".toList ++ rest) :
    parseFrontmatter toISO text = ([], text) := by
  unfold parseFrontmatter
  cases hm : matchFrontmatter text with
  | none => rfl
  | some r =>
    obtain ⟨rest, hr⟩ := matchFrontmatter_sound text r hm
    exact absurd ⟨r.1, rest, hr⟩ h

/-- C5, amended, on a document that starts with a heading. -/
theorem parseFrontmatter_no_frontmatter_witness :
    parseFrontmatter (fun _ => none) "# Title\n---\nbody".toList =
      ([], "# Title\n---\nbody".toList) :=
  parseFrontmatter_no_frontmatter (fun _ => none) "# Title\n---\nbody".toList (by
    rintro ⟨fm, rest, h⟩
    simp at h)

/-- C6: for a metadata text `fm` in which no line feed is followed by `---`, parsing
`---\n` + `fm` + `\n---\n` + `b` returns the metadata built from the lines of `fm` and
exactly `b` as the body. -/
theorem parseFrontmatter_delimited (toISO : JSValue → Option Str) (fm b : Str)
    (h : hasSubstr "\n---".toList fm = false) :
    parseFrontmatter toISO ("---\n".toList ++ fm ++ "\n---\n".toList ++ b) =
      (parseLines toISO fm, b) := by
  have h1 : "---\n".toList ++ fm ++ "\n---\n".toList ++ b =
      '-' :: '-' :: '-' :: '\n' :: (fm ++ "\n---".toList ++ ('\n' :: b)) := by
    simp
  have h2 : matchFrontmatter ("---\n".toList ++ fm ++ "\n---\n".toList ++ b) =
      some (fm, b) := by
    rw [h1]
    unfold matchFrontmatter
    have h3 : startsWith "---\n".toList
        ('-' :: '-' :: '-' :: '\n' :: (fm ++ "\n---".toList ++ ('\n' :: b))) = true := by
      simp [startsWith, List.isPrefixOf]
    rw [if_pos h3]
    have h4 : ('-' :: '-' :: '-' :: '\n' :: (fm ++ "\n---".toList ++ ('\n' :: b))).drop 4 =
        fm ++ "\n---".toList ++ ('\n' :: b) := rfl
    rw [h4, findClosing_append fm ('\n' :: b) h]
    simp
  unfold parseFrontmatter
  rw [h2]

/-- C6 on a document with a title, a tag list and a body. -/
theorem parseFrontmatter_delimited_witness :
    parseFrontmatter (fun _ => none) "---\ntitle: \"A\"\ntags: [x, y]\n---\nHello".toList =
      ([("title".toList, .str "A".toList), ("tags".toList, .list ["x".toList, "y".toList])],
       "Hello".toList) :=
  parseFrontmatter_delimited (fun _ => none) "title: \"A\"\ntags: [x, y]".toList
    "Hello".toList (by decide)

/-- C7: a metadata line is split at its first `:`: the key is the trimmed text before it,
the value is the trimmed text after it with its surrounding quotes removed (and then
coerced); a line without `:` leaves the metadata as it was. -/
theorem parseLine_first_colon (toISO : JSValue → Option Str) :
    (∀ pre post : Str, ':' ∉ pre →
      parseLine toISO (pre ++ ':' :: post) =
        some (trim pre,
          coerceValue toISO (stripQuotes (Char.ofNat 39) (stripQuotes '"' (trim post))))) ∧
    (∀ (line : Str) (m : Meta), ':' ∉ line → parseStep toISO m line = m) := by
  constructor
  · intro pre post h
    unfold parseLine
    rw [indexOfChar_append ':' pre post h]
    simp
  · intro line m h
    unfold parseStep parseLine
    rw [indexOfChar_none ':' line h]

/-- C7 on the line `a: b: c`: the key is `a` and the value is `b: c`. -/
theorem parseLine_first_colon_witness :
    parseLine (fun _ => none) "a: b: c".toList = some ("a".toList, .str "b: c".toList) ∧
    parseStep (fun _ => none) [] "no colon here".toList = [] :=
  ⟨(parseLine_first_colon (fun _ => none)).1 "a".toList " b: c".toList (by decide),
   (parseLine_first_colon (fun _ => none)).2 "no colon here".toList [] (by decide)⟩

/-- C8, as stated, fails: the items of `[a,,b]` separated by commas and trimmed are `a`,
the empty text and `b`, and `parseFrontmatter` makes the list of `a` and `b` only. -/
theorem coerceValue_drops_empty_item :
    (∀ toISO : JSValue → Option Str,
      coerceValue toISO "[a,,b]".toList = .list ["a".toList, "b".toList]) ∧
    MetaValue.list ["a".toList, "b".toList] ≠
      MetaValue.list ((splitChar ',' "a,,b".toList).map trim) := by
  refine ⟨fun toISO => rfl, by decide⟩

/-- C8, amended: the coercion goes by priority.  A value that is `true` or `false` in any
letter case becomes that boolean; otherwise a value with the prefix `dddd-dd-ddT` becomes
its canonical ISO string when it parses as a date and stays the string it is when it does
not; otherwise a value enclosed in `[` and `]` with no line terminator in between becomes
the list of its comma-separated items, each trimmed, the empty ones dropped; otherwise the
value stays the string it is. -/
theorem coerceValue_priority (toISO : JSValue → Option Str) (value : Str) :
    (value.map Char.toLower = "true".toList → coerceValue toISO value = .bool true) ∧
    (value.map Char.toLower = "false".toList → coerceValue toISO value = .bool false) ∧
    (isBoolLiteral value = false → hasDatePrefix value = true →
      coerceValue toISO value = .str ((toISO (.str value)).getD value)) ∧
    (isBoolLiteral value = false → hasDatePrefix value = false →
      ∀ inner : Str, value = '[' :: (inner ++ [']']) →
        (∀ x ∈ inner, isLineTerminator x = false) →
        coerceValue toISO value =
          .list (((splitChar ',' inner).map trim).filter (fun item => item ≠ []))) ∧
    (isBoolLiteral value = false → hasDatePrefix value = false →
      wrapped '[' ']' value = none → coerceValue toISO value = .str value) := by
  refine ⟨?_, ?_, ?_, ?_, ?_⟩
  · intro h
    simp [coerceValue, isBoolLiteral, h]
  · intro h
    have hne : ("false".toList == "true".toList) = false := by decide
    simp [coerceValue, isBoolLiteral, h, hne]
  · intro hb hd
    unfold coerceValue
    rw [hb, hd]
    cases toISO (.str value) <;> rfl
  · intro hb hd inner hv hlt
    unfold coerceValue
    rw [hb, hd, hv, wrapped_append '[' ']' inner hlt]
    simp only [Bool.false_eq_true, if_false, splitCommaList, filterNonEmpty]
    congr 1
    apply List.filter_congr
    intro item _
    cases item <;> simp
  · intro hb hd hw
    unfold coerceValue
    rw [hb, hd, hw]
    rfl

/-- C8, amended, on a boolean, a tag list with blanks and an empty item, and a plain
title. -/
theorem coerceValue_priority_witness :
    coerceValue (fun _ => none) "TRUE".toList = .bool true ∧
    coerceValue (fun _ => none) "[x, , y]".toList = .list ["x".toList, "y".toList] ∧
    coerceValue (fun _ => none) "Hello".toList = .str "Hello".toList :=
  ⟨(coerceValue_priority (fun _ => none) "TRUE".toList).1 (by decide),
   (coerceValue_priority (fun _ => none) "[x, , y]".toList).2.2.2.1 (by decide) (by decide)
     "x, , y".toList rfl (by decide),
   (coerceValue_priority (fun _ => none) "Hello".toList).2.2.2.2 (by decide) (by decide)
     (by decide)⟩

/-! ## `markdownToHtml`: every `<` of the output begins a tag of the renderer -/

theorem okAfterLt_append (a b : Str) (h : okAfterLt a = true) : okAfterLt (a ++ b) = true := by
  rcases a with _ | ⟨x, _ | ⟨y, a⟩⟩
  · simp [okAfterLt] at h
  · simp only [okAfterLt, List.head?_nil, Bool.or_eq_true, Bool.and_eq_true] at h
    rcases h with h | h
    · simp [okAfterLt, h]
    · simp at h
  · simpa [okAfterLt] using h

theorem safeTags_append (a b : Str) (ha : safeTags a = true) (hb : safeTags b = true) :
    safeTags (a ++ b) = true := by
  induction a with
  | nil => simpa using hb
  | cons c rest ih =>
    simp only [safeTags, Bool.and_eq_true, Bool.or_eq_true] at ha
    simp only [List.cons_append, safeTags, Bool.and_eq_true, Bool.or_eq_true]
    refine ⟨?_, ih ha.2⟩
    rcases ha.1 with h | h
    · exact Or.inl h
    · exact Or.inr (okAfterLt_append rest b h)

theorem safeTags_of_append_right (a b : Str) (h : safeTags (a ++ b) = true) :
    safeTags b = true := by
  induction a with
  | nil => simpa using h
  | cons c rest ih =>
    simp only [List.cons_append, safeTags, Bool.and_eq_true] at h
    exact ih h.2

theorem cutChar_iff (c : Char) :
    cutChar c = true ↔ (tagStart c = false ∧ c ≠ 's' ∧ c ≠ 't') := by
  simp [cutChar, and_assoc]

theorem okAfterLt_of_append (a b : Str) (h : okAfterLt (a ++ b) = true)
    (hb : cutAt b = true) : okAfterLt a = true := by
  rcases a with _ | ⟨x, _ | ⟨y, a⟩⟩
  · rcases b with _ | ⟨z, b⟩
    · simp [okAfterLt] at h
    · simp only [cutAt, cutChar_iff] at hb
      simp only [List.nil_append, okAfterLt, Bool.or_eq_true, Bool.and_eq_true, hb.1,
        beq_iff_eq, hb.2.1, false_and, or_self] at h
      simp at h
  · rcases b with _ | ⟨z, b⟩
    · simpa using h
    · simp only [cutAt, cutChar_iff] at hb
      simp only [okAfterLt, List.singleton_append, List.head?_cons, Bool.or_eq_true,
        Bool.and_eq_true, beq_iff_eq, Option.some.injEq] at h
      rcases h with h | h
      · simp [okAfterLt, h]
      · have h2 := h.2
        simp only [beq_iff_eq, Option.some.injEq] at h2
        exact absurd h2 hb.2.2
  · simpa [okAfterLt] using h

theorem safeTags_of_append_left (a b : Str) (h : safeTags (a ++ b) = true)
    (hb : cutAt b = true) : safeTags a = true := by
  induction a with
  | nil => rfl
  | cons c rest ih =>
    simp only [List.cons_append, safeTags, Bool.and_eq_true, Bool.or_eq_true] at h
    simp only [safeTags, Bool.and_eq_true, Bool.or_eq_true]
    refine ⟨?_, ih h.2⟩
    rcases h.1 with h1 | h1
    · exact Or.inl h1
    · exact Or.inr (okAfterLt_of_append rest b h1 hb)

theorem safeTags_of_no_lt (s : Str) (h : ∀ c ∈ s, c ≠ '<') : safeTags s = true := by
  induction s with
  | nil => rfl
  | cons c rest ih =>
    simp only [safeTags, Bool.and_eq_true, Bool.or_eq_true]
    refine ⟨Or.inl ?_, ih (fun x hx => h x (List.mem_cons_of_mem c hx))⟩
    simpa using h c (List.mem_cons_self c rest)

theorem safeTags_drop (n : Nat) (s : Str) (h : safeTags s = true) :
    safeTags (s.drop n) = true := by
  have h2 : safeTags (s.take n ++ s.drop n) = true := by rwa [List.take_append_drop]
  exact safeTags_of_append_right _ _ h2

theorem safeTags_take (n : Nat) (s : Str) (h : safeTags s = true)
    (hc : cutAt (s.drop n) = true) : safeTags (s.take n) = true := by
  have h2 : safeTags (s.take n ++ s.drop n) = true := by rwa [List.take_append_drop]
  exact safeTags_of_append_left _ _ h2 hc

theorem cutAt_dropWhile_not (p : Char → Bool) (s : Str)
    (hp : ∀ c, p c = true → cutChar c = true) :
    cutAt (s.dropWhile (fun c => !p c)) = true := by
  induction s with
  | nil => rfl
  | cons c rest ih =>
    by_cases h : p c = true
    · simp [List.dropWhile, h, cutAt, hp c h]
    · simpa [List.dropWhile, h] using ih

theorem safeTags_dropWhile (p : Char → Bool) (s : Str) (h : safeTags s = true) :
    safeTags (s.dropWhile p) = true := by
  have h2 : safeTags (s.takeWhile p ++ s.dropWhile p) = true := by
    rwa [List.takeWhile_append_dropWhile]
  exact safeTags_of_append_right _ _ h2

theorem safeTags_takeWhile (p : Char → Bool) (s : Str) (h : safeTags s = true)
    (hc : cutAt (s.dropWhile p) = true) : safeTags (s.takeWhile p) = true := by
  have h2 : safeTags (s.takeWhile p ++ s.dropWhile p) = true := by
    rwa [List.takeWhile_append_dropWhile]
  exact safeTags_of_append_left _ _ h2 hc

theorem cutChar_of_isWhiteSpace (c : Char) (h : isWhiteSpace c = true) : cutChar c = true := by
  by_contra hc
  simp only [cutChar, tagStart, Bool.not_eq_true', Bool.not_eq_false, Bool.or_eq_true,
    beq_iff_eq] at hc
  rcases hc with ((((((((((rfl | rfl) | rfl) | rfl) | rfl) | rfl) | rfl) | rfl) | rfl) | rfl) | rfl) | rfl <;>
    exact absurd h (by decide)

theorem isWhiteSpace_of_isLineTerminator (c : Char) (h : isLineTerminator c = true) :
    isWhiteSpace c = true := by
  simp only [isLineTerminator, Bool.or_eq_true, beq_iff_eq] at h
  rcases h with ((rfl | rfl) | rfl) | rfl <;> decide

theorem cutChar_of_isLineTerminator (c : Char) (h : isLineTerminator c = true) :
    cutChar c = true :=
  cutChar_of_isWhiteSpace c (isWhiteSpace_of_isLineTerminator c h)

theorem replaceAll_nil (rule : Option Char → Str → Option (Nat × Str))
    (prev : Option Char) (k : Nat) : replaceAll rule prev k [] = [] := by
  cases k <;> rfl

theorem replaceAll_zero_cons (rule : Option Char → Str → Option (Nat × Str))
    (prev : Option Char) (c : Char) (rest : Str) :
    replaceAll rule prev 0 (c :: rest) =
      match rule prev (c :: rest) with
      | some r => r.2 ++ replaceAll rule (some c) (r.1 - 1) rest
      | none => c :: replaceAll rule (some c) 0 rest := rfl

theorem replaceAll_succ_cons (rule : Option Char → Str → Option (Nat × Str))
    (prev : Option Char) (k : Nat) (c : Char) (rest : Str) :
    replaceAll rule prev (k + 1) (c :: rest) = replaceAll rule (some c) k rest := rfl

theorem replaceAll_cons_of_not_cut (rule : Option Char → Str → Option (Nat × Str))
    (hr : RuleSafe rule) (prev : Option Char) (x : Char) (rest : Str)
    (hs : safeTags (x :: rest) = true) (hx : cutChar x = false) :
    replaceAll rule prev 0 (x :: rest) = x :: replaceAll rule (some x) 0 rest := by
  rw [replaceAll_zero_cons]
  cases hm : rule prev (x :: rest) with
  | none => rfl
  | some r =>
    have := (hr prev (x :: rest) r hm hs).1
    simp [cutAt, hx] at this

theorem okAfterLt_replaceAll (rule : Option Char → Str → Option (Nat × Str))
    (hr : RuleSafe rule) (prev : Option Char) (rest : Str)
    (hs : safeTags rest = true) (h : okAfterLt rest = true) :
    okAfterLt (replaceAll rule prev 0 rest) = true := by
  rcases rest with _ | ⟨x, rest⟩
  · simp [okAfterLt] at h
  · simp only [okAfterLt, Bool.or_eq_true, Bool.and_eq_true, beq_iff_eq] at h
    rcases h with h | ⟨h1, h2⟩
    · have hx : cutChar x = false := by simp [cutChar, h]
      rw [replaceAll_cons_of_not_cut rule hr prev x rest hs hx]
      simp [okAfterLt, h]
    · have hx : cutChar x = false := by simp [cutChar, h1]
      rw [replaceAll_cons_of_not_cut rule hr prev x rest hs hx]
      rcases rest with _ | ⟨y, rest⟩
      · simp at h2
      · simp only [List.head?_cons, Option.some.injEq] at h2
        have hy : cutChar y = false := by simp [cutChar, h2]
        have hs2 : safeTags (y :: rest) = true :=
          safeTags_of_append_right [x] (y :: rest) hs
        rw [replaceAll_cons_of_not_cut rule hr (some x) y rest hs2 hy]
        simp [okAfterLt, h1, h2]

/-- A global replacement by a rule that satisfies `RuleSafe` keeps `safeTags`. -/
theorem safeTags_replaceAll (rule : Option Char → Str → Option (Nat × Str))
    (hr : RuleSafe rule) (s : Str) :
    ∀ (prev : Option Char) (k : Nat), safeTags (s.drop k) = true →
      safeTags (replaceAll rule prev k s) = true := by
  induction s with
  | nil =>
    intro prev k _
    rw [replaceAll_nil]
    rfl
  | cons c rest ih =>
    intro prev k h
    cases k with
    | zero =>
      simp only [List.drop_zero] at h
      have hrest : safeTags rest = true := by
        simp only [safeTags, Bool.and_eq_true] at h
        exact h.2
      rw [replaceAll_zero_cons]
      cases hm : rule prev (c :: rest) with
      | none =>
        simp only [safeTags, Bool.and_eq_true, Bool.or_eq_true]
        refine ⟨?_, ih (some c) 0 (by simpa using hrest)⟩
        simp only [safeTags, Bool.and_eq_true, Bool.or_eq_true] at h
        rcases h.1 with h1 | h1
        · exact Or.inl h1
        · exact Or.inr (okAfterLt_replaceAll rule hr (some c) rest hrest h1)
      | some r =>
        exact safeTags_append _ _ (hr prev (c :: rest) r hm h).2
          (ih (some c) (r.1 - 1) (safeTags_drop _ _ hrest))
    | succ k =>
      rw [replaceAll_succ_cons]
      exact ih (some c) k (by simpa using h)

theorem lazyScan_eq (ok : Char → Bool) (pat : Str) (t content : Str)
    (h : lazyScan ok pat t = some content) : ∃ rest, t = content ++ pat ++ rest := by
  induction t generalizing content with
  | nil => simp [lazyScan] at h
  | cons c u ih =>
    unfold lazyScan at h
    split at h
    · rename_i hs
      simp only [Option.some.injEq] at h
      subst h
      exact ⟨(c :: u).drop pat.length, by simpa using startsWith_eq_append hs⟩
    · split at h
      · cases hr : lazyScan ok pat u with
        | none => simp [hr] at h
        | some c2 =>
          simp only [hr, Option.some.injEq] at h
          subst h
          obtain ⟨rest, hrest⟩ := ih c2 hr
          exact ⟨rest, by simp [hrest]⟩
      · simp at h

theorem lazyPlus_eq (ok : Char → Bool) (pat : Str) (t content : Str)
    (h : lazyPlus ok pat t = some content) : ∃ rest, t = content ++ pat ++ rest := by
  cases t with
  | nil => simp [lazyPlus] at h
  | cons c u =>
    by_cases hc : ok c = true
    · cases hr : lazyScan ok pat u with
      | none => simp [lazyPlus, hc, hr] at h
      | some c2 =>
        simp only [lazyPlus, hc, hr, if_true, Option.some.injEq] at h
        subst h
        obtain ⟨rest, hrest⟩ := lazyScan_eq ok pat u c2 hr
        exact ⟨rest, by simp [hrest]⟩
    · simp [lazyPlus, hc] at h

theorem safeTags_of_lazyPlus (ok : Char → Bool) (pat : Str) (t content : Str)
    (h : lazyPlus ok pat t = some content) (hs : safeTags t = true)
    (hp : cutAt pat = true) (hne : pat ≠ []) : safeTags content = true := by
  obtain ⟨rest, hrest⟩ := lazyPlus_eq ok pat t content h
  rw [hrest, List.append_assoc] at hs
  refine safeTags_of_append_left _ _ hs ?_
  cases pat with
  | nil => exact absurd rfl hne
  | cons x pat => simpa [cutAt] using hp

theorem digitChar_isDigit : ∀ d, d < 10 → isDigit (Nat.digitChar d) = true := by
  decide

theorem toDigitsCore_isDigit (fuel n : Nat) (ds : List Char)
    (h : ∀ c ∈ ds, isDigit c = true) :
    ∀ c ∈ Nat.toDigitsCore 10 fuel n ds, isDigit c = true := by
  induction fuel generalizing n ds with
  | zero => simpa [Nat.toDigitsCore] using h
  | succ fuel ih =>
    have h2 : ∀ c ∈ Nat.digitChar (n % 10) :: ds, isDigit c = true := by
      intro c hc
      rcases List.mem_cons.mp hc with rfl | hc
      · exact digitChar_isDigit _ (Nat.mod_lt _ (by decide))
      · exact h c hc
    rw [Nat.toDigitsCore]
    split
    · exact h2
    · exact ih _ _ h2

/-- The decimal digits of a number are digits. -/
theorem toDigits_isDigit (n : Nat) : ∀ c ∈ Nat.toDigits 10 n, isDigit c = true :=
  toDigitsCore_isDigit _ _ [] (by simp)

theorem toDigits_no_lt (n : Nat) : ∀ c ∈ Nat.toDigits 10 n, c ≠ '<' := by
  intro c hc hlt
  have := toDigits_isDigit n c hc
  rw [hlt] at this
  exact absurd this (by decide)

theorem safeTags_tag (body : Str) (h1 : okAfterLt body = true) (h2 : ∀ c ∈ body, c ≠ '<') :
    safeTags ('<' :: body) = true := by
  simp only [safeTags, Bool.and_eq_true, Bool.or_eq_true]
  exact ⟨Or.inr h1, safeTags_of_no_lt body h2⟩

theorem cutAt_of_startsWith (p t : Str) (h : startsWith p t = true) (hne : p ≠ [])
    (hp : cutAt p = true) : cutAt t = true := by
  have := startsWith_eq_append h
  cases p with
  | nil => exact absurd rfl hne
  | cons x p =>
    rw [this]
    simpa [cutAt] using hp

theorem ruleSafe_heading (level : Nat) : RuleSafe (headingRule level) := by
  intro prev t r h hs
  unfold headingRule at h
  simp only at h
  split at h
  · rename_i hc
    simp only [Bool.and_eq_true] at hc
    simp only [Option.some.injEq] at h
    subst h
    constructor
    · refine cutAt_of_startsWith _ t hc.2 (by simp) ?_
      cases level <;> simp [List.replicate, cutAt] <;> decide
    · have hcontent : safeTags
          ((t.drop (List.replicate level '#' ++ [' ']).length).takeWhile
            (fun c => !isLineTerminator c)) = true :=
        safeTags_takeWhile _ _ (safeTags_drop _ _ hs)
          (cutAt_dropWhile_not isLineTerminator _ cutChar_of_isLineTerminator)
      have hd := safeTags_of_no_lt _ (toDigits_no_lt level)
      exact safeTags_append _ _ (safeTags_append _ _ (safeTags_append _ _
        (safeTags_append _ _ (safeTags_append _ _ (safeTags_append _ _ (by decide) hd)
          (by decide)) hcontent) (by decide)) hd) (by decide)
  · simp at h

theorem ruleSafe_anchored (blockLen : Str → Option Nat) (render : Str → Str → Str)
    (hstart : ∀ u n, blockLen u = some n → cutAt u = true)
    (hrender : ∀ pfx u n, blockLen u = some n → safeTags u = true → safeTags pfx = true →
      safeTags (render pfx (u.take n)) = true) :
    RuleSafe (anchored blockLen render) := by
  intro prev t r h hs
  unfold anchored at h
  split at h
  · rename_i n hn
    simp only [Option.some.injEq] at h
    subst h
    have hb : blockLen t = some n := by
      by_cases hp : prev.isNone = true
      · simpa [hp] using hn
      · simp [hp] at hn
    exact ⟨hstart t n hb, hrender [] t n hb hs rfl⟩
  · cases t with
    | nil => simp at h
    | cons c u =>
      simp only at h
      split at h
      · rename_i hc
        subst hc
        cases hb : blockLen u with
        | none => simp [hb] at h
        | some n =>
          simp only [hb, Option.some.injEq] at h
          subst h
          exact ⟨rfl,
            hrender ['\n'] u n hb (safeTags_of_append_right ['\n'] u hs) (by decide)⟩
      · simp at h

theorem splitChar_ne_nil (sep : Char) (s : Str) : splitChar sep s ≠ [] := by
  induction s with
  | nil => simp [splitChar]
  | cons c rest ih =>
    unfold splitChar
    split
    · simp
    · split <;> simp

theorem splitChar_cons_ne (sep c : Char) (rest : Str) (h : c ≠ sep) :
    splitChar sep (c :: rest) =
      (c :: (splitChar sep rest).headD []) :: (splitChar sep rest).tail := by
  rw [splitChar, if_neg h]
  cases hr : splitChar sep rest with
  | nil => exact absurd hr (splitChar_ne_nil sep rest)
  | cons l ls => rfl

theorem safeTags_head_splitChar (sep : Char) (hsep : cutChar sep = true) (s : Str)
    (b : Str) (bs : List Str) (hb : splitChar sep s = b :: bs) (h : okAfterLt s = true) :
    okAfterLt b = true := by
  simp only [cutChar_iff] at hsep
  rcases s with _ | ⟨x, s⟩
  · simp [okAfterLt] at h
  · simp only [okAfterLt, Bool.or_eq_true, Bool.and_eq_true, beq_iff_eq] at h
    have hx : x ≠ sep := by
      rintro rfl
      rcases h with h | ⟨h1, _⟩
      · simp [hsep.1] at h
      · exact hsep.2.1 h1
    rw [splitChar_cons_ne sep x s hx] at hb
    simp only [List.cons.injEq] at hb
    rw [← hb.1]
    rcases h with h | ⟨h1, h2⟩
    · simp [okAfterLt, h]
    · rcases s with _ | ⟨y, s⟩
      · simp at h2
      · simp only [List.head?_cons, Option.some.injEq] at h2
        have hy : y ≠ sep := by
          rintro rfl
          exact hsep.2.2 h2
        rw [splitChar_cons_ne sep y s hy]
        simp [okAfterLt, h1, h2]

theorem safeTags_splitChar (sep : Char) (hsep : cutChar sep = true) (s : Str)
    (h : safeTags s = true) : ∀ l ∈ splitChar sep s, safeTags l = true := by
  induction s with
  | nil => simp [splitChar, safeTags]
  | cons c rest ih =>
    have hrest : safeTags rest = true := safeTags_of_append_right [c] rest h
    have ih := ih hrest
    intro l hl
    unfold splitChar at hl
    split at hl
    · rcases List.mem_cons.mp hl with rfl | hl
      · rfl
      · exact ih l hl
    · split at hl
      · rename_i heq
        exact absurd heq (splitChar_ne_nil sep rest)
      · rename_i b bs heq
        rw [heq] at ih
        rcases List.mem_cons.mp hl with rfl | hl
        · simp only [safeTags, Bool.and_eq_true, Bool.or_eq_true]
          refine ⟨?_, ih b (List.mem_cons_self _ _)⟩
          simp only [safeTags, Bool.and_eq_true, Bool.or_eq_true] at h
          rcases h.1 with h1 | h1
          · exact Or.inl h1
          · exact Or.inr (safeTags_head_splitChar sep hsep rest b bs heq h1)
        · exact ih l (List.mem_cons_of_mem _ hl)

theorem safeTags_joinWith (sep : Str) (hsep : safeTags sep = true) (ls : List Str)
    (h : ∀ l ∈ ls, safeTags l = true) : safeTags (joinWith sep ls) = true := by
  induction ls with
  | nil => rfl
  | cons x rest ih =>
    cases rest with
    | nil => simpa [joinWith] using h x (List.mem_cons_self _ _)
    | cons y rest2 =>
      simp only [joinWith]
      exact safeTags_append _ _ (safeTags_append _ _ (h x (List.mem_cons_self _ _)) hsep)
        (ih (fun l hl => h l (List.mem_cons_of_mem _ hl)))

theorem safeTags_flatten (ls : List Str) (h : ∀ l ∈ ls, safeTags l = true) :
    safeTags ls.flatten = true := by
  induction ls with
  | nil => rfl
  | cons x rest ih =>
    simp only [List.flatten_cons]
    exact safeTags_append _ _ (h x (List.mem_cons_self _ _))
      (ih (fun l hl => h l (List.mem_cons_of_mem _ hl)))

theorem safeTags_trim (s : Str) (h : safeTags s = true) : safeTags (trim s) = true := by
  unfold trim trimEnd
  have h1 : safeTags (trimStart s) = true := safeTags_dropWhile _ _ h
  generalize trimStart s = u at h1
  have h2 : u = (u.reverse.dropWhile isWhiteSpace).reverse ++
      (u.reverse.takeWhile isWhiteSpace).reverse := by
    rw [← List.reverse_append, List.takeWhile_append_dropWhile, List.reverse_reverse]
  rw [h2] at h1
  refine safeTags_of_append_left _ _ h1 ?_
  generalize hw : (u.reverse.takeWhile isWhiteSpace).reverse = w
  cases w with
  | nil => rfl
  | cons x w =>
    have hx : x ∈ u.reverse.takeWhile isWhiteSpace := by
      rw [← List.mem_reverse, hw]
      exact List.mem_cons_self _ _
    have := List.mem_takeWhile_imp hx
    exact cutChar_of_isWhiteSpace x this

theorem cutAt_drop_quoteScan (u : Str) : cutAt (u.drop (quoteScan u)) = true := by
  induction u with
  | nil => rfl
  | cons c rest ih =>
    unfold quoteScan
    split
    · simpa using ih
    · split
      · simpa using ih
      · rename_i h _
        simp only [Bool.not_eq_true', Bool.not_eq_false] at h
        simpa [cutAt] using cutChar_of_isLineTerminator c h

theorem safeTags_stripQuoteMarker (line : Str) (h : safeTags line = true) :
    safeTags (stripQuoteMarker line) = true := by
  unfold stripQuoteMarker
  split
  · have h4 := safeTags_drop 4 line h
    split
    · rename_i c rest heq
      rw [heq] at h4
      split
      · exact safeTags_of_append_right [c] rest h4
      · exact h4
    · rfl
  · exact h

theorem ruleSafe_quote : RuleSafe (anchored quoteBlock renderQuote) := by
  apply ruleSafe_anchored
  · intro u n h
    unfold quoteBlock at h
    split at h
    · rename_i hs
      exact cutAt_of_startsWith _ u hs (by decide) (by decide)
    · simp at h
  · intro pfx u n h hs hp
    unfold quoteBlock at h
    split at h
    · simp only [Option.some.injEq] at h
      subst h
      have hblock : safeTags (u.take (quoteScan u)) = true :=
        safeTags_take _ _ hs (cutAt_drop_quoteScan u)
      have hlines := safeTags_splitChar '\n' (by decide) _ hblock
      unfold renderQuote
      refine safeTags_append _ _ (safeTags_append _ _ (safeTags_append _ _ hp (by decide))
        (safeTags_joinWith _ (by decide) _ ?_)) (by decide)
      intro l hl
      obtain ⟨line, hline, rfl⟩ := List.mem_map.mp hl
      exact safeTags_stripQuoteMarker line (hlines line hline)
    · simp at h

theorem cutAt_drop_listScan (ordered : Bool) (u : Str) :
    ∀ st, cutAt (u.drop (listScan ordered st u)) = true := by
  induction u with
  | nil =>
    intro st
    cases st <;> rfl
  | cons c rest ih =>
    intro st
    cases st with
    | marker =>
      unfold listScan
      split
      · simpa using ih .space
      · simpa using ih .marker
    | space =>
      unfold listScan
      split
      · simpa using ih .space
      · simpa using ih .content
    | content =>
      unfold listScan
      split
      · simpa using ih .content
      · split
        · simpa using ih .marker
        · rename_i h _
          simp only [Bool.not_eq_true', Bool.not_eq_false] at h
          simpa [cutAt] using cutChar_of_isLineTerminator c h

theorem cutChar_of_isDigit (c : Char) (h : isDigit c = true) : cutChar c = true := by
  by_contra hc
  simp only [cutChar, tagStart, Bool.not_eq_true', Bool.not_eq_false, Bool.or_eq_true,
    beq_iff_eq] at hc
  rcases hc with ((((((((((rfl | rfl) | rfl) | rfl) | rfl) | rfl) | rfl) | rfl) | rfl) | rfl) | rfl) | rfl <;>
    exact absurd h (by decide)

theorem cutAt_of_itemStart (ordered : Bool) (u : Str) (h : itemStart ordered u = true) :
    cutAt u = true := by
  cases ordered with
  | true =>
    cases u with
    | nil => rfl
    | cons c rest =>
      by_cases hd : isDigit c = true
      · simpa [cutAt] using cutChar_of_isDigit c hd
      · simp [itemStart, List.takeWhile, hd] at h
  | false =>
    rcases u with _ | ⟨m, _ | ⟨w, rest⟩⟩
    · rfl
    · simp [itemStart] at h
    · simp only [itemStart, Bool.false_eq_true, if_false, Bool.and_eq_true, Bool.or_eq_true,
        beq_iff_eq] at h
      rcases h.1 with rfl | rfl <;> rfl

theorem safeTags_stripListMarker (ordered : Bool) (line : Str) (h : safeTags line = true) :
    safeTags (stripListMarker ordered line) = true := by
  unfold stripListMarker
  split
  · split
    · exact safeTags_dropWhile _ _ (safeTags_drop _ _ (safeTags_dropWhile _ _ h))
    · exact safeTags_dropWhile _ _ (safeTags_drop _ _ h)
  · exact h

theorem safeTags_listTag (ordered : Bool) : safeTags (listTag ordered) = true := by
  cases ordered <;> decide

theorem ruleSafe_list (ordered : Bool) :
    RuleSafe (anchored (listBlock ordered) (renderList ordered)) := by
  apply ruleSafe_anchored
  · intro u n h
    unfold listBlock at h
    split at h
    · rename_i hs
      exact cutAt_of_itemStart ordered u hs
    · simp at h
  · intro pfx u n h hs hp
    unfold listBlock at h
    split at h
    · simp only [Option.some.injEq] at h
      subst h
      have hblock : safeTags (u.take (listScan ordered .marker u)) = true :=
        safeTags_take _ _ hs (cutAt_drop_listScan ordered u .marker)
      have hlines := safeTags_splitChar '\n' (by decide) _ hblock
      unfold renderList
      simp only
      split
      · exact safeTags_append _ _ hp hblock
      · have hopen : safeTags (['<'] ++ listTag ordered ++ ['>']) = true := by
          cases ordered <;> decide
        have hclose : safeTags ("</".toList ++ listTag ordered ++ ['>']) = true := by
          cases ordered <;> decide
        have hitems : safeTags ((filterNonEmpty ((splitChar '\n'
            (u.take (listScan ordered .marker u))).map
              (fun line => trim (stripListMarker ordered line)))).map
            (fun item => "<li>".toList ++ item ++ "</li>".toList)).flatten = true := by
          apply safeTags_flatten
          intro l hl
          obtain ⟨item, hitem, rfl⟩ := List.mem_map.mp hl
          unfold filterNonEmpty at hitem
          obtain ⟨line, hline, rfl⟩ := List.mem_map.mp (List.mem_filter.mp hitem).1
          exact safeTags_append _ _ (safeTags_append _ _ (by decide)
            (safeTags_trim _ (safeTags_stripListMarker ordered line (hlines line hline))))
            (by decide)
        have h1 := safeTags_append _ _ (safeTags_append _ _ (safeTags_append _ _ hp hopen)
          hitems) hclose
        simpa [List.append_assoc] using h1
    · simp at h

theorem ruleSafe_span (delim opening closing : Str) (hne : delim ≠ [])
    (hd : cutAt delim = true) (ho : safeTags opening = true)
    (hc : safeTags closing = true) : RuleSafe (spanRule delim opening closing) := by
  intro prev t r h hs
  unfold spanRule at h
  split at h
  · rename_i hst
    cases hl : lazyPlus (fun c => !isLineTerminator c) delim (t.drop delim.length) with
    | none => simp [hl] at h
    | some content =>
      simp only [hl, Option.some.injEq] at h
      subst h
      exact ⟨cutAt_of_startsWith delim t hst hne hd,
        safeTags_append _ _ (safeTags_append _ _ ho
          (safeTags_of_lazyPlus _ delim _ content hl (safeTags_drop _ _ hs) hd hne)) hc⟩
  · simp at h

theorem ruleSafe_code : RuleSafe codeRule := by
  intro prev t r h hs
  cases t with
  | nil => simp [codeRule] at h
  | cons c u =>
    unfold codeRule at h
    simp only at h
    split at h
    · rename_i hc
      cases hl : lazyPlus (fun x => x != Char.ofNat 96) [Char.ofNat 96] u with
      | none => simp [hl] at h
      | some content =>
        simp only [hl, Option.some.injEq] at h
        subst h
        subst hc
        refine ⟨rfl, safeTags_append _ _ (safeTags_append _ _ (by decide)
          (safeTags_of_lazyPlus _ _ u content hl
            (safeTags_of_append_right [Char.ofNat 96] u hs) (by decide) (by simp)))
          (by decide)⟩
    · simp at h

theorem ruleSafe_link : RuleSafe linkRule := by
  intro prev t r h hs
  cases t with
  | nil => simp [linkRule] at h
  | cons c u =>
    unfold linkRule at h
    simp only at h
    split at h
    · rename_i hc
      have hu : safeTags u = true := safeTags_of_append_right [c] u hs
      cases hl : lazyPlus (fun x => x != ']') "](".toList u with
      | none =>
        rw [hl] at h
        simp at h
      | some text =>
        rw [hl] at h
        simp only at h
        cases hl2 : lazyPlus (fun x => x != ')') [')'] (u.drop (text.length + 2)) with
        | none =>
          rw [hl2] at h
          simp at h
        | some url =>
          rw [hl2] at h
          simp only [Option.some.injEq] at h
          subst h
          subst hc
          have htext := safeTags_of_lazyPlus _ _ u text hl hu (by decide) (by decide)
          have hurl := safeTags_of_lazyPlus _ _ _ url hl2 (safeTags_drop _ _ hu)
            (by decide) (by simp)
          exact ⟨rfl, safeTags_append _ _ (safeTags_append _ _ (safeTags_append _ _
            (safeTags_append _ _ (by decide) hurl) (by decide)) htext) (by decide)⟩
    · simp at h

theorem ruleSafe_break : RuleSafe breakRule := by
  intro prev t r h hs
  cases t with
  | nil => simp [breakRule] at h
  | cons c u =>
    unfold breakRule at h
    simp only at h
    split at h
    · rename_i hc
      simp only [Option.some.injEq] at h
      subst h
      subst hc
      exact ⟨rfl, by decide⟩
    · simp at h

theorem ruleSafe_placeholder (codeBlocks : List Str)
    (hb : ∀ b ∈ codeBlocks, safeTags b = true) : RuleSafe (placeholderRule codeBlocks) := by
  intro prev t r h hs
  unfold placeholderRule at h
  split at h
  · rename_i hst
    simp only at h
    split at h
    · simp only [Option.some.injEq] at h
      subst h
      refine ⟨cutAt_of_startsWith _ t hst (by decide) (by decide), ?_⟩
      cases hg : codeBlocks.get? (digitsToNat ((t.drop 5).takeWhile isDigit)) with
      | none => rfl
      | some b => exact hb b (List.get?_mem hg)
    · simp at h
  · simp at h

theorem escapeHtml_chars (s : Str) :
    ∀ c ∈ escapeHtml s, c ≠ '<' ∧ c ≠ '>' ∧ c ≠ '"' ∧ c ≠ Char.ofNat 39 := by
  induction s with
  | nil => simp [escapeHtml]
  | cons x rest ih =>
    intro c hc
    simp only [escapeHtml, List.mem_append] at hc
    rcases hc with hc | hc
    · unfold escapeChar at hc
      split_ifs at hc with h1 h2 h3 h4 h5
      · have : ∀ y ∈ "&amp;".toList, y ≠ '<' ∧ y ≠ '>' ∧ y ≠ '"' ∧ y ≠ Char.ofNat 39 := by
          decide
        exact this c hc
      · have : ∀ y ∈ "&lt;".toList, y ≠ '<' ∧ y ≠ '>' ∧ y ≠ '"' ∧ y ≠ Char.ofNat 39 := by
          decide
        exact this c hc
      · have : ∀ y ∈ "&gt;".toList, y ≠ '<' ∧ y ≠ '>' ∧ y ≠ '"' ∧ y ≠ Char.ofNat 39 := by
          decide
        exact this c hc
      · have : ∀ y ∈ "&quot;".toList, y ≠ '<' ∧ y ≠ '>' ∧ y ≠ '"' ∧ y ≠ Char.ofNat 39 := by
          decide
        exact this c hc
      · have : ∀ y ∈ "&#39;".toList, y ≠ '<' ∧ y ≠ '>' ∧ y ≠ '"' ∧ y ≠ Char.ofNat 39 := by
          decide
        exact this c hc
      · simp only [List.mem_singleton] at hc
        subst hc
        exact ⟨h2, h3, h4, h5⟩
    · exact ih c hc

theorem mem_normalizeNewlines (s : Str) : ∀ c ∈ normalizeNewlines s, c ∈ s := by
  induction s with
  | nil => simp [normalizeNewlines]
  | cons x rest ih =>
    intro c hc
    unfold normalizeNewlines at hc
    split at hc
    · exact List.mem_cons_of_mem _ (ih c hc)
    · rcases List.mem_cons.mp hc with rfl | hc
      · exact List.mem_cons_self _ _
      · exact List.mem_cons_of_mem _ (ih c hc)

theorem matchFence_mem (t : Str) (m : Nat × Str × Str) (h : matchFence t = some m) :
    (∀ c ∈ m.2.1, c ∈ t) ∧ (∀ c ∈ m.2.2, c ∈ t) := by
  unfold matchFence at h
  split at h
  · simp only at h
    split at h
    · rename_i c v heq
      split at h
      · cases hl : lazyScan (fun _ => true) "```".toList v with
        | none =>
          rw [hl] at h
          simp at h
        | some code =>
          rw [hl] at h
          simp only [Option.some.injEq] at h
          subst h
          constructor
          · intro x hx
            exact List.mem_of_mem_drop ((List.takeWhile_sublist _).subset hx)
          · intro x hx
            obtain ⟨rest, hrest⟩ := lazyScan_eq _ _ v code hl
            have h1 : x ∈ v := by
              rw [hrest]
              simp [hx]
            have h2 : x ∈ (t.drop 3).dropWhile isLangChar := by
              rw [heq]
              exact List.mem_cons_of_mem _ h1
            exact List.mem_of_mem_drop ((List.dropWhile_sublist _).subset h2)
      · simp at h
    · simp at h
  · simp at h

theorem safeTags_renderCodeBlock (language code : Str) (hl : ∀ c ∈ language, c ≠ '<')
    (hc : ∀ c ∈ code, c ≠ '<') : safeTags (renderCodeBlock language code) = true := by
  have hlang : safeTags (trim language) = true :=
    safeTags_trim _ (safeTags_of_no_lt _ hl)
  have hclean : safeTags (if code.getLast? = some '\n' then code.dropLast else code) = true := by
    split
    · exact safeTags_of_no_lt _ (fun c h => hc c (List.mem_of_mem_dropLast h))
    · exact safeTags_of_no_lt _ hc
  have hcls : safeTags (if (trim language).isEmpty = true then []
      else " class=\"language-".toList ++ trim language ++ ['"']) = true := by
    split
    · rfl
    · exact safeTags_append _ _ (safeTags_append _ _ (by decide) hlang) (by decide)
  have hdata : safeTags (if (trim language).isEmpty = true then []
      else " data-lang=\"".toList ++ trim language ++ ['"']) = true := by
    split
    · rfl
    · exact safeTags_append _ _ (safeTags_append _ _ (by decide) hlang) (by decide)
  unfold renderCodeBlock
  exact safeTags_append _ _ (safeTags_append _ _ (safeTags_append _ _ (safeTags_append _ _
    (safeTags_append _ _ (by decide) hcls) hdata) (by decide)) hclean) (by decide)

theorem codeToken_no_lt (n : Nat) : ∀ c ∈ codeToken n, c ≠ '<' := by
  intro c hc
  unfold codeToken at hc
  simp only [List.mem_cons, List.mem_append] at hc
  rcases hc with rfl | (hc | hc) | hc
  · decide
  · have : ∀ y ∈ "CODE".toList, y ≠ '<' := by decide
    exact this c hc
  · exact toDigits_no_lt n c hc
  · rcases hc with rfl | hc
    · decide
    · simp at hc

theorem extractFences_safe (s : Str) :
    ∀ (n k : Nat), (∀ c ∈ s, c ≠ '<') →
      (∀ c ∈ (extractFences n k s).1, c ≠ '<') ∧
      (∀ b ∈ (extractFences n k s).2, safeTags b = true) := by
  induction s with
  | nil =>
    intro n k _
    cases k <;> simp [extractFences]
  | cons x rest ih =>
    intro n k h
    have hrest : ∀ c ∈ rest, c ≠ '<' := fun c hc => h c (List.mem_cons_of_mem _ hc)
    cases k with
    | zero =>
      rw [extractFences]
      cases hm : matchFence (x :: rest) with
      | none =>
        simp only
        have := ih n 0 hrest
        refine ⟨?_, this.2⟩
        intro c hc
        rcases List.mem_cons.mp hc with rfl | hc
        · exact h _ (List.mem_cons_self _ _)
        · exact this.1 c hc
      | some m =>
        simp only
        have := ih (n + 1) (m.1 - 1) hrest
        have hmem := matchFence_mem _ m hm
        constructor
        · intro c hc
          rcases List.mem_append.mp hc with hc | hc
          · exact codeToken_no_lt n c hc
          · exact this.1 c hc
        · intro b hb
          rcases List.mem_cons.mp hb with rfl | hb
          · exact safeTags_renderCodeBlock _ _ (fun c hc => h c (hmem.1 c hc))
              (fun c hc => h c (hmem.2 c hc))
          · exact this.2 b hb
    | succ k =>
      rw [extractFences]
      exact ih n k hrest

theorem splitBlocks_ne_nil (s : Str) : ∀ k, splitBlocks k s ≠ [] := by
  induction s with
  | nil =>
    intro k
    simp [splitBlocks]
  | cons c rest ih =>
    intro k
    rw [splitBlocks]
    split
    · split
      · exact ih true
      · simp
    · split <;> simp

theorem splitBlocks_cons_ne (k : Bool) (c : Char) (rest : Str) (h : c ≠ '\n') :
    splitBlocks k (c :: rest) =
      (c :: (splitBlocks false rest).headD []) :: (splitBlocks false rest).tail := by
  rw [splitBlocks, if_neg (fun hc => h hc.1)]
  cases hr : splitBlocks false rest with
  | nil => exact absurd hr (splitBlocks_ne_nil rest false)
  | cons l ls => rfl

theorem okAfterLt_head_splitBlocks (s b : Str) (bs : List Str)
    (hb : splitBlocks false s = b :: bs) (h : okAfterLt s = true) : okAfterLt b = true := by
  rcases s with _ | ⟨x, s⟩
  · simp [okAfterLt] at h
  · simp only [okAfterLt, Bool.or_eq_true, Bool.and_eq_true, beq_iff_eq] at h
    have hx : x ≠ '\n' := by
      rintro rfl
      rcases h with h | ⟨h1, _⟩
      · exact absurd h (by decide)
      · exact absurd h1 (by decide)
    rw [splitBlocks_cons_ne false x s hx] at hb
    simp only [List.cons.injEq] at hb
    rw [← hb.1]
    rcases h with h | ⟨h1, h2⟩
    · simp [okAfterLt, h]
    · rcases s with _ | ⟨y, s⟩
      · simp at h2
      · simp only [List.head?_cons, Option.some.injEq] at h2
        have hy : y ≠ '\n' := by
          rintro rfl
          exact absurd h2 (by decide)
        rw [splitBlocks_cons_ne false y s hy]
        simp [okAfterLt, h1, h2]

theorem safeTags_splitBlocks (s : Str) :
    ∀ k, safeTags s = true → ∀ b ∈ splitBlocks k s, safeTags b = true := by
  induction s with
  | nil =>
    intro k _ b hb
    simp only [splitBlocks, List.mem_singleton] at hb
    subst hb
    rfl
  | cons c rest ih =>
    intro k h b hb
    have hrest : safeTags rest = true := safeTags_of_append_right [c] rest h
    rw [splitBlocks] at hb
    split at hb
    · split at hb
      · exact ih true hrest b hb
      · rcases List.mem_cons.mp hb with rfl | hb
        · rfl
        · exact ih true hrest b hb
    · split at hb
      · rename_i heq
        exact absurd heq (splitBlocks_ne_nil rest false)
      · rename_i b0 bs heq
        have ih := ih false hrest
        rw [heq] at ih
        rcases List.mem_cons.mp hb with rfl | hb
        · simp only [safeTags, Bool.and_eq_true, Bool.or_eq_true]
          refine ⟨?_, ih b0 (List.mem_cons_self _ _)⟩
          simp only [safeTags, Bool.and_eq_true, Bool.or_eq_true] at h
          rcases h.1 with h1 | h1
          · exact Or.inl h1
          · exact Or.inr (okAfterLt_head_splitBlocks rest b0 bs heq h1)
        · exact ih b (List.mem_cons_of_mem _ hb)

theorem safeTags_wrapBlock (block : Str) (h : safeTags block = true) :
    safeTags (wrapBlock block) = true := by
  have ht := safeTags_trim block h
  unfold wrapBlock
  simp only
  split
  · exact ht
  · exact safeTags_append _ _ (safeTags_append _ _ (by decide)
      (safeTags_replaceAll breakRule ruleSafe_break _ none 0 (by simpa using ht))) (by decide)

theorem not_hasSubstr_script (s : Str) (h : safeTags s = true) :
    hasSubstr "<script".toList s = false := by
  induction s with
  | nil => rfl
  | cons c rest ih =>
    simp only [safeTags, Bool.and_eq_true, Bool.or_eq_true] at h
    simp only [hasSubstr, Bool.or_eq_false_iff]
    refine ⟨?_, ih h.2⟩
    rw [Bool.eq_false_iff]
    intro hs
    have heq := startsWith_eq_append hs
    have hc : c = '<' := by
      have := congrArg List.head? heq
      simpa using this
    have hr : rest = "script".toList ++ (c :: rest).drop 7 := by
      have := congrArg List.tail heq
      simpa using this
    rcases h.1 with h1 | h1
    · simp [hc] at h1
    · rw [hr] at h1
      simp [okAfterLt, tagStart] at h1

/-- Every `<` of the output of `markdownToHtml` begins a tag name of the renderer. -/
theorem safeTags_markdownToHtml (markdown : Str) :
    safeTags (markdownToHtml markdown) = true := by
  unfold markdownToHtml
  split
  · rfl
  · have h0 : ∀ c ∈ normalizeNewlines (escapeHtml markdown), c ≠ '<' :=
      fun c hc => (escapeHtml_chars markdown c (mem_normalizeNewlines _ c hc)).1
    have hf := extractFences_safe (normalizeNewlines (escapeHtml markdown)) 0 0 h0
    have step : ∀ (rule : Option Char → Str → Option (Nat × Str)) (t : Str),
        RuleSafe rule → safeTags t = true → safeTags (replaceAll rule none 0 t) = true :=
      fun rule t hr ht => safeTags_replaceAll rule hr t none 0 (by simpa using ht)
    simp only
    apply step _ _ (ruleSafe_placeholder _ hf.2)
    apply safeTags_joinWith _ (by decide)
    intro l hl
    unfold filterNonEmpty at hl
    obtain ⟨block, hblock, rfl⟩ := List.mem_map.mp (List.mem_filter.mp hl).1
    apply safeTags_wrapBlock
    refine safeTags_splitBlocks _ false ?_ block hblock
    apply step _ _ ruleSafe_link
    apply step _ _ ruleSafe_code
    apply step _ _ (ruleSafe_span _ _ _ (by decide) (by decide) (by decide) (by decide))
    apply step _ _ (ruleSafe_span _ _ _ (by decide) (by decide) (by decide) (by decide))
    apply step _ _ (ruleSafe_list true)
    apply step _ _ (ruleSafe_list false)
    apply step _ _ ruleSafe_quote
    apply step _ _ (ruleSafe_heading 1)
    apply step _ _ (ruleSafe_heading 2)
    apply step _ _ (ruleSafe_heading 3)
    apply step _ _ (ruleSafe_heading 4)
    apply step _ _ (ruleSafe_heading 5)
    apply step _ _ (ruleSafe_heading 6)
    exact safeTags_of_no_lt _ hf.1

/-- C3: the output of `markdownToHtml` never contains `<script`.  The input is escaped
before any rule runs, so that the escaped text holds no `<`, `>`, double quote or
apostrophe, and every `<` of the output begins a tag name that the renderer writes. -/
theorem markdownToHtml_no_script (markdown : Str) :
    hasSubstr "<script".toList (markdownToHtml markdown) = false ∧
    safeTags (markdownToHtml markdown) = true ∧
    (∀ c ∈ escapeHtml markdown, c ≠ '<' ∧ c ≠ '>' ∧ c ≠ '"' ∧ c ≠ Char.ofNat 39) :=
  ⟨not_hasSubstr_script _ (safeTags_markdownToHtml markdown),
   safeTags_markdownToHtml markdown, escapeHtml_chars markdown⟩

/-! ## The round trip markdown, view, markdown -/

/-- C4: the round trip oscillates on a code block followed by a paragraph.  For the
markdown `m` of a fenced block `x`, a blank line and the paragraph `text`, the renderer
gives `<pre><code>x</code></pre>`, a line feed and `<p>text</p>`; the tree of that markup
(a `pre` with its `code`, a text node with the line feed, a `p`) serializes to `c`, the
same markdown without the blank line, because `pre` is the one block that `walk` ends with
a single line feed.  The renderer wraps `c` whole in one paragraph,
`<p><pre><code>x</code></pre><br/>text</p>`; the HTML parser closes the `p` at the `pre`
and opens an empty one at the stray end tag, and that tree serializes back to `m`.  So with
`c = R(m)`, `R(c) = m` and `R(R(c)) = c` differ. -/
theorem roundTrip_code_block_oscillates :
    markdownToHtml "```\nx\n```\n\ntext".toList =
      "<pre><code>x</code></pre>\n<p>text</p>".toList ∧
    htmlToMarkdown
      [.element "pre".toList [] [.element "code".toList [] [.text "x".toList]],
       .text "\n".toList,
       .element "p".toList [] [.text "text".toList]] = "```\nx\n```\ntext".toList ∧
    markdownToHtml "```\nx\n```\ntext".toList =
      "<p><pre><code>x</code></pre><br/>text</p>".toList ∧
    htmlToMarkdown
      [.element "p".toList [] [],
       .element "pre".toList [] [.element "code".toList [] [.text "x".toList]],
       .element "br".toList [] [],
       .text "text".toList,
       .element "p".toList [] []] = "```\nx\n```\n\ntext".toList ∧
    "```\nx\n```\ntext".toList ≠ "```\nx\n```\n\ntext".toList := by
  refine ⟨by rfl, by rfl, by rfl, by rfl, by decide⟩

/-! ## The metadata returned after a save -/

/-- C11: the tags returned after a save are not the tags that were saved.  For the stored
file with the lines `title: "A"` and `tags: [x, y]`, saved with the tag list `z` and new
content, `updatePost` writes the line `tags: ["z"]`; parsing the saved text again,
`parseFrontmatter` splits the bracketed list at its commas and keeps the double quotes
that `renderTags` wrote, so the returned tag is `"z"`, quotes included, and not `z`. -/
theorem returnedTags_keep_quotes :
    (∀ toISO : JSValue → Option Str,
      composeSavedText toISO "---\ntitle: \"A\"\ntags: [x, y]\n---\nold".toList
        "new body".toList [("tags".toList, .arr ["z".toList])] =
        "---\ntitle: \"A\"\ntags: [\"z\"]\n---\n\nnew body".toList) ∧
    (∀ toISO : JSValue → Option Str,
      returnedTags toISO "---\ntitle: \"A\"\ntags: [\"z\"]\n---\n\nnew body".toList =
        ["\"z\"".toList]) ∧
    ["\"z\"".toList] ≠ ["z".toList] := by
  refine ⟨fun toISO => rfl, fun toISO => rfl, by decide⟩

/-! ## `htmlToMarkdown` -/

/-- C18: the markdown of the view `<p>a</p><br><br><p>b</p>` has four consecutive line
feeds.  The runs of three or more are collapsed before `normalizeLeadingWhitespace` runs,
and that step empties the two lines of blanks that the `br` elements left between the
paragraphs. -/
theorem htmlToMarkdown_four_newlines :
    htmlToMarkdown
      [.element "p".toList [] [.text "a".toList],
       .element "br".toList [] [],
       .element "br".toList [] [],
       .element "p".toList [] [.text "b".toList]] = "a\n\n\n\nb".toList ∧
    hasSubstr "\n\n\n".toList "a\n\n\n\nb".toList = true := by
  refine ⟨by rfl, by decide⟩

/-- C19: a line of a code block that starts with blanks and `>` loses its indentation.
The view is one `pre` whose `code` holds the text of two blanks, `>`, a blank and `x`;
the replacement of `/^[ \t]+>(?=\s?)/gm` runs over the whole text, fenced lines included,
before `normalizeLeadingWhitespace` sees it, and the markdown returned has the code line
`> x`. -/
theorem htmlToMarkdown_code_line_loses_indent :
    htmlToMarkdown
      [.element "pre".toList [] [.element "code".toList [] [.text "  > x".toList]]] =
      "```\n> x\n```".toList ∧
    "```\n> x\n```".toList ≠ "```\n  > x\n```".toList := by
  refine ⟨by rfl, by decide⟩

/-- C20, as stated, fails: the text `a`, two blanks, `b` inside an `em` inside a `code`
element has a `code` ancestor, and `walk` collapses its two blanks to one, because it
looks at the parent element only. -/
theorem walk_text_under_code_ancestor :
    walk "div".toList
      (.element "code".toList []
        [.element "em".toList [] [.text "a  b".toList]]) =
      [Char.ofNat 96] ++ "*a b*".toList ++ [Char.ofNat 96] := by
  rfl

/-- C20, amended: `walk` emits a text node whose parent element is `code` or `pre`
verbatim, and the text of a `pre` that has a `code` descendant is the `textContent` of
that descendant, verbatim as well; it emits every other text node with each run of white
space collapsed to a single space: a run of white space that ends the text or is followed
by another character becomes one space, and every other character is kept. -/
theorem walk_text (value : Str) :
    walk "code".toList (.text value) = value ∧
    walk "pre".toList (.text value) = value ∧
    (∀ (parentTag : Str) (attrs cattrs : List (Str × Str)) (children : List Node)
      (raw : Str), findCodeAll children = some (cattrs, raw) →
      walk parentTag (.element "pre".toList attrs children) =
        (if (codeLanguage (some (cattrs, raw))).isEmpty then "```\n".toList
         else "```".toList ++ codeLanguage (some (cattrs, raw)) ++ ['\n']) ++
        raw ++ "\n```\n".toList) ∧
    (∀ parentTag : Str, parentTag ≠ "code".toList → parentTag ≠ "pre".toList →
      walk parentTag (.text value) = collapseWhiteSpace false value) ∧
    collapseWhiteSpace false [] = [] ∧
    (∀ (c : Char) (rest : Str), isWhiteSpace c = false →
      collapseWhiteSpace false (c :: rest) = c :: collapseWhiteSpace false rest) ∧
    (∀ (run rest : Str), run ≠ [] → (∀ c ∈ run, isWhiteSpace c = true) →
      (∀ c, rest.head? = some c → isWhiteSpace c = false) →
      collapseWhiteSpace false (run ++ rest) = ' ' :: collapseWhiteSpace false rest) := by
  refine ⟨?_, ?_, ?_, ?_, rfl, ?_, ?_⟩
  · simp [walk]
  · simp [walk]
  · intro parentTag attrs cattrs children raw h
    simp only [walk, walkElement, h]
    simp +decide
  · intro parentTag h1 h2
    have h3 : ¬ (parentTag = "code".toList ∨ parentTag = "pre".toList) := by
      rintro (h | h)
      · exact h1 h
      · exact h2 h
    rw [walk, if_neg h3]
  · intro c rest hc
    simp [collapseWhiteSpace, hc]
  · intro run rest hne hrun hrest
    have key : ∀ (r : Str), (∀ c ∈ r, isWhiteSpace c = true) →
        collapseWhiteSpace true (r ++ rest) = collapseWhiteSpace false rest := by
      intro r
      induction r with
      | nil =>
        intro _
        cases rest with
        | nil => rfl
        | cons d rest2 =>
          have hd := hrest d rfl
          simp [collapseWhiteSpace, hd]
      | cons x r ih =>
        intro hr
        have hx := hr x (List.mem_cons_self _ _)
        simp only [List.cons_append, collapseWhiteSpace, hx, if_true]
        exact ih (fun c hc => hr c (List.mem_cons_of_mem _ hc))
    cases run with
    | nil => exact absurd rfl hne
    | cons x r =>
      have hx := hrun x (List.mem_cons_self _ _)
      simp only [List.cons_append, collapseWhiteSpace, hx, if_true]
      simp only [Bool.false_eq_true, if_false]
      have := key r (fun c hc => hrun c (List.mem_cons_of_mem _ hc))
      exact congrArg (List.cons ' ') this

/-- C20, amended, on a paragraph text with a run of blanks and a line feed. -/
theorem walk_text_witness :
    walk "p".toList (.text "a \n  b".toList) = "a b".toList ∧
    walk "code".toList (.text "a \n  b".toList) = "a \n  b".toList :=
  ⟨((walk_text "a \n  b".toList).2.2.2.1 "p".toList (by decide) (by decide)).trans rfl,
   (walk_text "a \n  b".toList).1⟩

/-! ## The selection and offset mapper -/

mutual
theorem textContent_eq_flatten : ∀ n : Node, textContent n = (textNodes n).flatten
  | .text v => by simp [textContent, textNodes]
  | .element _ _ cs => by
    rw [textContent, textNodes]
    exact textContentAll_eq_flatten cs
  | .other => by simp [textContent, textNodes]
theorem textContentAll_eq_flatten :
    ∀ ns : List Node, textContentAll ns = (textNodesAll ns).flatten
  | [] => by simp [textContentAll, textNodesAll]
  | n :: rest => by
    rw [textContentAll, textNodesAll, textContent_eq_flatten n,
      textContentAll_eq_flatten rest, List.flatten_append]
end

theorem length_flatten_eq_sumLengths (texts : List Str) :
    texts.flatten.length = sumLengths texts := by
  induction texts with
  | nil => rfl
  | cons t rest ih => simp [sumLengths, List.flatten_cons] at ih ⊢

/-- The total length of the text of a view is the total length of its text nodes. -/
theorem length_textContentAll (nodes : List Node) :
    (textContentAll nodes).length = sumLengths (textNodesAll nodes) := by
  rw [textContentAll_eq_flatten, length_flatten_eq_sumLengths]

theorem sumLengths_append (a b : List Str) :
    sumLengths (a ++ b) = sumLengths a + sumLengths b := by
  simp [sumLengths]

theorem sumLengths_cons (t : Str) (rest : List Str) :
    sumLengths (t :: rest) = t.length + sumLengths rest := by
  simp [sumLengths]

/-- The loop of `getTextNodeAtOffset`, started after the text nodes `before` with the
offset `remaining` left: a point it returns in a text node is a position of that node,
and has `remaining` characters between it and the end of `before`. -/
theorem seekText_inText (texts : List Str) :
    ∀ (before : List Str) (remaining index offset : Nat),
      seekText before.length remaining texts = .inText index offset →
        sumLengths ((before ++ texts).take index) + offset = sumLengths before + remaining ∧
        ∃ t, (before ++ texts)[index]? = some t ∧ offset ≤ t.length := by
  induction texts with
  | nil =>
    intro before remaining index offset h
    simp [seekText] at h
  | cons t rest ih =>
    intro before remaining index offset h
    by_cases hr : remaining ≤ t.length
    · simp only [seekText, if_pos hr, Point.inText.injEq] at h
      obtain ⟨h1, h2⟩ := h
      subst h1
      have h3 : offset = remaining := by omega
      subst h3
      refine ⟨by simp, t, ?_, hr⟩
      rw [List.getElem?_append_right (Nat.le_refl _)]
      simp
    · have hlen : (before ++ [t]).length = before.length + 1 := by simp
      have happ : before ++ [t] ++ rest = before ++ t :: rest := by simp
      rw [seekText, if_neg hr, ← hlen] at h
      have ih := ih (before ++ [t]) (remaining - t.length) index offset h
      rw [happ] at ih
      refine ⟨?_, ih.2⟩
      rw [ih.1, sumLengths_append, sumLengths_cons]
      simp only [sumLengths, List.map_nil, List.sum_nil]
      omega

/-- The loop of `getTextNodeAtOffset` ends at the end of the root only when the offset
that is left is at least the length of the text that is left. -/
theorem seekText_rootEnd (texts : List Str) :
    ∀ (start remaining : Nat),
      seekText start remaining texts = .rootEnd → sumLengths texts ≤ remaining := by
  induction texts with
  | nil =>
    intro start remaining _
    simp [sumLengths]
  | cons t rest ih =>
    intro start remaining h
    by_cases hr : remaining ≤ t.length
    · simp [seekText, hr] at h
    · rw [seekText, if_neg hr] at h
      have := ih _ _ h
      rw [sumLengths_cons]
      omega

/-- The loop of `getTextNodeAtOffset` ends at the end of the root when the offset that is
left is beyond the text that is left. -/
theorem seekText_beyond (texts : List Str) :
    ∀ (start remaining : Nat),
      sumLengths texts < remaining → seekText start remaining texts = .rootEnd := by
  induction texts with
  | nil =>
    intro start remaining _
    rfl
  | cons t rest ih =>
    intro start remaining h
    rw [sumLengths_cons] at h
    rw [seekText, if_neg (by omega)]
    exact ih _ _ (by omega)

/-- The captured offset of the point that `getTextNodeAtOffset` returns is the offset,
clamped to the text of the view. -/
theorem offsetOfPoint_getTextNodeAtOffset (nodes : List Node) (offset : Int) :
    offsetOfPoint nodes (getTextNodeAtOffset nodes offset) =
      min (max 0 offset).toNat (textContentAll nodes).length := by
  rw [length_textContentAll]
  cases h : getTextNodeAtOffset nodes offset with
  | inText index off =>
    have h1 := seekText_inText (textNodesAll nodes) [] _ index off h
    have h2 : (max 0 offset).toNat ≤ sumLengths (textNodesAll nodes) := by
      by_contra hc
      have := seekText_beyond (textNodesAll nodes) 0 _ (Nat.lt_of_not_le hc)
      rw [getTextNodeAtOffset] at h
      rw [this] at h
      exact Point.noConfusion h
    have h3 := h1.1
    simp only [List.nil_append] at h3
    simp only [offsetOfPoint]
    change sumLengths _ + off = _
    rw [h3]
    simp only [sumLengths, List.map_nil, List.sum_nil, Nat.zero_add]
    exact (Nat.min_eq_left h2).symm
  | rootEnd =>
    have h1 := seekText_rootEnd (textNodesAll nodes) 0 _ h
    simp only [offsetOfPoint]
    rw [length_textContentAll]
    exact (Nat.min_eq_right h1).symm

theorem pointBefore_irrefl (p : Point) : pointBefore p p = false := by
  cases p <;> simp [pointBefore]

/-- C12: in every view, for every offset `k` from 0 to the total length of the text
of the view, the collapsed selection that `restoreSelectionFromOffsets` makes from the
offsets `k`, `k` is captured by `getOffsetsFromRange` as `k`, `k` again. -/
theorem restoreSelection_round_trip (nodes : List Node) (k : Nat)
    (hk : k ≤ (textContentAll nodes).length) :
    getOffsetsFromRange nodes (restoreSelectionFromOffsets nodes (k : Int) (k : Int)) =
      (k, k) := by
  have h : offsetOfPoint nodes (getTextNodeAtOffset nodes (k : Int)) = k := by
    rw [offsetOfPoint_getTextNodeAtOffset]
    have h0 : (max 0 (k : Int)).toNat = k := by
      rw [max_eq_right (Int.ofNat_nonneg k)]
      rfl
    rw [h0]
    exact Nat.min_eq_left hk
  simp only [restoreSelectionFromOffsets, pointBefore_irrefl, getOffsetsFromRange]
  simp [h]

/-- C12 on the example of the specification: in a view of one text run of 20
characters the offsets 5, 5 are restored as the caret after the fifth character of the
run, and captured as 5, 5. -/
theorem restoreSelection_round_trip_witness :
    restoreSelectionFromOffsets [.text "abcdefghijklmnopqrst".toList] 5 5 =
        (.inText 0 5, .inText 0 5) ∧
      getOffsetsFromRange [.text "abcdefghijklmnopqrst".toList]
        (restoreSelectionFromOffsets [.text "abcdefghijklmnopqrst".toList]
          ((5 : Nat) : Int) ((5 : Nat) : Int)) = (5, 5) :=
  ⟨by decide, restoreSelection_round_trip [.text "abcdefghijklmnopqrst".toList] 5 (by decide)⟩

/-- C13: in every view and for every integer offset, `getTextNodeAtOffset` clamps
the offset to the text of the view: a negative offset gives the point of offset 0, an
offset beyond the total length of the text gives the end of the content of the view, the
point returned is captured as the offset clamped between 0 and the total length, and
a point in a text node is a position of a text node of the view. -/
theorem getTextNodeAtOffset_clamps (nodes : List Node) (offset : Int) :
    (offset < 0 → getTextNodeAtOffset nodes offset = getTextNodeAtOffset nodes 0) ∧
    (((textContentAll nodes).length : Int) < offset →
      getTextNodeAtOffset nodes offset = .rootEnd) ∧
    ((offsetOfPoint nodes (getTextNodeAtOffset nodes offset) : Nat) : Int) =
      min (max 0 offset) ((textContentAll nodes).length : Int) ∧
    (∀ index position, getTextNodeAtOffset nodes offset = .inText index position →
      ∃ t, (textNodesAll nodes)[index]? = some t ∧ position ≤ t.length) := by
  refine ⟨?_, ?_, ?_, ?_⟩
  · intro h
    have h0 : max 0 offset = 0 := max_eq_left (le_of_lt h)
    simp [getTextNodeAtOffset, h0]
  · intro h
    rw [getTextNodeAtOffset]
    apply seekText_beyond
    rw [← length_textContentAll]
    have h0 : 0 ≤ offset := le_trans (Int.ofNat_nonneg _) (le_of_lt h)
    rw [max_eq_right h0]
    omega
  · rw [offsetOfPoint_getTextNodeAtOffset]
    have h0 : (0 : Int) ≤ max 0 offset := le_max_left _ _
    omega
  · intro index position h
    have := (seekText_inText (textNodesAll nodes) [] _ index position h).2
    simpa using this

/-- C13 on a view of two text runs, `ab` and `cde` in a `b` element: the offset -3
gives the start of the first run, as the offset 0 does; the offset 9 gives the end of
the view; the offset 2 stays in the first run and the offset 3 is in the second. -/
theorem getTextNodeAtOffset_clamps_witness :
    getTextNodeAtOffset [.text "ab".toList, .element "b".toList [] [.text "cde".toList]]
        (-3) = .inText 0 0 ∧
      getTextNodeAtOffset [.text "ab".toList, .element "b".toList [] [.text "cde".toList]]
        9 = .rootEnd ∧
      getTextNodeAtOffset [.text "ab".toList, .element "b".toList [] [.text "cde".toList]]
        2 = .inText 0 2 ∧
      getTextNodeAtOffset [.text "ab".toList, .element "b".toList [] [.text "cde".toList]]
        3 = .inText 1 1 ∧
      ((offsetOfPoint [.text "ab".toList, .element "b".toList [] [.text "cde".toList]]
        (getTextNodeAtOffset
          [.text "ab".toList, .element "b".toList [] [.text "cde".toList]] 9) : Nat) : Int) =
        min (max 0 9) (((textContentAll
          [.text "ab".toList, .element "b".toList [] [.text "cde".toList]]).length : Nat) : Int) :=
  ⟨by decide, by decide, by decide, by decide,
    (getTextNodeAtOffset_clamps
      [.text "ab".toList, .element "b".toList [] [.text "cde".toList]] 9).2.2.1⟩

/-! ## `markdownToHtml` on plain texts -/

theorem escapeHtml_id (s : Str) (h : ∀ c ∈ s, escapeChar c = [c]) : escapeHtml s = s := by
  induction s with
  | nil => rfl
  | cons c rest ih =>
    rw [escapeHtml, h c (List.mem_cons_self _ _), ih (fun x hx => h x (List.mem_cons_of_mem _ hx))]
    rfl

theorem escapeHtml_append (a b : Str) : escapeHtml (a ++ b) = escapeHtml a ++ escapeHtml b := by
  induction a with
  | nil => rfl
  | cons c rest ih => simp [escapeHtml, ih]

theorem escapeChar_of_plain (c : Char) (h : isPlainChar c = true) : escapeChar c = [c] := by
  simp only [isPlainChar, Bool.and_eq_true, bne_iff_ne, ne_eq] at h
  simp [escapeChar, h]

theorem escapeChar_of_lang (c : Char) (h : isLangChar c = true) : escapeChar c = [c] := by
  unfold escapeChar
  split_ifs with h1 h2 h3 h4 h5
  · subst h1; exact absurd h (by decide)
  · subst h2; exact absurd h (by decide)
  · subst h3; exact absurd h (by decide)
  · subst h4; exact absurd h (by decide)
  · subst h5; exact absurd h (by decide)
  · rfl

theorem normalizeNewlines_id (s : Str) (h : ∀ c ∈ s, c ≠ '\r') : normalizeNewlines s = s := by
  induction s with
  | nil => rfl
  | cons c rest ih =>
    have hc : c ≠ '\r' := h c (List.mem_cons_self _ _)
    rw [normalizeNewlines, if_neg (fun hh => hc hh.1),
      ih (fun x hx => h x (List.mem_cons_of_mem _ hx))]

theorem replaceAll_of_neverMatches (rule : Option Char → Str → Option (Nat × Str))
    (s : Str) : ∀ prev, neverMatches rule prev s = true → replaceAll rule prev 0 s = s := by
  induction s with
  | nil => intro _ _; rfl
  | cons c rest ih =>
    intro prev h
    simp only [neverMatches, Bool.and_eq_true, Option.isNone_iff_eq_none] at h
    rw [replaceAll_zero_cons, h.1]
    simp only
    rw [ih _ h.2]

theorem neverMatches_of_trigger (rule : Option Char → Str → Option (Nat × Str))
    (trig : Char → Bool)
    (h : ∀ prev c rest, trig c = false → rule prev (c :: rest) = none)
    (s : Str) (hs : ∀ c ∈ s, trig c = false) : ∀ prev, neverMatches rule prev s = true := by
  induction s with
  | nil => intro _; rfl
  | cons c rest ih =>
    intro prev
    simp only [neverMatches, Bool.and_eq_true, Option.isNone_iff_eq_none]
    exact ⟨h prev c rest (hs c (List.mem_cons_self _ _)),
      ih (fun x hx => hs x (List.mem_cons_of_mem _ hx)) _⟩

theorem neverMatches_of_line (rule : Option Char → Str → Option (Nat × Str))
    (h : ∀ p c rest, isLineTerminator p = false → isLineTerminator c = false →
      rule (some p) (c :: rest) = none)
    (s : Str) (hs : ∀ c ∈ s, isLineTerminator c = false) :
    ∀ p, isLineTerminator p = false → neverMatches rule (some p) s = true := by
  induction s with
  | nil => intro _ _; rfl
  | cons c rest ih =>
    intro p hp
    have hc := hs c (List.mem_cons_self _ _)
    simp only [neverMatches, Bool.and_eq_true, Option.isNone_iff_eq_none]
    exact ⟨h p c rest hp hc, ih (fun x hx => hs x (List.mem_cons_of_mem _ hx)) c hc⟩

/-- A rule that is bound to the start of a line, and does not match at the start of a
text of one line, leaves the text as it is. -/
theorem replaceAll_line_id (rule : Option Char → Str → Option (Nat × Str))
    (h : ∀ p c rest, isLineTerminator p = false → isLineTerminator c = false →
      rule (some p) (c :: rest) = none)
    (s : Str) (hs : ∀ c ∈ s, isLineTerminator c = false) (h0 : rule none s = none) :
    replaceAll rule none 0 s = s := by
  cases s with
  | nil => rfl
  | cons c rest =>
    apply replaceAll_of_neverMatches
    simp only [neverMatches, Bool.and_eq_true, Option.isNone_iff_eq_none]
    exact ⟨h0, neverMatches_of_line rule h rest
      (fun x hx => hs x (List.mem_cons_of_mem _ hx)) c (hs c (List.mem_cons_self _ _))⟩

theorem replaceAll_skip_all (rule : Option Char → Str → Option (Nat × Str)) (s : Str) :
    ∀ prev k, s.length ≤ k → replaceAll rule prev k s = [] := by
  induction s with
  | nil => intro prev k _; exact replaceAll_nil rule prev k
  | cons c rest ih =>
    intro prev k hk
    cases k with
    | zero => simp at hk
    | succ k =>
      rw [replaceAll_succ_cons]
      exact ih _ _ (by simpa using hk)

/-- A rule that matches the whole text at its start replaces the text by the replacement
of that match. -/
theorem replaceAll_whole (rule : Option Char → Str → Option (Nat × Str)) (s out : Str)
    (hne : s ≠ []) (h : rule none s = some (s.length, out)) :
    replaceAll rule none 0 s = out := by
  cases s with
  | nil => exact absurd rfl hne
  | cons c rest =>
    rw [replaceAll_zero_cons, h]
    simp only
    rw [replaceAll_skip_all rule rest _ _ (by simp)]
    simp

theorem headingRule_line (level : Nat) (p c : Char) (rest : Str)
    (hp : isLineTerminator p = false) (_ : isLineTerminator c = false) :
    headingRule level (some p) (c :: rest) = none := by
  simp [headingRule, atLineStart, hp]

theorem anchored_line (blockLen : Str → Option Nat) (render : Str → Str → Str)
    (p c : Char) (rest : Str) (_ : isLineTerminator p = false)
    (hc : isLineTerminator c = false) :
    anchored blockLen render (some p) (c :: rest) = none := by
  have h : c ≠ '\n' := by
    intro h
    subst h
    exact absurd hc (by decide)
  simp [anchored, h]

theorem headingRule_trigger (level : Nat) (prev : Option Char) (c : Char) (rest : Str)
    (h : (c == '#') = false) : headingRule (level + 1) prev (c :: rest) = none := by
  have hc : ('#' == c) = false := by
    simp only [beq_eq_false_iff_ne, ne_eq] at h ⊢
    exact fun hh => h hh.symm
  simp [headingRule, startsWith, List.replicate_succ, List.isPrefixOf, hc]

theorem spanRule_trigger (delim opening closing : Str) (prev : Option Char) (c : Char)
    (rest : Str) (h : (c == '*') = false) :
    spanRule ('*' :: delim) opening closing prev (c :: rest) = none := by
  have hc : ('*' == c) = false := by
    simp only [beq_eq_false_iff_ne, ne_eq] at h ⊢
    exact fun hh => h hh.symm
  simp [spanRule, startsWith, List.isPrefixOf, hc]

theorem codeRule_trigger (prev : Option Char) (c : Char) (rest : Str)
    (h : (c == Char.ofNat 96) = false) : codeRule prev (c :: rest) = none := by
  have hc : c ≠ Char.ofNat 96 := by simpa using h
  simp [codeRule, hc]

theorem linkRule_trigger (prev : Option Char) (c : Char) (rest : Str)
    (h : (c == '[') = false) : linkRule prev (c :: rest) = none := by
  have hc : c ≠ '[' := by simpa using h
  simp [linkRule, hc]

theorem placeholderRule_trigger (codeBlocks : List Str) (prev : Option Char) (c : Char)
    (rest : Str) (h : (c == '\x00') = false) :
    placeholderRule codeBlocks prev (c :: rest) = none := by
  have hc : ('\x00' == c) = false := by
    simp only [beq_eq_false_iff_ne, ne_eq] at h ⊢
    exact fun hh => h hh.symm
  simp [placeholderRule, startsWith, List.isPrefixOf, hc]

theorem breakRule_trigger (prev : Option Char) (c : Char) (rest : Str)
    (h : (c == '\n') = false) : breakRule prev (c :: rest) = none := by
  have hc : c ≠ '\n' := by simpa using h
  simp [breakRule, hc]

/-- The blockquote rule matches nowhere in a text without `&`. -/
theorem neverMatches_quote (s : Str) (hs : ∀ c ∈ s, c ≠ '&') :
    ∀ prev, neverMatches (anchored quoteBlock renderQuote) prev s = true := by
  have hq : ∀ t : Str, (∀ c ∈ t, c ≠ '&') → quoteBlock t = none := by
    intro t ht
    cases t with
    | nil => rfl
    | cons d u =>
      have hd : ('&' == d) = false := by
        have := ht d (List.mem_cons_self _ _)
        simp only [beq_eq_false_iff_ne, ne_eq]
        exact fun hh => this hh.symm
      simp [quoteBlock, startsWith, List.isPrefixOf, hd]
  induction s with
  | nil => intro _; rfl
  | cons c rest ih =>
    intro prev
    have hrest : ∀ x ∈ rest, x ≠ '&' := fun x hx => hs x (List.mem_cons_of_mem _ hx)
    simp only [neverMatches, Bool.and_eq_true, Option.isNone_iff_eq_none]
    refine ⟨?_, ih hrest _⟩
    simp only [anchored, hq (c :: rest) hs, hq rest hrest]
    cases prev <;> simp

theorem matchFence_count (t : Str) (m : Nat × Str × Str) (h : matchFence t = some m) :
    6 ≤ t.count (Char.ofNat 96) := by
  unfold matchFence at h
  split at h
  · rename_i hs
    simp only at h
    split at h
    · rename_i c v heq
      split at h
      · cases hl : lazyScan (fun _ => true) "```".toList v with
        | none =>
          rw [hl] at h
          simp at h
        | some code =>
          obtain ⟨rest, hrest⟩ := lazyScan_eq _ _ v code hl
          have h1 := startsWith_eq_append hs
          have h2 : t.drop 3 = (t.drop 3).takeWhile isLangChar ++ c :: v := by
            rw [← heq, List.takeWhile_append_dropWhile]
          have h3 : ("```".toList).length = 3 := rfl
          rw [h3, h2, hrest] at h1
          rw [h1]
          simp only [List.count_append, List.count_cons]
          have : List.count (Char.ofNat 96) "```".toList = 3 := by decide
          omega
      · simp at h
    · simp at h
  · simp at h

/-- A text with less than six backticks has no fence: `extractFences` leaves it as it
is. -/
theorem extractFences_id (s : Str) :
    ∀ n, s.count (Char.ofNat 96) < 6 → extractFences n 0 s = (s, []) := by
  induction s with
  | nil => intro _ _; rfl
  | cons c rest ih =>
    intro n h
    cases hm : matchFence (c :: rest) with
    | some m =>
      have := matchFence_count _ m hm
      omega
    | none =>
      have hrest : rest.count (Char.ofNat 96) < 6 :=
        lt_of_le_of_lt (List.count_le_count_cons _ _ _) h
      rw [extractFences, hm]
      simp only
      rw [ih n hrest]

theorem dropWhile_eq_self_cons (p : Char → Bool) (x : Char) (r : Str)
    (h : (x :: r).dropWhile p = x :: r) : p x = false := by
  cases hp : p x with
  | false => rfl
  | true =>
    rw [List.dropWhile_cons_of_pos hp] at h
    have h1 := (@List.dropWhile_sublist _ r p).length_le
    rw [h] at h1
    simp at h1

/-- A text that `trim` leaves as it is has no white space at its start. -/
theorem trimStart_of_trim (t : Str) (ht : trim t = t) : trimStart t = t := by
  have h1 : (trim t).length ≤ (trimStart t).length := by
    unfold trim trimEnd
    rw [List.length_reverse]
    exact le_trans (List.dropWhile_sublist _).length_le (by simp)
  have h2 : (trimStart t).length ≤ t.length := (List.dropWhile_sublist _).length_le
  rw [ht] at h1
  exact (List.dropWhile_sublist isWhiteSpace).eq_of_length (le_antisymm h2 h1)

/-- A text that `trim` leaves as it is has no white space at its end. -/
theorem trimEnd_of_trim (t : Str) (ht : trim t = t) : trimEnd t = t := by
  have h := ht
  unfold trim at h
  rw [trimStart_of_trim t ht] at h
  exact h

theorem head_of_trim (x : Char) (r : Str) (ht : trim (x :: r) = x :: r) :
    isWhiteSpace x = false :=
  dropWhile_eq_self_cons _ x r (trimStart_of_trim _ ht)

theorem last_of_trim (a : Str) (y : Char) (ht : trim (a ++ [y]) = a ++ [y]) :
    isWhiteSpace y = false := by
  have h := trimEnd_of_trim _ ht
  unfold trimEnd at h
  have h1 := congrArg List.reverse h
  rw [List.reverse_reverse] at h1
  simp only [List.reverse_append, List.reverse_cons, List.reverse_nil, List.nil_append,
    List.singleton_append] at h1
  exact dropWhile_eq_self_cons _ y _ h1

/-- The method `trim` leaves a text as it is when its first and its last character are
no white space. -/
theorem trim_of_ends (x y : Char) (r a : Str) (h : x :: r = a ++ [y])
    (hx : isWhiteSpace x = false) (hy : isWhiteSpace y = false) :
    trim (x :: r) = x :: r := by
  unfold trim trimStart trimEnd
  rw [List.dropWhile_cons_of_neg (by simp [hx]), h]
  simp only [List.reverse_append, List.reverse_cons, List.reverse_nil, List.nil_append,
    List.singleton_append]
  rw [List.dropWhile_cons_of_neg (by simp [hy])]
  simp

theorem splitBlocks_single (s : Str) (h : ∀ c ∈ s, c ≠ '\n') : splitBlocks false s = [s] := by
  induction s with
  | nil => rfl
  | cons c rest ih =>
    rw [splitBlocks_cons_ne false c rest (h c (List.mem_cons_self _ _)),
      ih (fun x hx => h x (List.mem_cons_of_mem _ hx))]
    rfl

theorem splitBlocks_append_single (pre y : Str) (h : ∀ c ∈ pre, c ≠ '\n')
    (hy : splitBlocks false y = [y]) : splitBlocks false (pre ++ y) = [pre ++ y] := by
  induction pre with
  | nil => exact hy
  | cons c rest ih =>
    rw [List.cons_append, splitBlocks_cons_ne false c _ (h c (List.mem_cons_self _ _)),
      ih (fun x hx => h x (List.mem_cons_of_mem _ hx))]
    rfl

theorem wrapBlock_tag (s : Str) (htrim : trim s = s) (htag : startsWithBlockTag s = true) :
    wrapBlock s = s := by
  simp [wrapBlock, htrim, htag]

theorem wrapBlock_paragraph (s : Str) (htrim : trim s = s) (hne : s ≠ [])
    (hp : isPlaceholder s = false) (htag : startsWithBlockTag s = false) :
    wrapBlock s = "<p>".toList ++ replaceAll breakRule none 0 s ++ "</p>".toList := by
  have h : s.isEmpty = false := by
    cases s with
    | nil => exact absurd rfl hne
    | cons _ _ => rfl
  simp [wrapBlock, htrim, htag, hp, h]

theorem inert_no_lineTerminator (c : Char) (h : isInertChar c = true) :
    isLineTerminator c = false := by
  simp only [isInertChar, Bool.and_eq_true, Bool.not_eq_true'] at h
  exact h.1.1.1.1

/-- The inline rules leave a text of inert characters as it is. -/
theorem inline_id (html : Str) (h : ∀ c ∈ html, isInertChar c = true) :
    replaceAll linkRule none 0 (replaceAll codeRule none 0
      (replaceAll (spanRule "*".toList "<em>".toList "</em>".toList) none 0
        (replaceAll (spanRule "**".toList "<strong>".toList "</strong>".toList) none 0
          html))) = html := by
  have hstar : ∀ c ∈ html, (c == '*') = false := by
    intro c hc
    have := h c hc
    simp only [isInertChar, Bool.and_eq_true, bne_iff_ne, ne_eq] at this
    simp [this.1.1.1.2]
  have htick : ∀ c ∈ html, (c == Char.ofNat 96) = false := by
    intro c hc
    have := h c hc
    simp only [isInertChar, Bool.and_eq_true, bne_iff_ne, ne_eq] at this
    simpa using this.1.1.2
  have hbr : ∀ c ∈ html, (c == '[') = false := by
    intro c hc
    have := h c hc
    simp only [isInertChar, Bool.and_eq_true, bne_iff_ne, ne_eq] at this
    simp [this.1.2]
  have h1 : replaceAll (spanRule "**".toList "<strong>".toList "</strong>".toList) none 0
      html = html :=
    replaceAll_of_neverMatches _ html none
      (neverMatches_of_trigger _ (fun c => c == '*')
        (fun p c r hc => spanRule_trigger ['*'] _ _ p c r hc) html hstar none)
  have h2 : replaceAll (spanRule "*".toList "<em>".toList "</em>".toList) none 0
      html = html :=
    replaceAll_of_neverMatches _ html none
      (neverMatches_of_trigger _ (fun c => c == '*')
        (fun p c r hc => spanRule_trigger [] _ _ p c r hc) html hstar none)
  rw [h1, h2,
    replaceAll_of_neverMatches _ html none
      (neverMatches_of_trigger _ _ codeRule_trigger html htick none),
    replaceAll_of_neverMatches _ html none
      (neverMatches_of_trigger _ _ linkRule_trigger html hbr none)]

/-- The last replacement leaves a text without U+0000 as it is. -/
theorem placeholder_id (codeBlocks : List Str) (html : Str)
    (h : ∀ c ∈ html, c ≠ '\x00') :
    replaceAll (placeholderRule codeBlocks) none 0 html = html :=
  replaceAll_of_neverMatches _ html none
    (neverMatches_of_trigger _ _ (placeholderRule_trigger codeBlocks) html
      (fun c hc => by simpa using h c hc) none)

/-- The split in blocks and the last replacement leave one block element of inert
characters as it is. -/
theorem blocks_id (codeBlocks : List Str) (html : Str)
    (h : ∀ c ∈ html, isInertChar c = true) (htrim : trim html = html)
    (htag : startsWithBlockTag html = true) :
    replaceAll (placeholderRule codeBlocks) none 0
      (joinWith ['\n'] (filterNonEmpty ((splitBlocks false html).map wrapBlock))) =
      html := by
  have hnl : ∀ c ∈ html, c ≠ '\n' := by
    intro c hc hn
    subst hn
    exact absurd (h _ hc) (by decide)
  have hz : ∀ c ∈ html, c ≠ '\x00' := by
    intro c hc hn
    subst hn
    exact absurd (h _ hc) (by decide)
  have hne : html.isEmpty = false := by
    cases html with
    | nil => exact absurd htag (by decide)
    | cons _ _ => rfl
  rw [splitBlocks_single html hnl]
  simp only [List.map_cons, List.map_nil, wrapBlock_tag html htrim htag, filterNonEmpty,
    List.filter_cons, hne, Bool.not_false, if_true, List.filter_nil, joinWith]
  exact placeholder_id codeBlocks html hz

theorem takeWhile_eq_self (p : Char → Bool) (t rest : Str) (h : ∀ c ∈ t, p c = true)
    (hr : ∀ c, rest.head? = some c → p c = false) :
    (t ++ rest).takeWhile p = t ∧ (t ++ rest).dropWhile p = rest := by
  induction t with
  | nil =>
    cases rest with
    | nil => exact ⟨rfl, rfl⟩
    | cons c u =>
      have := hr c rfl
      simp [List.takeWhile, List.dropWhile, this]
  | cons c u ih =>
    have hc := h c (List.mem_cons_self _ _)
    have := ih (fun x hx => h x (List.mem_cons_of_mem _ hx))
    simp [List.takeWhile, List.dropWhile, hc, this]

theorem headingRule_lt (level : Nat) (rest : Str) :
    headingRule level none ('<' :: rest) = none := by
  cases level <;> simp [headingRule, startsWith, List.replicate_succ, List.isPrefixOf]

theorem startsWith_marker (m n : Nat) (t : Str) (h : n < m) :
    startsWith (List.replicate m '#' ++ [' ']) (List.replicate n '#' ++ ' ' :: t) = false := by
  induction n generalizing m with
  | zero =>
    obtain ⟨k, rfl⟩ : ∃ k, m = k + 1 := ⟨m - 1, by omega⟩
    simp [startsWith, List.replicate_succ, List.isPrefixOf]
  | succ n ih =>
    obtain ⟨k, rfl⟩ : ∃ k, m = k + 1 := ⟨m - 1, by omega⟩
    have := ih k (by omega)
    simpa [startsWith, List.replicate_succ, List.isPrefixOf] using this

theorem heading_skip (m n : Nat) (t : Str) (h : n < m)
    (ht : ∀ c ∈ t, isLineTerminator c = false) :
    replaceAll (headingRule m) none 0 (List.replicate n '#' ++ ' ' :: t) =
      List.replicate n '#' ++ ' ' :: t := by
  apply replaceAll_line_id _ (headingRule_line m)
  · intro c hc
    simp only [List.mem_append, List.mem_replicate, List.mem_cons] at hc
    rcases hc with ⟨_, rfl⟩ | rfl | hc
    · decide
    · decide
    · exact ht c hc
  · simp [headingRule, startsWith_marker m n t h]

theorem heading_hit (n : Nat) (t : Str) (ht : ∀ c ∈ t, isLineTerminator c = false) :
    replaceAll (headingRule n) none 0 (List.replicate n '#' ++ ' ' :: t) =
      '<' :: ("h".toList ++ Nat.toDigits 10 n ++ ['>'] ++ t ++ "</h".toList ++
        Nat.toDigits 10 n ++ ['>']) := by
  apply replaceAll_whole
  · simp
  · have h1 : startsWith (List.replicate n '#' ++ [' ']) (List.replicate n '#' ++ ' ' :: t) =
        true := by
      simp [startsWith, List.isPrefixOf_iff_prefix]
    have h2 : (List.replicate n '#' ++ ' ' :: t).drop (List.replicate n '#' ++ [' ']).length =
        t := by
      have : List.replicate n '#' ++ ' ' :: t = (List.replicate n '#' ++ [' ']) ++ t := by simp
      rw [this, List.drop_left]
    have h3 : t.takeWhile (fun c => !isLineTerminator c) = t := by
      have := (takeWhile_eq_self (fun c => !isLineTerminator c) t []
        (fun c hc => by simp [ht c hc]) (fun c hc => by simp at hc)).1
      simpa using this
    simp only [headingRule, atLineStart, h1, Bool.and_self, if_true, h2, h3]
    simp
    omega

theorem heading_after (m : Nat) (rest : Str)
    (h : ∀ c ∈ rest, isLineTerminator c = false) :
    replaceAll (headingRule m) none 0 ('<' :: rest) = '<' :: rest := by
  apply replaceAll_line_id _ (headingRule_line m)
  · intro c hc
    rcases List.mem_cons.mp hc with rfl | hc
    · decide
    · exact h c hc
  · exact headingRule_lt m rest

theorem anchored_none (blockLen : Str → Option Nat) (render : Str → Str → Str)
    (c : Char) (rest : Str) (hc : c ≠ '\n') (h : blockLen (c :: rest) = none) :
    anchored blockLen render none (c :: rest) = none := by
  simp [anchored, h, hc]

/-- The block rules leave a text of one line that starts with `<` as it is. -/
theorem blockRules_id (rest : Str) (h : ∀ c ∈ rest, isLineTerminator c = false) :
    replaceAll (anchored (listBlock true) (renderList true)) none 0
      (replaceAll (anchored (listBlock false) (renderList false)) none 0
        (replaceAll (anchored quoteBlock renderQuote) none 0 ('<' :: rest))) =
      '<' :: rest := by
  have hs : ∀ c ∈ '<' :: rest, isLineTerminator c = false := by
    intro c hc
    rcases List.mem_cons.mp hc with rfl | hc
    · decide
    · exact h c hc
  have hq : quoteBlock ('<' :: rest) = none := by
    simp [quoteBlock, startsWith, List.isPrefixOf]
  have hu : listBlock false ('<' :: rest) = none := by
    cases rest <;> simp [listBlock, itemStart]
  have ho : listBlock true ('<' :: rest) = none := by
    have : isDigit '<' = false := by decide
    simp [listBlock, itemStart, List.takeWhile, this]
  rw [replaceAll_line_id _ (anchored_line _ _) _ hs (anchored_none _ _ _ _ (by decide) hq),
    replaceAll_line_id _ (anchored_line _ _) _ hs (anchored_none _ _ _ _ (by decide) hu),
    replaceAll_line_id _ (anchored_line _ _) _ hs (anchored_none _ _ _ _ (by decide) ho)]

theorem digit_inert (c : Char) (h : isDigit c = true) : isInertChar c = true := by
  have key : ∀ x : Char, isDigit x = false → c ≠ x := by
    intro x hx hcx
    subst hcx
    rw [h] at hx
    cases hx
  simp [isInertChar, isLineTerminator, key '\n' (by decide), key '\r' (by decide),
    key ' ' (by decide), key ' ' (by decide), key '*' (by decide),
    key (Char.ofNat 96) (by decide), key '[' (by decide), key '\x00' (by decide)]

theorem plain_inert (c : Char) (h : isPlainChar c = true) : isInertChar c = true := by
  simp only [isPlainChar, Bool.and_eq_true, bne_iff_ne, ne_eq, Bool.not_eq_true'] at h
  simp [isInertChar, h]

theorem plain_no_lineTerminator (c : Char) (h : isPlainChar c = true) :
    isLineTerminator c = false :=
  inert_no_lineTerminator c (plain_inert c h)

/-- The characters of a heading element of a plain text are inert. -/
theorem heading_inert (n : Nat) (t : Str) (ht : ∀ c ∈ t, isPlainChar c = true) :
    ∀ c ∈ '<' :: ("h".toList ++ Nat.toDigits 10 n ++ ['>'] ++ t ++ "</h".toList ++
      Nat.toDigits 10 n ++ ['>']), isInertChar c = true := by
  have hd : ∀ x ∈ Nat.toDigits 10 n, isInertChar x = true :=
    fun x hx => digit_inert x (toDigits_isDigit n x hx)
  rw [List.forall_mem_cons]
  refine ⟨by decide, ?_⟩
  simp only [List.forall_mem_append]
  exact ⟨⟨⟨⟨⟨⟨by decide, hd⟩, by decide⟩, fun c hc => plain_inert c (ht c hc)⟩, by decide⟩,
    hd⟩, by decide⟩

theorem headings_stage (n : Nat) (t : Str) (h1 : 1 ≤ n) (h6 : n ≤ 6)
    (ht : ∀ c ∈ t, isLineTerminator c = false) :
    replaceAll (headingRule 1) none 0 (replaceAll (headingRule 2) none 0
      (replaceAll (headingRule 3) none 0 (replaceAll (headingRule 4) none 0
        (replaceAll (headingRule 5) none 0 (replaceAll (headingRule 6) none 0
          (List.replicate n '#' ++ ' ' :: t)))))) =
      '<' :: ("h".toList ++ Nat.toDigits 10 n ++ ['>'] ++ t ++ "</h".toList ++
        Nat.toDigits 10 n ++ ['>']) := by
  have hH : ∀ c ∈ "h".toList ++ Nat.toDigits 10 n ++ ['>'] ++ t ++ "</h".toList ++
      Nat.toDigits 10 n ++ ['>'], isLineTerminator c = false := by
    have hd : ∀ x ∈ Nat.toDigits 10 n, isLineTerminator x = false :=
      fun x hx => inert_no_lineTerminator x (digit_inert x (toDigits_isDigit n x hx))
    simp only [List.forall_mem_append]
    exact ⟨⟨⟨⟨⟨⟨by decide, hd⟩, by decide⟩, ht⟩, by decide⟩, hd⟩, by decide⟩
  have hn : n = 1 ∨ n = 2 ∨ n = 3 ∨ n = 4 ∨ n = 5 ∨ n = 6 := by omega
  rcases hn with rfl | rfl | rfl | rfl | rfl | rfl
  · rw [heading_skip 6 1 t (by decide) ht, heading_skip 5 1 t (by decide) ht,
      heading_skip 4 1 t (by decide) ht, heading_skip 3 1 t (by decide) ht,
      heading_skip 2 1 t (by decide) ht, heading_hit 1 t ht]
  · rw [heading_skip 6 2 t (by decide) ht, heading_skip 5 2 t (by decide) ht,
      heading_skip 4 2 t (by decide) ht, heading_skip 3 2 t (by decide) ht,
      heading_hit 2 t ht, heading_after 1 _ hH]
  · rw [heading_skip 6 3 t (by decide) ht, heading_skip 5 3 t (by decide) ht,
      heading_skip 4 3 t (by decide) ht, heading_hit 3 t ht, heading_after 2 _ hH,
      heading_after 1 _ hH]
  · rw [heading_skip 6 4 t (by decide) ht, heading_skip 5 4 t (by decide) ht,
      heading_hit 4 t ht, heading_after 3 _ hH, heading_after 2 _ hH,
      heading_after 1 _ hH]
  · rw [heading_skip 6 5 t (by decide) ht, heading_hit 5 t ht, heading_after 4 _ hH,
      heading_after 3 _ hH, heading_after 2 _ hH, heading_after 1 _ hH]
  · rw [heading_hit 6 t ht, heading_after 5 _ hH, heading_after 4 _ hH,
      heading_after 3 _ hH, heading_after 2 _ hH, heading_after 1 _ hH]

theorem digits_small (n : Nat) (h1 : 1 ≤ n) (h6 : n ≤ 6) :
    ∃ d, Nat.toDigits 10 n = [d] ∧ isDigit d = true := by
  have hn : n = 1 ∨ n = 2 ∨ n = 3 ∨ n = 4 ∨ n = 5 ∨ n = 6 := by omega
  rcases hn with rfl | rfl | rfl | rfl | rfl | rfl <;> exact ⟨_, rfl, by decide⟩

/-- C14: for every level `n` from 1 to 6 and every text `t` of plain characters
(no line terminator, none of `& < > " '`, none of the markdown characters `*`, backtick,
`[`, `#`, no U+0000), `markdownToHtml` of `n` characters `#`, one space and `t` is the
heading element of level `n` around `t`, and nothing else. -/
theorem markdownToHtml_heading (n : Nat) (t : Str) (h1 : 1 ≤ n) (h6 : n ≤ 6)
    (ht : ∀ c ∈ t, isPlainChar c = true) :
    markdownToHtml (List.replicate n '#' ++ ' ' :: t) =
      "<h".toList ++ Nat.toDigits 10 n ++ ['>'] ++ t ++ "</h".toList ++
        Nat.toDigits 10 n ++ ['>'] := by
  have hmem : ∀ c ∈ List.replicate n '#' ++ ' ' :: t,
      c = '#' ∨ c = ' ' ∨ isPlainChar c = true := by
    intro c hc
    simp only [List.mem_append, List.mem_replicate, List.mem_cons] at hc
    rcases hc with ⟨_, rfl⟩ | rfl | hc
    · exact Or.inl rfl
    · exact Or.inr (Or.inl rfl)
    · exact Or.inr (Or.inr (ht c hc))
  have hesc : escapeHtml (List.replicate n '#' ++ ' ' :: t) =
      List.replicate n '#' ++ ' ' :: t := by
    apply escapeHtml_id
    intro c hc
    rcases hmem c hc with rfl | rfl | h
    · rfl
    · rfl
    · exact escapeChar_of_plain c h
  have hcr : normalizeNewlines (List.replicate n '#' ++ ' ' :: t) =
      List.replicate n '#' ++ ' ' :: t := by
    apply normalizeNewlines_id
    intro c hc hr
    subst hr
    rcases hmem _ hc with h | h | h
    · exact absurd h (by decide)
    · exact absurd h (by decide)
    · exact absurd h (by decide)
  have hfence : extractFences 0 0 (List.replicate n '#' ++ ' ' :: t) =
      (List.replicate n '#' ++ ' ' :: t, []) := by
    apply extractFences_id
    have : (List.replicate n '#' ++ ' ' :: t).count (Char.ofNat 96) = 0 := by
      apply List.count_eq_zero_of_not_mem
      intro hc
      rcases hmem _ hc with h | h | h
      · exact absurd h (by decide)
      · exact absurd h (by decide)
      · exact absurd h (by decide)
    omega
  have hlt : ∀ c ∈ t, isLineTerminator c = false :=
    fun c hc => plain_no_lineTerminator c (ht c hc)
  have hinert := heading_inert n t ht
  have hne : (List.replicate n '#' ++ ' ' :: t).isEmpty = false := by
    cases n <;> rfl
  obtain ⟨d, hd, hdig⟩ := digits_small n h1 h6
  rw [markdownToHtml, hne]
  simp only [Bool.false_eq_true, if_false]
  rw [hesc, hcr, hfence]
  simp only
  rw [headings_stage n t h1 h6 hlt,
    blockRules_id _ (fun c hc => inert_no_lineTerminator c
      (hinert c (List.mem_cons_of_mem _ hc))),
    inline_id _ hinert]
  apply blocks_id _ _ hinert
  · apply trim_of_ends '<' '>' _ ("<h".toList ++ Nat.toDigits 10 n ++ ['>'] ++ t ++
      "</h".toList ++ Nat.toDigits 10 n) (by simp) (by decide) (by decide)
  · rw [hd]
    simp [startsWithBlockTag, List.dropWhile, isWhiteSpace, hdig]

/-- C14 on the example of the specification: the line of three `#`, a space and
`Title` gives the heading of level 3 around `Title`. -/
theorem markdownToHtml_heading_witness :
    markdownToHtml "### Title".toList = "<h3>Title</h3>".toList :=
  markdownToHtml_heading 3 "Title".toList (by decide) (by decide) (by decide)

/-! ## `markdownToHtml` on the lines of a list -/

theorem listScan_content (ordered : Bool) (a tail : Str)
    (h : ∀ c ∈ a, isLineTerminator c = false) :
    listScan ordered .content (a ++ tail) = a.length + listScan ordered .content tail := by
  induction a with
  | nil => simp
  | cons c rest ih =>
    have hc := h c (List.mem_cons_self _ _)
    rw [List.cons_append, listScan]
    simp only [hc, Bool.not_false, if_true]
    rw [ih (fun x hx => h x (List.mem_cons_of_mem _ hx))]
    simp
    omega

/-- One line `- a` of a list, followed by `tail`: the matcher passes the marker, the
space and the item, and goes on in `tail`. -/
theorem listScan_line (x : Char) (r tail : Str) (hx : isWhiteSpace x = false)
    (hp : ∀ c ∈ x :: r, isLineTerminator c = false) :
    listScan false .marker ('-' :: ' ' :: (x :: r) ++ tail) =
      (x :: r).length + 2 + listScan false .content tail := by
  have h1 : isWhiteSpace '-' = false := by decide
  have h2 : isWhiteSpace ' ' = true := by decide
  have h3 := listScan_content false r tail (fun c hc => hp c (List.mem_cons_of_mem _ hc))
  have h4 : listScan false .marker ('-' :: ' ' :: x :: (r ++ tail)) =
      listScan false .content (r ++ tail) + 1 + 1 + 1 := by
    simp only [listScan, h1, h2, hx, if_true, Bool.false_eq_true, if_false]
  rw [List.cons_append, List.cons_append, List.cons_append, h4, h3]
  simp only [List.length_cons]
  omega

theorem splitChar_joinWith (sep : Char) (lines : List Str) (hne : lines ≠ [])
    (h : ∀ l ∈ lines, ∀ c ∈ l, c ≠ sep) : splitChar sep (joinWith [sep] lines) = lines := by
  induction lines with
  | nil => exact absurd rfl hne
  | cons l rest ih =>
    have key : ∀ (a : Str), (∀ c ∈ a, c ≠ sep) → ∀ (tail : Str),
        splitChar sep (a ++ tail) =
          (a ++ (splitChar sep tail).headD []) :: (splitChar sep tail).tail := by
      intro a ha tail
      induction a with
      | nil =>
        cases hs : splitChar sep tail with
        | nil => exact absurd hs (splitChar_ne_nil sep tail)
        | cons y ys => simp [hs]
      | cons c u ihu =>
        rw [List.cons_append, splitChar_cons_ne sep c _ (ha c (List.mem_cons_self _ _)),
          ihu (fun x hx => ha x (List.mem_cons_of_mem _ hx))]
        simp
    cases rest with
    | nil =>
      have := key l (h l (List.mem_cons_self _ _)) []
      simpa [joinWith, splitChar] using this
    | cons m rest2 =>
      have ih2 := ih (by simp) (fun l2 hl2 => h l2 (List.mem_cons_of_mem _ hl2))
      have hrw : joinWith [sep] (l :: m :: rest2) =
          l ++ sep :: joinWith [sep] (m :: rest2) := by
        simp [joinWith]
      rw [hrw, key l (h l (List.mem_cons_self _ _))]
      rw [splitChar, if_pos rfl, ih2]
      simp

theorem mem_joinWith (sep : Str) (xs : List Str) (c : Char) (h : c ∈ joinWith sep xs) :
    c ∈ sep ∨ ∃ x ∈ xs, c ∈ x := by
  induction xs with
  | nil => simp [joinWith] at h
  | cons x rest ih =>
    cases rest with
    | nil =>
      simp only [joinWith] at h
      exact Or.inr ⟨x, List.mem_cons_self _ _, h⟩
    | cons y rest2 =>
      simp only [joinWith, List.mem_append] at h
      rcases h with (h | h) | h
      · exact Or.inr ⟨x, List.mem_cons_self _ _, h⟩
      · exact Or.inl h
      · rcases ih h with h | ⟨z, hz, hc⟩
        · exact Or.inl h
        · exact Or.inr ⟨z, List.mem_cons_of_mem _ hz, hc⟩

/-- The lines `- a` of a list of items, joined by line feeds, start a list item. -/
theorem itemStart_lines (a : Str) (rest : List Str) :
    itemStart false (joinWith ['\n'] (((a :: rest)).map (fun a => "- ".toList ++ a))) =
      true := by
  have h : joinWith ['\n'] (((a :: rest)).map (fun a => "- ".toList ++ a)) =
      '-' :: ' ' :: joinWith ['\n'] (a :: rest.map (fun a => "- ".toList ++ a)) := by
    simp only [List.map_cons]
    exact (joinWith_cons_cons _ _ _ _).trans (congrArg _ (joinWith_cons_cons _ _ _ _))
  rw [h]
  rfl

/-- The list matcher takes all the lines `- a` of a list of items. -/
theorem listScan_lines (items : List Str) (hne : items ≠ [])
    (h : ∀ a ∈ items, (∃ x r, a = x :: r ∧ isWhiteSpace x = false) ∧
      ∀ c ∈ a, isLineTerminator c = false) :
    listScan false .marker (joinWith ['\n'] (items.map (fun a => "- ".toList ++ a))) =
      (joinWith ['\n'] (items.map (fun a => "- ".toList ++ a))).length := by
  induction items with
  | nil => exact absurd rfl hne
  | cons a rest ih =>
    obtain ⟨⟨x, r, rfl, hx⟩, hlt⟩ := h _ (List.mem_cons_self _ _)
    cases rest with
    | nil =>
      have := listScan_line x r [] hx hlt
      simp only [List.append_nil] at this
      simp only [List.map_cons, List.map_nil, joinWith]
      rw [show "- ".toList ++ x :: r = '-' :: ' ' :: x :: r from rfl, this]
      simp [listScan]
    | cons b rest2 =>
      have ih2 := ih (by simp) (fun a2 ha2 => h a2 (List.mem_cons_of_mem _ ha2))
      have hstart := itemStart_lines b rest2
      have hjoin : joinWith ['\n'] (((x :: r) :: b :: rest2).map (fun a => "- ".toList ++ a)) =
          '-' :: ' ' :: (x :: r) ++
            ('\n' :: joinWith ['\n'] ((b :: rest2).map (fun a => "- ".toList ++ a))) := by
        simp [joinWith]
      rw [hjoin, listScan_line x r _ hx hlt]
      have hc : listScan false .content
          ('\n' :: joinWith ['\n'] ((b :: rest2).map (fun a => "- ".toList ++ a))) =
          listScan false .marker
            (joinWith ['\n'] ((b :: rest2).map (fun a => "- ".toList ++ a))) + 1 := by
        rw [listScan, if_neg (by decide), if_pos ⟨rfl, hstart⟩]
      rw [hc, ih2]
      simp only [List.length_cons, List.length_append]

theorem stripListMarker_line (a : Str) (h : ∃ x r, a = x :: r ∧ isWhiteSpace x = false) :
    stripListMarker false ("- ".toList ++ a) = a := by
  obtain ⟨x, r, rfl, hx⟩ := h
  have h1 : itemStart false ("- ".toList ++ x :: r) = true := rfl
  rw [stripListMarker, h1]
  have h2 : isWhiteSpace ' ' = true := by decide
  simp [List.dropWhile, hx, h2]

/-- The unordered list rule turns the lines `- a` of a list of items into one `ul`
element with one `li` element for each item. -/
theorem ul_stage (items : List Str) (hne : items ≠ [])
    (h : ∀ a ∈ items, a ≠ [] ∧ trim a = a ∧ ∀ c ∈ a, isLineTerminator c = false) :
    replaceAll (anchored (listBlock false) (renderList false)) none 0
      (joinWith ['\n'] (items.map (fun a => "- ".toList ++ a))) =
      '<' :: ("ul>".toList ++
        (items.map (fun a => "<li>".toList ++ a ++ "</li>".toList)).flatten ++
        "</ul>".toList) := by
  have hhead : ∀ a ∈ items, ∃ x r, a = x :: r ∧ isWhiteSpace x = false := by
    intro a ha
    obtain ⟨h1, h2, _⟩ := h a ha
    cases a with
    | nil => exact absurd rfl h1
    | cons x r => exact ⟨x, r, rfl, head_of_trim x r h2⟩
  obtain ⟨a0, rest0, rfl⟩ : ∃ a0 rest0, items = a0 :: rest0 := by
    cases items with
    | nil => exact absurd rfl hne
    | cons a0 rest0 => exact ⟨a0, rest0, rfl⟩
  have hscan := listScan_lines (a0 :: rest0) hne (fun a ha => ⟨hhead a ha, (h a ha).2.2⟩)
  have hstart := itemStart_lines a0 rest0
  have hsplit : splitChar '\n'
      (joinWith ['\n'] ((a0 :: rest0).map (fun a => "- ".toList ++ a))) =
      (a0 :: rest0).map (fun a => "- ".toList ++ a) := by
    apply splitChar_joinWith
    · simp
    · intro l hl c hc hn
      subst hn
      obtain ⟨a, ha, rfl⟩ := List.mem_map.mp hl
      rcases List.mem_append.mp hc with hc | hc
      · exact absurd hc (by decide)
      · exact absurd ((h a ha).2.2 _ hc) (by decide)
  have hitems : filterNonEmpty (((a0 :: rest0).map (fun a => "- ".toList ++ a)).map
      (fun line => trim (stripListMarker false line))) = a0 :: rest0 := by
    rw [List.map_map]
    have h1 : (a0 :: rest0).map ((fun line => trim (stripListMarker false line)) ∘
        (fun a => "- ".toList ++ a)) = (a0 :: rest0).map id := by
      apply List.map_congr_left
      intro a ha
      simp only [Function.comp, id]
      rw [stripListMarker_line a (hhead a ha), (h a ha).2.1]
    rw [h1, List.map_id, filterNonEmpty, List.filter_eq_self]
    intro a ha
    cases a with
    | nil => exact absurd rfl (h _ ha).1
    | cons _ _ => rfl
  apply replaceAll_whole
  · intro hnil
    rw [hnil] at hstart
    exact absurd hstart (by decide)
  · simp only [anchored, Option.isNone_none, if_true, listBlock, hstart, hscan,
      List.take_length, renderList, hsplit, hitems]
    simp [listTag]

theorem ol_lt_id (rest : Str) (h : ∀ c ∈ rest, isLineTerminator c = false) :
    replaceAll (anchored (listBlock true) (renderList true)) none 0 ('<' :: rest) =
      '<' :: rest := by
  have hs : ∀ c ∈ '<' :: rest, isLineTerminator c = false := by
    intro c hc
    rcases List.mem_cons.mp hc with rfl | hc
    · decide
    · exact h c hc
  have ho : listBlock true ('<' :: rest) = none := by
    have : isDigit '<' = false := by decide
    simp [listBlock, itemStart, List.takeWhile, this]
  exact replaceAll_line_id _ (anchored_line _ _) _ hs (anchored_none _ _ _ _ (by decide) ho)

/-- The six heading rules leave a text without `#` as it is. -/
theorem headings_id (s : Str) (h : ∀ c ∈ s, (c == '#') = false) :
    replaceAll (headingRule 1) none 0 (replaceAll (headingRule 2) none 0
      (replaceAll (headingRule 3) none 0 (replaceAll (headingRule 4) none 0
        (replaceAll (headingRule 5) none 0 (replaceAll (headingRule 6) none 0 s))))) = s := by
  have key : ∀ level, replaceAll (headingRule (level + 1)) none 0 s = s := fun level =>
    replaceAll_of_neverMatches _ s none
      (neverMatches_of_trigger _ _ (headingRule_trigger level) s h none)
  rw [key 5, key 4, key 3, key 2, key 1, key 0]

/-- The blockquote rule leaves a text without `&` as it is. -/
theorem quote_id (s : Str) (h : ∀ c ∈ s, c ≠ '&') :
    replaceAll (anchored quoteBlock renderQuote) none 0 s = s :=
  replaceAll_of_neverMatches _ s none (neverMatches_quote s h none)

/-- C16: for every list of one item or more, each item a text of plain characters
that is not empty and has no white space at its ends, `markdownToHtml` of the lines
`- a`, one for each item, joined by single line feeds, is one `ul` element with one `li`
element for each item, in the order of the items, and nothing else. -/
theorem markdownToHtml_list (items : List Str) (hne : items ≠ [])
    (h : ∀ a ∈ items, a ≠ [] ∧ trim a = a ∧ ∀ c ∈ a, isPlainChar c = true) :
    markdownToHtml (joinWith ['\n'] (items.map (fun a => "- ".toList ++ a))) =
      "<ul>".toList ++ (items.map (fun a => "<li>".toList ++ a ++ "</li>".toList)).flatten ++
        "</ul>".toList := by
  have hmem : ∀ c ∈ joinWith ['\n'] (items.map (fun a => "- ".toList ++ a)),
      c = '\n' ∨ c = '-' ∨ c = ' ' ∨ isPlainChar c = true := by
    intro c hc
    rcases mem_joinWith _ _ _ hc with hc | ⟨x, hx, hc⟩
    · exact Or.inl (List.mem_singleton.mp hc)
    · obtain ⟨a, ha, rfl⟩ := List.mem_map.mp hx
      rcases List.mem_append.mp hc with hc | hc
      · simp only [String.toList, List.mem_cons, List.mem_singleton, List.not_mem_nil,
          or_false] at hc
        rcases hc with rfl | rfl
        · exact Or.inr (Or.inl rfl)
        · exact Or.inr (Or.inr (Or.inl rfl))
      · exact Or.inr (Or.inr (Or.inr ((h a ha).2.2 c hc)))
  have hnot : ∀ x : Char, x ≠ '\n' → x ≠ '-' → x ≠ ' ' → isPlainChar x = false →
      ∀ c ∈ joinWith ['\n'] (items.map (fun a => "- ".toList ++ a)), c ≠ x := by
    intro x h1 h2 h3 h4 c hc hx
    subst hx
    rcases hmem c hc with h | h | h | h
    · exact h1 h
    · exact h2 h
    · exact h3 h
    · rw [h4] at h
      cases h
  have hesc : escapeHtml (joinWith ['\n'] (items.map (fun a => "- ".toList ++ a))) =
      joinWith ['\n'] (items.map (fun a => "- ".toList ++ a)) := by
    apply escapeHtml_id
    intro c hc
    rcases hmem c hc with rfl | rfl | rfl | h
    · rfl
    · rfl
    · rfl
    · exact escapeChar_of_plain c h
  have hcr := normalizeNewlines_id _
    (hnot '\r' (by decide) (by decide) (by decide) (by decide))
  have hfence : extractFences 0 0 (joinWith ['\n'] (items.map (fun a => "- ".toList ++ a))) =
      (joinWith ['\n'] (items.map (fun a => "- ".toList ++ a)), []) := by
    apply extractFences_id
    have hz : (joinWith ['\n'] (items.map (fun a => "- ".toList ++ a))).count
        (Char.ofNat 96) = 0 :=
      List.count_eq_zero_of_not_mem (fun hc =>
        hnot (Char.ofNat 96) (by decide) (by decide) (by decide) (by decide) _ hc rfl)
    omega
  have hhash : ∀ c ∈ joinWith ['\n'] (items.map (fun a => "- ".toList ++ a)),
      (c == '#') = false := fun c hc => by
    simpa using hnot '#' (by decide) (by decide) (by decide) (by decide) c hc
  have hamp := hnot '&' (by decide) (by decide) (by decide) (by decide)
  have hinert : ∀ c ∈ '<' :: ("ul>".toList ++
      (items.map (fun a => "<li>".toList ++ a ++ "</li>".toList)).flatten ++
      "</ul>".toList), isInertChar c = true := by
    rw [List.forall_mem_cons]
    refine ⟨by decide, ?_⟩
    simp only [List.forall_mem_append]
    refine ⟨⟨by decide, ?_⟩, by decide⟩
    intro c hc
    obtain ⟨l, hl, hcl⟩ := List.mem_flatten.mp hc
    obtain ⟨a, ha, rfl⟩ := List.mem_map.mp hl
    have hall : ∀ x ∈ "<li>".toList ++ a ++ "</li>".toList, isInertChar x = true := by
      simp only [List.forall_mem_append]
      exact ⟨⟨by decide, fun x hx => plain_inert x ((h a ha).2.2 x hx)⟩, by decide⟩
    exact hall c hcl
  have hempty : (joinWith ['\n'] (items.map (fun a => "- ".toList ++ a))).isEmpty = false := by
    cases items with
    | nil => exact absurd rfl hne
    | cons a rest =>
      have := itemStart_lines a rest
      cases hj : joinWith ['\n'] ((a :: rest).map (fun a => "- ".toList ++ a)) with
      | nil =>
        rw [hj] at this
        exact absurd this (by decide)
      | cons _ _ => rfl
  rw [markdownToHtml, hempty]
  simp only [Bool.false_eq_true, if_false]
  rw [hesc, hcr, hfence]
  simp only
  rw [headings_id _ hhash, quote_id _ hamp,
    ul_stage items hne (fun a ha => ⟨(h a ha).1, (h a ha).2.1,
      fun c hc => plain_no_lineTerminator c ((h a ha).2.2 c hc)⟩),
    ol_lt_id _ (fun c hc => inert_no_lineTerminator c
      (hinert c (List.mem_cons_of_mem _ hc))),
    inline_id _ hinert]
  apply blocks_id _ _ hinert
  · apply trim_of_ends '<' '>' _ ("<ul>".toList ++
      (items.map (fun a => "<li>".toList ++ a ++ "</li>".toList)).flatten ++ "</ul".toList)
      (by simp) (by decide) (by decide)
  · rfl

/-- C16 on the example of the specification: the two lines `- a` and `- b` give one
list with the two items. -/
theorem markdownToHtml_list_witness :
    markdownToHtml "- a\n- b".toList = "<ul><li>a</li><li>b</li></ul>".toList :=
  markdownToHtml_list ["a".toList, "b".toList] (by decide) (by decide)

/-! ## `markdownToHtml` on an opening fence without closing fence -/

theorem neverMatches_anchored_some (blockLen : Str → Option Nat)
    (render : Str → Str → Str) (s : Str) (h : ∀ c ∈ s, c ≠ '\n') :
    ∀ p, neverMatches (anchored blockLen render) (some p) s = true := by
  induction s with
  | nil => intro _; rfl
  | cons c rest ih =>
    intro p
    have hc := h c (List.mem_cons_self _ _)
    simp only [neverMatches, Bool.and_eq_true, Option.isNone_iff_eq_none]
    refine ⟨?_, ih (fun x hx => h x (List.mem_cons_of_mem _ hx)) c⟩
    simp [anchored, hc]

theorem neverMatches_anchored_break (blockLen : Str → Option Nat)
    (render : Str → Str → Str) (t : Str) (ht : ∀ c ∈ t, c ≠ '\n') (h1 : blockLen t = none)
    (pre : Str) (hpre : ∀ c ∈ pre, c ≠ '\n') :
    ∀ p, neverMatches (anchored blockLen render) (some p) (pre ++ '\n' :: t) = true := by
  induction pre with
  | nil =>
    intro p
    simp only [List.nil_append, neverMatches, Bool.and_eq_true,
      Option.isNone_iff_eq_none]
    refine ⟨?_, neverMatches_anchored_some blockLen render t ht _⟩
    simp [anchored, h1]
  | cons c rest ih =>
    intro p
    have hc := hpre c (List.mem_cons_self _ _)
    simp only [List.cons_append, neverMatches, Bool.and_eq_true,
      Option.isNone_iff_eq_none]
    refine ⟨?_, ih (fun x hx => hpre x (List.mem_cons_of_mem _ hx)) c⟩
    simp [anchored, hc]

/-- A block rule leaves a text of two lines as it is when no block starts at the start of
the text nor at the start of the second line. -/
theorem anchored_break_id (blockLen : Str → Option Nat) (render : Str → Str → Str)
    (c : Char) (pre t : Str) (hc : c ≠ '\n') (hpre : ∀ x ∈ pre, x ≠ '\n')
    (ht : ∀ x ∈ t, x ≠ '\n') (h0 : blockLen (c :: pre ++ '\n' :: t) = none)
    (h1 : blockLen t = none) :
    replaceAll (anchored blockLen render) none 0 (c :: pre ++ '\n' :: t) =
      c :: pre ++ '\n' :: t := by
  apply replaceAll_of_neverMatches
  simp only [List.cons_append, neverMatches, Bool.and_eq_true, Option.isNone_iff_eq_none]
  exact ⟨anchored_none _ _ _ _ hc h0,
    neverMatches_anchored_break blockLen render t ht h1 pre hpre c⟩

theorem lazyPlus_none_of_not_mem (ok : Char → Bool) (d : Char) (w : Str) (h : d ∉ w) :
    lazyPlus ok [d] w = none := by
  cases hl : lazyPlus ok [d] w with
  | none => rfl
  | some content =>
    obtain ⟨rest, hrest⟩ := lazyPlus_eq ok [d] w content hl
    exact absurd (by rw [hrest]; simp) h

/-- The inline code rule leaves three backticks and a text without backtick as they
are. -/
theorem code_open_fence (w : Str) (hw : Char.ofNat 96 ∉ w) :
    replaceAll codeRule none 0 ("```".toList ++ w) = "```".toList ++ w := by
  apply replaceAll_of_neverMatches
  have h1 : ∀ (p : Option Char) (u : Str),
      codeRule p (Char.ofNat 96 :: Char.ofNat 96 :: u) = none := by
    intro p u
    simp [codeRule, lazyPlus]
  have h2 : ∀ p, codeRule p (Char.ofNat 96 :: w) = none := by
    intro p
    simp [codeRule, lazyPlus_none_of_not_mem _ _ w hw]
  have h3 : ∀ p, neverMatches codeRule p w = true :=
    neverMatches_of_trigger _ _ codeRule_trigger w (fun c hc => by
      simp only [beq_eq_false_iff_ne, ne_eq]
      intro hcc
      exact hw (hcc ▸ hc))
  show neverMatches codeRule none
    (Char.ofNat 96 :: Char.ofNat 96 :: Char.ofNat 96 :: w) = true
  simp only [neverMatches, Bool.and_eq_true, Option.isNone_iff_eq_none]
  exact ⟨h1 _ _, h1 _ _, h2 _, h3 _⟩

/-- The line feed of a text of two lines becomes a `br` element. -/
theorem break_single (pre t : Str) (hpre : ∀ x ∈ pre, x ≠ '\n') (ht : ∀ x ∈ t, x ≠ '\n') :
    ∀ p, replaceAll breakRule p 0 (pre ++ '\n' :: t) = pre ++ "<br/>".toList ++ t := by
  induction pre with
  | nil =>
    intro p
    have h : replaceAll breakRule (some '\n') 0 t = t :=
      replaceAll_of_neverMatches _ t _
        (neverMatches_of_trigger _ _ breakRule_trigger t
          (fun c hc => by simpa using ht c hc) _)
    rw [List.nil_append, replaceAll_zero_cons]
    simp only [breakRule, if_true, Nat.sub_self, h]
    rfl
  | cons c rest ih =>
    intro p
    have hc := hpre c (List.mem_cons_self _ _)
    rw [List.cons_append, replaceAll_zero_cons, breakRule_trigger p c _ (by simpa using hc)]
    simp only
    rw [ih (fun x hx => hpre x (List.mem_cons_of_mem _ hx))]
    rfl

theorem splitBlocks_break (t : Str) (hne : t ≠ []) (ht : ∀ x ∈ t, x ≠ '\n') :
    splitBlocks false ('\n' :: t) = ['\n' :: t] := by
  cases t with
  | nil => exact absurd rfl hne
  | cons x r =>
    have hx := ht x (List.mem_cons_self _ _)
    rw [splitBlocks, if_neg (by simp [hx]), splitBlocks_single _ ht]

/-- An opening fence at the start of a text and one line: for an opening fence (three
backticks, a language tag of
letters, digits, `+` and `-`, a line feed) followed by one line `t` of plain characters
that is not empty, has no white space at its ends and starts no list item,
`markdownToHtml` gives one paragraph with the three backticks, the language tag, a `br`
element and `t`: no `pre` element, and the fence and the text after it as they were. -/
theorem markdownToHtml_open_fence (lang t : Str)
    (hl : ∀ c ∈ lang, isLangChar c = true) (ht : ∀ c ∈ t, isPlainChar c = true)
    (hne : t ≠ []) (htrim : trim t = t)
    (hu : itemStart false t = false) (ho : itemStart true t = false) :
    markdownToHtml ("```".toList ++ lang ++ '\n' :: t) =
      "<p>```".toList ++ lang ++ "<br/>".toList ++ t ++ "</p>".toList := by
  have hmem : ∀ c ∈ "```".toList ++ lang ++ '\n' :: t,
      c = Char.ofNat 96 ∨ isLangChar c = true ∨ c = '\n' ∨ isPlainChar c = true := by
    intro c hc
    simp only [List.mem_append, List.mem_cons] at hc
    rcases hc with (hc | hc) | rfl | hc
    · simp only [String.toList, List.mem_cons, List.mem_singleton, List.not_mem_nil,
        or_false, or_self] at hc
      exact Or.inl hc
    · exact Or.inr (Or.inl (hl c hc))
    · exact Or.inr (Or.inr (Or.inl rfl))
    · exact Or.inr (Or.inr (Or.inr (ht c hc)))
  have hnot : ∀ x : Char, x ≠ Char.ofNat 96 → isLangChar x = false → x ≠ '\n' →
      isPlainChar x = false → ∀ c ∈ "```".toList ++ lang ++ '\n' :: t, c ≠ x := by
    intro x h1 h2 h3 h4 c hc hx
    subst hx
    rcases hmem c hc with h | h | h | h
    · exact h1 h
    · rw [h2] at h
      cases h
    · exact h3 h
    · rw [h4] at h
      cases h
  have hesc : escapeHtml ("```".toList ++ lang ++ '\n' :: t) =
      "```".toList ++ lang ++ '\n' :: t := by
    apply escapeHtml_id
    intro c hc
    rcases hmem c hc with rfl | h | rfl | h
    · rfl
    · exact escapeChar_of_lang c h
    · rfl
    · exact escapeChar_of_plain c h
  have hcr := normalizeNewlines_id _
    (hnot '\r' (by decide) (by decide) (by decide) (by decide))
  have hlangtick : Char.ofNat 96 ∉ lang := fun hc => absurd (hl _ hc) (by decide)
  have htick : Char.ofNat 96 ∉ t := fun hc => absurd (ht _ hc) (by decide)
  have hfence : extractFences 0 0 ("```".toList ++ lang ++ '\n' :: t) =
      ("```".toList ++ lang ++ '\n' :: t, []) := by
    apply extractFences_id
    simp only [List.count_append, List.count_cons, List.count_eq_zero_of_not_mem hlangtick,
      List.count_eq_zero_of_not_mem htick]
    decide
  have hhash : ∀ c ∈ "```".toList ++ lang ++ '\n' :: t, (c == '#') = false :=
    fun c hc => by simpa using hnot '#' (by decide) (by decide) (by decide) (by decide) c hc
  have hamp := hnot '&' (by decide) (by decide) (by decide) (by decide)
  have hpre : ∀ x ∈ [Char.ofNat 96, Char.ofNat 96] ++ lang, x ≠ '\n' := by
    intro x hx hn
    subst hn
    rcases List.mem_append.mp hx with h | h
    · exact absurd h (by decide)
    · exact absurd (hl _ h) (by decide)
  have hpre3 : ∀ x ∈ "```".toList ++ lang, x ≠ '\n' := by
    intro x hx hn
    subst hn
    rcases List.mem_append.mp hx with h | h
    · exact absurd h (by decide)
    · exact absurd (hl _ h) (by decide)
  have htn : ∀ x ∈ t, x ≠ '\n' := by
    intro x hx hn
    subst hn
    exact absurd (ht _ hx) (by decide)
  have hshape : "```".toList ++ lang ++ '\n' :: t =
      Char.ofNat 96 :: ([Char.ofNat 96, Char.ofNat 96] ++ lang) ++ '\n' :: t := rfl
  have hul : replaceAll (anchored (listBlock false) (renderList false)) none 0
      ("```".toList ++ lang ++ '\n' :: t) = "```".toList ++ lang ++ '\n' :: t := by
    rw [hshape]
    exact anchored_break_id _ _ _ _ _ (by decide) hpre htn rfl (by simp [listBlock, hu])
  have hol : replaceAll (anchored (listBlock true) (renderList true)) none 0
      ("```".toList ++ lang ++ '\n' :: t) = "```".toList ++ lang ++ '\n' :: t := by
    rw [hshape]
    exact anchored_break_id _ _ _ _ _ (by decide) hpre htn rfl (by simp [listBlock, ho])
  have hstar : ∀ c ∈ "```".toList ++ lang ++ '\n' :: t, (c == '*') = false :=
    fun c hc => by simpa using hnot '*' (by decide) (by decide) (by decide) (by decide) c hc
  have hstrong : replaceAll (spanRule "**".toList "<strong>".toList "</strong>".toList)
      none 0 ("```".toList ++ lang ++ '\n' :: t) = "```".toList ++ lang ++ '\n' :: t :=
    replaceAll_of_neverMatches _ _ none
      (neverMatches_of_trigger _ (fun c => c == '*')
        (fun p c r hc => spanRule_trigger ['*'] _ _ p c r hc) _ hstar none)
  have hem : replaceAll (spanRule "*".toList "<em>".toList "</em>".toList)
      none 0 ("```".toList ++ lang ++ '\n' :: t) = "```".toList ++ lang ++ '\n' :: t :=
    replaceAll_of_neverMatches _ _ none
      (neverMatches_of_trigger _ (fun c => c == '*')
        (fun p c r hc => spanRule_trigger [] _ _ p c r hc) _ hstar none)
  have hcode : replaceAll codeRule none 0 ("```".toList ++ lang ++ '\n' :: t) =
      "```".toList ++ lang ++ '\n' :: t := by
    rw [List.append_assoc]
    apply code_open_fence
    intro hc
    rcases List.mem_append.mp hc with h | h
    · exact hlangtick h
    · rcases List.mem_cons.mp h with h | h
      · exact absurd h (by decide)
      · exact htick h
  have hlink : replaceAll linkRule none 0 ("```".toList ++ lang ++ '\n' :: t) =
      "```".toList ++ lang ++ '\n' :: t :=
    replaceAll_of_neverMatches _ _ none
      (neverMatches_of_trigger _ _ linkRule_trigger _ (fun c hc => by
        simpa using hnot '[' (by decide) (by decide) (by decide) (by decide) c hc) none)
  have hsplit : splitBlocks false ("```".toList ++ lang ++ '\n' :: t) =
      ["```".toList ++ lang ++ '\n' :: t] :=
    splitBlocks_append_single _ _ hpre3 (splitBlocks_break t hne htn)
  have htrimS : trim ("```".toList ++ lang ++ '\n' :: t) =
      "```".toList ++ lang ++ '\n' :: t := by
    obtain ⟨a, y, rfl⟩ : ∃ a y, t = a ++ [y] :=
      ⟨t.dropLast, t.getLast hne, (List.dropLast_append_getLast hne).symm⟩
    rw [hshape]
    exact trim_of_ends (Char.ofNat 96) y _
      ("```".toList ++ lang ++ '\n' :: a) (by simp) (by decide)
      (last_of_trim a y htrim)
  have hwrap : wrapBlock ("```".toList ++ lang ++ '\n' :: t) =
      "<p>".toList ++ ("```".toList ++ lang ++ "<br/>".toList ++ t) ++ "</p>".toList := by
    rw [wrapBlock_paragraph _ htrimS (by simp) rfl rfl, break_single _ t hpre3 htn]
  have hempty : ("```".toList ++ lang ++ '\n' :: t).isEmpty = false := rfl
  have hzero : ∀ c ∈ "<p>".toList ++ ("```".toList ++ lang ++ "<br/>".toList ++ t) ++
      "</p>".toList, c ≠ '\x00' := by
    intro c hc hz
    subst hz
    simp only [List.mem_append] at hc
    rcases hc with (h | (((h | h) | h) | h)) | h
    · exact absurd h (by decide)
    · exact absurd h (by decide)
    · exact absurd (hl _ h) (by decide)
    · exact absurd h (by decide)
    · exact absurd (ht _ h) (by decide)
    · exact absurd h (by decide)
  rw [markdownToHtml, hempty]
  simp only [Bool.false_eq_true, if_false]
  rw [hesc, hcr, hfence]
  simp only
  rw [headings_id _ hhash, quote_id _ hamp, hul, hol, hstrong, hem, hcode, hlink, hsplit]
  simp only [List.map_cons, List.map_nil, hwrap]
  rw [show filterNonEmpty ["<p>".toList ++ ("```".toList ++ lang ++ "<br/>".toList ++ t) ++
      "</p>".toList] = ["<p>".toList ++ ("```".toList ++ lang ++ "<br/>".toList ++ t) ++
      "</p>".toList] from rfl]
  rw [joinWith, placeholder_id _ _ hzero]
  simp

/-- The opening fence with the tag `js` and the line `plain text` after it. -/
theorem markdownToHtml_open_fence_witness :
    markdownToHtml "```js\nplain text".toList = "<p>```js<br/>plain text</p>".toList :=
  markdownToHtml_open_fence "js".toList "plain text".toList (by decide) (by decide)
    (by decide) (by decide) (by decide) (by decide)

/-- C17, as stated, fails: after an opening fence without closing fence, the inline
code rule takes the third backtick of the fence and the line feed as a code span.  And
the other rules rewrite the text after the fence as they do anywhere else: a heading,
bold and emphasised text, a link, a quote, the items of a list, a placeholder pattern
(replaced by nothing), and a heading after a carriage return. -/
theorem markdownToHtml_open_fence_consumed :
    markdownToHtml [Char.ofNat 96, Char.ofNat 96, Char.ofNat 96, '\n', Char.ofNat 96, 'x',
        Char.ofNat 96] =
      "<p>".toList ++ [Char.ofNat 96, Char.ofNat 96] ++ "<code><br/></code>x".toList ++
        [Char.ofNat 96] ++ "</p>".toList ∧
    markdownToHtml "```\n# h".toList = "<p>```<br/><h1>h</h1></p>".toList ∧
    markdownToHtml "```\n**b**".toList = "<p>```<br/><strong>b</strong></p>".toList ∧
    markdownToHtml "```\n*b*".toList = "<p>```<br/><em>b</em></p>".toList ∧
    markdownToHtml "```\n[a](b)".toList =
      "<p>```<br/><a href=\"b\" rel=\"noopener\" target=\"_blank\">a</a></p>".toList ∧
    markdownToHtml "```\n> q".toList = "<p>```<br/><blockquote>q</blockquote></p>".toList ∧
    markdownToHtml "```\n- a".toList = "<p>```<br/><ul><li>a</li></ul></p>".toList ∧
    markdownToHtml "```\n1. a".toList = "<p>```<br/><ol><li>a</li></ol></p>".toList ∧
    markdownToHtml "```\n\x00CODE0\x00".toList = "<p>```<br/></p>".toList ∧
    markdownToHtml "```\r# h".toList = "<p>```\r<h1>h</h1></p>".toList := by
  decide

/-! ## `markdownToHtml` on one fenced block -/

theorem escapeHtml_no_tick (s : Str) (h : Char.ofNat 96 ∉ s) :
    Char.ofNat 96 ∉ escapeHtml s := by
  induction s with
  | nil => simp [escapeHtml]
  | cons c rest ih =>
    have hc : Char.ofNat 96 ≠ c := fun hh => h (hh ▸ List.mem_cons_self _ _)
    have hr : Char.ofNat 96 ∉ rest := fun hh => h (List.mem_cons_of_mem _ hh)
    intro hmem
    rw [escapeHtml] at hmem
    rcases List.mem_append.mp hmem with h1 | h1
    · unfold escapeChar at h1
      split_ifs at h1
      · exact absurd h1 (by decide)
      · exact absurd h1 (by decide)
      · exact absurd h1 (by decide)
      · exact absurd h1 (by decide)
      · exact absurd h1 (by decide)
      · exact hc (List.mem_singleton.mp h1)
    · exact ih hr h1

theorem normalizeNewlines_append_left (pre y : Str) (h : ∀ c ∈ pre, c ≠ '\r') :
    normalizeNewlines (pre ++ y) = pre ++ normalizeNewlines y := by
  induction pre with
  | nil => rfl
  | cons c rest ih =>
    have hc : c ≠ '\r' := h c (List.mem_cons_self _ _)
    rw [List.cons_append, normalizeNewlines, if_neg (fun hh => hc hh.1),
      ih (fun x hx => h x (List.mem_cons_of_mem _ hx))]
    rfl

theorem normalizeNewlines_append_right (y z : Str) (hz : normalizeNewlines z = z)
    (hhead : z.head? ≠ some '\n') :
    normalizeNewlines (y ++ z) = normalizeNewlines y ++ z := by
  induction y with
  | nil => exact hz
  | cons c rest ih =>
    have hh : (rest ++ z).head? = some '\n' ↔ rest.head? = some '\n' := by
      cases rest with
      | nil => simp [hhead]
      | cons _ _ => simp
    by_cases hc : c = '\r' ∧ rest.head? = some '\n'
    · rw [List.cons_append, normalizeNewlines, if_pos ⟨hc.1, hh.mpr hc.2⟩, ih,
        normalizeNewlines, if_pos hc]
    · rw [List.cons_append, normalizeNewlines, if_neg (fun h => hc ⟨h.1, hh.mp h.2⟩), ih,
        normalizeNewlines, if_neg hc]
      rfl

theorem lazyScan_found (ok : Char → Bool) (hok : ∀ c, ok c = true) (code rest : Str)
    (h : Char.ofNat 96 ∉ code) :
    lazyScan ok "```".toList (code ++ "```".toList ++ rest) = some code := by
  induction code with
  | nil =>
    cases rest <;> simp [lazyScan, startsWith, List.isPrefixOf]
  | cons c u ih =>
    have hc : (Char.ofNat 96 == c) = false := by
      simp only [beq_eq_false_iff_ne, ne_eq]
      exact fun hh => h (hh ▸ List.mem_cons_self _ _)
    have hu := ih (fun hh => h (List.mem_cons_of_mem _ hh))
    rw [List.cons_append, List.cons_append, lazyScan]
    have hs : startsWith "```".toList (c :: (u ++ "```".toList ++ rest)) = false := by
      simp [startsWith, List.isPrefixOf, hc]
    rw [hs, hu]
    simp [hok c]

theorem extractFences_skip_all (s : Str) :
    ∀ n k, s.length ≤ k → extractFences n k s = ([], []) := by
  induction s with
  | nil =>
    intro n k _
    cases k <;> rfl
  | cons c rest ih =>
    intro n k hk
    cases k with
    | zero => simp at hk
    | succ k =>
      rw [extractFences]
      exact ih _ _ (by simpa using hk)

/-- The match of `CODE_FENCE` on a text that is one fence. -/
theorem matchFence_whole (lang code : Str) (hl : ∀ c ∈ lang, isLangChar c = true)
    (hc : Char.ofNat 96 ∉ code) :
    matchFence ("```".toList ++ (lang ++ '\n' :: (code ++ "```".toList))) =
      some (3 + lang.length + 1 + code.length + 3, lang, code) := by
  have h1 : startsWith "```".toList
      ("```".toList ++ (lang ++ '\n' :: (code ++ "```".toList))) = true := by
    simp [startsWith, List.isPrefixOf]
  have h2 : ("```".toList ++ (lang ++ '\n' :: (code ++ "```".toList))).drop 3 =
      lang ++ '\n' :: (code ++ "```".toList) := rfl
  have h3 := takeWhile_eq_self isLangChar lang ('\n' :: (code ++ "```".toList)) hl
    (fun c hh => by
      simp only [List.head?_cons, Option.some.injEq] at hh
      subst hh
      decide)
  have h4 := lazyScan_found (fun _ => true) (fun _ => rfl) code [] hc
  rw [List.append_nil] at h4
  rw [matchFence, h1]
  simp only [if_true, h2, h3.1, h3.2, h4]

/-- A text that is one fence becomes the placeholder of index `n`, and its code block is
pushed. -/
theorem extractFences_whole (n : Nat) (s : Str) (m : Nat × Str × Str) (hne : s ≠ [])
    (hm : matchFence s = some m) (hlen : s.length ≤ m.1) :
    extractFences n 0 s = (codeToken n, [renderCodeBlock m.2.1 m.2.2]) := by
  cases s with
  | nil => exact absurd rfl hne
  | cons c rest =>
    rw [extractFences, hm]
    simp only
    rw [extractFences_skip_all rest _ _ (by simp only [List.length_cons] at hlen; omega)]
    simp

/-- The rules after the extraction of the fences leave the first placeholder alone, and
the last replacement puts the first code block in its place. -/
theorem placeholder_pipeline (block : Str) :
    replaceAll (placeholderRule [block]) none 0
      (joinWith ['\n'] (filterNonEmpty ((splitBlocks false
        (replaceAll linkRule none 0 (replaceAll codeRule none 0
          (replaceAll (spanRule "*".toList "<em>".toList "</em>".toList) none 0
            (replaceAll (spanRule "**".toList "<strong>".toList "</strong>".toList) none 0
              (replaceAll (anchored (listBlock true) (renderList true)) none 0
                (replaceAll (anchored (listBlock false) (renderList false)) none 0
                  (replaceAll (anchored quoteBlock renderQuote) none 0
                    (replaceAll (headingRule 1) none 0 (replaceAll (headingRule 2) none 0
                      (replaceAll (headingRule 3) none 0
                        (replaceAll (headingRule 4) none 0
                          (replaceAll (headingRule 5) none 0
                            (replaceAll (headingRule 6) none 0
                              (codeToken 0))))))))))))))).map wrapBlock))) = block := by
  have h : joinWith ['\n'] (filterNonEmpty ((splitBlocks false
      (replaceAll linkRule none 0 (replaceAll codeRule none 0
        (replaceAll (spanRule "*".toList "<em>".toList "</em>".toList) none 0
          (replaceAll (spanRule "**".toList "<strong>".toList "</strong>".toList) none 0
            (replaceAll (anchored (listBlock true) (renderList true)) none 0
              (replaceAll (anchored (listBlock false) (renderList false)) none 0
                (replaceAll (anchored quoteBlock renderQuote) none 0
                  (replaceAll (headingRule 1) none 0 (replaceAll (headingRule 2) none 0
                    (replaceAll (headingRule 3) none 0
                      (replaceAll (headingRule 4) none 0
                        (replaceAll (headingRule 5) none 0
                          (replaceAll (headingRule 6) none 0
                            (codeToken 0))))))))))))))).map wrapBlock)) = codeToken 0 := by
    decide
  rw [h]
  exact replaceAll_whole _ _ _ (by decide) rfl

/-- The rendering of a text that is one fenced block (three backticks, a language
tag of letters, digits, `+` and `-`, a line feed, a content without backtick, three
backticks), `markdownToHtml` gives the code block of `renderCodeBlock` around the escaped
content, and nothing else: a line of the content that begins with `#` is in the code
block, and no heading. -/
theorem markdownToHtml_fence (lang code : Str) (hl : ∀ c ∈ lang, isLangChar c = true)
    (hc : Char.ofNat 96 ∉ code) :
    markdownToHtml ("```".toList ++ (lang ++ '\n' :: (code ++ "```".toList))) =
      renderCodeBlock lang (normalizeNewlines (escapeHtml code)) := by
  have hesc : escapeHtml ("```".toList ++ (lang ++ '\n' :: (code ++ "```".toList))) =
      "```".toList ++ (lang ++ '\n' :: (escapeHtml code ++ "```".toList)) := by
    rw [escapeHtml_append, escapeHtml_append,
      escapeHtml_id lang (fun c h => escapeChar_of_lang c (hl c h)),
      show escapeHtml ('\n' :: (code ++ "```".toList)) =
        '\n' :: escapeHtml (code ++ "```".toList) from rfl, escapeHtml_append]
    rfl
  have hpre : ∀ c ∈ "```".toList ++ lang ++ ['\n'], c ≠ '\r' := by
    intro c h hr
    subst hr
    simp only [List.mem_append] at h
    rcases h with (h | h) | h
    · exact absurd h (by decide)
    · exact absurd (hl _ h) (by decide)
    · exact absurd h (by decide)
  have hnorm : normalizeNewlines
      ("```".toList ++ (lang ++ '\n' :: (escapeHtml code ++ "```".toList))) =
      "```".toList ++ (lang ++ '\n' :: (normalizeNewlines (escapeHtml code) ++
        "```".toList)) := by
    have h1 : "```".toList ++ (lang ++ '\n' :: (escapeHtml code ++ "```".toList)) =
        ("```".toList ++ lang ++ ['\n']) ++ (escapeHtml code ++ "```".toList) := by simp
    rw [h1, normalizeNewlines_append_left _ _ hpre,
      normalizeNewlines_append_right _ _ (by decide) (by decide)]
    simp
  have htick : Char.ofNat 96 ∉ normalizeNewlines (escapeHtml code) :=
    fun h => escapeHtml_no_tick code hc (mem_normalizeNewlines _ _ h)
  have hfence := extractFences_whole 0 _ _ (by simp)
    (matchFence_whole lang (normalizeNewlines (escapeHtml code)) hl htick)
    (by simp only [List.length_append, List.length_cons, String.toList, List.length_nil]
        omega)
  rw [markdownToHtml, show ("```".toList ++
    (lang ++ '\n' :: (code ++ "```".toList))).isEmpty = false from rfl]
  simp only [Bool.false_eq_true, if_false]
  rw [hesc, hnorm, hfence]
  exact placeholder_pipeline _

/-- The rendering of one fenced block with the tag `js` and the line `# x`. -/
theorem markdownToHtml_fence_witness :
    Char.ofNat 96 ∉ "# x\n".toList ∧
    markdownToHtml ("```".toList ++ ("js".toList ++ '\n' :: ("# x\n".toList ++ "```".toList))) =
      "<pre><code class=\"language-js\" data-lang=\"js\"># x</code></pre>".toList :=
  ⟨by decide, (markdownToHtml_fence "js".toList "# x\n".toList (by decide) (by decide)).trans
    (by decide)⟩

/-- C15, as stated, fails: with the language tag `c#`, which has a character that the
fence expression does not take, the text is no fence for the renderer, and the line
`# x` between the backticks becomes a heading of level 1; and after the text U+0000
`CODE9`, the last replacement takes the first U+0000 of the placeholder of the fence for
the end of a placeholder with the index 9, and the code block is not in the output at
all. -/
theorem markdownToHtml_fence_tag_heading :
    markdownToHtml ("```".toList ++ "c#\n# x\n".toList ++ "```".toList) =
      "<p>".toList ++ [Char.ofNat 96, Char.ofNat 96] ++
        "<code>c#<br/><h1>x</h1><br/></code>".toList ++ [Char.ofNat 96, Char.ofNat 96] ++
        "</p>".toList ∧
    markdownToHtml "\x00CODE9```\n# x\n```".toList = "<p>CODE0\x00</p>".toList := by
  decide

/-! ## The roles of the contributors -/

theorem foldl_min_le (ws : List Nat) : ∀ (w x : Nat),
    ws.foldl min w ≤ x ↔ w ≤ x ∨ ∃ y ∈ ws, y ≤ x := by
  induction ws with
  | nil => intro w x; simp
  | cons v rest ih =>
    intro w x
    rw [List.foldl_cons, ih]
    simp only [List.mem_cons, exists_eq_or_imp, min_le_iff]
    tauto

theorem contributorRoleWeight_of_isRole (r : Str) (h : isRole r = true) :
    contributorRoleWeight r = some (roleRank r) ∧ 1 ≤ roleRank r ∧ r ≠ [] := by
  simp only [isRole, Bool.or_eq_true, beq_iff_eq] at h
  rcases h with (h | h) | h <;> subst h <;> refine ⟨by decide, by decide, by decide⟩

theorem filterMap_weight_of_roles (A : List Str) (hA : ∀ a ∈ A, isRole a = true) :
    A.filterMap contributorRoleWeight = A.map roleRank ∧ filterNonEmpty A = A := by
  induction A with
  | nil => exact ⟨rfl, rfl⟩
  | cons a rest ih =>
    obtain ⟨h1, _, h3⟩ := contributorRoleWeight_of_isRole a (hA a (List.mem_cons_self _ _))
    obtain ⟨ih1, ih2⟩ := ih (fun x hx => hA x (List.mem_cons_of_mem _ hx))
    constructor
    · rw [List.filterMap_cons, h1, ih1]
      rfl
    · have hne : a.isEmpty = false := by
        cases a with
        | nil => exact absurd rfl h3
        | cons _ _ => rfl
      unfold filterNonEmpty at ih2 ⊢
      rw [List.filter_cons, hne, ih2]
      rfl

/-- C30: for a role `r` among `viewer`, `editor`, `owner` and a list `A` of such roles
that is not empty, `isRoleAllowed` is true exactly when the weight of `r` is at least
the weight of some role of `A`, that is at least the smallest weight among `A`; so a role
of greater weight than an allowed role is allowed; and for a missing role, an empty role
name, an empty `A` or a missing `A` the result is false. -/
theorem isRoleAllowed_weight :
    (∀ (r : Str) (A : List Str), isRole r = true → A ≠ [] → (∀ a ∈ A, isRole a = true) →
      (isRoleAllowed (some r) (.many A) = true ↔ ∃ a ∈ A, roleRank a ≤ roleRank r)) ∧
    (∀ (r r2 : Str) (A : List Str), isRole r = true → isRole r2 = true → A ≠ [] →
      (∀ a ∈ A, isRole a = true) → roleRank r ≤ roleRank r2 →
      isRoleAllowed (some r) (.many A) = true → isRoleAllowed (some r2) (.many A) = true) ∧
    (∀ A : AllowedRoles, isRoleAllowed none A = false ∧ isRoleAllowed (some []) A = false) ∧
    (∀ r : Option Str, isRoleAllowed r (.many []) = false ∧
      isRoleAllowed r .missing = false) := by
  have key : ∀ (r : Str) (A : List Str), isRole r = true → A ≠ [] →
      (∀ a ∈ A, isRole a = true) →
      (isRoleAllowed (some r) (.many A) = true ↔ ∃ a ∈ A, roleRank a ≤ roleRank r) := by
    intro r A hr hne hA
    obtain ⟨h1, _, h3⟩ := contributorRoleWeight_of_isRole r hr
    obtain ⟨h4, h5⟩ := filterMap_weight_of_roles A hA
    have hre : r.isEmpty = false := by
      cases r with
      | nil => exact absurd rfl h3
      | cons _ _ => rfl
    obtain ⟨a, rest, rfl⟩ : ∃ a rest, A = a :: rest := by
      cases A with
      | nil => exact absurd rfl hne
      | cons a rest => exact ⟨a, rest, rfl⟩
    unfold isRoleAllowed
    simp only [normalizeRoles, h5, List.isEmpty_cons, Bool.false_eq_true, if_false, hre, h4,
      List.map_cons, h1]
    by_cases hin : (a :: rest).contains r = true
    · rw [if_pos hin]
      simp only [true_iff]
      exact ⟨r, by simpa using hin, le_refl _⟩
    · rw [if_neg hin]
      simp only [decide_eq_true_eq, foldl_min_le, List.mem_map, List.mem_cons,
        exists_eq_or_imp]
      constructor
      · rintro (h | ⟨y, ⟨x, hx, rfl⟩, hy⟩)
        · exact Or.inl h
        · exact Or.inr ⟨x, hx, hy⟩
      · rintro (h | ⟨x, hx, hy⟩)
        · exact Or.inl h
        · exact Or.inr ⟨roleRank x, ⟨x, hx, rfl⟩, hy⟩
  refine ⟨key, ?_, ?_, ?_⟩
  · intro r r2 A hr hr2 hne hA hle h
    obtain ⟨a, ha, hw⟩ := (key r A hr hne hA).mp h
    exact (key r2 A hr2 hne hA).mpr ⟨a, ha, le_trans hw hle⟩
  · intro A
    constructor
    · unfold isRoleAllowed
      simp only
      split <;> rfl
    · unfold isRoleAllowed
      simp only [List.isEmpty_nil, if_true]
      split <;> rfl
  · intro r
    exact ⟨rfl, rfl⟩

/-- C30 on the list of the roles `editor` and `owner`: an editor is allowed, a viewer is
not. -/
theorem isRoleAllowed_weight_witness :
    (isRoleAllowed (some "editor".toList) (.many ["editor".toList, "owner".toList]) = true ↔
      ∃ a ∈ ["editor".toList, "owner".toList], roleRank a ≤ roleRank "editor".toList) ∧
    isRoleAllowed (some "viewer".toList) (.many ["editor".toList, "owner".toList]) = false ∧
    isRoleAllowed (some "owner".toList) (.many ["viewer".toList]) = true :=
  ⟨isRoleAllowed_weight.1 "editor".toList ["editor".toList, "owner".toList] (by decide)
    (by decide) (by decide), by decide, by decide⟩

/-! ## The lists of the serializer -/

theorem listLines_unordered (f : List (Str × Str) × List Node → Str)
    (items : List (List (Str × Str) × List Node)) : ∀ i,
    listLines false i (items.map f) =
      (items.map (fun item => "- ".toList ++ trim (f item) ++ ['\n'])).flatten := by
  induction items with
  | nil => intro i; rfl
  | cons item rest ih =>
    intro i
    simp only [List.map_cons, listLines, Bool.false_eq_true, if_false, ih, List.flatten_cons]

theorem listLines_ordered (f : List (Str × Str) × List Node → Str)
    (items : List (List (Str × Str) × List Node)) : ∀ i,
    listLines true i (items.map f) =
      ((items.enumFrom i).map (fun p =>
        Nat.toDigits 10 (p.1 + 1) ++ ". ".toList ++ trim (f p.2) ++ ['\n'])).flatten := by
  induction items with
  | nil => intro i; rfl
  | cons item rest ih =>
    intro i
    simp only [List.map_cons, listLines, if_true, ih, List.enumFrom_cons, List.flatten_cons]

theorem walkItems_items (tag : Str) (items : List (List (Str × Str) × List Node)) :
    walkItems tag (items.map (fun i => Node.element "li".toList i.1 i.2)) =
      items.map (fun i => walkAll "li".toList i.2) := by
  induction items with
  | nil => rfl
  | cons item rest ih =>
    rw [List.map_cons, walkItems, ih]
    simp [walkElement]

theorem walkItems_filter (tag : Str) (children : List Node) :
    walkItems tag (children.filter isElement) = walkItems tag children := by
  induction children with
  | nil => rfl
  | cons n rest ih =>
    cases n with
    | text v => simpa [List.filter, isElement, walkItems] using ih
    | other => simpa [List.filter, isElement, walkItems] using ih
    | element t a c =>
      simp only [List.filter, isElement, walkItems, ih]

/-- C21: for a list container whose element children are the `li` items `i1..in`, `walk`
emits for each item, in order, `- ` (in a `ul`) or the 1-based position of the item, a
dot and a space (in an `ol`), then the trimmed markdown of the content of the item and a
line feed, and one more line feed after the last item; the text nodes and comments
between the items count for nothing. -/
theorem walk_list (parentTag : Str) (attrs : List (Str × Str)) :
    (∀ items : List (List (Str × Str) × List Node),
      walk parentTag (.element "ul".toList attrs
          (items.map (fun i => Node.element "li".toList i.1 i.2))) =
        (items.map (fun i =>
          "- ".toList ++ trim (walkAll "li".toList i.2) ++ ['\n'])).flatten ++ ['\n']) ∧
    (∀ items : List (List (Str × Str) × List Node),
      walk parentTag (.element "ol".toList attrs
          (items.map (fun i => Node.element "li".toList i.1 i.2))) =
        (items.enum.map (fun p =>
          Nat.toDigits 10 (p.1 + 1) ++ ". ".toList ++ trim (walkAll "li".toList p.2.2) ++
            ['\n'])).flatten ++ ['\n']) ∧
    (∀ children : List Node,
      walk parentTag (.element "ul".toList attrs children) =
        walk parentTag (.element "ul".toList attrs (children.filter isElement)) ∧
      walk parentTag (.element "ol".toList attrs children) =
        walk parentTag (.element "ol".toList attrs (children.filter isElement))) := by
  have hul : ∀ (childMd : Str) (its : List Str) (cc : Option (List (Str × Str) × Str)),
      walkElement parentTag "ul".toList attrs childMd its cc =
        listLines false 0 its ++ ['\n'] := by
    intro childMd its cc
    simp [walkElement]
  have hol : ∀ (childMd : Str) (its : List Str) (cc : Option (List (Str × Str) × Str)),
      walkElement parentTag "ol".toList attrs childMd its cc =
        listLines true 0 its ++ ['\n'] := by
    intro childMd its cc
    simp [walkElement]
  refine ⟨?_, ?_, ?_⟩
  · intro items
    rw [walk, hul, walkItems_items, listLines_unordered]
  · intro items
    rw [walk, hol, walkItems_items, listLines_ordered]
    rfl
  · intro children
    constructor
    · rw [walk, walk, hul, hul, walkItems_filter]
    · rw [walk, walk, hol, hol, walkItems_filter]

/-- C21 on a list of two items between line feeds, as `ul` and as `ol`: the content of
each item is trimmed, and the positions are 1 and 2. -/
theorem walk_list_witness :
    walk "div".toList (.element "ul".toList []
        [.text "\n".toList, .element "li".toList [] [.text " a ".toList],
         .text "\n".toList, .element "li".toList [] [.text "b".toList]]) =
      "- a\n- b\n\n".toList ∧
    walk "div".toList (.element "ol".toList []
        ([([], [Node.text " a ".toList]), ([], [Node.text "b".toList])].map
          (fun i => Node.element "li".toList i.1 i.2))) =
      "1. a\n2. b\n\n".toList :=
  ⟨((walk_list "div".toList []).2.2 _).1.trans
      (((walk_list "div".toList []).1
        [([], [Node.text " a ".toList]), ([], [Node.text "b".toList])]).trans (by decide)),
    ((walk_list "div".toList []).2.1
      [([], [Node.text " a ".toList]), ([], [Node.text "b".toList])]).trans (by decide)⟩

/-! ## The editor modes -/

/-- C22: `setMode` with the mode that is active leaves the state as it is; from
`markdown` to `rtf` the view becomes what the parser makes of
`markdownToHtml(markdown source)`, the markdown source stays, and the stored range and
the selection become the collapsed range at the end of the content; from `rtf` to
`markdown` the markdown source becomes `htmlToMarkdown` of the HTML of the view, and the
view, the stored range and the selection stay. -/
theorem setMode_two_states (parseHtml : Str → List Node) (serializeHtml : List Node → Str)
    (s : EditorState) :
    setMode parseHtml serializeHtml s.editorMode s = s ∧
    (s.editorMode = "markdown".toList →
      setMode parseHtml serializeHtml "rtf".toList s =
        { editorMode := "rtf".toList, markdown := s.markdown,
          view := parseHtml (markdownToHtml s.markdown),
          savedRange := some (.rootEnd, .rootEnd),
          selection := some (.rootEnd, .rootEnd) }) ∧
    (s.editorMode = "rtf".toList →
      setMode parseHtml serializeHtml "markdown".toList s =
        { editorMode := "markdown".toList,
          markdown := htmlToMarkdownOf parseHtml (serializeHtml s.view),
          view := s.view, savedRange := s.savedRange, selection := s.selection }) := by
  refine ⟨?_, ?_, ?_⟩
  · simp [setMode]
  · intro h
    obtain ⟨mode, md, view, saved, sel⟩ := s
    simp only at h
    subst h
    rfl
  · intro h
    obtain ⟨mode, md, view, saved, sel⟩ := s
    simp only at h
    subst h
    rfl

/-- C22 on the state of a new editor with the markdown source `# Hi`, for a parser that
is a stand-in (one text node with the HTML text): the switch to `rtf` renders the source
and puts the caret at the end. -/
theorem setMode_two_states_witness :
    setMode (fun html => [Node.text html]) textContentAll "rtf".toList
        { editorMode := "markdown".toList, markdown := "# Hi".toList, view := [],
          savedRange := none, selection := none } =
      { editorMode := "rtf".toList, markdown := "# Hi".toList,
        view := [Node.text (markdownToHtml "# Hi".toList)],
        savedRange := some (.rootEnd, .rootEnd),
        selection := some (.rootEnd, .rootEnd) } :=
  (setMode_two_states (fun html => [Node.text html]) textContentAll
    { editorMode := "markdown".toList, markdown := "# Hi".toList, view := [],
      savedRange := none, selection := none }).2.1 rfl

/-! ## The text written on save -/

theorem findClosing_complete (fm rest : Str) :
    (findClosing (fm ++ "\n---".toList ++ rest)).isSome = true := by
  induction fm with
  | nil => simp [findClosing, startsWith, List.isPrefixOf]
  | cons c fm ih =>
    have h4 : c :: fm ++ "\n---".toList ++ rest = c :: (fm ++ "\n---".toList ++ rest) := by
      simp
    rw [h4, findClosing]
    split
    · rfl
    · cases hf : findClosing (fm ++ "\n---".toList ++ rest) with
      | none =>
        rw [hf] at ih
        cases ih
      | some r => rfl

/-- The test `hasFrontmatter` is true exactly for the texts that open with `---`, a line
feed, any text, a line feed and `---`. -/
theorem hasFrontmatter_iff (src : Str) :
    hasFrontmatter src = true ↔
      ∃ fm rest, src = "---\n".toList ++ fm ++ "\n---".toList ++ rest := by
  constructor
  · intro h
    simp only [hasFrontmatter, Bool.and_eq_true] at h
    obtain ⟨h1, h2⟩ := h
    cases hf : findClosing (src.drop 4) with
    | none =>
      rw [hf] at h2
      cases h2
    | some r =>
      have h3 := findClosing_sound (src.drop 4) r.1 r.2 (by simp [hf])
      have h4 := startsWith_eq_append h1
      refine ⟨r.1, r.2, ?_⟩
      rw [h4, show ("---\n".toList).length = 4 from rfl, h3]
      simp
  · rintro ⟨fm, rest, rfl⟩
    have h1 : startsWith "---\n".toList ("---\n".toList ++ fm ++ "\n---".toList ++ rest) =
        true := by
      simp [startsWith, List.isPrefixOf]
    have h2 : ("---\n".toList ++ fm ++ "\n---".toList ++ rest).drop 4 =
        fm ++ "\n---".toList ++ rest := by
      simp
    simp only [hasFrontmatter, h1, h2, findClosing_complete, Bool.and_self]

theorem matchFrontmatter_none_iff (src : Str) :
    matchFrontmatter src = none ↔ hasFrontmatter src = false := by
  unfold matchFrontmatter hasFrontmatter
  cases hs : startsWith "---\n".toList src
  · simp
  · cases hf : findClosing (src.drop 4) <;> simp

theorem matchFrontmatter_delimited (fm rest : Str)
    (h : hasSubstr "\n---".toList fm = false) :
    matchFrontmatter ("---\n".toList ++ fm ++ "\n---".toList ++ rest) =
      some (fm, match rest with
        | c :: body => if c = '\n' then body else c :: body
        | [] => []) := by
  have h1 : startsWith "---\n".toList ("---\n".toList ++ fm ++ "\n---".toList ++ rest) =
      true := by
    simp [startsWith, List.isPrefixOf]
  have h2 : ("---\n".toList ++ fm ++ "\n---".toList ++ rest).drop 4 =
      fm ++ "\n---".toList ++ rest := by
    simp
  rw [matchFrontmatter, h1, if_pos rfl, h2, findClosing_append fm rest h]

/-- C26: the text that `updatePost` writes.  An incoming content that opens with a
frontmatter block (`---`, a line feed, any text, a line feed, `---`) is written as it is,
whatever the updates; otherwise, when the stored file does not open with a frontmatter
block, the incoming content is written as it is; otherwise, with `fm` the frontmatter of
the stored file (the text up to the first line feed followed by `---`), the text written
is `---`, a line feed, `fm` updated (`fm` itself when there are no updates), a line feed,
`---`, two line feeds and the incoming content. -/
theorem composeSavedText_order (toISO : JSValue → Option Str) (originalRaw incoming : Str)
    (updates : ChangeSet) :
    ((∃ fm rest, incoming = "---\n".toList ++ fm ++ "\n---".toList ++ rest) →
      composeSavedText toISO originalRaw incoming updates = incoming) ∧
    ((¬ ∃ fm rest, incoming = "---\n".toList ++ fm ++ "\n---".toList ++ rest) →
      (¬ ∃ fm rest, originalRaw = "---\n".toList ++ fm ++ "\n---".toList ++ rest) →
      composeSavedText toISO originalRaw incoming updates = incoming) ∧
    ((¬ ∃ fm rest, incoming = "---\n".toList ++ fm ++ "\n---".toList ++ rest) →
      ∀ fm rest, hasSubstr "\n---".toList fm = false →
        originalRaw = "---\n".toList ++ fm ++ "\n---".toList ++ rest →
        composeSavedText toISO originalRaw incoming updates =
          "---\n".toList ++
            (if updates.isEmpty then fm else updateFrontmatter toISO fm updates) ++
            "\n---\n\n".toList ++ incoming) := by
  refine ⟨?_, ?_, ?_⟩
  · intro h
    rw [composeSavedText, if_pos ((hasFrontmatter_iff incoming).mpr h)]
  · intro h1 h2
    have h3 : hasFrontmatter incoming = false := by
      cases hh : hasFrontmatter incoming with
      | false => rfl
      | true => exact absurd ((hasFrontmatter_iff incoming).mp hh) h1
    have h4 : hasFrontmatter originalRaw = false := by
      cases hh : hasFrontmatter originalRaw with
      | false => rfl
      | true => exact absurd ((hasFrontmatter_iff originalRaw).mp hh) h2
    rw [composeSavedText, h3, splitFrontmatter, (matchFrontmatter_none_iff originalRaw).mpr h4]
    simp
  · intro h1 fm rest hfm horig
    have h3 : hasFrontmatter incoming = false := by
      cases hh : hasFrontmatter incoming with
      | false => rfl
      | true => exact absurd ((hasFrontmatter_iff incoming).mp hh) h1
    rw [composeSavedText, h3, splitFrontmatter, horig, matchFrontmatter_delimited fm rest hfm]
    simp

/-- C26 on a stored file with a frontmatter block, a plain incoming content and a new
title. -/
theorem composeSavedText_order_witness :
    composeSavedText (fun _ => none) "---\ntitle: \"A\"\n---\nold".toList "new".toList
        [("title".toList, .str "B".toList)] =
      "---\ntitle: \"B\"\n---\n\nnew".toList :=
  ((composeSavedText_order (fun _ => none) "---\ntitle: \"A\"\n---\nold".toList
      "new".toList [("title".toList, .str "B".toList)]).2.2
    (by
      rintro ⟨fm, rest, h⟩
      simp at h)
    "title: \"A\"".toList "\nold".toList (by decide) (by decide)).trans (by decide)

/-- C28: for a frontmatter text `fm` in which no line feed is followed by `---` and every
content `c`, `parseFrontmatter` reads the text `---`, line feed, `fm`, line feed, `---`,
two line feeds, `c` as the metadata of `fm` and the body made of one line feed and `c`,
which is not `c`; and this is the text that the save path writes for a content without
frontmatter over a stored file whose frontmatter, after the update, is `fm`. -/
theorem parseFrontmatter_saved_body (toISO : JSValue → Option Str) (fm c : Str)
    (h : hasSubstr "\n---".toList fm = false) :
    parseFrontmatter toISO ("---\n".toList ++ fm ++ "\n---\n\n".toList ++ c) =
      (parseLines toISO fm, '\n' :: c) ∧
    '\n' :: c ≠ c ∧
    (∀ (originalRaw fm0 rest : Str) (updates : ChangeSet),
      hasFrontmatter c = false →
      originalRaw = "---\n".toList ++ fm0 ++ "\n---".toList ++ rest →
      hasSubstr "\n---".toList fm0 = false →
      fm = (if updates.isEmpty then fm0 else updateFrontmatter toISO fm0 updates) →
      (parseFrontmatter toISO (composeSavedText toISO originalRaw c updates)).2 =
        '\n' :: c) := by
  have h1 : "---\n".toList ++ fm ++ "\n---\n\n".toList ++ c =
      "---\n".toList ++ fm ++ "\n---".toList ++ ('\n' :: '\n' :: c) := by
    simp
  have h2 : parseFrontmatter toISO ("---\n".toList ++ fm ++ "\n---\n\n".toList ++ c) =
      (parseLines toISO fm, '\n' :: c) := by
    rw [parseFrontmatter, h1, matchFrontmatter_delimited fm _ h]
    simp
  refine ⟨h2, ?_, ?_⟩
  · intro hc
    have := congrArg List.length hc
    simp at this
  · intro originalRaw fm0 rest updates hc horig hfm0 hfm
    have h3 : composeSavedText toISO originalRaw c updates =
        "---\n".toList ++ fm ++ "\n---\n\n".toList ++ c := by
      rw [composeSavedText, hc, splitFrontmatter, horig,
        matchFrontmatter_delimited fm0 rest hfm0, hfm]
      simp
    rw [h3, h2]

/-- C28 on the frontmatter `title: "A"` and the content `Hello`. -/
theorem parseFrontmatter_saved_body_witness :
    parseFrontmatter (fun _ => none) "---\ntitle: \"A\"\n---\n\nHello".toList =
      ([("title".toList, .str "A".toList)], "\nHello".toList) :=
  (parseFrontmatter_saved_body (fun _ => none) "title: \"A\"".toList "Hello".toList
    (by decide)).1

/-! ## `markdownToHtml` on a bold text -/

theorem lazyScan_stop (ok : Char → Bool) (d : Char) (pat : Str) (content rest : Str)
    (h : ∀ c ∈ content, ok c = true ∧ c ≠ d) :
    lazyScan ok (d :: pat) (content ++ (d :: pat) ++ rest) = some content := by
  induction content with
  | nil =>
    have hs : startsWith (d :: pat) ((d :: pat) ++ rest) = true := by
      simp [startsWith]
    cases hp : (d :: pat) ++ rest with
    | nil => simp at hp
    | cons y ys =>
      rw [List.nil_append, hp, lazyScan, ← hp, hs]
      rfl
  | cons c u ih =>
    obtain ⟨hok, hcd⟩ := h c (List.mem_cons_self _ _)
    have hu := ih (fun x hx => h x (List.mem_cons_of_mem _ hx))
    have hs : startsWith (d :: pat) (c :: (u ++ (d :: pat) ++ rest)) = false := by
      have : (d == c) = false := by
        simp only [beq_eq_false_iff_ne, ne_eq]
        exact fun hh => hcd hh.symm
      simp [startsWith, List.isPrefixOf, this]
    rw [List.cons_append, List.cons_append, lazyScan, hs, hu]
    simp [hok]

/-- The bold rule on a text of two `*`, a content without `*` and line terminator, and two
`*`. -/
theorem strong_hit (x : Str) (hne : x ≠ [])
    (hx : ∀ c ∈ x, isLineTerminator c = false ∧ c ≠ '*') :
    replaceAll (spanRule "**".toList "<strong>".toList "</strong>".toList) none 0
      ("**".toList ++ x ++ "**".toList) = "<strong>".toList ++ x ++ "</strong>".toList := by
  apply replaceAll_whole
  · simp
  · obtain ⟨c, u, rfl⟩ : ∃ c u, x = c :: u := by
      cases x with
      | nil => exact absurd rfl hne
      | cons c u => exact ⟨c, u, rfl⟩
    have hc := hx c (List.mem_cons_self _ _)
    have h1 : startsWith "**".toList ("**".toList ++ c :: u ++ "**".toList) = true := by
      simp [startsWith, List.isPrefixOf]
    have h2 : ("**".toList ++ c :: u ++ "**".toList).drop ("**".toList).length =
        c :: (u ++ "**".toList) := by
      simp
    have h3 : lazyScan (fun c => !isLineTerminator c) "**".toList (u ++ "**".toList) =
        some u := by
      have := lazyScan_stop (fun c => !isLineTerminator c) '*' ['*'] u []
        (fun y hy => by
          have := hx y (List.mem_cons_of_mem _ hy)
          simp [this.1, this.2])
      rw [List.append_nil] at this
      exact this
    rw [spanRule, h1, if_pos rfl, h2, lazyPlus]
    simp only [hc.1, Bool.not_false, if_true]
    rw [h3]
    simp
    omega

theorem hasSubstr_lt_append (p x rest : Str) (hx : ∀ c ∈ x, c ≠ '<') :
    hasSubstr ('<' :: p) (x ++ rest) = hasSubstr ('<' :: p) rest := by
  induction x with
  | nil => rfl
  | cons c u ih =>
    have hc : ('<' == c) = false := by
      simp only [beq_eq_false_iff_ne, ne_eq]
      exact fun hh => hx c (List.mem_cons_self _ _) hh.symm
    rw [List.cons_append, hasSubstr, ih (fun y hy => hx y (List.mem_cons_of_mem _ hy))]
    simp [startsWith, List.isPrefixOf, hc]

/-- C24: for every text `x` of plain characters (so without `*`) that is not empty,
`markdownToHtml` of `x` between two pairs of `*` is the paragraph with `x` in one `strong`
element, and the output has no `em` element. -/
theorem markdownToHtml_bold (x : Str) (hne : x ≠ [])
    (hx : ∀ c ∈ x, isPlainChar c = true) :
    markdownToHtml ("**".toList ++ x ++ "**".toList) =
      "<p><strong>".toList ++ x ++ "</strong></p>".toList ∧
    hasSubstr "<em".toList (markdownToHtml ("**".toList ++ x ++ "**".toList)) = false := by
  have hmem : ∀ c ∈ "**".toList ++ x ++ "**".toList, c = '*' ∨ isPlainChar c = true := by
    intro c hc
    simp only [List.mem_append] at hc
    rcases hc with (hc | hc) | hc
    · simp only [String.toList, List.mem_cons, List.mem_singleton, List.not_mem_nil,
        or_false, or_self] at hc
      exact Or.inl hc
    · exact Or.inr (hx c hc)
    · simp only [String.toList, List.mem_cons, List.mem_singleton, List.not_mem_nil,
        or_false, or_self] at hc
      exact Or.inl hc
  have hnot : ∀ y : Char, y ≠ '*' → isPlainChar y = false →
      ∀ c ∈ "**".toList ++ x ++ "**".toList, c ≠ y := by
    intro y h1 h2 c hc hy
    subst hy
    rcases hmem c hc with h | h
    · exact h1 h
    · rw [h2] at h
      cases h
  have hesc : escapeHtml ("**".toList ++ x ++ "**".toList) =
      "**".toList ++ x ++ "**".toList := by
    apply escapeHtml_id
    intro c hc
    rcases hmem c hc with rfl | h
    · rfl
    · exact escapeChar_of_plain c h
  have hcr := normalizeNewlines_id _ (hnot '\r' (by decide) (by decide))
  have hfence : extractFences 0 0 ("**".toList ++ x ++ "**".toList) =
      ("**".toList ++ x ++ "**".toList, []) := by
    apply extractFences_id
    have hz : ("**".toList ++ x ++ "**".toList).count (Char.ofNat 96) = 0 :=
      List.count_eq_zero_of_not_mem (fun hc =>
        hnot (Char.ofNat 96) (by decide) (by decide) _ hc rfl)
    omega
  have hhash : ∀ c ∈ "**".toList ++ x ++ "**".toList, (c == '#') = false :=
    fun c hc => by simpa using hnot '#' (by decide) (by decide) c hc
  have hamp := hnot '&' (by decide) (by decide)
  have hlt : ∀ c ∈ "**".toList ++ x ++ "**".toList, isLineTerminator c = false := by
    intro c hc
    rcases hmem c hc with rfl | h
    · decide
    · exact plain_no_lineTerminator c h
  have hshape : "**".toList ++ x ++ "**".toList = '*' :: ('*' :: (x ++ "**".toList)) := by
    simp
  have hul : replaceAll (anchored (listBlock false) (renderList false)) none 0
      ("**".toList ++ x ++ "**".toList) = "**".toList ++ x ++ "**".toList := by
    apply replaceAll_line_id _ (anchored_line _ _) _ hlt
    rw [hshape]
    exact anchored_none _ _ _ _ (by decide) rfl
  have hol : replaceAll (anchored (listBlock true) (renderList true)) none 0
      ("**".toList ++ x ++ "**".toList) = "**".toList ++ x ++ "**".toList := by
    apply replaceAll_line_id _ (anchored_line _ _) _ hlt
    rw [hshape]
    exact anchored_none _ _ _ _ (by decide) rfl
  have hxs : ∀ c ∈ x, isLineTerminator c = false ∧ c ≠ '*' := by
    intro c hc
    refine ⟨plain_no_lineTerminator c (hx c hc), ?_⟩
    intro h
    subst h
    exact absurd (hx _ hc) (by decide)
  have hinert : ∀ c ∈ "<strong>".toList ++ x ++ "</strong>".toList,
      isInertChar c = true := by
    simp only [List.forall_mem_append]
    exact ⟨⟨by decide, fun c hc => plain_inert c (hx c hc)⟩, by decide⟩
  have hsplit : splitBlocks false ("<strong>".toList ++ x ++ "</strong>".toList) =
      ["<strong>".toList ++ x ++ "</strong>".toList] := by
    apply splitBlocks_single
    intro c hc hn
    subst hn
    exact absurd (hinert _ hc) (by decide)
  have htrim : trim ("<strong>".toList ++ x ++ "</strong>".toList) =
      "<strong>".toList ++ x ++ "</strong>".toList :=
    trim_of_ends '<' '>' _ ("<strong>".toList ++ x ++ "</strong".toList) (by simp)
      (by decide) (by decide)
  have hbreak : replaceAll breakRule none 0 ("<strong>".toList ++ x ++ "</strong>".toList) =
      "<strong>".toList ++ x ++ "</strong>".toList :=
    replaceAll_of_neverMatches _ _ none
      (neverMatches_of_trigger _ _ breakRule_trigger _ (fun c hc => by
        have := inert_no_lineTerminator c (hinert c hc)
        simp only [beq_eq_false_iff_ne, ne_eq]
        intro hn
        subst hn
        exact absurd this (by decide)) none)
  have hwrap : wrapBlock ("<strong>".toList ++ x ++ "</strong>".toList) =
      "<p>".toList ++ ("<strong>".toList ++ x ++ "</strong>".toList) ++ "</p>".toList := by
    rw [wrapBlock_paragraph _ htrim (by simp) rfl rfl, hbreak]
  have hzero : ∀ c ∈ "<p>".toList ++ ("<strong>".toList ++ x ++ "</strong>".toList) ++
      "</p>".toList, c ≠ '\x00' := by
    intro c hc hz
    subst hz
    rcases List.mem_append.mp hc with h | h
    · rcases List.mem_append.mp h with h | h
      · exact absurd h (by decide)
      · exact absurd (hinert _ h) (by decide)
    · exact absurd h (by decide)
  have hstar : ∀ c ∈ "<strong>".toList ++ x ++ "</strong>".toList, (c == '*') = false := by
    intro c hc
    have := hinert c hc
    simp only [isInertChar, Bool.and_eq_true, bne_iff_ne, ne_eq] at this
    simp [this.1.1.1.2]
  have htick : ∀ c ∈ "<strong>".toList ++ x ++ "</strong>".toList,
      (c == Char.ofNat 96) = false := by
    intro c hc
    have := hinert c hc
    simp only [isInertChar, Bool.and_eq_true, bne_iff_ne, ne_eq] at this
    simpa using this.1.1.2
  have hbr : ∀ c ∈ "<strong>".toList ++ x ++ "</strong>".toList, (c == '[') = false := by
    intro c hc
    have := hinert c hc
    simp only [isInertChar, Bool.and_eq_true, bne_iff_ne, ne_eq] at this
    simp [this.1.2]
  have hem : replaceAll (spanRule "*".toList "<em>".toList "</em>".toList) none 0
      ("<strong>".toList ++ x ++ "</strong>".toList) =
      "<strong>".toList ++ x ++ "</strong>".toList :=
    replaceAll_of_neverMatches _ _ none
      (neverMatches_of_trigger _ (fun c => c == '*')
        (fun p c r hc => spanRule_trigger [] _ _ p c r hc) _ hstar none)
  have hcode : replaceAll codeRule none 0 ("<strong>".toList ++ x ++ "</strong>".toList) =
      "<strong>".toList ++ x ++ "</strong>".toList :=
    replaceAll_of_neverMatches _ _ none
      (neverMatches_of_trigger _ _ codeRule_trigger _ htick none)
  have hlink : replaceAll linkRule none 0 ("<strong>".toList ++ x ++ "</strong>".toList) =
      "<strong>".toList ++ x ++ "</strong>".toList :=
    replaceAll_of_neverMatches _ _ none
      (neverMatches_of_trigger _ _ linkRule_trigger _ hbr none)
  have hout : markdownToHtml ("**".toList ++ x ++ "**".toList) =
      "<p><strong>".toList ++ x ++ "</strong></p>".toList := by
    have hempty : ("**".toList ++ x ++ "**".toList).isEmpty = false := rfl
    rw [markdownToHtml, hempty]
    simp only [Bool.false_eq_true, if_false]
    rw [hesc, hcr, hfence]
    simp only
    rw [headings_id _ hhash, quote_id _ hamp, hul, hol, strong_hit x hne hxs,
      hem, hcode, hlink, hsplit]
    simp only [List.map_cons, List.map_nil, hwrap]
    rw [show filterNonEmpty ["<p>".toList ++ ("<strong>".toList ++ x ++
        "</strong>".toList) ++ "</p>".toList] = ["<p>".toList ++ ("<strong>".toList ++ x ++
        "</strong>".toList) ++ "</p>".toList] from rfl]
    rw [joinWith, placeholder_id _ _ hzero]
    simp
  refine ⟨hout, ?_⟩
  rw [hout]
  have hxlt : ∀ c ∈ x, c ≠ '<' := by
    intro c hc h
    subst h
    exact absurd (hx _ hc) (by decide)
  have h1 : hasSubstr "<em".toList ("<p><strong>".toList ++ x ++ "</strong></p>".toList) =
      hasSubstr "<em".toList (x ++ "</strong></p>".toList) := by
    simp [hasSubstr, startsWith, List.isPrefixOf]
  rw [h1, show "<em".toList = '<' :: "em".toList from rfl,
    hasSubstr_lt_append _ x _ hxlt]
  decide

/-- C24 on the text `bold`. -/
theorem markdownToHtml_bold_witness :
    markdownToHtml "**bold**".toList = "<p><strong>bold</strong></p>".toList :=
  (markdownToHtml_bold "bold".toList (by decide) (by decide)).1

/-! ## `markdownToHtml` on the placeholder of a code block -/

theorem toDigitsCore_ne_nil (fuel n : Nat) (ds : List Char) (h : ds ≠ [] ∨ 0 < fuel) :
    Nat.toDigitsCore 10 fuel n ds ≠ [] := by
  induction fuel generalizing n ds with
  | zero =>
    rcases h with h | h
    · simpa [Nat.toDigitsCore] using h
    · exact absurd h (by decide)
  | succ fuel ih =>
    rw [Nat.toDigitsCore]
    split
    · simp
    · exact ih _ _ (Or.inl (by simp))

/-- The decimal digits of a number are not empty. -/
theorem toDigits_ne_nil (n : Nat) : Nat.toDigits 10 n ≠ [] :=
  toDigitsCore_ne_nil _ _ [] (Or.inr (Nat.succ_pos _))

theorem escapeChar_of_digit (c : Char) (h : isDigit c = true) : escapeChar c = [c] :=
  escapeChar_of_lang c (by simp [isLangChar, h])

/-- The characters of a placeholder: U+0000, the letters of `CODE`, and digits. -/
theorem mem_codeToken (n : Nat) (c : Char) (h : c ∈ codeToken n) :
    c = '\x00' ∨ c ∈ "CODE".toList ∨ isDigit c = true := by
  simp only [codeToken, List.mem_cons, List.mem_append, List.mem_singleton,
    List.not_mem_nil, or_false] at h
  rcases h with h | (h | h) | h
  · exact Or.inl h
  · exact Or.inr (Or.inl h)
  · exact Or.inr (Or.inr (toDigits_isDigit n c h))
  · exact Or.inl h

theorem codeToken_not_mem (n : Nat) (x : Char) (h0 : x ≠ '\x00') (h1 : x ∉ "CODE".toList)
    (h2 : isDigit x = false) : x ∉ codeToken n := by
  intro h
  rcases mem_codeToken n x h with h | h | h
  · exact h0 h
  · exact h1 h
  · rw [h2] at h
    cases h

theorem isPlaceholder_codeToken (n : Nat) : isPlaceholder (codeToken n) = true := by
  have h1 : startsWith "\x00CODE".toList (codeToken n) = true := by
    simp [codeToken, startsWith, List.isPrefixOf]
  have h2 : (codeToken n).drop 5 = Nat.toDigits 10 n ++ ['\x00'] := by
    simp [codeToken]
  have h3 := takeWhile_eq_self isDigit (Nat.toDigits 10 n) ['\x00'] (toDigits_isDigit n)
    (fun c hh => by
      simp only [List.head?_cons, Option.some.injEq] at hh
      subst hh
      decide)
  have h4 : (Nat.toDigits 10 n).isEmpty = false := by
    cases hd : Nat.toDigits 10 n with
    | nil => exact absurd hd (toDigits_ne_nil n)
    | cons _ _ => rfl
  rw [isPlaceholder, h1, h2, h3.1, h3.2, h4]
  rfl

/-- The last replacement on a placeholder alone: the code block of its index, or the empty
text when there is none. -/
theorem placeholderRule_codeToken (codeBlocks : List Str) (prev : Option Char) (n : Nat) :
    placeholderRule codeBlocks prev (codeToken n) =
      some ((codeToken n).length,
        (codeBlocks.get? (digitsToNat (Nat.toDigits 10 n))).getD []) := by
  have h1 : startsWith "\x00CODE".toList (codeToken n) = true := by
    simp [codeToken, startsWith, List.isPrefixOf]
  have h2 : (codeToken n).drop 5 = Nat.toDigits 10 n ++ ['\x00'] := by
    simp [codeToken]
  have h3 := takeWhile_eq_self isDigit (Nat.toDigits 10 n) ['\x00'] (toDigits_isDigit n)
    (fun c hh => by
      simp only [List.head?_cons, Option.some.injEq] at hh
      subst hh
      decide)
  have h4 : (Nat.toDigits 10 n).isEmpty = false := by
    cases hd : Nat.toDigits 10 n with
    | nil => exact absurd hd (toDigits_ne_nil n)
    | cons _ _ => rfl
  have h5 : (codeToken n).length = (Nat.toDigits 10 n).length + 6 := by
    simp [codeToken]
  rw [placeholderRule, h1, if_pos rfl, h2]
  simp only [h3.1, h3.2, h4, h5]
  rfl

theorem wrapBlock_placeholder (s : Str) (htrim : trim s = s)
    (hp : isPlaceholder s = true) : wrapBlock s = s := by
  simp [wrapBlock, htrim, hp]

/-- The inline rules leave a text without `*`, backtick and `[` as it is. -/
theorem inline_id_of (html : Str)
    (h : ∀ c ∈ html, c ≠ '*' ∧ c ≠ Char.ofNat 96 ∧ c ≠ '[') :
    replaceAll linkRule none 0 (replaceAll codeRule none 0
      (replaceAll (spanRule "*".toList "<em>".toList "</em>".toList) none 0
        (replaceAll (spanRule "**".toList "<strong>".toList "</strong>".toList) none 0
          html))) = html := by
  have hstar : ∀ c ∈ html, (c == '*') = false := fun c hc => by simpa using (h c hc).1
  have htick : ∀ c ∈ html, (c == Char.ofNat 96) = false :=
    fun c hc => by simpa using (h c hc).2.1
  have hbr : ∀ c ∈ html, (c == '[') = false := fun c hc => by simpa using (h c hc).2.2
  have h1 : replaceAll (spanRule "**".toList "<strong>".toList "</strong>".toList) none 0
      html = html :=
    replaceAll_of_neverMatches _ html none
      (neverMatches_of_trigger _ (fun c => c == '*')
        (fun p c r hc => spanRule_trigger ['*'] _ _ p c r hc) html hstar none)
  have h2 : replaceAll (spanRule "*".toList "<em>".toList "</em>".toList) none 0
      html = html :=
    replaceAll_of_neverMatches _ html none
      (neverMatches_of_trigger _ (fun c => c == '*')
        (fun p c r hc => spanRule_trigger [] _ _ p c r hc) html hstar none)
  rw [h1, h2,
    replaceAll_of_neverMatches _ html none
      (neverMatches_of_trigger _ _ codeRule_trigger html htick none),
    replaceAll_of_neverMatches _ html none
      (neverMatches_of_trigger _ _ linkRule_trigger html hbr none)]

/-- The block rules leave a text of one line that starts no quote and no list item as it
is. -/
theorem lists_id_line (c : Char) (rest : Str) (hc : c ≠ '-') (hs : c ≠ '*')
    (hd : isDigit c = false) (hlt : ∀ x ∈ c :: rest, isLineTerminator x = false) :
    replaceAll (anchored (listBlock true) (renderList true)) none 0
      (replaceAll (anchored (listBlock false) (renderList false)) none 0 (c :: rest)) =
      c :: rest := by
  have hn : c ≠ '\n' := by
    intro h
    subst h
    exact absurd (hlt _ (List.mem_cons_self _ _)) (by decide)
  have hu : listBlock false (c :: rest) = none := by
    cases rest <;> simp [listBlock, itemStart, hc, hs]
  have ho : listBlock true (c :: rest) = none := by
    simp [listBlock, itemStart, List.takeWhile, hd]
  rw [replaceAll_line_id _ (anchored_line _ _) _ hlt (anchored_none _ _ _ _ hn hu),
    replaceAll_line_id _ (anchored_line _ _) _ hlt (anchored_none _ _ _ _ hn ho)]

/-- The placeholder of any index, alone, renders as the empty text. -/
theorem codeToken_alone (n : Nat) : markdownToHtml (codeToken n) = [] := by
  have hnot : ∀ x : Char, x ≠ '\x00' → x ∉ "CODE".toList → isDigit x = false →
      ∀ c ∈ codeToken n, c ≠ x := by
    intro x h0 h1 h2 c hc hx
    subst hx
    exact codeToken_not_mem n c h0 h1 h2 hc
  have hesc : escapeHtml (codeToken n) = codeToken n := by
    apply escapeHtml_id
    intro c hc
    rcases mem_codeToken n c hc with rfl | h | h
    · rfl
    · simp only [String.toList, List.mem_cons, List.mem_singleton, List.not_mem_nil,
        or_false] at h
      rcases h with rfl | rfl | rfl | rfl <;> rfl
    · exact escapeChar_of_digit c h
  have hcr := normalizeNewlines_id _ (hnot '\r' (by decide) (by decide) (by decide))
  have hfence : extractFences 0 0 (codeToken n) = (codeToken n, []) := by
    apply extractFences_id
    have hz : (codeToken n).count (Char.ofNat 96) = 0 :=
      List.count_eq_zero_of_not_mem
        (codeToken_not_mem n _ (by decide) (by decide) (by decide))
    omega
  have hhash : ∀ c ∈ codeToken n, (c == '#') = false :=
    fun c hc => by simpa using hnot '#' (by decide) (by decide) (by decide) c hc
  have hamp := hnot '&' (by decide) (by decide) (by decide)
  have hlt : ∀ x ∈ codeToken n, isLineTerminator x = false := by
    intro x hx
    rcases mem_codeToken n x hx with rfl | h | h
    · decide
    · simp only [String.toList, List.mem_cons, List.mem_singleton, List.not_mem_nil,
        or_false] at h
      rcases h with rfl | rfl | rfl | rfl <;> decide
    · exact inert_no_lineTerminator x (digit_inert x h)
  have hlists := lists_id_line '\x00' ("CODE".toList ++ Nat.toDigits 10 n ++ ['\x00'])
    (by decide) (by decide) (by decide) hlt
  have hinline := inline_id_of (codeToken n) (fun c hc =>
    ⟨hnot '*' (by decide) (by decide) (by decide) c hc,
     hnot (Char.ofNat 96) (by decide) (by decide) (by decide) c hc,
     hnot '[' (by decide) (by decide) (by decide) c hc⟩)
  have hsplit : splitBlocks false (codeToken n) = [codeToken n] :=
    splitBlocks_single _ (hnot '\n' (by decide) (by decide) (by decide))
  have htrim : trim (codeToken n) = codeToken n :=
    trim_of_ends '\x00' '\x00' _ ('\x00' :: ("CODE".toList ++ Nat.toDigits 10 n))
      (by simp [codeToken]) (by decide) (by decide)
  have hwrap := wrapBlock_placeholder _ htrim (isPlaceholder_codeToken n)
  rw [markdownToHtml, show (codeToken n).isEmpty = false from rfl]
  simp only [Bool.false_eq_true, if_false]
  rw [hesc, hcr, hfence]
  simp only
  rw [headings_id _ hhash, quote_id _ hamp]
  rw [show codeToken n = '\x00' :: ("CODE".toList ++ Nat.toDigits 10 n ++ ['\x00']) from rfl]
    at hinline hsplit hwrap ⊢
  rw [hlists, hinline, hsplit]
  simp only [List.map_cons, List.map_nil, hwrap]
  rw [show filterNonEmpty ['\x00' :: ("CODE".toList ++ Nat.toDigits 10 n ++ ['\x00'])] =
    ['\x00' :: ("CODE".toList ++ Nat.toDigits 10 n ++ ['\x00'])] from rfl, joinWith]
  exact replaceAll_whole _ _ _ (by simp) (placeholderRule_codeToken [] none n)

theorem extractFences_skip (s : Str) :
    ∀ n k, extractFences n k s = extractFences n 0 (s.drop k) := by
  induction s with
  | nil =>
    intro n k
    cases k <;> rfl
  | cons c rest ih =>
    intro n k
    cases k with
    | zero => rfl
    | succ k =>
      rw [extractFences, ih]
      rfl

theorem extractFences_before (pre s : Str) (h : Char.ofNat 96 ∉ pre) :
    ∀ n, extractFences n 0 (pre ++ s) =
      (pre ++ (extractFences n 0 s).1, (extractFences n 0 s).2) := by
  induction pre with
  | nil => intro n; rfl
  | cons c rest ih =>
    intro n
    have hc : (Char.ofNat 96 == c) = false := by
      simp only [beq_eq_false_iff_ne, ne_eq]
      exact fun hh => h (hh ▸ List.mem_cons_self _ _)
    have hm : matchFence (c :: (rest ++ s)) = none := by
      simp [matchFence, startsWith, List.isPrefixOf, hc]
    rw [List.cons_append, extractFences, hm]
    simp only
    rw [ih (fun hh => h (List.mem_cons_of_mem _ hh))]
    rfl

/-- The match of `CODE_FENCE` at the start of a fence that is followed by more text. -/
theorem matchFence_first (lang code rest : Str) (hl : ∀ c ∈ lang, isLangChar c = true)
    (hc : Char.ofNat 96 ∉ code) :
    matchFence ("```".toList ++ (lang ++ '\n' :: (code ++ "```".toList ++ rest))) =
      some (3 + lang.length + 1 + code.length + 3, lang, code) := by
  have h1 : startsWith "```".toList
      ("```".toList ++ (lang ++ '\n' :: (code ++ "```".toList ++ rest))) = true := by
    simp [startsWith, List.isPrefixOf]
  have h2 : ("```".toList ++ (lang ++ '\n' :: (code ++ "```".toList ++ rest))).drop 3 =
      lang ++ '\n' :: (code ++ "```".toList ++ rest) := rfl
  have h3 := takeWhile_eq_self isLangChar lang ('\n' :: (code ++ "```".toList ++ rest)) hl
    (fun c hh => by
      simp only [List.head?_cons, Option.some.injEq] at hh
      subst hh
      decide)
  have h4 := lazyScan_found (fun _ => true) (fun _ => rfl) code rest hc
  rw [matchFence, h1]
  simp only [if_true, h2, h3.1, h3.2, h4]

/-- A fence at the start of a text becomes the placeholder of index `n`, and the
extraction goes on after it. -/
theorem extractFences_first (n : Nat) (lang code rest : Str)
    (hl : ∀ c ∈ lang, isLangChar c = true) (hc : Char.ofNat 96 ∉ code) :
    extractFences n 0 ("```".toList ++ (lang ++ '\n' :: (code ++ "```".toList ++ rest))) =
      (codeToken n ++ (extractFences (n + 1) 0 rest).1,
        renderCodeBlock lang code :: (extractFences (n + 1) 0 rest).2) := by
  have hm := matchFence_first lang code rest hl hc
  have hshape : "```".toList ++ (lang ++ '\n' :: (code ++ "```".toList ++ rest)) =
      Char.ofNat 96 :: (Char.ofNat 96 :: Char.ofNat 96 ::
        (lang ++ '\n' :: (code ++ "```".toList ++ rest))) := rfl
  have hdrop : (Char.ofNat 96 :: Char.ofNat 96 ::
      (lang ++ '\n' :: (code ++ "```".toList ++ rest))).drop
      (3 + lang.length + 1 + code.length + 3 - 1) = rest := by
    have h1 : 3 + lang.length + 1 + code.length + 3 - 1 =
        ([Char.ofNat 96, Char.ofNat 96] ++ lang ++ '\n' :: code ++ "```".toList).length := by
      simp
      omega
    have h2 : Char.ofNat 96 :: Char.ofNat 96 ::
        (lang ++ '\n' :: (code ++ "```".toList ++ rest)) =
        ([Char.ofNat 96, Char.ofNat 96] ++ lang ++ '\n' :: code ++ "```".toList) ++ rest := by
      simp
    rw [h1, h2, List.drop_left]
  rw [hshape] at hm ⊢
  rw [extractFences, hm]
  simp only
  rw [extractFences_skip, hdrop]

/-- The escaping and the normalisation of the line ends on a text with one fence: they
work on the content of the fence, and leave the rest as it is when it has no character to
escape and no carriage return. -/
theorem normalize_fence (a lang code z : Str)
    (ha : ∀ c ∈ a, escapeChar c = [c] ∧ c ≠ '\r') (hl : ∀ c ∈ lang, isLangChar c = true)
    (hz : ∀ c ∈ z, escapeChar c = [c] ∧ c ≠ '\r') :
    normalizeNewlines (escapeHtml
      (a ++ ("```".toList ++ (lang ++ '\n' :: (code ++ "```".toList ++ z))))) =
      a ++ ("```".toList ++
        (lang ++ '\n' :: (normalizeNewlines (escapeHtml code) ++ "```".toList ++ z))) := by
  have hesc : escapeHtml
      (a ++ ("```".toList ++ (lang ++ '\n' :: (code ++ "```".toList ++ z)))) =
      a ++ ("```".toList ++ (lang ++ '\n' :: (escapeHtml code ++ "```".toList ++ z))) := by
    rw [escapeHtml_append, escapeHtml_append, escapeHtml_append,
      escapeHtml_id a (fun c h => (ha c h).1),
      escapeHtml_id lang (fun c h => escapeChar_of_lang c (hl c h)),
      show escapeHtml ('\n' :: (code ++ "```".toList ++ z)) =
        '\n' :: escapeHtml (code ++ "```".toList ++ z) from rfl,
      escapeHtml_append, escapeHtml_append, escapeHtml_id z (fun c h => (hz c h).1)]
    rfl
  have hpre : ∀ c ∈ a ++ "```".toList ++ lang ++ ['\n'], c ≠ '\r' := by
    intro c h hr
    subst hr
    simp only [List.mem_append] at h
    rcases h with ((h | h) | h) | h
    · exact (ha _ h).2 rfl
    · exact absurd h (by decide)
    · exact absurd (hl _ h) (by decide)
    · exact absurd h (by decide)
  have hpost : normalizeNewlines ("```".toList ++ z) = "```".toList ++ z := by
    apply normalizeNewlines_id
    intro c h hr
    subst hr
    rcases List.mem_append.mp h with h | h
    · exact absurd h (by decide)
    · exact (hz _ h).2 rfl
  have h1 : a ++ ("```".toList ++ (lang ++ '\n' :: (escapeHtml code ++ "```".toList ++ z))) =
      (a ++ "```".toList ++ lang ++ ['\n']) ++ (escapeHtml code ++ ("```".toList ++ z)) := by
    simp
  rw [hesc, h1, normalizeNewlines_append_left _ _ hpre,
    normalizeNewlines_append_right _ _ hpost (by simp)]
  simp

/-- The rules after the extraction of the fences on the first placeholder, a blank line
and the first placeholder again: the last replacement puts the first code block in both
places. -/
theorem placeholder_twice (block : Str) :
    replaceAll (placeholderRule [block]) none 0
      (joinWith ['\n'] (filterNonEmpty ((splitBlocks false
        (replaceAll linkRule none 0 (replaceAll codeRule none 0
          (replaceAll (spanRule "*".toList "<em>".toList "</em>".toList) none 0
            (replaceAll (spanRule "**".toList "<strong>".toList "</strong>".toList) none 0
              (replaceAll (anchored (listBlock true) (renderList true)) none 0
                (replaceAll (anchored (listBlock false) (renderList false)) none 0
                  (replaceAll (anchored quoteBlock renderQuote) none 0
                    (replaceAll (headingRule 1) none 0 (replaceAll (headingRule 2) none 0
                      (replaceAll (headingRule 3) none 0
                        (replaceAll (headingRule 4) none 0
                          (replaceAll (headingRule 5) none 0
                            (replaceAll (headingRule 6) none 0
                              (codeToken 0 ++ "\n\n".toList ++
                                codeToken 0))))))))))))))).map wrapBlock))) =
      block ++ '\n' :: block := by
  have h : joinWith ['\n'] (filterNonEmpty ((splitBlocks false
      (replaceAll linkRule none 0 (replaceAll codeRule none 0
        (replaceAll (spanRule "*".toList "<em>".toList "</em>".toList) none 0
          (replaceAll (spanRule "**".toList "<strong>".toList "</strong>".toList) none 0
            (replaceAll (anchored (listBlock true) (renderList true)) none 0
              (replaceAll (anchored (listBlock false) (renderList false)) none 0
                (replaceAll (anchored quoteBlock renderQuote) none 0
                  (replaceAll (headingRule 1) none 0 (replaceAll (headingRule 2) none 0
                    (replaceAll (headingRule 3) none 0
                      (replaceAll (headingRule 4) none 0
                        (replaceAll (headingRule 5) none 0
                          (replaceAll (headingRule 6) none 0
                            (codeToken 0 ++ "\n\n".toList ++
                              codeToken 0))))))))))))))).map wrapBlock)) =
      codeToken 0 ++ '\n' :: codeToken 0 := by
    decide
  rw [h]
  have h2 : replaceAll (placeholderRule [block]) none 0
      (codeToken 0 ++ '\n' :: codeToken 0) = block ++ ('\n' :: (block ++ [])) := rfl
  rw [h2, List.append_nil]

/-- The placeholder of any index, alone, renders as the empty text; and
for one fenced block (three backticks, a language tag of letters, digits, `+` and `-`, a
line feed, a content without backtick, three backticks), a blank line and the
placeholder of index 0, `markdownToHtml` gives the code block of the fence twice, once for
the fence and once for the placeholder of the input. -/
theorem markdownToHtml_placeholder :
    (∀ n : Nat, markdownToHtml (codeToken n) = []) ∧
    (∀ lang code : Str, (∀ c ∈ lang, isLangChar c = true) → Char.ofNat 96 ∉ code →
      markdownToHtml ("```".toList ++ (lang ++ '\n' :: (code ++ "```".toList ++
          ("\n\n".toList ++ codeToken 0)))) =
        renderCodeBlock lang (normalizeNewlines (escapeHtml code)) ++ '\n' ::
          renderCodeBlock lang (normalizeNewlines (escapeHtml code))) := by
  refine ⟨codeToken_alone, ?_⟩
  intro lang code hl hc
  have htick : Char.ofNat 96 ∉ normalizeNewlines (escapeHtml code) :=
    fun h => escapeHtml_no_tick code hc (mem_normalizeNewlines _ _ h)
  have hnorm := normalize_fence [] lang code ("\n\n".toList ++ codeToken 0)
    (by simp) hl (by decide)
  have hfence := extractFences_first 0 lang (normalizeNewlines (escapeHtml code))
    ("\n\n".toList ++ codeToken 0) hl htick
  have hrest : extractFences (0 + 1) 0 ("\n\n".toList ++ codeToken 0) =
      ("\n\n".toList ++ codeToken 0, []) := extractFences_id _ _ (by decide)
  rw [hrest] at hfence
  rw [List.nil_append] at hnorm
  rw [markdownToHtml, show ("```".toList ++ (lang ++ '\n' :: (code ++ "```".toList ++
    ("\n\n".toList ++ codeToken 0)))).isEmpty = false from rfl]
  simp only [Bool.false_eq_true, if_false]
  rw [List.nil_append] at hnorm
  rw [hnorm, hfence]
  simp only
  rw [← List.append_assoc]
  exact placeholder_twice _

/-- The rendering of the placeholder of index 0 alone, and after a fence with the
content `x`. -/
theorem markdownToHtml_placeholder_witness :
    markdownToHtml "\x00CODE0\x00".toList = [] ∧
    markdownToHtml "```\nx\n```\n\n\x00CODE0\x00".toList =
      "<pre><code>x</code></pre>\n<pre><code>x</code></pre>".toList :=
  ⟨markdownToHtml_placeholder.1 0,
    (markdownToHtml_placeholder.2 [] "x\n".toList (by decide) (by decide)).trans (by decide)⟩

/-- C29, as stated, fails: a placeholder pattern inside a fenced block is part of the
code, and stays in the output as it is; and of two patterns that share a U+0000 only the
first is replaced. -/
theorem markdownToHtml_placeholder_kept :
    markdownToHtml "```\n\x00CODE0\x00\n```".toList =
      "<pre><code>\x00CODE0\x00</code></pre>".toList ∧
    markdownToHtml "\x00CODE1\x00CODE0\x00".toList = "<p>CODE0\x00</p>".toList := by
  decide

/-! ## `markdownToHtml` on a fenced block between paragraphs -/

theorem neverMatches_anchored_step (blockLen : Str → Option Nat)
    (render : Str → Str → Str) (s : Str) (h1 : blockLen s = none)
    (hs : ∀ q, neverMatches (anchored blockLen render) (some q) s = true)
    (pre : Str) (hpre : ∀ c ∈ pre, c ≠ '\n') :
    ∀ p, neverMatches (anchored blockLen render) (some p) (pre ++ '\n' :: s) = true := by
  induction pre with
  | nil =>
    intro p
    simp only [List.nil_append, neverMatches, Bool.and_eq_true,
      Option.isNone_iff_eq_none]
    refine ⟨?_, hs _⟩
    simp [anchored, h1]
  | cons c rest ih =>
    intro p
    have hc := hpre c (List.mem_cons_self _ _)
    simp only [List.cons_append, neverMatches, Bool.and_eq_true,
      Option.isNone_iff_eq_none]
    refine ⟨?_, ih (fun x hx => hpre x (List.mem_cons_of_mem _ hx)) c⟩
    simp [anchored, hc]

theorem listBlock_none_of_head (ordered : Bool) (c : Char) (rest : Str) (hc : c ≠ '-')
    (hs : c ≠ '*') (hd : isDigit c = false) : listBlock ordered (c :: rest) = none := by
  cases ordered
  · cases rest <;> simp [listBlock, itemStart, hc, hs]
  · simp [listBlock, itemStart, List.takeWhile, hd]

/-- A list rule leaves a text of three blocks as it is when no block and no blank line
starts a list item. -/
theorem lists_id_blocks (ordered : Bool) (a0 : Char) (a t b : Str)
    (ha0 : a0 ≠ '-' ∧ a0 ≠ '*' ∧ isDigit a0 = false ∧ a0 ≠ '\n')
    (ha : ∀ c ∈ a, c ≠ '\n') (ht : ∀ c ∈ t, c ≠ '\n') (hb : ∀ c ∈ b, c ≠ '\n')
    (ht0 : listBlock ordered (t ++ '\n' :: '\n' :: b) = none)
    (hb0 : listBlock ordered b = none) :
    replaceAll (anchored (listBlock ordered) (renderList ordered)) none 0
      (a0 :: a ++ '\n' :: '\n' :: (t ++ '\n' :: '\n' :: b)) =
      a0 :: a ++ '\n' :: '\n' :: (t ++ '\n' :: '\n' :: b) := by
  have hnl : ∀ rest : Str, listBlock ordered ('\n' :: rest) = none :=
    fun rest => listBlock_none_of_head ordered '\n' rest (by decide) (by decide) (by decide)
  have h4 := neverMatches_anchored_some (listBlock ordered) (renderList ordered) b hb
  have h3 := neverMatches_anchored_step _ (renderList ordered) b hb0 h4 [] (by simp)
  have h2 := neverMatches_anchored_step _ (renderList ordered) ('\n' :: b) (hnl b) h3 t ht
  have h1 := neverMatches_anchored_step _ (renderList ordered) (t ++ '\n' :: '\n' :: b) ht0
    h2 [] (by simp)
  have h0 := neverMatches_anchored_step _ (renderList ordered)
    ('\n' :: (t ++ '\n' :: '\n' :: b)) (hnl _) h1 a ha
  apply replaceAll_of_neverMatches
  simp only [List.cons_append, neverMatches, Bool.and_eq_true, Option.isNone_iff_eq_none]
  exact ⟨anchored_none _ _ _ _ ha0.2.2.2
    (listBlock_none_of_head ordered a0 _ ha0.1 ha0.2.1 ha0.2.2.1), h0 a0⟩

theorem splitBlocks_blank (pre s : Str) (hpre : ∀ c ∈ pre, c ≠ '\n')
    (hs : ∀ c, s.head? = some c → c ≠ '\n') (hne : s ≠ []) :
    splitBlocks false (pre ++ '\n' :: '\n' :: s) = pre :: splitBlocks false s := by
  obtain ⟨x, r, rfl⟩ : ∃ x r, s = x :: r := by
    cases s with
    | nil => exact absurd rfl hne
    | cons x r => exact ⟨x, r, rfl⟩
  have hx : x ≠ '\n' := hs x rfl
  induction pre with
  | nil =>
    have e1 : splitBlocks false ('\n' :: '\n' :: x :: r) =
        [] :: splitBlocks true ('\n' :: x :: r) := by
      rw [splitBlocks]
      simp
    have e2 : splitBlocks true ('\n' :: x :: r) = splitBlocks true (x :: r) := by
      rw [splitBlocks]
      simp
    rw [List.nil_append, e1, e2, splitBlocks_cons_ne true x r hx,
      splitBlocks_cons_ne false x r hx]
  | cons c rest ih =>
    rw [List.cons_append, splitBlocks_cons_ne false c _ (hpre c (List.mem_cons_self _ _)),
      ih (fun y hy => hpre y (List.mem_cons_of_mem _ hy))]
    rfl

/-- A block of plain characters that has no white space at its ends becomes a paragraph. -/
theorem wrapBlock_plain (a : Str) (ha : ∀ c ∈ a, isPlainChar c = true) (hne : a ≠ [])
    (htrim : trim a = a) : wrapBlock a = "<p>".toList ++ a ++ "</p>".toList := by
  obtain ⟨x, r, rfl⟩ : ∃ x r, a = x :: r := by
    cases a with
    | nil => exact absurd rfl hne
    | cons x r => exact ⟨x, r, rfl⟩
  have hx := ha x (List.mem_cons_self _ _)
  have hws := head_of_trim x r htrim
  have hx0 : ('\x00' == x) = false := by
    simp only [beq_eq_false_iff_ne, ne_eq]
    intro h
    subst h
    exact absurd hx (by decide)
  have hxlt : (x == '<') = false := by
    simp only [beq_eq_false_iff_ne, ne_eq]
    intro h
    subst h
    exact absurd hx (by decide)
  have hp : isPlaceholder (x :: r) = false := by
    simp [isPlaceholder, startsWith, List.isPrefixOf, hx0]
  have htag : startsWithBlockTag (x :: r) = false := by
    simp [startsWithBlockTag, List.dropWhile, hws, hxlt]
  have hbreak : replaceAll breakRule none 0 (x :: r) = x :: r :=
    replaceAll_of_neverMatches _ _ none
      (neverMatches_of_trigger _ _ breakRule_trigger _ (fun c hc => by
        simp only [beq_eq_false_iff_ne, ne_eq]
        intro hn
        subst hn
        exact absurd (ha _ hc) (by decide)) none)
  rw [wrapBlock_paragraph _ htrim (by simp) hp htag, hbreak]

theorem replaceAll_prev (rule : Option Char → Str → Option (Nat × Str))
    (hprev : ∀ p q t, rule p t = rule q t) (s : Str) :
    ∀ p q k, replaceAll rule p k s = replaceAll rule q k s := by
  induction s with
  | nil => intro p q k; rw [replaceAll_nil, replaceAll_nil]
  | cons c rest ih =>
    intro p q k
    cases k with
    | zero => rw [replaceAll_zero_cons, replaceAll_zero_cons, hprev p q]
    | succ k => rfl

theorem replaceAll_skip (rule : Option Char → Str → Option (Nat × Str))
    (hprev : ∀ p q t, rule p t = rule q t) (s : Str) :
    ∀ p k, replaceAll rule p k s = replaceAll rule none 0 (s.drop k) := by
  induction s with
  | nil => intro p k; rw [replaceAll_nil, List.drop_nil, replaceAll_nil]
  | cons c rest ih =>
    intro p k
    cases k with
    | zero => exact replaceAll_prev rule hprev _ _ _ _
    | succ k =>
      rw [replaceAll_succ_cons, ih]
      rfl

/-- The last replacement on a text without U+0000, the first placeholder and a text
without U+0000: the placeholder becomes the first code block. -/
theorem placeholder_between (block pre post : Str) (hpre : ∀ c ∈ pre, c ≠ '\x00')
    (hpost : ∀ c ∈ post, c ≠ '\x00') :
    replaceAll (placeholderRule [block]) none 0 (pre ++ (codeToken 0 ++ post)) =
      pre ++ (block ++ post) := by
  have hprev : ∀ (p q : Option Char) (t : Str),
      placeholderRule [block] p t = placeholderRule [block] q t := fun _ _ _ => rfl
  have hhit : replaceAll (placeholderRule [block]) none 0 (codeToken 0 ++ post) =
      block ++ post := by
    have h2 : codeToken 0 ++ post = '\x00' :: ("CODE0\x00".toList ++ post) := rfl
    have h1 : placeholderRule [block] none (codeToken 0 ++ post) = some (7, block) := by
      rw [h2]
      simp [placeholderRule, startsWith, List.isPrefixOf, List.takeWhile, List.dropWhile,
        isDigit, digitsToNat]
    rw [h2, replaceAll_zero_cons, ← h2, h1]
    simp only
    rw [replaceAll_skip _ hprev]
    have h3 : ("CODE0\x00".toList ++ post).drop (7 - 1) = post := rfl
    rw [h3, placeholder_id _ _ hpost]
  induction pre with
  | nil => exact hhit
  | cons c rest ih =>
    have hc := hpre c (List.mem_cons_self _ _)
    rw [List.cons_append, replaceAll_zero_cons,
      placeholderRule_trigger [block] none c _ (by simpa using hc)]
    simp only
    rw [replaceAll_prev _ hprev _ (some c) none,
      ih (fun x hx => hpre x (List.mem_cons_of_mem _ hx))]
    rfl

/-- A fenced block between blank lines is outside every paragraph.  For two
texts `a` and `b` of plain characters that are not empty, have no white space at their
ends and begin with no `-` and no digit, and a fenced block (three backticks, a language
tag of letters, digits, `+` and `-`, a line feed, a content without backtick, three
backticks), `markdownToHtml` of `a`, a blank line, the fenced block, a blank line and `b`
is the paragraph of `a`, a line feed, the code block, a line feed and the paragraph of
`b`. -/
theorem markdownToHtml_fence_between (a b lang code : Str)
    (ha : ∀ c ∈ a, isPlainChar c = true) (hb : ∀ c ∈ b, isPlainChar c = true)
    (hane : a ≠ []) (hbne : b ≠ []) (hatrim : trim a = a) (hbtrim : trim b = b)
    (hastart : ∀ c, a.head? = some c → c ≠ '-' ∧ isDigit c = false)
    (hbstart : ∀ c, b.head? = some c → c ≠ '-' ∧ isDigit c = false)
    (hl : ∀ c ∈ lang, isLangChar c = true) (hc : Char.ofNat 96 ∉ code) :
    markdownToHtml ((a ++ "\n\n".toList) ++ ("```".toList ++
        (lang ++ '\n' :: (code ++ "```".toList ++ ("\n\n".toList ++ b))))) =
      "<p>".toList ++ a ++ "</p>\n".toList ++
        renderCodeBlock lang (normalizeNewlines (escapeHtml code)) ++
        "\n<p>".toList ++ b ++ "</p>".toList := by
  have hplain : ∀ x : Char, isPlainChar x = true →
      escapeChar x = [x] ∧ x ≠ '\r' ∧ x ≠ Char.ofNat 96 ∧ x ≠ '#' ∧ x ≠ '&' ∧ x ≠ '\n' ∧
      x ≠ '*' ∧ x ≠ '[' ∧ x ≠ '\x00' := by
    intro x hx
    refine ⟨escapeChar_of_plain x hx, ?_, ?_, ?_, ?_, ?_, ?_, ?_, ?_⟩ <;>
    · intro h
      subst h
      exact absurd hx (by decide)
  have hA : ∀ (P : Char → Prop), (∀ x, isPlainChar x = true → P x) → P '\n' →
      ∀ c ∈ a ++ "\n\n".toList, P c := by
    intro P h1 h2 c hc
    rcases List.mem_append.mp hc with h | h
    · exact h1 c (ha c h)
    · simp only [String.toList, List.mem_cons, List.mem_singleton, List.not_mem_nil,
        or_false, or_self] at h
      subst h
      exact h2
  have hZ : ∀ (P : Char → Prop), (∀ x, isPlainChar x = true → P x) → P '\n' →
      ∀ c ∈ "\n\n".toList ++ b, P c := by
    intro P h1 h2 c hc
    rcases List.mem_append.mp hc with h | h
    · simp only [String.toList, List.mem_cons, List.mem_singleton, List.not_mem_nil,
        or_false, or_self] at h
      subst h
      exact h2
    · exact h1 c (hb c h)
  have htick : Char.ofNat 96 ∉ normalizeNewlines (escapeHtml code) :=
    fun h => escapeHtml_no_tick code hc (mem_normalizeNewlines _ _ h)
  have hnorm := normalize_fence (a ++ "\n\n".toList) lang code ("\n\n".toList ++ b)
    (hA (fun c => escapeChar c = [c] ∧ c ≠ '\r')
      (fun x hx => ⟨(hplain x hx).1, (hplain x hx).2.1⟩) ⟨rfl, by decide⟩) hl
    (hZ (fun c => escapeChar c = [c] ∧ c ≠ '\r')
      (fun x hx => ⟨(hplain x hx).1, (hplain x hx).2.1⟩) ⟨rfl, by decide⟩)
  have hrest : extractFences (0 + 1) 0 ("\n\n".toList ++ b) = ("\n\n".toList ++ b, []) := by
    apply extractFences_id
    have hz : ("\n\n".toList ++ b).count (Char.ofNat 96) = 0 :=
      List.count_eq_zero_of_not_mem (fun h =>
        hZ (fun c => c ≠ Char.ofNat 96) (fun x hx => (hplain x hx).2.2.1) (by decide) _ h rfl)
    omega
  have hfence : extractFences 0 0 ((a ++ "\n\n".toList) ++ ("```".toList ++
      (lang ++ '\n' :: (normalizeNewlines (escapeHtml code) ++ "```".toList ++
        ("\n\n".toList ++ b))))) =
      ((a ++ "\n\n".toList) ++ (codeToken 0 ++ ("\n\n".toList ++ b)),
        [renderCodeBlock lang (normalizeNewlines (escapeHtml code))]) := by
    rw [extractFences_before _ _ (fun h =>
        hA (fun c => c ≠ Char.ofNat 96) (fun x hx => (hplain x hx).2.2.1) (by decide) _ h rfl),
      extractFences_first 0 lang _ _ hl htick, hrest]
  have hmem : ∀ (P : Char → Prop), (∀ x, isPlainChar x = true → P x) → P '\n' →
      (∀ x ∈ codeToken 0, P x) →
      ∀ c ∈ (a ++ "\n\n".toList) ++ (codeToken 0 ++ ("\n\n".toList ++ b)), P c := by
    intro P h1 h2 h3 c hc
    rcases List.mem_append.mp hc with h | h
    · exact hA P h1 h2 c h
    · rcases List.mem_append.mp h with h | h
      · exact h3 c h
      · exact hZ P h1 h2 c h
  have hhash := hmem (fun c => (c == '#') = false)
    (fun x hx => by simpa using (hplain x hx).2.2.2.1) (by decide) (by decide)
  have hamp := hmem (fun c => c ≠ '&') (fun x hx => (hplain x hx).2.2.2.2.1) (by decide)
    (by decide)
  have hinline := inline_id_of _ (hmem (fun c => c ≠ '*' ∧ c ≠ Char.ofNat 96 ∧ c ≠ '[')
    (fun x hx => ⟨(hplain x hx).2.2.2.2.2.2.1, (hplain x hx).2.2.1,
      (hplain x hx).2.2.2.2.2.2.2.1⟩) (by decide) (by decide))
  obtain ⟨a0, ar, rfl⟩ : ∃ a0 ar, a = a0 :: ar := by
    cases a with
    | nil => exact absurd rfl hane
    | cons a0 ar => exact ⟨a0, ar, rfl⟩
  obtain ⟨b0, br, rfl⟩ : ∃ b0 br, b = b0 :: br := by
    cases b with
    | nil => exact absurd rfl hbne
    | cons b0 br => exact ⟨b0, br, rfl⟩
  have ha0 := hplain a0 (ha a0 (List.mem_cons_self _ _))
  have hb0 := hplain b0 (hb b0 (List.mem_cons_self _ _))
  have hshape : (a0 :: ar ++ "\n\n".toList) ++ (codeToken 0 ++ ("\n\n".toList ++ b0 :: br)) =
      a0 :: ar ++ '\n' :: '\n' :: (codeToken 0 ++ '\n' :: '\n' :: (b0 :: br)) := by
    simp
  have hlists : ∀ ordered : Bool,
      replaceAll (anchored (listBlock ordered) (renderList ordered)) none 0
        (a0 :: ar ++ '\n' :: '\n' :: (codeToken 0 ++ '\n' :: '\n' :: (b0 :: br))) =
        a0 :: ar ++ '\n' :: '\n' :: (codeToken 0 ++ '\n' :: '\n' :: (b0 :: br)) := by
    intro ordered
    apply lists_id_blocks ordered a0 ar (codeToken 0) (b0 :: br)
      ⟨(hastart a0 rfl).1, ha0.2.2.2.2.2.2.1, (hastart a0 rfl).2, ha0.2.2.2.2.2.1⟩
    · exact fun c hc => (hplain c (ha c (List.mem_cons_of_mem _ hc))).2.2.2.2.2.1
    · decide
    · exact fun c hc => (hplain c (hb c hc)).2.2.2.2.2.1
    · exact listBlock_none_of_head ordered '\x00' _ (by decide) (by decide) (by decide)
    · exact listBlock_none_of_head ordered b0 br (hbstart b0 rfl).1 hb0.2.2.2.2.2.2.1
        (hbstart b0 rfl).2
  have hsplit : splitBlocks false
      (a0 :: ar ++ '\n' :: '\n' :: (codeToken 0 ++ '\n' :: '\n' :: (b0 :: br))) =
      [a0 :: ar, codeToken 0, b0 :: br] := by
    rw [splitBlocks_blank (a0 :: ar) _
        (fun c hc => (hplain c (ha c hc)).2.2.2.2.2.1) (by simp [codeToken]) (by simp [codeToken]),
      splitBlocks_blank (codeToken 0) _ (by decide)
        (fun c hc => by
          simp only [List.head?_cons, Option.some.injEq] at hc
          subst hc
          exact hb0.2.2.2.2.2.1) (by simp),
      splitBlocks_single _ (fun c hc => (hplain c (hb c hc)).2.2.2.2.2.1)]
  have hwa := wrapBlock_plain (a0 :: ar) ha hane hatrim
  have hwb := wrapBlock_plain (b0 :: br) hb hbne hbtrim
  have hwt : wrapBlock (codeToken 0) = codeToken 0 := by decide
  have hzero : ∀ (x : Str), (∀ c ∈ x, isPlainChar c = true) → ∀ (l r : Str),
      (∀ c ∈ l, c ≠ '\x00') → (∀ c ∈ r, c ≠ '\x00') → ∀ c ∈ l ++ x ++ r, c ≠ '\x00' := by
    intro x hx l r hl hr c hc
    rcases List.mem_append.mp hc with h | h
    · rcases List.mem_append.mp h with h | h
      · exact hl c h
      · exact (hplain c (hx c h)).2.2.2.2.2.2.2.2
    · exact hr c h
  rw [markdownToHtml, show ((a0 :: ar ++ "\n\n".toList) ++ ("```".toList ++
    (lang ++ '\n' :: (code ++ "```".toList ++ ("\n\n".toList ++ b0 :: br))))).isEmpty =
      false from rfl]
  simp only [Bool.false_eq_true, if_false]
  rw [hnorm, hfence]
  simp only
  rw [headings_id _ hhash, quote_id _ hamp]
  rw [hshape] at hinline ⊢
  rw [hlists false, hlists true, hinline, hsplit]
  simp only [List.map_cons, List.map_nil, hwa, hwb, hwt]
  have hjoin : joinWith ['\n'] (filterNonEmpty
      ["<p>".toList ++ a0 :: ar ++ "</p>".toList, codeToken 0,
        "<p>".toList ++ b0 :: br ++ "</p>".toList]) =
      ("<p>".toList ++ a0 :: ar ++ "</p>\n".toList) ++
        (codeToken 0 ++ ("\n<p>".toList ++ b0 :: br ++ "</p>".toList)) := by
    simp [filterNonEmpty, joinWith, codeToken]
  rw [hjoin, placeholder_between _ _ _
    (hzero _ ha _ _ (by decide) (by decide)) (hzero _ hb _ _ (by decide) (by decide))]
  simp

/-- The rendering of two paragraphs around a fenced block with the tag `js`. -/
theorem markdownToHtml_fence_between_witness :
    markdownToHtml "para\n\n```js\nx\n```\n\nmore".toList =
      "<p>para</p>\n<pre><code class=\"language-js\" data-lang=\"js\">x</code></pre>\n<p>more</p>".toList :=
  (markdownToHtml_fence_between "para".toList "more".toList "js".toList "x\n".toList
    (by decide) (by decide) (by decide) (by decide) (by decide) (by decide) (by decide)
    (by decide) (by decide) (by decide)).trans (by decide)

/-- C23: the code encloses a code block in a paragraph.  A fenced block with text on the
line after it, or on the line before it, is in the block of that text: the test of
`wrapBlock` for a block that begins with `<pre` sees the placeholder, not the `pre`, and the
block is wrapped, so the code block ends up inside `<p>`.  A heading, a list or a quote
with text on the line after it is left unwrapped by the same test. -/
theorem markdownToHtml_pre_in_paragraph :
    markdownToHtml "```\nx\n```\ntext".toList =
      "<p><pre><code>x</code></pre><br/>text</p>".toList ∧
    markdownToHtml "text\n```\nx\n```".toList =
      "<p>text<br/><pre><code>x</code></pre></p>".toList ∧
    markdownToHtml "# h\ntext".toList = "<h1>h</h1>\ntext".toList ∧
    markdownToHtml "- a\ntext".toList = "<ul><li>a</li></ul>\ntext".toList ∧
    markdownToHtml "> q\ntext".toList = "<blockquote>q</blockquote>\ntext".toList ∧
    startsWithBlockTag "<pre><code>x</code></pre>\ntext".toList = true ∧
    startsWithBlockTag "\x00CODE0\x00\ntext".toList = false := by
  decide

/-! ## String fields through `updateFrontmatter` and `parseFrontmatter` -/

theorem metaGet_cons (e : Str × MetaValue) (rest : Meta) (k : Str) :
    metaGet (e :: rest) k = if e.1 = k then some e.2 else metaGet rest k := by
  unfold metaGet
  rw [List.find?_cons]
  by_cases h : e.1 = k
  · have hb : (e.1 == k) = true := by simpa using h
    rw [hb, if_pos h]
  · have hb : (e.1 == k) = false := by simpa using h
    rw [hb, if_neg h]

theorem metaGet_map_self (m : Meta) (k : Str) (val : MetaValue)
    (hany : m.any (fun e => e.1 == k) = true) :
    metaGet (m.map (fun e => if e.1 = k then (k, val) else e)) k = some val := by
  induction m with
  | nil => cases hany
  | cons e rest ih =>
    rw [List.map_cons, metaGet_cons]
    by_cases he : e.1 = k
    · rw [if_pos he, if_pos rfl]
    · rw [if_neg he, if_neg he]
      apply ih
      rw [List.any_cons] at hany
      have hb : (e.1 == k) = false := by simpa using he
      rw [hb] at hany
      exact hany

theorem metaGet_append_self (m : Meta) (k : Str) (val : MetaValue)
    (hany : ¬ m.any (fun e => e.1 == k) = true) :
    metaGet (m ++ [(k, val)]) k = some val := by
  induction m with
  | nil => rw [List.nil_append, metaGet_cons, if_pos rfl]
  | cons e rest ih =>
    rw [List.any_cons] at hany
    have he : ¬ e.1 = k := by
      intro h
      exact hany (by simp [h])
    rw [List.cons_append, metaGet_cons, if_neg he]
    apply ih
    intro h
    exact hany (by simp [h])

theorem metaGet_metaSet_self (m : Meta) (k : Str) (val : MetaValue)
    (hk : k ≠ "__proto__".toList) : metaGet (metaSet m k val) k = some val := by
  rw [metaSet, if_neg hk]
  by_cases hany : m.any (fun e => e.1 == k) = true
  · rw [if_pos hany]
    exact metaGet_map_self m k val hany
  · rw [if_neg hany]
    exact metaGet_append_self m k val hany

theorem metaGet_map_other (m : Meta) (k k2 : Str) (val : MetaValue) (h : k2 ≠ k) :
    metaGet (m.map (fun e => if e.1 = k2 then (k2, val) else e)) k = metaGet m k := by
  induction m with
  | nil => rfl
  | cons e rest ih =>
    rw [List.map_cons, metaGet_cons, metaGet_cons, ih]
    by_cases he : e.1 = k2
    · rw [if_pos he, if_neg h, if_neg (by rw [he]; exact h)]
    · rw [if_neg he]

theorem metaGet_append_other (m : Meta) (k k2 : Str) (val : MetaValue) (h : k2 ≠ k) :
    metaGet (m ++ [(k2, val)]) k = metaGet m k := by
  induction m with
  | nil => rw [List.nil_append, metaGet_cons, if_neg h]
  | cons e rest ih => rw [List.cons_append, metaGet_cons, metaGet_cons, ih]

theorem metaGet_metaSet_other (m : Meta) (k k2 : Str) (val : MetaValue) (h : k2 ≠ k) :
    metaGet (metaSet m k2 val) k = metaGet m k := by
  rw [metaSet]
  split_ifs
  · rfl
  · exact metaGet_map_other m k k2 val h
  · exact metaGet_append_other m k k2 val h

/-- The lines after the line of `k` that assign no value to `k` leave the value of `k` as
it is. -/
theorem metaGet_foldl_other (toISO : JSValue → Option Str) (k : Str) (lines : List Str)
    (h : ∀ l ∈ lines, ∀ e, parseLine toISO l = some e → e.1 ≠ k) :
    ∀ m, metaGet (lines.foldl (parseStep toISO) m) k = metaGet m k := by
  induction lines with
  | nil => intro m; rfl
  | cons l rest ih =>
    intro m
    rw [List.foldl_cons, ih (fun x hx => h x (List.mem_cons_of_mem _ hx))]
    unfold parseStep
    cases hl : parseLine toISO l with
    | none => rfl
    | some e => exact metaGet_metaSet_other m k e.1 e.2 (h l (List.mem_cons_self _ _) e hl)

theorem isWhiteSpace_of_isKeyChar (c : Char) (h : isKeyChar c = true) :
    isWhiteSpace c = false := by
  have hb : 45 ≤ c.toNat ∧ c.toNat ≤ 122 := by
    simp only [isKeyChar, isDigit, Bool.or_eq_true, Bool.and_eq_true, decide_eq_true_eq,
      beq_iff_eq] at h
    rcases h with (((h | h) | h) | h) | h
    · omega
    · omega
    · omega
    · subst h
      decide
    · subst h
      decide
  cases hw : isWhiteSpace c with
  | false => rfl
  | true =>
    simp only [isWhiteSpace, Bool.or_eq_true, Bool.and_eq_true, decide_eq_true_eq,
      beq_iff_eq] at hw
    have key : ∀ x : Char, (x.toNat < 45 ∨ 122 < x.toNat) → c ≠ x := by
      intro x hx hcx
      subst hcx
      omega
    rcases hw with
      (((((((((((((hw | hw) | hw) | hw) | hw) | hw) | hw) | hw) | hw) | hw) | hw) | hw) | hw) |
        hw) | hw
    · exact absurd hw (key _ (by decide))
    · exact absurd hw (key _ (by decide))
    · exact absurd hw (key _ (by decide))
    · exact absurd hw (key _ (by decide))
    · exact absurd hw (key _ (by decide))
    · exact absurd hw (key _ (by decide))
    · exact absurd hw (key _ (by decide))
    · exact absurd hw (key _ (by decide))
    · omega
    · exact absurd hw (key _ (by decide))
    · exact absurd hw (key _ (by decide))
    · exact absurd hw (key _ (by decide))
    · exact absurd hw (key _ (by decide))
    · exact absurd hw (key _ (by decide))
    · exact absurd hw (key _ (by decide))

/-- The method `trim` leaves a text without white space as it is. -/
theorem trim_of_no_whiteSpace (s : Str) (h : ∀ c ∈ s, isWhiteSpace c = false) :
    trim s = s := by
  cases s with
  | nil => rfl
  | cons x r =>
    obtain ⟨a, y, hay⟩ : ∃ a y, x :: r = a ++ [y] :=
      ⟨(x :: r).dropLast, (x :: r).getLast (by simp),
        (List.dropLast_append_getLast (by simp)).symm⟩
    have hy : y ∈ x :: r := by
      rw [hay]
      simp
    exact trim_of_ends x y r a hay (h x (List.mem_cons_self _ _)) (h y hy)

theorem escapeQuotes_id (v : Str) (h : '"' ∉ v) : escapeQuotes v = v := by
  induction v with
  | nil => rfl
  | cons c rest ih =>
    have hc : c ≠ '"' := fun hh => h (hh ▸ List.mem_cons_self _ _)
    rw [escapeQuotes, if_neg hc, ih (fun hh => h (List.mem_cons_of_mem _ hh))]

/-- The line that `updateFrontmatter` writes for a string field is read back by the
callback of `parseFrontmatter` as the key and the string. -/
theorem parseLine_applyChange (toISO : JSValue → Option Str) (k v : Str)
    (hk : k ≠ "tags".toList ∧ k ≠ "draft".toList ∧ k ≠ "pubDate".toList ∧
      k ≠ "updatedDate".toList)
    (hkey : ∀ c ∈ k, isKeyChar c = true)
    (hq : '"' ∉ v) (hlt : ∀ c ∈ v, isLineTerminator c = false)
    (hsq : wrapped (Char.ofNat 39) (Char.ofNat 39) v = none)
    (hbr : wrapped '[' ']' v = none)
    (hbool : isBoolLiteral v = false) (hdate : hasDatePrefix v = false) :
    parseLine toISO (applyChange toISO k (.str v)) = some (k, .str v) := by
  have hline : applyChange toISO k (.str v) = k ++ ':' :: (' ' :: '"' :: (v ++ ['"'])) := by
    have h3 : ¬ (k = "pubDate".toList ∨ k = "updatedDate".toList) := by
      rintro (h | h)
      · exact hk.2.2.1 h
      · exact hk.2.2.2 h
    rw [applyChange, if_neg hk.1, if_neg hk.2.1, if_neg h3, yamlQuote, JSValue.toStr,
      escapeQuotes_id v hq]
    simp
  have hcolon : ':' ∉ k := fun h => absurd (hkey _ h) (by decide)
  have htrimk : trim k = k :=
    trim_of_no_whiteSpace k (fun c hc => isWhiteSpace_of_isKeyChar c (hkey c hc))
  have htrimv : trim (' ' :: '"' :: (v ++ ['"'])) = '"' :: (v ++ ['"']) := by
    have h1 : trimStart (' ' :: '"' :: (v ++ ['"'])) = trimStart ('"' :: (v ++ ['"'])) := by
      unfold trimStart
      rw [List.dropWhile_cons_of_pos (by decide)]
    have h2 := trim_of_ends '"' '"' (v ++ ['"']) ('"' :: v) (by simp) (by decide)
      (by decide)
    unfold trim at h2 ⊢
    rw [h1]
    exact h2
  have hstrip : stripQuotes '"' ('"' :: (v ++ ['"'])) = v := by
    rw [stripQuotes, wrapped_append '"' '"' v hlt]
  have hstrip2 : stripQuotes (Char.ofNat 39) v = v := by
    rw [stripQuotes, hsq]
  have hcoerce : coerceValue toISO v = .str v := by
    rw [coerceValue, hbool, hdate, hbr]
    simp
  rw [hline, parseLine, indexOfChar_append ':' k _ hcolon]
  simp only [List.take_left, List.drop_left, htrimk]
  have hdrop : (k ++ ':' :: (' ' :: '"' :: (v ++ ['"']))).drop (k.length + 1) =
      ' ' :: '"' :: (v ++ ['"']) := by
    have : k ++ ':' :: (' ' :: '"' :: (v ++ ['"'])) =
        (k ++ [':']) ++ (' ' :: '"' :: (v ++ ['"'])) := by simp
    rw [this, show k.length + 1 = (k ++ [':']).length by simp, List.drop_left]
  rw [hdrop, htrimv, hstrip, hstrip2, hcoerce]

/-- C27, amended: for a key `k` made of the characters of `[A-Za-z0-9_-]`, other than
`tags`, `draft`, `pubDate`, `updatedDate` and `__proto__`, and a string `v` without
double quote and line terminator that is not wrapped in single quotes or in `[` `]`, is no
`true` or `false` literal and has no date prefix: when the line that `updateFrontmatter`
writes for `k` and `v` is a line of a frontmatter text, and no other line of it is read
with the key `k`, `parseFrontmatter` of the block returns the string `v` for `k`. -/
theorem parseFrontmatter_written_field (toISO : JSValue → Option Str) (k v : Str)
    (hk : k ≠ "tags".toList ∧ k ≠ "draft".toList ∧ k ≠ "pubDate".toList ∧
      k ≠ "updatedDate".toList)
    (hproto : k ≠ "__proto__".toList)
    (hkey : ∀ c ∈ k, isKeyChar c = true)
    (hq : '"' ∉ v) (hlt : ∀ c ∈ v, isLineTerminator c = false)
    (hsq : wrapped (Char.ofNat 39) (Char.ofNat 39) v = none)
    (hbr : wrapped '[' ']' v = none)
    (hbool : isBoolLiteral v = false) (hdate : hasDatePrefix v = false)
    (fm body : Str) (before after : List Str)
    (hfm : hasSubstr "\n---".toList fm = false)
    (hlines : splitLines fm = before ++ applyChange toISO k (.str v) :: after)
    (hother : ∀ l ∈ before ++ after, ∀ e, parseLine toISO l = some e → e.1 ≠ k) :
    metaGet (parseFrontmatter toISO
      ("---\n".toList ++ fm ++ "\n---\n".toList ++ body)).1 k = some (.str v) := by
  have h1 : "---\n".toList ++ fm ++ "\n---\n".toList ++ body =
      "---\n".toList ++ fm ++ "\n---".toList ++ ('\n' :: body) := by
    simp
  have hline := parseLine_applyChange toISO k v hk hkey hq hlt hsq hbr hbool hdate
  rw [parseFrontmatter, h1, matchFrontmatter_delimited fm _ hfm]
  simp only
  rw [parseLines, hlines, List.foldl_append, List.foldl_cons,
    metaGet_foldl_other toISO k after
      (fun l hl => hother l (List.mem_append.mpr (Or.inr hl)))]
  rw [parseStep, hline]
  exact metaGet_metaSet_self _ k _ hproto

/-- C27, amended, on a block with a title written by `updateFrontmatter` between two
other lines. -/
theorem parseFrontmatter_written_field_witness :
    metaGet (parseFrontmatter (fun _ => none)
      "---\ndraft: true\ntitle: \"My post\"\ntags: []\n---\nHello".toList).1
      "title".toList = some (.str "My post".toList) :=
  parseFrontmatter_written_field (fun _ => none) "title".toList "My post".toList
    (by decide) (by decide) (by decide) (by decide) (by decide) (by decide) (by decide)
    (by decide) (by decide) "draft: true\ntitle: \"My post\"\ntags: []".toList
    "Hello".toList ["draft: true".toList] ["tags: []".toList] (by decide) (by decide)
    (by decide)

/-- C27, as stated, fails for a key with a colon: the line written for the key `a:b` and
the value `v` is read back as the key `a` with the value `b: "v"`, and the block has no
value for `a:b`. -/
theorem parseFrontmatter_key_with_colon :
    (∀ toISO : JSValue → Option Str,
      updateFrontmatter toISO [] [("a:b".toList, .str "v".toList)] =
        "\na:b: \"v\"".toList) ∧
    (∀ toISO : JSValue → Option Str,
      parseFrontmatter toISO "---\n\na:b: \"v\"\n---\n".toList =
        ([("a".toList, .str "b: \"v\"".toList)], [])) ∧
    (∀ toISO : JSValue → Option Str,
      metaGet (parseFrontmatter toISO "---\n\na:b: \"v\"\n---\n".toList).1 "a:b".toList =
        none) :=
  ⟨fun _ => rfl, fun _ => rfl, fun _ => rfl⟩

/-! ## The order of the two list rules -/

theorem escapeHtml_no_nl (s : Str) (h : '\n' ∉ s) : '\n' ∉ escapeHtml s := by
  induction s with
  | nil => simp [escapeHtml]
  | cons c rest ih =>
    have hc : '\n' ≠ c := fun hh => h (hh ▸ List.mem_cons_self _ _)
    have hr : '\n' ∉ rest := fun hh => h (List.mem_cons_of_mem _ hh)
    intro hmem
    rw [escapeHtml] at hmem
    rcases List.mem_append.mp hmem with h1 | h1
    · unfold escapeChar at h1
      split_ifs at h1
      · exact absurd h1 (by decide)
      · exact absurd h1 (by decide)
      · exact absurd h1 (by decide)
      · exact absurd h1 (by decide)
      · exact absurd h1 (by decide)
      · exact hc (List.mem_singleton.mp h1)
    · exact ih hr h1

theorem matchFence_nl (t : Str) (m : Nat × Str × Str) (h : matchFence t = some m) :
    '\n' ∈ t := by
  unfold matchFence at h
  split at h
  · simp only at h
    split at h
    · rename_i c v heq
      split at h
      · rename_i hc
        have h2 : c ∈ (t.drop 3).dropWhile isLangChar := by
          rw [heq]
          exact List.mem_cons_self _ _
        rw [hc] at h2
        exact List.mem_of_mem_drop ((List.dropWhile_sublist _).subset h2)
      · simp at h
    · simp at h
  · simp at h

/-- A text of one line has no fence: `extractFences` leaves it as it is. -/
theorem extractFences_no_nl (s : Str) (h : '\n' ∉ s) :
    ∀ n, extractFences n 0 s = (s, []) := by
  induction s with
  | nil => intro _; rfl
  | cons c rest ih =>
    intro n
    cases hm : matchFence (c :: rest) with
    | some m => exact absurd (matchFence_nl _ m hm) h
    | none =>
      rw [extractFences, hm]
      simp only
      rw [ih (fun hh => h (List.mem_cons_of_mem _ hh)) n]

/-- A replacement whose rule puts no character `d` in its output, on a text without
`d`, gives a text without `d`. -/
theorem replaceAll_not_mem (rule : Option Char → Str → Option (Nat × Str)) (d : Char)
    (hr : ∀ prev t r, rule prev t = some r → d ∉ t → d ∉ r.2) (s : Str) :
    ∀ prev k, d ∉ s → d ∉ replaceAll rule prev k s := by
  induction s with
  | nil =>
    intro prev k _
    rw [replaceAll_nil]
    simp
  | cons c rest ih =>
    intro prev k hs
    have hrest : d ∉ rest := fun hh => hs (List.mem_cons_of_mem _ hh)
    cases k with
    | succ k =>
      rw [replaceAll_succ_cons]
      exact ih _ _ hrest
    | zero =>
      rw [replaceAll_zero_cons]
      cases hm : rule prev (c :: rest) with
      | none =>
        simp only
        intro hh
        rcases List.mem_cons.mp hh with h1 | h1
        · exact hs (h1 ▸ List.mem_cons_self _ _)
        · exact ih _ _ hrest h1
      | some r =>
        simp only
        intro hh
        rcases List.mem_append.mp hh with h1 | h1
        · exact hr prev _ r hm hs h1
        · exact ih _ _ hrest h1

theorem headingRule_no_nl (level : Nat) (prev : Option Char) (t : Str) (r : Nat × Str)
    (h : headingRule level prev t = some r) (ht : '\n' ∉ t) : '\n' ∉ r.2 := by
  unfold headingRule at h
  simp only at h
  split at h
  · simp only [Option.some.injEq] at h
    subst h
    have hd : '\n' ∉ Nat.toDigits 10 level :=
      fun hh => absurd (toDigits_isDigit level _ hh) (by decide)
    have hcontent : '\n' ∉ (t.drop (List.replicate level '#' ++ [' ']).length).takeWhile
        (fun c => !isLineTerminator c) :=
      fun hh => ht (List.mem_of_mem_drop ((List.takeWhile_sublist _).subset hh))
    simp only [List.mem_append, not_or]
    exact ⟨⟨⟨⟨⟨⟨by decide, hd⟩, by decide⟩, hcontent⟩, by decide⟩, hd⟩, by decide⟩
  · simp at h

theorem splitChar_no_sep (sep : Char) (s : Str) (h : sep ∉ s) : splitChar sep s = [s] := by
  have := splitChar_joinWith sep [s] (by simp) (fun l hl c hc hcs => by
    simp only [List.mem_singleton] at hl
    subst hl
    exact h (hcs ▸ hc))
  simpa [joinWith] using this

/-- On a text of one line, a block rule can only match at the start of the text. -/
theorem anchored_no_nl (blockLen : Str → Option Nat) (render : Str → Str → Str)
    (prev : Option Char) (t : Str) (ht : '\n' ∉ t) :
    anchored blockLen render prev t =
      match (if prev.isNone then blockLen t else none) with
      | some n => some (n, render [] (t.take n))
      | none => none := by
  unfold anchored
  cases hb : (if prev.isNone then blockLen t else none) with
  | some n => rfl
  | none =>
    cases t with
    | nil => rfl
    | cons c u =>
      have hc : c ≠ '\n' := fun hh => ht (hh ▸ List.mem_cons_self _ _)
      simp [hc]

theorem mem_stripQuoteMarker (line : Str) (c : Char) (h : c ∈ stripQuoteMarker line) :
    c ∈ line := by
  unfold stripQuoteMarker at h
  split at h
  · have hsub : ∀ x ∈ line.drop 4, x ∈ line := fun x hx => List.mem_of_mem_drop hx
    cases hd : line.drop 4 with
    | nil =>
      rw [hd] at h
      simp at h
    | cons y rest =>
      rw [hd] at h hsub
      simp only at h
      split at h
      · exact hsub c (List.mem_cons_of_mem _ h)
      · exact hsub c h
  · exact h

theorem quoteRule_no_nl (prev : Option Char) (t : Str) (r : Nat × Str)
    (h : anchored quoteBlock renderQuote prev t = some r) (ht : '\n' ∉ t) : '\n' ∉ r.2 := by
  rw [anchored_no_nl _ _ _ _ ht] at h
  cases hb : (if prev.isNone then quoteBlock t else none) with
  | none =>
    rw [hb] at h
    cases h
  | some n =>
    rw [hb] at h
    simp only [Option.some.injEq] at h
    subst h
    have htake : '\n' ∉ t.take n := fun hh => ht (List.mem_of_mem_take hh)
    simp only [renderQuote, splitChar_no_sep '\n' _ htake, List.map_cons, List.map_nil,
      joinWith, List.nil_append, List.mem_append, not_or]
    exact ⟨⟨by decide, fun hh => htake (mem_stripQuoteMarker _ _ hh)⟩, by decide⟩

theorem replaceAll_anchored_skip (blockLen : Str → Option Nat) (render : Str → Str → Str)
    (s : Str) (h : '\n' ∉ s) :
    ∀ p k, replaceAll (anchored blockLen render) (some p) k s = s.drop k := by
  induction s with
  | nil =>
    intro p k
    rw [replaceAll_nil, List.drop_nil]
  | cons c rest ih =>
    intro p k
    cases k with
    | zero =>
      exact replaceAll_of_neverMatches _ _ _
        (neverMatches_anchored_some blockLen render _
          (fun x hx hn => h (hn ▸ hx)) p)
    | succ k =>
      rw [replaceAll_succ_cons, ih (fun hh => h (List.mem_cons_of_mem _ hh))]
      rfl

theorem mem_trim (s : Str) (c : Char) (h : c ∈ trim s) : c ∈ s := by
  unfold trim trimEnd trimStart at h
  rw [List.mem_reverse] at h
  have h1 := (List.dropWhile_sublist isWhiteSpace).subset h
  rw [List.mem_reverse] at h1
  exact (List.dropWhile_sublist isWhiteSpace).subset h1

theorem mem_stripListMarker (ordered : Bool) (line : Str) (c : Char)
    (h : c ∈ stripListMarker ordered line) : c ∈ line := by
  unfold stripListMarker at h
  split at h
  · split at h
    · exact (List.dropWhile_sublist _).subset
        (List.mem_of_mem_drop ((List.dropWhile_sublist _).subset h))
    · exact List.mem_of_mem_drop ((List.dropWhile_sublist _).subset h)
  · exact h

/-- The list made of a block of one line: the block itself when its item is empty, and
else a list element, which starts with `<`; in both cases without line feed. -/
theorem renderList_line (ordered : Bool) (block : Str) (h : '\n' ∉ block) :
    (renderList ordered [] block = block ∨
      ∃ rest, renderList ordered [] block = '<' :: rest) ∧
    '\n' ∉ renderList ordered [] block := by
  have hitem : '\n' ∉ trim (stripListMarker ordered block) :=
    fun hh => h (mem_stripListMarker _ _ _ (mem_trim _ _ hh))
  have htag : '\n' ∉ listTag ordered := by
    cases ordered <;> decide
  unfold renderList
  simp only [splitChar_no_sep '\n' block h, List.map_cons, List.map_nil]
  cases hi : trim (stripListMarker ordered block) with
  | nil =>
    simp only [filterNonEmpty, List.filter_cons, List.isEmpty_nil, Bool.not_true,
      Bool.false_eq_true, if_false, List.filter_nil, if_true, List.nil_append]
    exact ⟨Or.inl trivial, h⟩
  | cons x r =>
    rw [hi] at hitem
    simp only [filterNonEmpty, List.filter_cons, List.isEmpty_cons, Bool.not_false,
      if_true, List.filter_nil, Bool.false_eq_true, if_false, List.nil_append,
      List.map_cons, List.map_nil, List.flatten_cons, List.flatten_nil, List.append_nil]
    refine ⟨Or.inr ⟨_, rfl⟩, ?_⟩
    simp only [List.singleton_append, List.cons_append, List.mem_cons, List.mem_append,
      not_or]
    refine ⟨by decide, ?_⟩
    have hx : ¬ '\n' = x := fun hh => hitem (hh ▸ List.mem_cons_self _ _)
    have hr : '\n' ∉ r := fun hh => hitem (List.mem_cons_of_mem _ hh)
    and_intros <;> first | exact htag | exact hx | exact hr | decide

theorem itemStart_lt (ordered : Bool) (rest : Str) : itemStart ordered ('<' :: rest) = false := by
  cases ordered
  · cases rest <;> simp [itemStart]
  · simp [itemStart, List.takeWhile, show isDigit '<' = false by decide]

theorem itemStart_exclusive (h : Str) (hu : itemStart false h = true) :
    itemStart true h = false := by
  match h, hu with
  | m :: w :: rest, hu =>
    simp only [itemStart, Bool.false_eq_true, if_false, Bool.and_eq_true, Bool.or_eq_true,
      beq_iff_eq] at hu
    have hd : isDigit m = false := by
      rcases hu.1 with rfl | rfl <;> decide
    simp [itemStart, List.takeWhile, hd]

/-- The list rule on a text of one line `h`: nothing when no item starts `h`; else the
list made of the block at the start of `h`, and the rest of `h`. -/
theorem listStage_line (ordered : Bool) (h : Str) (hn : '\n' ∉ h) :
    (itemStart ordered h = false →
      replaceAll (anchored (listBlock ordered) (renderList ordered)) none 0 h = h) ∧
    (replaceAll (anchored (listBlock ordered) (renderList ordered)) none 0 h = h ∨
      ∃ rest, replaceAll (anchored (listBlock ordered) (renderList ordered)) none 0 h =
        '<' :: rest) ∧
    '\n' ∉ replaceAll (anchored (listBlock ordered) (renderList ordered)) none 0 h := by
  have hnone : itemStart ordered h = false →
      replaceAll (anchored (listBlock ordered) (renderList ordered)) none 0 h = h := by
    intro hi
    cases h with
    | nil => rfl
    | cons c rest =>
      have hb : listBlock ordered (c :: rest) = none := by
        rw [listBlock, hi]
        rfl
      have hm : anchored (listBlock ordered) (renderList ordered) none (c :: rest) = none := by
        rw [anchored_no_nl _ _ _ _ hn]
        simp [hb]
      rw [replaceAll_zero_cons, hm]
      simp only
      rw [replaceAll_anchored_skip _ _ rest (fun hh => hn (List.mem_cons_of_mem _ hh))]
      rfl
  have hmem := replaceAll_not_mem (anchored (listBlock ordered) (renderList ordered)) '\n'
    (fun prev t r hr ht => by
      rw [anchored_no_nl _ _ _ _ ht] at hr
      cases hb : (if prev.isNone then listBlock ordered t else none) with
      | none =>
        rw [hb] at hr
        cases hr
      | some n =>
        rw [hb] at hr
        simp only [Option.some.injEq] at hr
        subst hr
        exact (renderList_line ordered (t.take n)
          (fun hh => ht (List.mem_of_mem_take hh))).2) h none 0 hn
  refine ⟨hnone, ?_, hmem⟩
  cases hi : itemStart ordered h with
  | false => exact Or.inl (hnone hi)
  | true =>
    cases h with
    | nil => exact Or.inl rfl
    | cons c rest =>
      have hb : listBlock ordered (c :: rest) =
          some (listScan ordered .marker (c :: rest)) := by
        rw [listBlock, hi]
        rfl
      obtain ⟨k, hk⟩ : ∃ k, listScan ordered .marker (c :: rest) = k + 1 := by
        rw [listScan]
        split <;> exact ⟨_, rfl⟩
      have hm : anchored (listBlock ordered) (renderList ordered) none (c :: rest) =
          some (k + 1, renderList ordered [] ((c :: rest).take (k + 1))) := by
        rw [anchored_no_nl _ _ _ _ hn]
        simp [hb, hk]
      rw [replaceAll_zero_cons, hm]
      simp only [Nat.add_sub_cancel]
      rw [replaceAll_anchored_skip _ _ rest (fun hh => hn (List.mem_cons_of_mem _ hh))]
      rcases (renderList_line ordered ((c :: rest).take (k + 1))
        (fun hh => hn (List.mem_of_mem_take hh))).1 with hr | ⟨r2, hr⟩
      · left
        rw [hr]
        exact List.take_append_drop (k + 1) (c :: rest)
      · right
        rw [hr]
        exact ⟨_, rfl⟩

/-- On a text of one line the two list rules give the same in either order. -/
theorem lists_commute (h : Str) (hn : '\n' ∉ h) :
    replaceAll (anchored (listBlock true) (renderList true)) none 0
      (replaceAll (anchored (listBlock false) (renderList false)) none 0 h) =
    replaceAll (anchored (listBlock false) (renderList false)) none 0
      (replaceAll (anchored (listBlock true) (renderList true)) none 0 h) := by
  obtain ⟨hu1, hu2, hu3⟩ := listStage_line false h hn
  obtain ⟨ho1, ho2, ho3⟩ := listStage_line true h hn
  cases hi : itemStart false h with
  | true =>
    have ho := ho1 (itemStart_exclusive h hi)
    rw [ho]
    rcases hu2 with hu | ⟨rest, hu⟩
    · rw [hu, ho]
    · rw [hu]
      rw [hu] at hu3
      exact (listStage_line true _ hu3).1 (itemStart_lt true rest)
  | false =>
    have hu := hu1 hi
    rw [hu]
    rcases ho2 with ho | ⟨rest, ho⟩
    · rw [ho, hu]
    · rw [ho]
      rw [ho] at ho3
      exact ((listStage_line false _ ho3).1 (itemStart_lt false rest)).symm

/-- C25, amended: `markdownToHtml` runs the unordered-list rule before the ordered-list
rule; for every markdown input without line feed it gives the same output as the pipeline
with the ordered-list rule first. -/
theorem markdownToHtml_order_one_line (markdown : Str) (h : '\n' ∉ markdown) :
    markdownToHtml markdown = markdownToHtmlOrderedFirst markdown := by
  have hnorm : '\n' ∉ normalizeNewlines (escapeHtml markdown) :=
    fun hh => escapeHtml_no_nl markdown h (mem_normalizeNewlines _ _ hh)
  have hfence := extractFences_no_nl _ hnorm 0
  have hhead : ∀ (level : Nat) (s : Str), '\n' ∉ s →
      '\n' ∉ replaceAll (headingRule level) none 0 s :=
    fun level s hs => replaceAll_not_mem _ '\n' (headingRule_no_nl level) s none 0 hs
  have hquote : ∀ s : Str, '\n' ∉ s →
      '\n' ∉ replaceAll (anchored quoteBlock renderQuote) none 0 s :=
    fun s hs => replaceAll_not_mem _ '\n' quoteRule_no_nl s none 0 hs
  unfold markdownToHtml markdownToHtmlOrderedFirst
  split
  · rfl
  · simp only [hfence]
    rw [lists_commute _ (hquote _ (hhead 1 _ (hhead 2 _ (hhead 3 _ (hhead 4 _ (hhead 5 _
      (hhead 6 _ hnorm)))))))]

/-- C25, amended, on a line that starts a list item: both orders give the list of one
item. -/
theorem markdownToHtml_order_one_line_witness :
    markdownToHtml "- 1. x".toList = markdownToHtmlOrderedFirst "- 1. x".toList ∧
    markdownToHtml "- 1. x".toList = "<ul><li>1. x</li></ul>".toList :=
  ⟨markdownToHtml_order_one_line "- 1. x".toList (by decide), by decide⟩

/-- C25, as stated, fails: on the two lines `-` and `1. x`, `markdownToHtml` takes both
lines as one unordered list, because the white space after the marker may be the line
feed, and the pipeline with the ordered-list rule first makes an ordered list of the
second line. -/
theorem markdownToHtml_order_differs :
    markdownToHtml "-\n1. x".toList = "<ul><li>-</li><li>1. x</li></ul>".toList ∧
    markdownToHtmlOrderedFirst "-\n1. x".toList =
      "<ul><li>-</li><li><ol><li>x</li></ol></li></ul>".toList ∧
    markdownToHtml "-\n1. x".toList ≠ markdownToHtmlOrderedFirst "-\n1. x".toList := by
  decide

/-! ## The placeholders through the rules of `markdownToHtml` -/

theorem markText_append (d s : Str) :
    markText d ++ s = '\x00' :: 'C' :: 'O' :: 'D' :: 'E' :: (d ++ '\x00' :: s) := by
  simp [markText]

theorem marked_mark {d s : Str} {ms : List Str} (hd : d ≠ [])
    (hds : ∀ c ∈ d, isDigit c = true) (h : Marked s ms) :
    Marked (markText d ++ s) (d :: ms) := by
  rw [markText_append]
  exact Marked.mark d s ms hd hds h

theorem marked_append {a b : Str} {m1 m2 : List Str} (ha : Marked a m1) (hb : Marked b m2) :
    Marked (a ++ b) (m1 ++ m2) := by
  induction ha with
  | nil => simpa using hb
  | char c s ms hc _ ih => exact Marked.char c _ _ hc ih
  | mark d s ms hd hds _ ih =>
    have := Marked.mark d _ _ hd hds ih
    simpa [List.append_assoc] using this

theorem marked_of_no_nul (s : Str) (h : '\x00' ∉ s) : Marked s [] := by
  induction s with
  | nil => exact Marked.nil
  | cons c rest ih =>
    exact Marked.char c rest [] (fun hc => h (hc ▸ List.mem_cons_self _ _))
      (ih (fun hh => h (List.mem_cons_of_mem _ hh)))

theorem marked_nil_of_no_nul {s : Str} {ms : List Str} (h : Marked s ms)
    (h0 : '\x00' ∉ s) : ms = [] := by
  induction h with
  | nil => rfl
  | char c s ms _ _ ih => exact ih (fun hh => h0 (List.mem_cons_of_mem _ hh))
  | mark d s ms _ _ _ _ => exact absurd (List.mem_cons_self _ _) h0

theorem isMarkChar_of_mem_markText (d : Str) (hds : ∀ c ∈ d, isDigit c = true) (c : Char)
    (h : c ∈ markText d) : isMarkChar c = true := by
  simp only [markText, List.mem_cons, List.mem_append, List.mem_singleton, List.not_mem_nil,
    or_false] at h
  rcases h with rfl | rfl | rfl | rfl | rfl | h | rfl
  · decide
  · decide
  · decide
  · decide
  · decide
  · simp [isMarkChar, hds c h]
  · decide

theorem markText_ne_nil (d : Str) : markText d ≠ [] := by simp [markText]

/-- A marked text can be cut where the character before or the character after is no
character of a placeholder. -/
theorem marked_split {s : Str} {ms : List Str} (h : Marked s ms) :
    ∀ a b, s = a ++ b →
      ((∀ c, a.getLast? = some c → isMarkChar c = false) ∨
        (∀ c, b.head? = some c → isMarkChar c = false)) →
      ∃ m1 m2, Marked a m1 ∧ Marked b m2 ∧ ms = m1 ++ m2 := by
  induction h with
  | nil =>
    intro a b hab _
    have h1 : a = [] ∧ b = [] := by simpa using hab.symm
    rcases h1 with ⟨rfl, rfl⟩
    exact ⟨[], [], Marked.nil, Marked.nil, rfl⟩
  | char c s ms hc hs ih =>
    intro a b hab hcut
    rcases a with _ | ⟨x, a⟩
    · simp only [List.nil_append] at hab
      subst hab
      exact ⟨[], ms, Marked.nil, Marked.char c s ms hc hs, rfl⟩
    · simp only [List.cons_append, List.cons.injEq] at hab
      obtain ⟨rfl, rfl⟩ := hab
      have hcut2 : (∀ c, a.getLast? = some c → isMarkChar c = false) ∨
          (∀ c, b.head? = some c → isMarkChar c = false) := by
        rcases hcut with h1 | h1
        · rcases a with _ | ⟨y, a⟩
          · left
            intro c hc
            simp at hc
          · left
            intro c hc
            exact h1 c (by simpa [List.getLast?_cons_cons] using hc)
        · exact Or.inr h1
      obtain ⟨m1, m2, h1, h2, h3⟩ := ih a b rfl hcut2
      exact ⟨m1, m2, Marked.char _ a m1 hc h1, h2, h3⟩
  | mark d s ms hd hds hs ih =>
    intro a b hab hcut
    rw [← markText_append] at hab
    rcases List.append_eq_append_iff.mp hab with ⟨a2, ha, hs2⟩ | ⟨c2, hm, hb⟩
    · -- the cut is after the placeholder
      have hcut2 : (∀ c, a2.getLast? = some c → isMarkChar c = false) ∨
          (∀ c, b.head? = some c → isMarkChar c = false) := by
        rcases hcut with h1 | h1
        · rcases a2 with _ | ⟨y, a2⟩
          · left
            intro c hc
            simp at hc
          · left
            intro c hc
            apply h1 c
            rw [ha, List.getLast?_append_of_ne_nil _ (by simp)]
            exact hc
        · exact Or.inr h1
      obtain ⟨m1, m2, h1, h2, h3⟩ := ih a2 b hs2 hcut2
      refine ⟨d :: m1, m2, ?_, h2, by simp [h3]⟩
      rw [ha]
      exact marked_mark hd hds h1
    · rcases c2 with _ | ⟨y, c2⟩
      · simp only [List.append_nil] at hm
        simp only [List.nil_append] at hb
        subst hb
        refine ⟨[d], ms, ?_, hs, rfl⟩
        rw [← hm]
        have := marked_mark hd hds Marked.nil
        simpa using this
      · rcases a with _ | ⟨x, a⟩
        · simp only [List.nil_append] at hab
          subst hab
          refine ⟨[], d :: ms, Marked.nil, marked_mark hd hds hs, rfl⟩
        · exfalso
          rcases hcut with h1 | h1
          · have hx : ((x :: a).getLast (by simp)) ∈ markText d := by
              rw [hm]
              exact List.mem_append_left _ (List.getLast_mem _)
            have := h1 _ (List.getLast?_eq_getLast _ (by simp))
            rw [isMarkChar_of_mem_markText d hds _ hx] at this
            exact absurd this (by decide)
          · have hy : y ∈ markText d := by
              rw [hm]
              exact List.mem_append_right _ (List.mem_cons_self _ _)
            have := h1 y (by rw [hb]; rfl)
            rw [isMarkChar_of_mem_markText d hds _ hy] at this
            exact absurd this (by decide)

theorem replaceAll_through (rule : Option Char → Str → Option (Nat × Str))
    (hr : RuleMarked rule) (s : Str) (z : Char) (hz : isMarkChar z = true) (w : Str) :
    ∀ p, (∀ c ∈ w, isMarkChar c = true) →
      replaceAll rule (some p) 0 (w ++ z :: s) = w ++ z :: replaceAll rule (some z) 0 s := by
  induction w with
  | nil =>
    intro p _
    rw [List.nil_append, replaceAll_zero_cons, hr.1 (some p) z s hz (by simp)]
    rfl
  | cons c w ih =>
    intro p hw
    rw [List.cons_append, replaceAll_zero_cons,
      hr.1 (some p) c _ (hw c (List.mem_cons_self _ _)) (by simp)]
    simp only [List.cons_append, List.cons.injEq, true_and]
    exact ih c (fun x hx => hw x (List.mem_cons_of_mem _ hx))

theorem replaceAll_markText (rule : Option Char → Str → Option (Nat × Str))
    (hr : RuleMarked rule) (d s : Str) (hds : ∀ c ∈ d, isDigit c = true)
    (prev : Option Char) :
    replaceAll rule prev 0 (markText d ++ s) =
      markText d ++ replaceAll rule (some '\x00') 0 s := by
  have h1 : markText d ++ s = '\x00' :: (('C' :: 'O' :: 'D' :: 'E' :: d) ++ '\x00' :: s) := by
    simp [markText]
  have h2 : markText d ++ replaceAll rule (some '\x00') 0 s =
      '\x00' :: (('C' :: 'O' :: 'D' :: 'E' :: d) ++
        '\x00' :: replaceAll rule (some '\x00') 0 s) := by
    simp [markText]
  rw [h1, h2, replaceAll_zero_cons, hr.1 prev '\x00' _ (by decide) (fun _ => rfl)]
  simp only [List.cons.injEq, true_and]
  apply replaceAll_through rule hr s '\x00' (by decide)
  intro c hc
  simp only [List.mem_cons] at hc
  rcases hc with rfl | rfl | rfl | rfl | hc
  · decide
  · decide
  · decide
  · decide
  · simp [isMarkChar, hds c hc]

theorem replaceAll_skip_length (rule : Option Char → Str → Option (Nat × Str)) (s : Str)
    (z : Char) (w : Str) :
    ∀ p, replaceAll rule p (w.length + 1) (w ++ z :: s) = replaceAll rule (some z) 0 s := by
  induction w with
  | nil =>
    intro p
    rfl
  | cons c w ih =>
    intro p
    rw [List.cons_append, List.length_cons, replaceAll_succ_cons]
    exact ih (some c)

/-- A global replacement by a rule that satisfies `RuleMarked` keeps the placeholders of
a marked text. -/
theorem marked_replaceAll (rule : Option Char → Str → Option (Nat × Str))
    (hr : RuleMarked rule) (s : Str) :
    ∀ (prev : Option Char) (k : Nat) (ms : List Str), Marked (s.drop k) ms →
      ∃ ms2, Marked (replaceAll rule prev k s) ms2 ∧ ms2.Perm ms := by
  induction s with
  | nil =>
    intro prev k ms h
    rw [replaceAll_nil]
    simp only [List.drop_nil] at h
    exact ⟨ms, h, List.Perm.refl _⟩
  | cons c rest ih =>
    intro prev k ms h
    cases k with
    | succ k =>
      rw [replaceAll_succ_cons]
      exact ih (some c) k ms (by simpa using h)
    | zero =>
      simp only [List.drop_zero] at h
      cases h with
      | char _ _ _ hc hrest =>
        rw [replaceAll_zero_cons]
        cases hm : rule prev (c :: rest) with
        | none =>
          obtain ⟨ms2, h1, h2⟩ := ih (some c) 0 ms (by simpa using hrest)
          exact ⟨ms2, Marked.char c _ ms2 hc h1, h2⟩
        | some r =>
          obtain ⟨hpos, m1, m2, h1, h2, h3⟩ :=
            hr.2 prev (c :: rest) ms r (Marked.char c rest ms hc hrest) hm
          have hd : (c :: rest).drop r.1 = rest.drop (r.1 - 1) := by
            obtain ⟨n, hn⟩ : ∃ n, r.1 = n + 1 := ⟨r.1 - 1, by omega⟩
            rw [hn]
            rfl
          rw [hd] at h2
          obtain ⟨m3, h4, h5⟩ := ih (some c) (r.1 - 1) m2 h2
          exact ⟨m1 ++ m3, marked_append h1 h4,
            (List.Perm.append_left m1 h5).trans h3⟩
      | mark d s ms hd hds hs =>
        have e : ('\x00' :: 'C' :: 'O' :: 'D' :: 'E' :: (d ++ '\x00' :: s)) =
            markText d ++ s := (markText_append d s).symm
        rw [e, replaceAll_markText rule hr d s hds prev]
        have h2 := replaceAll_skip_length rule s '\x00' ('C' :: 'O' :: 'D' :: 'E' :: d)
          (some '\x00')
        have h3 : Marked
            ((('C' :: 'O' :: 'D' :: 'E' :: d) ++ '\x00' :: s).drop
              (('C' :: 'O' :: 'D' :: 'E' :: d).length + 1)) ms := by
          have : (('C' :: 'O' :: 'D' :: 'E' :: d) ++ '\x00' :: s).drop
              (('C' :: 'O' :: 'D' :: 'E' :: d).length + 1) = s := by
            rw [show ('C' :: 'O' :: 'D' :: 'E' :: d) ++ '\x00' :: s =
              (('C' :: 'O' :: 'D' :: 'E' :: d) ++ ['\x00']) ++ s by simp]
            rw [show ('C' :: 'O' :: 'D' :: 'E' :: d).length + 1 =
              (('C' :: 'O' :: 'D' :: 'E' :: d) ++ ['\x00']).length by simp]
            exact List.drop_left _ _
          rw [this]
          exact hs
        obtain ⟨m3, h4, h5⟩ := ih (some '\x00') _ ms h3
        change Marked (replaceAll rule (some '\x00')
          (('C' :: 'O' :: 'D' :: 'E' :: d).length + 1)
          (('C' :: 'O' :: 'D' :: 'E' :: d) ++ '\x00' :: s)) m3 at h4
        rw [h2] at h4
        exact ⟨d :: m3, marked_mark hd hds h4, List.Perm.cons d h5⟩

theorem drop_takeWhile_length (p : Char → Bool) (l : Str) :
    l.drop (l.takeWhile p).length = l.dropWhile p := by
  conv_lhs => rw [← List.takeWhile_append_dropWhile p l]
  rw [List.takeWhile_append_dropWhile]
  induction l with
  | nil => rfl
  | cons c rest ih =>
    by_cases h : p c = true
    · simp [List.takeWhile, List.dropWhile, h, ih]
    · simp [List.takeWhile, List.dropWhile, h]

theorem not_nul_of_not_mark {a : Str} (h : ∀ c ∈ a, isMarkChar c = false) : '\x00' ∉ a :=
  fun h0 => absurd (h _ h0) (by decide)

theorem marked_drop_lit {a b : Str} {ms : List Str} (h : Marked (a ++ b) ms)
    (ha : ∀ c ∈ a, isMarkChar c = false) : Marked b ms := by
  obtain ⟨m1, m2, h1, h2, h3⟩ := marked_split h a b rfl
    (Or.inl (fun c hc => ha c (List.mem_of_getLast?_eq_some hc)))
  have := marked_nil_of_no_nul h1 (not_nul_of_not_mark ha)
  subst this
  simpa [h3] using h2

theorem marked_split_lit {x a b : Str} {ms : List Str} (h : Marked (x ++ (a ++ b)) ms)
    (hne : a ≠ []) (ha : ∀ c ∈ a, isMarkChar c = false) :
    ∃ m1 m2, Marked x m1 ∧ Marked b m2 ∧ ms = m1 ++ m2 := by
  obtain ⟨m1, m2, h1, h2, h3⟩ := marked_split h x (a ++ b) rfl (Or.inr (fun c hc => by
    rcases a with _ | ⟨y, a⟩
    · exact absurd rfl hne
    · simp only [List.cons_append, List.head?_cons, Option.some.injEq] at hc
      exact hc ▸ ha y (List.mem_cons_self _ _)))
  exact ⟨m1, m2, h1, marked_drop_lit h2 ha, h3⟩

theorem marked_takeWhile_dropWhile {s : Str} {ms : List Str} (h : Marked s ms)
    (p : Char → Bool) (hp : ∀ c, isMarkChar c = true → p c = true) :
    ∃ m1 m2, Marked (s.takeWhile p) m1 ∧ Marked (s.dropWhile p) m2 ∧ ms = m1 ++ m2 := by
  refine marked_split h _ _ (List.takeWhile_append_dropWhile p s).symm (Or.inr ?_)
  intro c hc
  have := List.head?_dropWhile_not p s
  rw [hc] at this
  simp only at this
  by_contra hm
  simp only [Bool.not_eq_false] at hm
  rw [hp c hm] at this
  exact absurd this (by decide)

theorem marked_wrap {c : Str} {m : List Str} (h : Marked c m) (a b : Str) (ha : '\x00' ∉ a)
    (hb : '\x00' ∉ b) : Marked (a ++ c ++ b) m := by
  have := marked_append (marked_append (marked_of_no_nul a ha) h) (marked_of_no_nul b hb)
  simpa using this

theorem startsWith_cons_false (p : Str) (c : Char) (t : Str) (hne : p ≠ [])
    (hp : ∀ x ∈ p, x ≠ c) : startsWith p (c :: t) = false := by
  rcases p with _ | ⟨y, p⟩
  · exact absurd rfl hne
  · have : y ≠ c := hp y (List.mem_cons_self _ _)
    simp [startsWith, List.isPrefixOf, this]

theorem isMarkChar_not_lineTerminator (c : Char) (h : isMarkChar c = true) :
    (!isLineTerminator c) = true := by
  simp only [isMarkChar, Bool.or_eq_true, beq_iff_eq] at h
  rcases h with ((((rfl | rfl) | rfl) | rfl) | rfl) | h
  · decide
  · decide
  · decide
  · decide
  · decide
  · simp only [isLineTerminator, Bool.not_eq_true', Bool.or_eq_false_iff, beq_eq_false_iff_ne,
      ne_eq]
    simp only [isDigit, Bool.and_eq_true, decide_eq_true_eq] at h
    refine ⟨⟨⟨?_, ?_⟩, ?_⟩, ?_⟩ <;> rintro rfl <;> revert h <;> decide

theorem toDigits_no_nul (n : Nat) : '\x00' ∉ Nat.toDigits 10 n :=
  fun h => absurd (toDigits_isDigit n _ h) (by decide)

theorem ruleMarked_heading (level : Nat) : RuleMarked (headingRule level) := by
  constructor
  · intro prev c t hc _
    unfold headingRule
    have : startsWith (List.replicate level '#' ++ [' ']) (c :: t) = false := by
      apply startsWith_cons_false _ _ _ (by simp)
      intro x hx
      simp only [List.mem_append, List.mem_replicate, List.mem_singleton] at hx
      rcases hx with ⟨_, rfl⟩ | rfl <;> rintro rfl <;> exact absurd hc (by decide)
    simp [this]
  · intro prev t ms r ht hm
    unfold headingRule at hm
    simp only at hm
    split at hm
    · rename_i hcond
      simp only [Bool.and_eq_true] at hcond
      have ht2 := startsWith_eq_append hcond.2
      simp only [Option.some.injEq] at hm
      subst hm
      simp only
      have hlit : ∀ c ∈ List.replicate level '#' ++ [' '], isMarkChar c = false := by
        intro x hx
        simp only [List.mem_append, List.mem_replicate, List.mem_singleton] at hx
        rcases hx with ⟨_, rfl⟩ | rfl <;> decide
      rw [ht2] at ht
      have h1 := marked_drop_lit ht hlit
      obtain ⟨m1, m2, h2, h3, h4⟩ := marked_takeWhile_dropWhile h1
        (fun c => !isLineTerminator c) isMarkChar_not_lineTerminator
      refine ⟨by simp; omega, m1, m2, ?_, ?_, by rw [h4]⟩
      · have := marked_wrap h2 ("<h".toList ++ Nat.toDigits 10 level ++ ['>'])
          ("</h".toList ++ Nat.toDigits 10 level ++ ['>'])
          (by
            simp only [List.mem_append, List.mem_singleton, not_or]
            exact ⟨⟨by decide, toDigits_no_nul level⟩, by decide⟩)
          (by
            simp only [List.mem_append, List.mem_singleton, not_or]
            exact ⟨⟨by decide, toDigits_no_nul level⟩, by decide⟩)
        simpa [List.append_assoc] using this
      · rw [← List.drop_drop, drop_takeWhile_length]
        exact h3
    · exact absurd hm (by simp)

theorem drop_length_append (a b : Str) (n : Nat) (h : n = a.length) : (a ++ b).drop n = b := by
  subst h
  exact List.drop_left _ _

theorem ruleMarked_span (delim opening closing : Str) (hne : delim ≠ [])
    (hd : ∀ c ∈ delim, isMarkChar c = false) (ho : '\x00' ∉ opening)
    (hc : '\x00' ∉ closing) : RuleMarked (spanRule delim opening closing) := by
  constructor
  · intro prev c t hc2 _
    unfold spanRule
    rw [startsWith_cons_false delim c t hne (fun x hx hxc => by
      rw [hxc] at hx
      exact absurd (hd c hx) (by rw [hc2]; decide))]
    rfl
  · intro prev t ms r ht hm
    unfold spanRule at hm
    split at hm
    · rename_i hs
      split at hm
      · rename_i content hl
        simp only [Option.some.injEq] at hm
        subst hm
        obtain ⟨rest, hrest⟩ := lazyPlus_eq _ _ _ _ hl
        have ht3 : t = delim ++ (content ++ (delim ++ rest)) := by
          rw [startsWith_eq_append hs, hrest]
          simp
        clear hl hs hrest
        subst ht3
        have h1 := marked_drop_lit ht hd
        obtain ⟨m1, m2, h2, h3, h4⟩ := marked_split_lit h1 hne hd
        refine ⟨?_, m1, m2, ?_, ?_, by rw [h4]⟩
        · have : 1 ≤ delim.length := List.length_pos.mpr hne
          simp only
          omega
        · exact marked_wrap h2 opening closing ho hc
        · simp only
          rw [show delim ++ (content ++ (delim ++ rest)) = (delim ++ content ++ delim) ++ rest by
            simp]
          rw [drop_length_append _ _ _ (by simp; omega)]
          exact h3
      · exact absurd hm (by simp)
    · exact absurd hm (by simp)

theorem ruleMarked_code : RuleMarked codeRule := by
  constructor
  · intro prev c t hc _
    unfold codeRule
    have : c ≠ Char.ofNat 96 := by
      rintro rfl
      exact absurd hc (by decide)
    simp [this]
  · intro prev t ms r ht hm
    unfold codeRule at hm
    split at hm
    · rename_i c u
      split at hm
      · rename_i hc
        split at hm
        · rename_i content hl
          simp only [Option.some.injEq] at hm
          subst hm
          obtain ⟨rest, hrest⟩ := lazyPlus_eq _ _ _ _ hl
          clear hl
          subst hrest
          subst hc
          have hlit : ∀ x ∈ [Char.ofNat 96], isMarkChar x = false := by
            intro x hx
            simp only [List.mem_singleton] at hx
            subst hx
            decide
          have h1 : Marked (content ++ ([Char.ofNat 96] ++ rest)) ms := by
            have := marked_drop_lit (a := [Char.ofNat 96]) (by simpa using ht) hlit
            simpa using this
          obtain ⟨m1, m2, h2, h3, h4⟩ := marked_split_lit h1 (by simp) hlit
          refine ⟨by simp, m1, m2, ?_, ?_, by rw [h4]⟩
          · exact marked_wrap h2 "<code>".toList "</code>".toList (by decide) (by decide)
          · simp only
            rw [show Char.ofNat 96 :: (content ++ [Char.ofNat 96] ++ rest) =
              (Char.ofNat 96 :: content ++ [Char.ofNat 96]) ++ rest by simp]
            rw [drop_length_append _ _ _ (by simp)]
            exact h3
        · exact absurd hm (by simp)
      · exact absurd hm (by simp)
    · exact absurd hm (by simp)

theorem ruleMarked_link : RuleMarked linkRule := by
  constructor
  · intro prev c t hc _
    unfold linkRule
    have : c ≠ '[' := by
      rintro rfl
      exact absurd hc (by decide)
    simp [this]
  · intro prev t ms r ht hm
    unfold linkRule at hm
    split at hm
    · rename_i c u
      split at hm
      · rename_i hc
        split at hm
        · rename_i text hl
          split at hm
          · rename_i url hl2
            simp only [Option.some.injEq] at hm
            subst hm
            obtain ⟨r1, hr1⟩ := lazyPlus_eq _ _ _ _ hl
            obtain ⟨rest, hrest⟩ := lazyPlus_eq _ _ _ _ hl2
            have hu : u = text ++ ("](".toList ++ (url ++ ([')'] ++ rest))) := by
              have e : u.drop (text.length + 2) = r1 := by
                rw [hr1, show text ++ "](".toList ++ r1 = (text ++ "](".toList) ++ r1 by simp]
                exact drop_length_append _ _ _ (by simp)
              rw [e] at hrest
              rw [hr1, hrest]
              simp
            clear hl hl2 hr1 hrest
            subst hu
            subst hc
            have hlit1 : ∀ x ∈ ['['], isMarkChar x = false := by
              intro x hx
              simp only [List.mem_singleton] at hx
              subst hx
              decide
            have hlit2 : ∀ x ∈ "](".toList, isMarkChar x = false := by decide
            have hlit3 : ∀ x ∈ [')'], isMarkChar x = false := by
              intro x hx
              simp only [List.mem_singleton] at hx
              subst hx
              decide
            have h1 : Marked (text ++ ("](".toList ++ (url ++ ([')'] ++ rest)))) ms :=
              marked_drop_lit (a := ['[']) (by simpa using ht) hlit1
            obtain ⟨m1, m2, h2, h3, h4⟩ := marked_split_lit h1 (by decide) hlit2
            obtain ⟨m3, m4, h5, h6, h7⟩ := marked_split_lit h3 (by simp) hlit3
            refine ⟨by simp, m3 ++ m1, m4, ?_, ?_, ?_⟩
            · have := marked_append (marked_wrap h5 "<a href=\"".toList
                "\" rel=\"noopener\" target=\"_blank\">".toList (by decide) (by decide))
                (marked_append h2 (marked_of_no_nul "</a>".toList (by decide)))
              simpa [List.append_assoc] using this
            · simp only
              rw [show '[' :: (text ++ ("](".toList ++ (url ++ ([')'] ++ rest)))) =
                ('[' :: text ++ "](".toList ++ url ++ [')']) ++ rest by simp]
              rw [drop_length_append _ _ _ (by simp; omega)]
              exact h6
            · rw [h4, h7]
              simp only [List.append_assoc]
              exact List.perm_append_comm_assoc m3 m1 m4
          · exact absurd hm (by simp)
        · exact absurd hm (by simp)
      · exact absurd hm (by simp)
    · exact absurd hm (by simp)

theorem ruleMarked_break : RuleMarked breakRule := by
  constructor
  · intro prev c t hc _
    unfold breakRule
    have : c ≠ '\n' := by
      rintro rfl
      exact absurd hc (by decide)
    simp [this]
  · intro prev t ms r ht hm
    unfold breakRule at hm
    split at hm
    · rename_i c u
      split at hm
      · rename_i hc
        simp only [Option.some.injEq] at hm
        subst hm
        subst hc
        refine ⟨by simp, [], ms, marked_of_no_nul _ (by decide), ?_, by simp⟩
        exact marked_drop_lit (a := ['\n']) (by simpa using ht) (by decide)
      · exact absurd hm (by simp)
    · exact absurd hm (by simp)

theorem markedAll_map (f : Str → Str) (hf : ∀ l m, Marked l m → Marked (f l) m)
    {ls : List Str} {ms : List Str} (h : MarkedAll ls ms) : MarkedAll (ls.map f) ms := by
  induction h with
  | nil => exact MarkedAll.nil
  | cons l ls m ms hl _ ih => exact MarkedAll.cons _ _ m ms (hf l m hl) ih

theorem markedAll_filterNonEmpty {ls : List Str} {ms : List Str} (h : MarkedAll ls ms) :
    MarkedAll (filterNonEmpty ls) ms := by
  induction h with
  | nil => exact MarkedAll.nil
  | cons l ls m ms hl _ ih =>
    unfold filterNonEmpty at ih ⊢
    rcases l with _ | ⟨c, l⟩
    · have : m = [] := marked_nil_of_no_nul hl (by simp)
      subst this
      simpa [List.filter] using ih
    · simp only [List.filter, List.isEmpty_cons, Bool.not_false]
      exact MarkedAll.cons _ _ m ms hl ih

theorem marked_joinWith (sep : Str) (hsep : '\x00' ∉ sep) {ls : List Str} {ms : List Str}
    (h : MarkedAll ls ms) : Marked (joinWith sep ls) ms := by
  induction h with
  | nil => exact Marked.nil
  | cons l ls m ms hl hls ih =>
    cases hls with
    | nil => simpa [joinWith] using hl
    | cons l2 ls2 m2 ms2 hl2 hls2 =>
      show Marked (l ++ sep ++ joinWith sep (l2 :: ls2)) _
      have := marked_append (marked_append hl (marked_of_no_nul sep hsep)) ih
      simpa [List.append_assoc] using this

theorem marked_flatten_wrap (a b : Str) (ha : '\x00' ∉ a) (hb : '\x00' ∉ b) {ls : List Str}
    {ms : List Str} (h : MarkedAll ls ms) :
    Marked ((ls.map (fun l => a ++ l ++ b)).flatten) ms := by
  induction h with
  | nil => exact Marked.nil
  | cons l ls m ms hl _ ih =>
    simp only [List.map_cons, List.flatten_cons]
    exact marked_append (marked_wrap hl a b ha hb) ih

theorem splitChar_append_left (sep : Char) (a s : Str) (ha : ∀ c ∈ a, c ≠ sep) :
    splitChar sep (a ++ s) =
      match splitChar sep s with
      | l :: ls => (a ++ l) :: ls
      | [] => [a] := by
  induction a with
  | nil =>
    cases h : splitChar sep s with
    | nil => exact absurd h (splitChar_ne_nil sep s)
    | cons l ls => simp [h]
  | cons c a ih =>
    have hc : c ≠ sep := ha c (List.mem_cons_self _ _)
    rw [List.cons_append, splitChar, if_neg hc, ih (fun x hx => ha x (List.mem_cons_of_mem _ hx))]
    cases h : splitChar sep s with
    | nil => exact absurd h (splitChar_ne_nil sep s)
    | cons l ls => simp

theorem markedAll_splitChar (sep : Char) (hsep : isMarkChar sep = false) {s : Str}
    {ms : List Str} (h : Marked s ms) : MarkedAll (splitChar sep s) ms := by
  induction h with
  | nil =>
    have := MarkedAll.cons [] [] [] [] Marked.nil MarkedAll.nil
    simpa [splitChar] using this
  | char c s ms hc _ ih =>
    unfold splitChar
    split
    · have := MarkedAll.cons [] _ [] ms Marked.nil ih
      simpa using this
    · generalize hsp : splitChar sep s = lines at ih
      cases ih with
      | nil => exact absurd hsp (splitChar_ne_nil sep s)
      | cons l ls m ms2 hl hls =>
        exact MarkedAll.cons _ _ m ms2 (Marked.char c l m hc hl) hls
  | mark d s ms hd hds _ ih =>
    rw [← markText_append, splitChar_append_left sep (markText d) s (fun c hc hcs => by
      rw [hcs] at hc
      exact absurd (isMarkChar_of_mem_markText d hds sep hc) (by rw [hsep]; decide))]
    generalize hsp : splitChar sep s = lines at ih
    cases ih with
    | nil => exact absurd hsp (splitChar_ne_nil sep s)
    | cons l ls m ms2 hl hls =>
      exact MarkedAll.cons _ _ (d :: m) ms2 (marked_mark hd hds hl) hls

theorem isMarkChar_not_whiteSpace (c : Char) (h : isWhiteSpace c = true) :
    isMarkChar c = false := by
  by_contra hm
  simp only [Bool.not_eq_false, isMarkChar, Bool.or_eq_true, beq_iff_eq] at hm
  rcases hm with ((((rfl | rfl) | rfl) | rfl) | rfl) | hd
  · exact absurd h (by decide)
  · exact absurd h (by decide)
  · exact absurd h (by decide)
  · exact absurd h (by decide)
  · exact absurd h (by decide)
  · have := isWhiteSpace_of_isKeyChar c (by simp [isKeyChar, hd])
    rw [this] at h
    exact absurd h (by decide)

theorem marked_dropWhile_lit (p : Char → Bool) (hp : ∀ c, p c = true → isMarkChar c = false)
    {s : Str} {ms : List Str} (h : Marked s ms) : Marked (s.dropWhile p) ms := by
  rw [← List.takeWhile_append_dropWhile p s] at h
  exact marked_drop_lit h (fun c hc => hp c (List.mem_takeWhile_imp hc))

theorem marked_drop_front {a b : Str} {ms : List Str} (h : Marked (a ++ b) ms)
    (ha : '\x00' ∉ a)
    (hcut : (∀ c, a.getLast? = some c → isMarkChar c = false) ∨
      (∀ c, b.head? = some c → isMarkChar c = false)) : Marked b ms := by
  obtain ⟨m1, m2, h1, h2, h3⟩ := marked_split h a b rfl hcut
  have := marked_nil_of_no_nul h1 ha
  subst this
  simpa [h3] using h2

theorem marked_take_suffix {a b : Str} {ms : List Str} (h : Marked (a ++ b) ms)
    (hb : ∀ c ∈ b, isMarkChar c = false) : Marked a ms := by
  obtain ⟨m1, m2, h1, h2, h3⟩ := marked_split h a b rfl
    (Or.inr (fun c hc => hb c (List.mem_of_mem_head? hc)))
  have := marked_nil_of_no_nul h2 (not_nul_of_not_mark hb)
  subst this
  simpa [h3] using h1

theorem marked_trim {s : Str} {ms : List Str} (h : Marked s ms) : Marked (trim s) ms := by
  unfold trim trimEnd
  have h1 : Marked (trimStart s) ms := marked_dropWhile_lit _ isMarkChar_not_whiteSpace h
  have e : (((trimStart s).reverse.dropWhile isWhiteSpace).reverse) ++
      (((trimStart s).reverse.takeWhile isWhiteSpace).reverse) = trimStart s := by
    rw [← List.reverse_append, List.takeWhile_append_dropWhile, List.reverse_reverse]
  rw [← e] at h1
  refine marked_take_suffix h1 ?_
  intro c hc
  exact isMarkChar_not_whiteSpace c (List.mem_takeWhile_imp (List.mem_reverse.mp hc))

theorem not_mark_of_lineTerminator (c : Char) (h : isLineTerminator c = true) :
    isMarkChar c = false := by
  by_contra hm
  simp only [Bool.not_eq_false] at hm
  have := isMarkChar_not_lineTerminator c hm
  rw [h] at this
  exact absurd this (by decide)

theorem marked_take_drop {u : Str} {ms : List Str} (h : Marked u ms) (n : Nat)
    (hn : ∀ c, (u.drop n).head? = some c → isLineTerminator c = true) :
    ∃ m1 m2, Marked (u.take n) m1 ∧ Marked (u.drop n) m2 ∧ ms = m1 ++ m2 :=
  marked_split h _ _ (List.take_append_drop n u).symm
    (Or.inr (fun c hc => not_mark_of_lineTerminator c (hn c hc)))

theorem ruleMarked_anchored (blockLen : Str → Option Nat) (render : Str → Str → Str)
    (h0 : ∀ t, blockLen ('\x00' :: t) = none)
    (h1 : ∀ pfx t ms n, Marked t ms → '\x00' ∉ pfx → blockLen t = some n →
      1 ≤ n ∧ ∃ m1 m2, Marked (render pfx (t.take n)) m1 ∧ Marked (t.drop n) m2 ∧
        (m1 ++ m2).Perm ms) :
    RuleMarked (anchored blockLen render) := by
  constructor
  · intro prev c t hc hp
    have hn : c ≠ '\n' := by
      rintro rfl
      exact absurd hc (by decide)
    unfold anchored
    cases prev with
    | none =>
      have := hp rfl
      subst this
      simp [h0]
    | some p => simp [hn]
  · intro prev t ms r ht hm
    unfold anchored at hm
    split at hm
    · rename_i n hb
      simp only [Option.some.injEq] at hm
      subst hm
      have hb2 : blockLen t = some n := by
        split at hb
        · exact hb
        · exact absurd hb (by simp)
      exact h1 [] t ms n ht (by simp) hb2
    · split at hm
      · rename_i c u _
        split at hm
        · rename_i hc
          subst hc
          split at hm
          · rename_i n hb
            simp only [Option.some.injEq] at hm
            subst hm
            have hu : Marked u ms :=
              marked_drop_lit (a := ['\n']) (by simpa using ht) (by decide)
            obtain ⟨_, m1, m2, h2, h3, h4⟩ := h1 ['\n'] u ms n hu (by decide) hb
            exact ⟨by simp, m1, m2, h2, by simpa using h3, h4⟩
          · exact absurd hm (by simp)
        · exact absurd hm (by simp)
      · exact absurd hm (by simp)

theorem head_drop_quoteScan (u : Str) :
    ∀ c, (u.drop (quoteScan u)).head? = some c → isLineTerminator c = true := by
  induction u with
  | nil =>
    intro c hc
    simp [quoteScan] at hc
  | cons x rest ih =>
    intro c hc
    unfold quoteScan at hc
    split at hc
    · exact ih c (by simpa using hc)
    · split at hc
      · exact ih c (by simpa using hc)
      · rename_i h _
        simp only [Bool.not_eq_true', Bool.not_eq_false] at h
        simp only [List.drop_zero, List.head?_cons, Option.some.injEq] at hc
        exact hc ▸ h

theorem head_drop_listScan (ordered : Bool) (u : Str) :
    ∀ st c, (u.drop (listScan ordered st u)).head? = some c → isLineTerminator c = true := by
  induction u with
  | nil =>
    intro st c hc
    cases st <;> simp [listScan] at hc
  | cons x rest ih =>
    intro st c hc
    cases st with
    | marker =>
      unfold listScan at hc
      split at hc
      · exact ih .space c (by simpa using hc)
      · exact ih .marker c (by simpa using hc)
    | space =>
      unfold listScan at hc
      split at hc
      · exact ih .space c (by simpa using hc)
      · exact ih .content c (by simpa using hc)
    | content =>
      unfold listScan at hc
      split at hc
      · exact ih .content c (by simpa using hc)
      · split at hc
        · exact ih .marker c (by simpa using hc)
        · rename_i h _
          simp only [Bool.not_eq_true', Bool.not_eq_false] at h
          simp only [List.drop_zero, List.head?_cons, Option.some.injEq] at hc
          exact hc ▸ h

theorem marked_stripQuoteMarker (line : Str) (m : List Str) (h : Marked line m) :
    Marked (stripQuoteMarker line) m := by
  unfold stripQuoteMarker
  split
  · rename_i hs
    have h4 : Marked (line.drop 4) m := by
      have e := startsWith_eq_append hs
      rw [e] at h
      exact marked_drop_lit h (by decide)
    split
    · rename_i c rest heq
      rw [heq] at h4
      split
      · rename_i hc
        subst hc
        exact marked_drop_lit (a := [' ']) (by simpa using h4) (by decide)
      · exact h4
    · rename_i heq
      rw [heq] at h4
      exact h4
  · exact h

theorem ruleMarked_quote : RuleMarked (anchored quoteBlock renderQuote) := by
  apply ruleMarked_anchored
  · intro t
    rfl
  · intro pfx t ms n ht hp hb
    unfold quoteBlock at hb
    split at hb
    · rename_i hs
      simp only [Option.some.injEq] at hb
      subst hb
      obtain ⟨m1, m2, h2, h3, h4⟩ := marked_take_drop ht (quoteScan t) (head_drop_quoteScan t)
      refine ⟨?_, m1, m2, ?_, h3, by rw [h4]⟩
      · have e := startsWith_eq_append hs
        rw [e]
        simp [quoteScan, isLineTerminator]
      · unfold renderQuote
        have hlines := markedAll_map stripQuoteMarker marked_stripQuoteMarker
          (markedAll_splitChar '\n' (by decide) h2)
        have hj := marked_joinWith "<br/>".toList (by decide) hlines
        have := marked_append (marked_wrap hj (pfx ++ "<blockquote>".toList) []
          (by
            simp only [List.mem_append, not_or]
            exact ⟨hp, by decide⟩) (by simp))
          (marked_of_no_nul "</blockquote>".toList (by decide))
        simpa [List.append_assoc] using this
    · exact absurd hb (by simp)

theorem marked_stripListMarker (ordered : Bool) (line : Str) (m : List Str)
    (h : Marked line m) : Marked (stripListMarker ordered line) m := by
  unfold stripListMarker
  split
  · rename_i hs
    split
    · rename_i ho
      subst ho
      simp only [itemStart, if_true, Bool.and_eq_true] at hs
      have h1 : Marked (line.dropWhile isDigit) m := by
        rw [← List.takeWhile_append_dropWhile isDigit line] at h
        refine marked_drop_front h ?_ (Or.inr ?_)
        · intro h0
          exact absurd (List.mem_takeWhile_imp h0) (by decide)
        · intro c hc
          have h2 := hs.2
          split at h2
          · rename_i p w rest heq
            rw [heq] at hc
            simp only [List.head?_cons, Option.some.injEq] at hc
            simp only [Bool.and_eq_true, beq_iff_eq] at h2
            rw [← hc, h2.1]
            rfl
          · exact absurd h2 (by simp)
      have h2 : Marked ((line.dropWhile isDigit).drop 1) m := by
        have h3 := hs.2
        split at h3
        · rename_i p w rest heq
          rw [heq] at h1 ⊢
          simp only [Bool.and_eq_true, beq_iff_eq] at h3
          have hp := h3.1
          subst hp
          exact marked_drop_lit (a := ['.']) (by simpa using h1) (by decide)
        · exact absurd h3 (by simp)
      exact marked_dropWhile_lit _ isMarkChar_not_whiteSpace h2
    · rename_i ho
      have ho2 : ordered = false := by simpa using ho
      subst ho2
      simp only [itemStart, Bool.false_eq_true, if_false] at hs
      have h2 : Marked (line.drop 1) m := by
        split at hs
        · rename_i x w rest
          simp only [Bool.and_eq_true, Bool.or_eq_true, beq_iff_eq] at hs
          refine marked_drop_lit (a := [x]) (by simpa using h) ?_
          intro c hc
          simp only [List.mem_singleton] at hc
          subst hc
          rcases hs.1 with rfl | rfl <;> rfl
        · exact absurd hs (by simp)
      exact marked_dropWhile_lit _ isMarkChar_not_whiteSpace h2
  · exact h

theorem listTag_no_nul (ordered : Bool) : '\x00' ∉ listTag ordered := by
  cases ordered <;> decide

theorem ruleMarked_list (ordered : Bool) :
    RuleMarked (anchored (listBlock ordered) (renderList ordered)) := by
  apply ruleMarked_anchored
  · intro t
    rcases t with _ | ⟨w, t⟩ <;> cases ordered <;>
      simp [listBlock, itemStart, List.takeWhile, isDigit]
  · intro pfx t ms n ht hp hb
    unfold listBlock at hb
    split at hb
    · rename_i hs
      simp only [Option.some.injEq] at hb
      subst hb
      obtain ⟨m1, m2, h2, h3, h4⟩ := marked_take_drop ht (listScan ordered .marker t)
        (head_drop_listScan ordered t .marker)
      refine ⟨?_, m1, m2, ?_, h3, by rw [h4]⟩
      · rcases t with _ | ⟨c, t⟩
        · cases ordered <;> simp [itemStart] at hs
        · unfold listScan
          split <;> omega
      · unfold renderList
        simp only
        split
        · exact marked_append (marked_of_no_nul pfx hp) h2
        · have hitems := markedAll_filterNonEmpty (markedAll_map
            (fun line => trim (stripListMarker ordered line))
            (fun l m hl => marked_trim (marked_stripListMarker ordered l m hl))
            (markedAll_splitChar '\n' (by decide) h2))
          have hf := marked_flatten_wrap "<li>".toList "</li>".toList (by decide) (by decide)
            hitems
          have := marked_wrap hf (pfx ++ ['<'] ++ listTag ordered ++ ['>'])
            ("</".toList ++ listTag ordered ++ ['>'])
            (by
              simp only [List.mem_append, List.mem_singleton, not_or]
              exact ⟨⟨⟨hp, by decide⟩, listTag_no_nul ordered⟩, by decide⟩)
            (by
              simp only [List.mem_append, List.mem_singleton, not_or]
              exact ⟨⟨by decide, listTag_no_nul ordered⟩, by decide⟩)
          simpa [List.append_assoc] using this
    · exact absurd hb (by simp)

theorem markdownToHtml_eq (markdown : Str) (h : markdown ≠ []) :
    markdownToHtml markdown =
      replaceAll (placeholderRule (extractFences 0 0
          (normalizeNewlines (escapeHtml markdown))).2) none 0
        (renderRules (extractFences 0 0 (normalizeNewlines (escapeHtml markdown))).1) := by
  unfold markdownToHtml renderRules
  have : markdown.isEmpty = false := by
    cases markdown with
    | nil => exact absurd rfl h
    | cons _ _ => rfl
  simp only [this, Bool.false_eq_true, if_false]

theorem markedAll_map_perm (f : Str → Str)
    (hf : ∀ l m, Marked l m → ∃ m2, Marked (f l) m2 ∧ m2.Perm m)
    {ls : List Str} {ms : List Str} (h : MarkedAll ls ms) :
    ∃ ms2, MarkedAll (ls.map f) ms2 ∧ ms2.Perm ms := by
  induction h with
  | nil => exact ⟨[], MarkedAll.nil, List.Perm.refl _⟩
  | cons l ls m ms hl _ ih =>
    obtain ⟨m2, h1, h2⟩ := hf l m hl
    obtain ⟨ms2, h3, h4⟩ := ih
    exact ⟨m2 ++ ms2, MarkedAll.cons _ _ m2 ms2 h1 h3, List.Perm.append h2 h4⟩

theorem splitBlocks_append_left (a s : Str) (ha : ∀ c ∈ a, c ≠ '\n') (hne : a ≠ []) :
    ∀ k, splitBlocks k (a ++ s) =
      (a ++ (splitBlocks false s).headD []) :: (splitBlocks false s).tail := by
  induction a with
  | nil => exact absurd rfl hne
  | cons c a ih =>
    intro k
    have hc : c ≠ '\n' := ha c (List.mem_cons_self _ _)
    rw [List.cons_append, splitBlocks_cons_ne k c _ hc]
    rcases a with _ | ⟨x, a⟩
    · simp
    · rw [ih (fun y hy => ha y (List.mem_cons_of_mem _ hy)) (by simp) false]
      simp

theorem markedAll_splitBlocks {s : Str} {ms : List Str} (h : Marked s ms) :
    ∀ k, MarkedAll (splitBlocks k s) ms := by
  induction h with
  | nil =>
    intro k
    have := MarkedAll.cons [] [] [] [] Marked.nil MarkedAll.nil
    simpa [splitBlocks] using this
  | char c s ms hc _ ih =>
    intro k
    unfold splitBlocks
    split
    · split
      · exact ih true
      · have := MarkedAll.cons [] _ [] ms Marked.nil (ih true)
        simpa using this
    · have h2 := ih false
      generalize hsp : splitBlocks false s = blocks at h2
      cases h2 with
      | nil => exact absurd hsp (splitBlocks_ne_nil s false)
      | cons l ls m ms2 hl hls =>
        exact MarkedAll.cons _ _ m ms2 (Marked.char c l m hc hl) hls
  | mark d s ms hd hds _ ih =>
    intro k
    rw [← markText_append, splitBlocks_append_left (markText d) s (fun c hc hcs => by
      rw [hcs] at hc
      exact absurd (isMarkChar_of_mem_markText d hds _ hc) (by decide))
      (markText_ne_nil d) k]
    have h2 := ih false
    generalize hsp : splitBlocks false s = blocks at h2
    cases h2 with
    | nil => exact absurd hsp (splitBlocks_ne_nil s false)
    | cons l ls m ms2 hl hls =>
      exact MarkedAll.cons _ _ (d :: m) ms2 (marked_mark hd hds hl) hls

theorem marked_wrapBlock (block : Str) (m : List Str) (h : Marked block m) :
    ∃ m2, Marked (wrapBlock block) m2 ∧ m2.Perm m := by
  unfold wrapBlock
  simp only
  split
  · exact ⟨m, marked_trim h, List.Perm.refl _⟩
  · obtain ⟨m2, h1, h2⟩ := marked_replaceAll breakRule ruleMarked_break (trim block) none 0 m
      (by simpa using marked_trim h)
    exact ⟨m2, marked_wrap h1 "<p>".toList "</p>".toList (by decide) (by decide), h2⟩

/-- The rules of `markdownToHtml` keep the placeholders of a marked text. -/
theorem marked_renderRules (html : Str) (ms : List Str) (h : Marked html ms) :
    ∃ ms2, Marked (renderRules html) ms2 ∧ ms2.Perm ms := by
  have step : ∀ (rule : Option Char → Str → Option (Nat × Str)), RuleMarked rule →
      ∀ s, (∃ m, Marked s m ∧ m.Perm ms) →
        ∃ m, Marked (replaceAll rule none 0 s) m ∧ m.Perm ms := by
    intro rule hr s hs
    obtain ⟨m, h1, h2⟩ := hs
    obtain ⟨m2, h3, h4⟩ := marked_replaceAll rule hr s none 0 m (by simpa using h1)
    exact ⟨m2, h3, h4.trans h2⟩
  have hstar : ∀ c ∈ "**".toList, isMarkChar c = false := by decide
  have hstar1 : ∀ c ∈ "*".toList, isMarkChar c = false := by decide
  obtain ⟨m, h1, h2⟩ :=
    step _ ruleMarked_link _ (step _ ruleMarked_code _
      (step _ (ruleMarked_span "*".toList "<em>".toList "</em>".toList (by decide) hstar1
        (by decide) (by decide)) _
      (step _ (ruleMarked_span "**".toList "<strong>".toList "</strong>".toList (by decide)
        hstar (by decide) (by decide)) _
      (step _ (ruleMarked_list true) _ (step _ (ruleMarked_list false) _
      (step _ ruleMarked_quote _ (step _ (ruleMarked_heading 1) _
      (step _ (ruleMarked_heading 2) _ (step _ (ruleMarked_heading 3) _
      (step _ (ruleMarked_heading 4) _ (step _ (ruleMarked_heading 5) _
      (step _ (ruleMarked_heading 6) html ⟨ms, h, List.Perm.refl _⟩))))))))))))
  obtain ⟨m2, h3, h4⟩ := markedAll_map_perm wrapBlock marked_wrapBlock
    (markedAll_splitBlocks h1 false)
  exact ⟨m2, marked_joinWith ['\n'] (by decide) (markedAll_filterNonEmpty h3),
    h4.trans h2⟩

theorem marked_escapeHtml {s : Str} {ms : List Str} (h : Marked s ms) :
    Marked (escapeHtml s) ms := by
  induction h with
  | nil => exact Marked.nil
  | char c s ms hc _ ih =>
    rw [escapeHtml]
    have h0 : '\x00' ∉ escapeChar c := by
      unfold escapeChar
      split_ifs <;> first | decide | simpa using hc.symm
    have := marked_append (marked_of_no_nul _ h0) ih
    simpa using this
  | mark d s ms hd hds _ ih =>
    have e : escapeHtml ('\x00' :: 'C' :: 'O' :: 'D' :: 'E' :: (d ++ '\x00' :: s)) =
        '\x00' :: 'C' :: 'O' :: 'D' :: 'E' :: (d ++ '\x00' :: escapeHtml s) := by
      have hd2 : escapeHtml d = d := by
        clear hd
        induction d with
        | nil => rfl
        | cons x d ihd =>
          rw [escapeHtml, escapeChar_of_digit x (hds x (List.mem_cons_self _ _)),
            ihd (fun c hc => hds c (List.mem_cons_of_mem _ hc))]
          rfl
      rw [show ('\x00' :: 'C' :: 'O' :: 'D' :: 'E' :: (d ++ '\x00' :: s)) =
        "\x00CODE".toList ++ (d ++ (['\x00'] ++ s)) by simp]
      rw [escapeHtml_append, escapeHtml_append, escapeHtml_append, hd2]
      rfl
    rw [e]
    exact Marked.mark d _ ms hd hds ih

theorem marked_normalizeNewlines {s : Str} {ms : List Str} (h : Marked s ms) :
    Marked (normalizeNewlines s) ms := by
  induction h with
  | nil => exact Marked.nil
  | char c s ms hc _ ih =>
    unfold normalizeNewlines
    split
    · exact ih
    · exact Marked.char c _ ms hc ih
  | mark d s ms hd hds _ ih =>
    have e : normalizeNewlines ('\x00' :: 'C' :: 'O' :: 'D' :: 'E' :: (d ++ '\x00' :: s)) =
        '\x00' :: 'C' :: 'O' :: 'D' :: 'E' :: (d ++ '\x00' :: normalizeNewlines s) := by
      rw [show ('\x00' :: 'C' :: 'O' :: 'D' :: 'E' :: (d ++ '\x00' :: s)) =
        (markText d) ++ s by simp [markText]]
      rw [normalizeNewlines_append_left (markText d) s (fun c hc hcr => by
        rw [hcr] at hc
        exact absurd (isMarkChar_of_mem_markText d hds _ hc) (by decide))]
      simp [markText]
    rw [e]
    exact Marked.mark d _ ms hd hds ih

theorem marked_rawText (ps : List Piece) (h : ∀ p ∈ ps, p.ok = true) :
    Marked (rawText ps) (marksOf ps) := by
  induction ps with
  | nil => exact Marked.nil
  | cons p ps ih =>
    have h1 := h p (List.mem_cons_self _ _)
    have h2 := ih (fun q hq => h q (List.mem_cons_of_mem _ hq))
    cases p with
    | text s =>
      simp only [Piece.ok, List.all_eq_true, bne_iff_ne, ne_eq] at h1
      have := marked_append (marked_of_no_nul s (fun h0 => h1 _ h0 rfl)) h2
      simpa [rawText, marksOf, Piece.raw] using this
    | mark d =>
      simp only [Piece.ok, Bool.and_eq_true, Bool.not_eq_true', List.isEmpty_eq_false,
        List.all_eq_true] at h1
      have := marked_mark (s := rawText ps) h1.1 h1.2 h2
      simpa [rawText, marksOf, Piece.raw] using this

theorem placeholderRule_markText (codeBlocks : List Str) (prev : Option Char) (d s : Str)
    (hd : d ≠ []) (hds : ∀ c ∈ d, isDigit c = true) :
    placeholderRule codeBlocks prev (markText d ++ s) =
      some ((markText d).length, fillMark codeBlocks d) := by
  have h1 : (markText d ++ s).drop 5 = d ++ '\x00' :: s := by simp [markText]
  have h2 : (d ++ '\x00' :: s).takeWhile isDigit = d := by
    rw [List.takeWhile_append_of_pos hds]
    simp [List.takeWhile, isDigit]
  have h3 : (d ++ '\x00' :: s).dropWhile isDigit = '\x00' :: s := by
    rw [List.dropWhile_append_of_pos hds]
    simp [List.dropWhile, isDigit]
  have h4 : startsWith "\x00CODE".toList (markText d ++ s) = true := by
    simp [markText, startsWith, List.isPrefixOf]
  unfold placeholderRule
  rw [if_pos h4]
  simp only [h1, h2, h3]
  have h5 : d.isEmpty = false := by
    cases d with
    | nil => exact absurd rfl hd
    | cons _ _ => rfl
  simp [h5, startsWith, List.isPrefixOf, fillMark, markText]

theorem restore_char (codeBlocks : List Str) (c : Char) (s : Str) (hc : c ≠ '\x00') :
    replaceAll (placeholderRule codeBlocks) none 0 (c :: s) =
      c :: replaceAll (placeholderRule codeBlocks) none 0 s := by
  rw [replaceAll_zero_cons, placeholderRule_trigger codeBlocks none c s (by simpa using hc)]
  simp only
  rw [replaceAll_prev (placeholderRule codeBlocks) (fun _ _ _ => rfl) s (some c) none 0]

theorem restore_mark (codeBlocks : List Str) (d s : Str) (hd : d ≠ [])
    (hds : ∀ c ∈ d, isDigit c = true) :
    replaceAll (placeholderRule codeBlocks) none 0 (markText d ++ s) =
      fillMark codeBlocks d ++ replaceAll (placeholderRule codeBlocks) none 0 s := by
  have h := placeholderRule_markText codeBlocks none d s hd hds
  have e : markText d ++ s = '\x00' :: ('C' :: 'O' :: 'D' :: 'E' :: (d ++ '\x00' :: s)) := by
    simp [markText]
  rw [e] at h ⊢
  rw [replaceAll_zero_cons, h]
  simp only
  rw [replaceAll_skip (placeholderRule codeBlocks) (fun _ _ _ => rfl)]
  congr 2
  rw [show 'C' :: 'O' :: 'D' :: 'E' :: (d ++ '\x00' :: s) =
    ('C' :: 'O' :: 'D' :: 'E' :: d ++ ['\x00']) ++ s by simp]
  exact drop_length_append _ _ _ (by simp [markText])

/-- The last replacement on a marked text: the texts stay and every placeholder gives way
to its code block. -/
theorem restore_marked (codeBlocks : List Str) {s : Str} {ms : List Str}
    (h : Marked s ms) :
    ∃ ps : List Piece, (∀ p ∈ ps, p.ok = true) ∧ marksOf ps = ms ∧ rawText ps = s ∧
      replaceAll (placeholderRule codeBlocks) none 0 s =
        (ps.map (Piece.fill codeBlocks)).flatten := by
  induction h with
  | nil => exact ⟨[], by simp, rfl, rfl, rfl⟩
  | char c s ms hc _ ih =>
    obtain ⟨ps, h1, h2, h3, h4⟩ := ih
    refine ⟨.text [c] :: ps, ?_, by simpa [marksOf] using h2, by simpa [rawText, Piece.raw] using h3, ?_⟩
    · intro p hp
      rcases List.mem_cons.mp hp with rfl | hp
      · simpa [Piece.ok] using hc
      · exact h1 p hp
    · rw [restore_char codeBlocks c s hc, h4]
      simp [Piece.fill]
  | mark d s ms hd hds _ ih =>
    obtain ⟨ps, h1, h2, h3, h4⟩ := ih
    refine ⟨.mark d :: ps, ?_, by simpa [marksOf] using h2, ?_, ?_⟩
    · intro p hp
      rcases List.mem_cons.mp hp with rfl | hp
      · simp only [Piece.ok, Bool.and_eq_true, Bool.not_eq_true', List.isEmpty_eq_false,
          List.all_eq_true]
        exact ⟨hd, hds⟩
      · exact h1 p hp
    · rw [← markText_append, ← h3]
      simp [rawText, Piece.raw]
    · rw [← markText_append, restore_mark codeBlocks d s hd hds, h4]
      simp [Piece.fill]

theorem restore_mem (codeBlocks : List Str) {s : Str} {ms : List Str} (h : Marked s ms)
    (d : Str) (hd : d ∈ ms) :
    ∃ u v, replaceAll (placeholderRule codeBlocks) none 0 s =
      u ++ fillMark codeBlocks d ++ v := by
  induction h with
  | nil => exact absurd hd (by simp)
  | char c s ms hc _ ih =>
    obtain ⟨u, v, h1⟩ := ih hd
    exact ⟨c :: u, v, by rw [restore_char codeBlocks c s hc, h1]; simp⟩
  | mark d2 s ms hd2 hds _ ih =>
    rw [← markText_append, restore_mark codeBlocks d2 s hd2 hds]
    rcases List.mem_cons.mp hd with heq | hd
    · exact ⟨[], replaceAll (placeholderRule codeBlocks) none 0 s, by rw [heq]; simp⟩
    · obtain ⟨u, v, h1⟩ := ih hd
      exact ⟨fillMark codeBlocks d2 ++ u, v, by rw [h1]; simp⟩

theorem digitsToNat_foldl (ds : Str) : ∀ a : Nat,
    ds.foldl (fun acc d => 10 * acc + (d.toNat - 48)) a =
      a * 10 ^ ds.length + digitsToNat ds := by
  induction ds with
  | nil =>
    intro a
    simp [digitsToNat]
  | cons d ds ih =>
    intro a
    unfold digitsToNat
    rw [List.foldl_cons, List.foldl_cons, ih, ih (10 * 0 + (d.toNat - 48))]
    simp only [List.length_cons, pow_succ]
    ring

theorem digitChar_value (k : Nat) (h : k < 10) : (Nat.digitChar k).toNat - 48 = k := by
  interval_cases k <;> rfl

theorem digitsToNat_toDigitsCore : ∀ (fuel n : Nat) (ds : Str), n < fuel →
    digitsToNat (Nat.toDigitsCore 10 fuel n ds) = n * 10 ^ ds.length + digitsToNat ds := by
  intro fuel
  induction fuel with
  | zero =>
    intro n ds h
    exact absurd h (by omega)
  | succ fuel ih =>
    intro n ds h
    rw [Nat.toDigitsCore]
    have hv : digitsToNat (Nat.digitChar (n % 10) :: ds) =
        (n % 10) * 10 ^ ds.length + digitsToNat ds := by
      unfold digitsToNat
      rw [List.foldl_cons, digitsToNat_foldl]
      simp only [Nat.mul_zero, Nat.zero_add]
      rw [digitChar_value _ (Nat.mod_lt _ (by decide))]
      rfl
    split
    · rename_i h0
      rw [hv]
      have : n % 10 = n := by omega
      rw [this]
    · rename_i h0
      rw [ih (n / 10) _ (by omega), hv]
      simp only [List.length_cons, pow_succ]
      have e : n * 10 ^ ds.length = (10 * (n / 10) + n % 10) * 10 ^ ds.length := by
        rw [Nat.div_add_mod]
      rw [e]
      ring

theorem digitsToNat_toDigits (n : Nat) : digitsToNat (Nat.toDigits 10 n) = n := by
  unfold Nat.toDigits
  rw [digitsToNat_toDigitsCore (n + 1) n [] (by omega)]
  simp [digitsToNat]

theorem startsWith_ticks_escapeHtml (x t : Str) : ∀ q : Str, (∀ c ∈ q, c = Char.ofNat 96) →
    startsWith q (escapeHtml x ++ t) = startsWith q (x ++ t) := by
  induction x with
  | nil => intro q _; rfl
  | cons c rest ih =>
    intro q hq
    rcases q with _ | ⟨b, q⟩
    · simp [startsWith]
    · have hb : b = Char.ofNat 96 := hq b (List.mem_cons_self _ _)
      subst hb
      rw [escapeHtml]
      by_cases hc : c = Char.ofNat 96
      · subst hc
        have := ih q (fun x hx => hq x (List.mem_cons_of_mem _ hx))
        simpa [escapeChar, startsWith, List.isPrefixOf] using this
      · have h1 : startsWith (Char.ofNat 96 :: q) (c :: rest ++ t) = false := by
          simp [startsWith, List.isPrefixOf, Ne.symm hc]
        rw [h1]
        unfold escapeChar
        split_ifs <;> simp [startsWith, List.isPrefixOf, Ne.symm hc]

theorem hasSubstr_skip (b : Char) (p x rest : Str) (hx : ∀ c ∈ x, c ≠ b) :
    hasSubstr (b :: p) (x ++ rest) = hasSubstr (b :: p) rest := by
  induction x with
  | nil => rfl
  | cons c x ih =>
    have hc : c ≠ b := hx c (List.mem_cons_self _ _)
    rw [List.cons_append, hasSubstr, ih (fun y hy => hx y (List.mem_cons_of_mem _ hy))]
    simp [startsWith, List.isPrefixOf, Ne.symm hc]

theorem escapeChar_ticks (c : Char) :
    escapeChar c = [c] ∨ (c ≠ Char.ofNat 96 ∧ ∀ x ∈ escapeChar c, x ≠ Char.ofNat 96) := by
  unfold escapeChar
  split_ifs with h1 h2 h3 h4 h5
  · right; subst h1; decide
  · right; subst h2; decide
  · right; subst h3; decide
  · right; subst h4; decide
  · right; rw [h5]; decide
  · left; rfl

theorem hasSubstr_ticks_escapeHtml (x t : Str) :
    hasSubstr "```".toList (escapeHtml x ++ t) = hasSubstr "```".toList (x ++ t) := by
  induction x with
  | nil => rfl
  | cons c rest ih =>
    rcases escapeChar_ticks c with h | ⟨h1, h2⟩
    · have e : escapeHtml (c :: rest) ++ t = c :: (escapeHtml rest ++ t) := by
        rw [escapeHtml, h]
        rfl
      have e2 := startsWith_ticks_escapeHtml (c :: rest) t "```".toList (by decide)
      rw [e] at e2 ⊢
      rw [List.cons_append, hasSubstr, hasSubstr, ih, e2]
      rfl
    · have e3 : hasSubstr "```".toList (escapeChar c ++ (escapeHtml rest ++ t)) =
          hasSubstr "```".toList (escapeHtml rest ++ t) :=
        hasSubstr_skip (Char.ofNat 96) "``".toList (escapeChar c) _ h2
      rw [escapeHtml, List.append_assoc, e3, ih, List.cons_append, hasSubstr]
      simp [startsWith, List.isPrefixOf, Ne.symm h1]

theorem normalizeNewlines_cons_newline (r : Str) :
    normalizeNewlines ('\n' :: r) = '\n' :: normalizeNewlines r := by
  rw [normalizeNewlines]
  simp

theorem startsWith_ticks_normalizeNewlines (x t : Str) :
    ∀ q : Str, (∀ c ∈ q, c = Char.ofNat 96) →
      startsWith q (normalizeNewlines x ++ t) = startsWith q (x ++ t) := by
  induction x with
  | nil => intro q _; rfl
  | cons c rest ih =>
    intro q hq
    rcases q with _ | ⟨b, q⟩
    · simp [startsWith]
    · have hb : b = Char.ofNat 96 := hq b (List.mem_cons_self _ _)
      subst hb
      rw [normalizeNewlines]
      split
      · rename_i h
        rcases rest with _ | ⟨y, rest⟩
        · simp at h
        · simp only [List.head?_cons, Option.some.injEq] at h
          obtain ⟨rfl, rfl⟩ := h
          rw [normalizeNewlines_cons_newline]
          simp [startsWith, List.isPrefixOf]
      · have := ih q (fun x hx => hq x (List.mem_cons_of_mem _ hx))
        simp only [startsWith] at this
        simp [startsWith, List.isPrefixOf, this]

theorem hasSubstr_ticks_normalizeNewlines (x t : Str) :
    hasSubstr "```".toList (normalizeNewlines x ++ t) = hasSubstr "```".toList (x ++ t) := by
  induction x with
  | nil => rfl
  | cons c rest ih =>
    have e2 := startsWith_ticks_normalizeNewlines (c :: rest) t "```".toList (by decide)
    rw [normalizeNewlines] at e2 ⊢
    split
    · rename_i h
      rw [ih, List.cons_append, hasSubstr]
      have : startsWith "```".toList (c :: (rest ++ t)) = false := by
        rw [h.1]
        rfl
      rw [this]
      rfl
    · rename_i h
      rw [if_neg h] at e2
      rw [List.cons_append, hasSubstr, List.cons_append, hasSubstr, ih]
      rw [List.cons_append, List.cons_append] at e2
      rw [e2]

theorem normalizeNewlines_append (x y : Str) (hy : y.head? ≠ some '\n') :
    normalizeNewlines (x ++ y) = normalizeNewlines x ++ normalizeNewlines y := by
  induction x with
  | nil => rfl
  | cons c rest ih =>
    rw [List.cons_append, normalizeNewlines, normalizeNewlines, ih]
    rcases rest with _ | ⟨d, rest⟩
    · have : ¬ (c = '\r' ∧ ([] ++ y).head? = some '\n') := fun h => hy (by simpa using h.2)
      rw [if_neg this]
      simp
    · simp only [List.cons_append, List.head?_cons]
      split <;> rfl

theorem lazyScan_closed (code rest : Str)
    (h : hasSubstr "```".toList (code ++ "``".toList) = false) :
    lazyScan (fun _ => true) "```".toList (code ++ "```".toList ++ rest) = some code := by
  induction code with
  | nil =>
    cases rest <;> simp [lazyScan, startsWith, List.isPrefixOf]
  | cons c u ih =>
    have h2 := @hasSubstr_cons_false "```".toList c (u ++ "``".toList) h
    have hu := ih h2.2
    have hs : startsWith "```".toList (c :: (u ++ "```".toList ++ rest)) = false := by
      have h3 := h2.1
      rcases u with _ | ⟨d, _ | ⟨e, u⟩⟩ <;>
        simpa [startsWith, List.isPrefixOf] using h3
    rw [List.cons_append, List.cons_append, lazyScan, hs, hu]
    simp

theorem matchFence_closed (lang code rest : Str) (hl : ∀ c ∈ lang, isLangChar c = true)
    (hc : hasSubstr "```".toList (code ++ "``".toList) = false) :
    matchFence ("```".toList ++ (lang ++ '\n' :: (code ++ "```".toList ++ rest))) =
      some (3 + lang.length + 1 + code.length + 3, lang, code) := by
  have h1 : startsWith "```".toList
      ("```".toList ++ (lang ++ '\n' :: (code ++ "```".toList ++ rest))) = true := by
    simp [startsWith, List.isPrefixOf]
  have h2 : ("```".toList ++ (lang ++ '\n' :: (code ++ "```".toList ++ rest))).drop 3 =
      lang ++ '\n' :: (code ++ "```".toList ++ rest) := rfl
  have h3 := takeWhile_eq_self isLangChar lang ('\n' :: (code ++ "```".toList ++ rest)) hl
    (fun c hh => by
      simp only [List.head?_cons, Option.some.injEq] at hh
      subst hh
      decide)
  have h4 := lazyScan_closed code rest hc
  rw [matchFence, h1]
  simp only [if_true, h2, h3.1, h3.2, h4]

theorem extractFences_closed (n : Nat) (lang code rest : Str)
    (hl : ∀ c ∈ lang, isLangChar c = true)
    (hc : hasSubstr "```".toList (code ++ "``".toList) = false) :
    extractFences n 0 ("```".toList ++ (lang ++ '\n' :: (code ++ "```".toList ++ rest))) =
      (codeToken n ++ (extractFences (n + 1) 0 rest).1,
        renderCodeBlock lang code :: (extractFences (n + 1) 0 rest).2) := by
  have hm := matchFence_closed lang code rest hl hc
  have hshape : "```".toList ++ (lang ++ '\n' :: (code ++ "```".toList ++ rest)) =
      Char.ofNat 96 :: (Char.ofNat 96 :: Char.ofNat 96 ::
        (lang ++ '\n' :: (code ++ "```".toList ++ rest))) := rfl
  have hdrop : (Char.ofNat 96 :: Char.ofNat 96 ::
      (lang ++ '\n' :: (code ++ "```".toList ++ rest))).drop
      (3 + lang.length + 1 + code.length + 3 - 1) = rest := by
    have h1 : 3 + lang.length + 1 + code.length + 3 - 1 =
        ([Char.ofNat 96, Char.ofNat 96] ++ lang ++ '\n' :: code ++ "```".toList).length := by
      simp
      omega
    have h2 : Char.ofNat 96 :: Char.ofNat 96 ::
        (lang ++ '\n' :: (code ++ "```".toList ++ rest)) =
        ([Char.ofNat 96, Char.ofNat 96] ++ lang ++ '\n' :: code ++ "```".toList) ++ rest := by
      simp
    rw [h1, h2, List.drop_left]
  rw [hshape] at hm ⊢
  rw [extractFences, hm]
  simp only
  rw [extractFences_skip, hdrop]

theorem matchFence_ticks (t : Str) : matchFence (Char.ofNat 96 :: Char.ofNat 96 ::
    Char.ofNat 96 :: Char.ofNat 96 :: t) = none := by
  simp [matchFence, startsWith, List.isPrefixOf, List.takeWhile, List.dropWhile, isLangChar,
    isDigit]

theorem matchFence_of_not_startsWith (t : Str)
    (h : startsWith "```".toList t = false) : matchFence t = none := by
  rw [matchFence, h]
  simp

theorem extractFences_text (text rest : Str)
    (ht : hasSubstr "```".toList text = false)
    (hrest : rest = [] ∨ ∃ r, rest = "```".toList ++ r) :
    ∀ n, extractFences n 0 (text ++ rest) =
      (text ++ (extractFences n 0 rest).1, (extractFences n 0 rest).2) := by
  induction text with
  | nil => intro n; rfl
  | cons c u ih =>
    intro n
    have h2 := @hasSubstr_cons_false "```".toList c u ht
    have hm : matchFence (c :: (u ++ rest)) = none := by
      have h3 := h2.1
      rcases u with _ | ⟨d, _ | ⟨e, u⟩⟩
      · rcases hrest with rfl | ⟨r, rfl⟩
        · simp [matchFence, startsWith, List.isPrefixOf]
        · by_cases hc : c = Char.ofNat 96
          · subst hc
            exact matchFence_ticks r
          · simp [matchFence, startsWith, List.isPrefixOf, Ne.symm hc]
      · rcases hrest with rfl | ⟨r, rfl⟩
        · simp [matchFence, startsWith, List.isPrefixOf]
        · by_cases hc : c = Char.ofNat 96 ∧ d = Char.ofNat 96
          · obtain ⟨rfl, rfl⟩ := hc
            exact matchFence_ticks _
          · have : startsWith "```".toList ([c, d] ++ ("```".toList ++ r)) = false := by
              simp only [startsWith, List.isPrefixOf, List.cons_append, List.nil_append,
                Bool.and_eq_false_iff, beq_eq_false_iff_ne, ne_eq]
              by_cases h1 : c = Char.ofNat 96
              · right
                left
                exact fun hh => hc ⟨h1, hh.symm⟩
              · left
                exact fun hh => h1 hh.symm
            exact matchFence_of_not_startsWith _ this
      · have : startsWith "```".toList (c :: (d :: e :: u ++ rest)) = false := by
          simpa [startsWith, List.isPrefixOf] using h3
        exact matchFence_of_not_startsWith _ this
    rw [List.cons_append, extractFences, hm]
    simp only
    rw [ih h2.2]
    rfl

theorem escapeHtml_lang (lang : Str) (hl : ∀ c ∈ lang, isLangChar c = true) :
    escapeHtml lang = lang :=
  escapeHtml_id lang (fun c hc => escapeChar_of_lang c (hl c hc))

theorem lang_no_cr (lang : Str) (hl : ∀ c ∈ lang, isLangChar c = true) :
    ∀ c ∈ "```".toList ++ lang, c ≠ '\r' := by
  intro c hc hcr
  subst hcr
  rcases List.mem_append.mp hc with h | h
  · exact absurd h (by decide)
  · exact absurd (hl _ h) (by decide)

theorem ok_parts (p : FencedPart) (h : p.ok = true) :
    (∀ c ∈ p.lang, isLangChar c = true) ∧
      hasSubstr "```".toList (p.code ++ "``".toList) = false ∧
      (∀ q ∈ p.after, q.ok = true) ∧ hasSubstr "```".toList (rawText p.after) = false := by
  simp only [FencedPart.ok, Bool.and_eq_true, List.all_eq_true, Bool.not_eq_true'] at h
  exact ⟨h.1.1.1, h.1.1.2, h.1.2, h.2⟩

theorem head_escaped_parts (ps : List FencedPart) :
    (escapeHtml ((ps.map FencedPart.raw).flatten)).head? ≠ some '\n' := by
  cases ps with
  | nil => simp [escapeHtml]
  | cons p ps =>
    simp only [List.map_cons, List.flatten_cons, FencedPart.raw]
    rw [escapeHtml_append, escapeHtml_append]
    simp [escapeHtml, escapeChar]

/-- The escaping and the normalisation of the line ends work inside the fenced blocks and
the texts of a document, and keep its fences. -/
theorem normalized_parts (ps : List FencedPart) (h : ∀ p ∈ ps, p.ok = true) :
    normalizeNewlines (escapeHtml ((ps.map FencedPart.raw).flatten)) =
      (ps.map FencedPart.normalized).flatten := by
  induction ps with
  | nil => rfl
  | cons p ps ih =>
    obtain ⟨hl, _, _, _⟩ := ok_parts p (h p (List.mem_cons_self _ _))
    have ih2 := ih (fun q hq => h q (List.mem_cons_of_mem _ hq))
    simp only [List.map_cons, List.flatten_cons, FencedPart.raw, FencedPart.normalized]
    have e1 : escapeHtml ("```".toList ++ (p.lang ++
        ((if p.cr then "\r\n".toList else "\n".toList) ++
          (p.code ++ ("```".toList ++ rawText p.after)))) ++
        (ps.map FencedPart.raw).flatten) =
        ("```".toList ++ p.lang) ++ ((if p.cr then "\r\n".toList else "\n".toList) ++
          (escapeHtml p.code ++ ("```".toList ++ (escapeHtml (rawText p.after) ++
            escapeHtml ((ps.map FencedPart.raw).flatten))))) := by
      simp only [escapeHtml_append, escapeHtml_lang p.lang hl, List.append_assoc]
      have e3 : escapeHtml "```".toList = "```".toList := by decide
      have e4 : escapeHtml (if p.cr then "\r\n".toList else "\n".toList) =
          (if p.cr then "\r\n".toList else "\n".toList) := by
        cases p.cr <;> decide
      rw [e3, e4]
    rw [e1, normalizeNewlines_append_left _ _ (lang_no_cr p.lang hl)]
    have e5 : ∀ y : Str, normalizeNewlines ((if p.cr then "\r\n".toList else "\n".toList) ++ y) =
        '\n' :: normalizeNewlines y := by
      intro y
      cases p.cr
      · simp [normalizeNewlines]
      · simp [normalizeNewlines]
    rw [e5, normalizeNewlines_append _ _ (by simp),
      normalizeNewlines_append_left "```".toList _ (by decide),
      normalizeNewlines_append _ _ (head_escaped_parts ps), ih2]
    simp

theorem codeToken_eq_markText (n : Nat) : codeToken n = markText (Nat.toDigits 10 n) := by
  simp [codeToken, markText]

theorem marked_normalized_text (ps : List Piece) (h : ∀ p ∈ ps, p.ok = true) :
    Marked (normalizeNewlines (escapeHtml (rawText ps))) (marksOf ps) :=
  marked_normalizeNewlines (marked_escapeHtml (marked_rawText ps h))

theorem no_ticks_normalized (x t : Str) (h : hasSubstr "```".toList (x ++ t) = false) :
    hasSubstr "```".toList (normalizeNewlines (escapeHtml x) ++ t) = false := by
  rw [hasSubstr_ticks_normalizeNewlines, hasSubstr_ticks_escapeHtml, h]

theorem normalized_parts_head (ps : List FencedPart) :
    (ps.map FencedPart.normalized).flatten = [] ∨
      ∃ r, (ps.map FencedPart.normalized).flatten = "```".toList ++ r := by
  cases ps with
  | nil => exact Or.inl rfl
  | cons p ps =>
    right
    simp only [List.map_cons, List.flatten_cons, FencedPart.normalized, List.append_assoc]
    exact ⟨_, rfl⟩

/-- The extraction of the fences of a document: every fenced block gives way to the
placeholder of its index, and its code block is pushed. -/
theorem extract_parts (ps : List FencedPart) (h : ∀ p ∈ ps, p.ok = true) : ∀ n,
    (extractFences n 0 ((ps.map FencedPart.normalized).flatten)).2 =
        ps.map FencedPart.block ∧
      Marked (extractFences n 0 ((ps.map FencedPart.normalized).flatten)).1
        (documentMarks n ps) := by
  induction ps with
  | nil =>
    intro n
    exact ⟨rfl, Marked.nil⟩
  | cons p ps ih =>
    intro n
    obtain ⟨hl, hc, ha, hat⟩ := ok_parts p (h p (List.mem_cons_self _ _))
    obtain ⟨ih1, ih2⟩ := ih (fun q hq => h q (List.mem_cons_of_mem _ hq)) (n + 1)
    have hshape : ((p :: ps).map FencedPart.normalized).flatten =
        "```".toList ++ (p.lang ++ '\n' :: (normalizeNewlines (escapeHtml p.code) ++
          "```".toList ++ (normalizeNewlines (escapeHtml (rawText p.after)) ++
            (ps.map FencedPart.normalized).flatten))) := by
      simp [FencedPart.normalized, List.append_assoc]
    have hc2 := no_ticks_normalized p.code "``".toList hc
    have hat2 : hasSubstr "```".toList
        (normalizeNewlines (escapeHtml (rawText p.after))) = false := by
      have := no_ticks_normalized (rawText p.after) [] (by simpa using hat)
      simpa using this
    rw [hshape, extractFences_closed n p.lang _ _ hl hc2,
      extractFences_text _ _ hat2 (normalized_parts_head ps) (n + 1)]
    simp only
    refine ⟨by rw [ih1]; rfl, ?_⟩
    rw [codeToken_eq_markText]
    exact marked_mark (toDigits_ne_nil n) (toDigits_isDigit n)
      (marked_append (marked_normalized_text p.after ha) ih2)

/-- The text that `markdownToHtml` has before its last replacement, for a document of
well-formed texts and fenced blocks: a marked text with the placeholders of the texts
and one placeholder for every fence. -/
theorem render_document (before : List Piece) (parts : List FencedPart)
    (hb : ∀ p ∈ before, p.ok = true)
    (hbt : hasSubstr "```".toList (rawText before) = false)
    (hp : ∀ p ∈ parts, p.ok = true) :
    ∃ staged ms, Marked staged ms ∧ ms.Perm (marksOf before ++ documentMarks 0 parts) ∧
      markdownToHtml (fencedText before parts) =
        replaceAll (placeholderRule (parts.map FencedPart.block)) none 0 staged := by
  by_cases hne : fencedText before parts = []
  · have h1 : rawText before = [] ∧ (parts.map FencedPart.raw).flatten = [] := by
      simpa [fencedText] using hne
    have h2 : parts = [] := by
      cases parts with
      | nil => rfl
      | cons p ps => simp [FencedPart.raw] at h1
    have h3 : marksOf before = [] := by
      have := marked_rawText before hb
      rw [h1.1] at this
      exact marked_nil_of_no_nul this (by simp)
    refine ⟨[], [], Marked.nil, by simp [h2, h3, documentMarks], ?_⟩
    rw [hne]
    rfl
  · have hn : normalizeNewlines (escapeHtml (fencedText before parts)) =
        normalizeNewlines (escapeHtml (rawText before)) ++
          (parts.map FencedPart.normalized).flatten := by
      unfold fencedText
      rw [escapeHtml_append, normalizeNewlines_append _ _ (head_escaped_parts parts),
        normalized_parts parts hp]
    have hbt2 : hasSubstr "```".toList
        (normalizeNewlines (escapeHtml (rawText before))) = false := by
      have := no_ticks_normalized (rawText before) [] (by simpa using hbt)
      simpa using this
    obtain ⟨e1, e2⟩ := extract_parts parts hp 0
    have hx := extractFences_text _ _ hbt2 (normalized_parts_head parts) 0
    have hm : Marked (extractFences 0 0
        (normalizeNewlines (escapeHtml (fencedText before parts)))).1
        (marksOf before ++ documentMarks 0 parts) := by
      rw [hn, hx]
      exact marked_append (marked_normalized_text before hb) e2
    obtain ⟨ms2, h1, h2⟩ := marked_renderRules _ _ hm
    refine ⟨_, ms2, h1, h2, ?_⟩
    rw [markdownToHtml_eq _ hne]
    congr 1
    rw [hn, hx]
    simp only
    rw [e1]

theorem mem_documentMarks (ps : List FencedPart) : ∀ (n i : Nat), i < ps.length →
    Nat.toDigits 10 (n + i) ∈ documentMarks n ps := by
  induction ps with
  | nil =>
    intro n i hi
    exact absurd hi (by simp)
  | cons p ps ih =>
    intro n i hi
    cases i with
    | zero => simp [documentMarks]
    | succ i =>
      have := ih (n + 1) i (by simpa using hi)
      simp only [documentMarks, List.mem_cons, List.mem_append]
      right
      right
      rw [show n + (i + 1) = n + 1 + i by omega]
      exact this

/-- C15, amended: the fenced blocks of a document are protected.  For every document made
of a text, then fenced blocks, each with the text after it, in which every fenced block
has a language tag of the characters of `[a-z0-9+-]` and is closed by the first three
backticks in a row after its opening line, and every text has no three backticks in a row
and no U+0000 outside a placeholder pattern of its own: the output of `markdownToHtml`
contains, for every fenced block, its code block, `<pre><code`, the attributes of the
language, `>`, the content with its characters escaped, the line ends normalised and one
final line feed dropped, `</code></pre>`.  A line of the content that begins with `#` is
in that code block as it was, and is no heading. -/
theorem markdownToHtml_fences (before : List Piece) (parts : List FencedPart)
    (hb : ∀ p ∈ before, p.ok = true)
    (hbt : hasSubstr "```".toList (rawText before) = false)
    (hp : ∀ p ∈ parts, p.ok = true) :
    ∀ p ∈ parts, ∃ u v, markdownToHtml (fencedText before parts) =
      u ++ renderCodeBlock p.lang (normalizeNewlines (escapeHtml p.code)) ++ v := by
  intro p hmem
  obtain ⟨staged, ms, h1, h2, h3⟩ := render_document before parts hb hbt hp
  obtain ⟨i, hi, hget⟩ := List.getElem_of_mem hmem
  have hd : Nat.toDigits 10 i ∈ ms := by
    apply h2.symm.subset
    apply List.mem_append_right
    have := mem_documentMarks parts 0 i hi
    simpa using this
  obtain ⟨u, v, h4⟩ := restore_mem (parts.map FencedPart.block) h1 _ hd
  refine ⟨u, v, ?_⟩
  rw [h3, h4]
  have : fillMark (parts.map FencedPart.block) (Nat.toDigits 10 i) = p.block := by
    unfold fillMark
    rw [digitsToNat_toDigits]
    simp [List.get?_eq_getElem?, hi, hget]
  rw [this]
  rfl

/-- C15, amended, on a document with two fenced blocks, the second with a language tag
and an opening line that ends with CR LF: the line `# x` of the first and the line `# y`
of the second are in their code blocks. -/
theorem markdownToHtml_fences_witness :
    (∃ u v, markdownToHtml "intro\n\n```\n# x\n```\n\n**b**\n```js\r\n# y\n```".toList =
      u ++ "<pre><code># x</code></pre>".toList ++ v) ∧
    (∃ u v, markdownToHtml "intro\n\n```\n# x\n```\n\n**b**\n```js\r\n# y\n```".toList =
      u ++ "<pre><code class=\"language-js\" data-lang=\"js\"># y</code></pre>".toList ++ v) ∧
    markdownToHtml "intro\n\n```\n# x\n```\n\n**b**\n```js\r\n# y\n```".toList =
      ("<p>intro</p>\n<pre><code># x</code></pre>\n<p><strong>b</strong><br/>" ++
        "<pre><code class=\"language-js\" data-lang=\"js\"># y</code></pre></p>").toList :=
  ⟨markdownToHtml_fences [.text "intro\n\n".toList]
      [⟨[], false, "# x\n".toList, [.text "\n\n**b**\n".toList]⟩,
        ⟨"js".toList, true, "# y\n".toList, []⟩]
      (by decide) (by decide) (by decide)
      ⟨[], false, "# x\n".toList, [.text "\n\n**b**\n".toList]⟩ (by simp),
    markdownToHtml_fences [.text "intro\n\n".toList]
      [⟨[], false, "# x\n".toList, [.text "\n\n**b**\n".toList]⟩,
        ⟨"js".toList, true, "# y\n".toList, []⟩]
      (by decide) (by decide) (by decide)
      ⟨"js".toList, true, "# y\n".toList, []⟩ (by simp),
    by decide⟩

/-- C29, amended: the placeholder patterns of a document outside its fenced blocks are
taken for placeholders of the renderer.  For every document made of a text, then fenced
blocks, each with the text after it, in which every fenced block has a language tag of the
characters of `[a-z0-9+-]` and is closed by the first three backticks in a row after its
opening line, and every text has no three backticks in a row and no U+0000 outside a
placeholder pattern of its own: the output of `markdownToHtml` is a sequence of texts
without U+0000 and of what replaces the placeholders, one for every fence and one for every
pattern of the texts of the input, each replaced by the code block with its index, or by
nothing when no fence has that index. -/
theorem markdownToHtml_placeholders (before : List Piece) (parts : List FencedPart)
    (hb : ∀ p ∈ before, p.ok = true)
    (hbt : hasSubstr "```".toList (rawText before) = false)
    (hp : ∀ p ∈ parts, p.ok = true) :
    ∃ ps : List Piece, (∀ p ∈ ps, p.ok = true) ∧
      (marksOf ps).Perm (marksOf before ++ documentMarks 0 parts) ∧
      markdownToHtml (fencedText before parts) =
        (ps.map (Piece.fill (parts.map FencedPart.block))).flatten := by
  obtain ⟨staged, ms, h1, h2, h3⟩ := render_document before parts hb hbt hp
  obtain ⟨ps, h4, h5, _, h6⟩ := restore_marked (parts.map FencedPart.block) h1
  exact ⟨ps, h4, h5 ▸ h2, by rw [h3, h6]⟩

/-- C29, amended, on the examples: the pattern of index 0 between two words, with no fence
and after a fence, and the pattern alone. -/
theorem markdownToHtml_placeholders_witness :
    (∃ ps : List Piece, (∀ p ∈ ps, p.ok = true) ∧
      (marksOf ps).Perm ["0".toList, "0".toList] ∧
      markdownToHtml "```\nx\n```\n\na \x00CODE0\x00 b".toList =
        (ps.map (Piece.fill ["<pre><code>x</code></pre>".toList])).flatten) ∧
    markdownToHtml "```\nx\n```\n\na \x00CODE0\x00 b".toList =
      "<pre><code>x</code></pre>\n<p>a <pre><code>x</code></pre> b</p>".toList ∧
    markdownToHtml "a \x00CODE0\x00 b".toList = "<p>a  b</p>".toList ∧
    markdownToHtml "\x00CODE0\x00".toList = [] :=
  ⟨markdownToHtml_placeholders []
      [⟨[], false, "x\n".toList,
        [.text "\n\na ".toList, .mark "0".toList, .text " b".toList]⟩]
      (by decide) (by decide) (by decide),
    by decide, by decide, by decide⟩

/-! ## No code block without a closed fence, and the texts that no rule rewrites -/

theorem okAfterOpen_append (a b : Str) (h : okAfterOpen a = true) : okAfterOpen (a ++ b) = true := by
  rcases a with _ | ⟨x, _ | ⟨y, a⟩⟩
  · simp [okAfterOpen] at h
  · simp only [okAfterOpen, List.head?_nil, Bool.or_eq_true, Bool.and_eq_true] at h
    rcases h with h | h
    · simp [okAfterOpen, h]
    · simp at h
  · simpa [okAfterOpen] using h

theorem knownTags_append (a b : Str) (ha : knownTags a = true) (hb : knownTags b = true) :
    knownTags (a ++ b) = true := by
  induction a with
  | nil => simpa using hb
  | cons c rest ih =>
    simp only [knownTags, Bool.and_eq_true, Bool.or_eq_true] at ha
    simp only [List.cons_append, knownTags, Bool.and_eq_true, Bool.or_eq_true]
    refine ⟨?_, ih ha.2⟩
    rcases ha.1 with h | h
    · exact Or.inl h
    · exact Or.inr (okAfterOpen_append rest b h)

theorem knownTags_of_append_right (a b : Str) (h : knownTags (a ++ b) = true) :
    knownTags b = true := by
  induction a with
  | nil => simpa using h
  | cons c rest ih =>
    simp only [List.cons_append, knownTags, Bool.and_eq_true] at h
    exact ih h.2

theorem breakChar_iff (c : Char) :
    breakChar c = true ↔ (tagHead c = false ∧ c ≠ 'p' ∧ c ≠ '>') := by
  simp [breakChar, and_assoc]

theorem okAfterOpen_of_append (a b : Str) (h : okAfterOpen (a ++ b) = true)
    (hb : breakAt b = true) : okAfterOpen a = true := by
  rcases a with _ | ⟨x, _ | ⟨y, a⟩⟩
  · rcases b with _ | ⟨z, b⟩
    · simp [okAfterOpen] at h
    · simp only [breakAt, breakChar_iff] at hb
      simp only [List.nil_append, okAfterOpen, Bool.or_eq_true, Bool.and_eq_true, hb.1,
        beq_iff_eq, hb.2.1, false_and, or_self] at h
      simp at h
  · rcases b with _ | ⟨z, b⟩
    · simpa using h
    · simp only [breakAt, breakChar_iff] at hb
      simp only [okAfterOpen, List.singleton_append, List.head?_cons, Bool.or_eq_true,
        Bool.and_eq_true, beq_iff_eq, Option.some.injEq] at h
      rcases h with h | h
      · simp [okAfterOpen, h]
      · have h2 := h.2
        simp only [beq_iff_eq, Option.some.injEq] at h2
        exact absurd h2 hb.2.2
  · simpa [okAfterOpen] using h

theorem knownTags_of_append_left (a b : Str) (h : knownTags (a ++ b) = true)
    (hb : breakAt b = true) : knownTags a = true := by
  induction a with
  | nil => rfl
  | cons c rest ih =>
    simp only [List.cons_append, knownTags, Bool.and_eq_true, Bool.or_eq_true] at h
    simp only [knownTags, Bool.and_eq_true, Bool.or_eq_true]
    refine ⟨?_, ih h.2⟩
    rcases h.1 with h1 | h1
    · exact Or.inl h1
    · exact Or.inr (okAfterOpen_of_append rest b h1 hb)

theorem knownTags_of_no_lt (s : Str) (h : ∀ c ∈ s, c ≠ '<') : knownTags s = true := by
  induction s with
  | nil => rfl
  | cons c rest ih =>
    simp only [knownTags, Bool.and_eq_true, Bool.or_eq_true]
    refine ⟨Or.inl ?_, ih (fun x hx => h x (List.mem_cons_of_mem c hx))⟩
    simpa using h c (List.mem_cons_self c rest)

theorem knownTags_drop (n : Nat) (s : Str) (h : knownTags s = true) :
    knownTags (s.drop n) = true := by
  have h2 : knownTags (s.take n ++ s.drop n) = true := by rwa [List.take_append_drop]
  exact knownTags_of_append_right _ _ h2

theorem knownTags_take (n : Nat) (s : Str) (h : knownTags s = true)
    (hc : breakAt (s.drop n) = true) : knownTags (s.take n) = true := by
  have h2 : knownTags (s.take n ++ s.drop n) = true := by rwa [List.take_append_drop]
  exact knownTags_of_append_left _ _ h2 hc

theorem breakAt_dropWhile_not (p : Char → Bool) (s : Str)
    (hp : ∀ c, p c = true → breakChar c = true) :
    breakAt (s.dropWhile (fun c => !p c)) = true := by
  induction s with
  | nil => rfl
  | cons c rest ih =>
    by_cases h : p c = true
    · simp [List.dropWhile, h, breakAt, hp c h]
    · simpa [List.dropWhile, h] using ih

theorem knownTags_dropWhile (p : Char → Bool) (s : Str) (h : knownTags s = true) :
    knownTags (s.dropWhile p) = true := by
  have h2 : knownTags (s.takeWhile p ++ s.dropWhile p) = true := by
    rwa [List.takeWhile_append_dropWhile]
  exact knownTags_of_append_right _ _ h2

theorem knownTags_takeWhile (p : Char → Bool) (s : Str) (h : knownTags s = true)
    (hc : breakAt (s.dropWhile p) = true) : knownTags (s.takeWhile p) = true := by
  have h2 : knownTags (s.takeWhile p ++ s.dropWhile p) = true := by
    rwa [List.takeWhile_append_dropWhile]
  exact knownTags_of_append_left _ _ h2 hc

theorem breakChar_of_isWhiteSpace (c : Char) (h : isWhiteSpace c = true) : breakChar c = true := by
  by_contra hc
  simp only [breakChar, tagHead, Bool.not_eq_true', Bool.not_eq_false, Bool.or_eq_true,
    beq_iff_eq] at hc
  rcases hc with ((((((((((rfl | rfl) | rfl) | rfl) | rfl) | rfl) | rfl) | rfl) | rfl) | rfl) | rfl) | rfl <;>
    exact absurd h (by decide)

theorem breakChar_of_isLineTerminator (c : Char) (h : isLineTerminator c = true) :
    breakChar c = true :=
  breakChar_of_isWhiteSpace c (isWhiteSpace_of_isLineTerminator c h)

theorem replaceAll_cons_of_not_break (rule : Option Char → Str → Option (Nat × Str))
    (hr : RuleKnown rule) (prev : Option Char) (x : Char) (rest : Str)
    (hs : knownTags (x :: rest) = true) (hx : breakChar x = false) :
    replaceAll rule prev 0 (x :: rest) = x :: replaceAll rule (some x) 0 rest := by
  rw [replaceAll_zero_cons]
  cases hm : rule prev (x :: rest) with
  | none => rfl
  | some r =>
    have := (hr prev (x :: rest) r hm hs).1
    simp [breakAt, hx] at this

theorem okAfterOpen_replaceAll (rule : Option Char → Str → Option (Nat × Str))
    (hr : RuleKnown rule) (prev : Option Char) (rest : Str)
    (hs : knownTags rest = true) (h : okAfterOpen rest = true) :
    okAfterOpen (replaceAll rule prev 0 rest) = true := by
  rcases rest with _ | ⟨x, rest⟩
  · simp [okAfterOpen] at h
  · simp only [okAfterOpen, Bool.or_eq_true, Bool.and_eq_true, beq_iff_eq] at h
    rcases h with h | ⟨h1, h2⟩
    · have hx : breakChar x = false := by simp [breakChar, h]
      rw [replaceAll_cons_of_not_break rule hr prev x rest hs hx]
      simp [okAfterOpen, h]
    · have hx : breakChar x = false := by simp [breakChar, h1]
      rw [replaceAll_cons_of_not_break rule hr prev x rest hs hx]
      rcases rest with _ | ⟨y, rest⟩
      · simp at h2
      · simp only [List.head?_cons, Option.some.injEq] at h2
        have hy : breakChar y = false := by simp [breakChar, h2]
        have hs2 : knownTags (y :: rest) = true :=
          knownTags_of_append_right [x] (y :: rest) hs
        rw [replaceAll_cons_of_not_break rule hr (some x) y rest hs2 hy]
        simp [okAfterOpen, h1, h2]

/-- A global replacement by a rule that satisfies `RuleKnown` keeps `knownTags`. -/
theorem knownTags_replaceAll (rule : Option Char → Str → Option (Nat × Str))
    (hr : RuleKnown rule) (s : Str) :
    ∀ (prev : Option Char) (k : Nat), knownTags (s.drop k) = true →
      knownTags (replaceAll rule prev k s) = true := by
  induction s with
  | nil =>
    intro prev k _
    rw [replaceAll_nil]
    rfl
  | cons c rest ih =>
    intro prev k h
    cases k with
    | zero =>
      simp only [List.drop_zero] at h
      have hrest : knownTags rest = true := by
        simp only [knownTags, Bool.and_eq_true] at h
        exact h.2
      rw [replaceAll_zero_cons]
      cases hm : rule prev (c :: rest) with
      | none =>
        simp only [knownTags, Bool.and_eq_true, Bool.or_eq_true]
        refine ⟨?_, ih (some c) 0 (by simpa using hrest)⟩
        simp only [knownTags, Bool.and_eq_true, Bool.or_eq_true] at h
        rcases h.1 with h1 | h1
        · exact Or.inl h1
        · exact Or.inr (okAfterOpen_replaceAll rule hr (some c) rest hrest h1)
      | some r =>
        exact knownTags_append _ _ (hr prev (c :: rest) r hm h).2
          (ih (some c) (r.1 - 1) (knownTags_drop _ _ hrest))
    | succ k =>
      rw [replaceAll_succ_cons]
      exact ih (some c) k (by simpa using h)

theorem knownTags_of_lazyPlus (ok : Char → Bool) (pat : Str) (t content : Str)
    (h : lazyPlus ok pat t = some content) (hs : knownTags t = true)
    (hp : breakAt pat = true) (hne : pat ≠ []) : knownTags content = true := by
  obtain ⟨rest, hrest⟩ := lazyPlus_eq ok pat t content h
  rw [hrest, List.append_assoc] at hs
  refine knownTags_of_append_left _ _ hs ?_
  cases pat with
  | nil => exact absurd rfl hne
  | cons x pat => simpa [breakAt] using hp

theorem knownTags_tag (body : Str) (h1 : okAfterOpen body = true) (h2 : ∀ c ∈ body, c ≠ '<') :
    knownTags ('<' :: body) = true := by
  simp only [knownTags, Bool.and_eq_true, Bool.or_eq_true]
  exact ⟨Or.inr h1, knownTags_of_no_lt body h2⟩

theorem breakAt_of_startsWith (p t : Str) (h : startsWith p t = true) (hne : p ≠ [])
    (hp : breakAt p = true) : breakAt t = true := by
  have := startsWith_eq_append h
  cases p with
  | nil => exact absurd rfl hne
  | cons x p =>
    rw [this]
    simpa [breakAt] using hp

theorem ruleKnown_heading (level : Nat) : RuleKnown (headingRule level) := by
  intro prev t r h hs
  unfold headingRule at h
  simp only at h
  split at h
  · rename_i hc
    simp only [Bool.and_eq_true] at hc
    simp only [Option.some.injEq] at h
    subst h
    constructor
    · refine breakAt_of_startsWith _ t hc.2 (by simp) ?_
      cases level <;> simp [List.replicate, breakAt] <;> decide
    · have hcontent : knownTags
          ((t.drop (List.replicate level '#' ++ [' ']).length).takeWhile
            (fun c => !isLineTerminator c)) = true :=
        knownTags_takeWhile _ _ (knownTags_drop _ _ hs)
          (breakAt_dropWhile_not isLineTerminator _ breakChar_of_isLineTerminator)
      have hd := knownTags_of_no_lt _ (toDigits_no_lt level)
      exact knownTags_append _ _ (knownTags_append _ _ (knownTags_append _ _
        (knownTags_append _ _ (knownTags_append _ _ (knownTags_append _ _ (by decide) hd)
          (by decide)) hcontent) (by decide)) hd) (by decide)
  · simp at h

theorem ruleKnown_anchored (blockLen : Str → Option Nat) (render : Str → Str → Str)
    (hstart : ∀ u n, blockLen u = some n → breakAt u = true)
    (hrender : ∀ pfx u n, blockLen u = some n → knownTags u = true → knownTags pfx = true →
      knownTags (render pfx (u.take n)) = true) :
    RuleKnown (anchored blockLen render) := by
  intro prev t r h hs
  unfold anchored at h
  split at h
  · rename_i n hn
    simp only [Option.some.injEq] at h
    subst h
    have hb : blockLen t = some n := by
      by_cases hp : prev.isNone = true
      · simpa [hp] using hn
      · simp [hp] at hn
    exact ⟨hstart t n hb, hrender [] t n hb hs rfl⟩
  · cases t with
    | nil => simp at h
    | cons c u =>
      simp only at h
      split at h
      · rename_i hc
        subst hc
        cases hb : blockLen u with
        | none => simp [hb] at h
        | some n =>
          simp only [hb, Option.some.injEq] at h
          subst h
          exact ⟨rfl,
            hrender ['\n'] u n hb (knownTags_of_append_right ['\n'] u hs) (by decide)⟩
      · simp at h

theorem knownTags_head_splitChar (sep : Char) (hsep : breakChar sep = true) (s : Str)
    (b : Str) (bs : List Str) (hb : splitChar sep s = b :: bs) (h : okAfterOpen s = true) :
    okAfterOpen b = true := by
  simp only [breakChar_iff] at hsep
  rcases s with _ | ⟨x, s⟩
  · simp [okAfterOpen] at h
  · simp only [okAfterOpen, Bool.or_eq_true, Bool.and_eq_true, beq_iff_eq] at h
    have hx : x ≠ sep := by
      rintro rfl
      rcases h with h | ⟨h1, _⟩
      · simp [hsep.1] at h
      · exact hsep.2.1 h1
    rw [splitChar_cons_ne sep x s hx] at hb
    simp only [List.cons.injEq] at hb
    rw [← hb.1]
    rcases h with h | ⟨h1, h2⟩
    · simp [okAfterOpen, h]
    · rcases s with _ | ⟨y, s⟩
      · simp at h2
      · simp only [List.head?_cons, Option.some.injEq] at h2
        have hy : y ≠ sep := by
          rintro rfl
          exact hsep.2.2 h2
        rw [splitChar_cons_ne sep y s hy]
        simp [okAfterOpen, h1, h2]

theorem knownTags_splitChar (sep : Char) (hsep : breakChar sep = true) (s : Str)
    (h : knownTags s = true) : ∀ l ∈ splitChar sep s, knownTags l = true := by
  induction s with
  | nil => simp [splitChar, knownTags]
  | cons c rest ih =>
    have hrest : knownTags rest = true := knownTags_of_append_right [c] rest h
    have ih := ih hrest
    intro l hl
    unfold splitChar at hl
    split at hl
    · rcases List.mem_cons.mp hl with rfl | hl
      · rfl
      · exact ih l hl
    · split at hl
      · rename_i heq
        exact absurd heq (splitChar_ne_nil sep rest)
      · rename_i b bs heq
        rw [heq] at ih
        rcases List.mem_cons.mp hl with rfl | hl
        · simp only [knownTags, Bool.and_eq_true, Bool.or_eq_true]
          refine ⟨?_, ih b (List.mem_cons_self _ _)⟩
          simp only [knownTags, Bool.and_eq_true, Bool.or_eq_true] at h
          rcases h.1 with h1 | h1
          · exact Or.inl h1
          · exact Or.inr (knownTags_head_splitChar sep hsep rest b bs heq h1)
        · exact ih l (List.mem_cons_of_mem _ hl)

theorem knownTags_joinWith (sep : Str) (hsep : knownTags sep = true) (ls : List Str)
    (h : ∀ l ∈ ls, knownTags l = true) : knownTags (joinWith sep ls) = true := by
  induction ls with
  | nil => rfl
  | cons x rest ih =>
    cases rest with
    | nil => simpa [joinWith] using h x (List.mem_cons_self _ _)
    | cons y rest2 =>
      simp only [joinWith]
      exact knownTags_append _ _ (knownTags_append _ _ (h x (List.mem_cons_self _ _)) hsep)
        (ih (fun l hl => h l (List.mem_cons_of_mem _ hl)))

theorem knownTags_flatten (ls : List Str) (h : ∀ l ∈ ls, knownTags l = true) :
    knownTags ls.flatten = true := by
  induction ls with
  | nil => rfl
  | cons x rest ih =>
    simp only [List.flatten_cons]
    exact knownTags_append _ _ (h x (List.mem_cons_self _ _))
      (ih (fun l hl => h l (List.mem_cons_of_mem _ hl)))

theorem knownTags_trim (s : Str) (h : knownTags s = true) : knownTags (trim s) = true := by
  unfold trim trimEnd
  have h1 : knownTags (trimStart s) = true := knownTags_dropWhile _ _ h
  generalize trimStart s = u at h1
  have h2 : u = (u.reverse.dropWhile isWhiteSpace).reverse ++
      (u.reverse.takeWhile isWhiteSpace).reverse := by
    rw [← List.reverse_append, List.takeWhile_append_dropWhile, List.reverse_reverse]
  rw [h2] at h1
  refine knownTags_of_append_left _ _ h1 ?_
  generalize hw : (u.reverse.takeWhile isWhiteSpace).reverse = w
  cases w with
  | nil => rfl
  | cons x w =>
    have hx : x ∈ u.reverse.takeWhile isWhiteSpace := by
      rw [← List.mem_reverse, hw]
      exact List.mem_cons_self _ _
    have := List.mem_takeWhile_imp hx
    exact breakChar_of_isWhiteSpace x this

theorem breakAt_drop_quoteScan (u : Str) : breakAt (u.drop (quoteScan u)) = true := by
  induction u with
  | nil => rfl
  | cons c rest ih =>
    unfold quoteScan
    split
    · simpa using ih
    · split
      · simpa using ih
      · rename_i h _
        simp only [Bool.not_eq_true', Bool.not_eq_false] at h
        simpa [breakAt] using breakChar_of_isLineTerminator c h

theorem knownTags_stripQuoteMarker (line : Str) (h : knownTags line = true) :
    knownTags (stripQuoteMarker line) = true := by
  unfold stripQuoteMarker
  split
  · have h4 := knownTags_drop 4 line h
    split
    · rename_i c rest heq
      rw [heq] at h4
      split
      · exact knownTags_of_append_right [c] rest h4
      · exact h4
    · rfl
  · exact h

theorem ruleKnown_quote : RuleKnown (anchored quoteBlock renderQuote) := by
  apply ruleKnown_anchored
  · intro u n h
    unfold quoteBlock at h
    split at h
    · rename_i hs
      exact breakAt_of_startsWith _ u hs (by decide) (by decide)
    · simp at h
  · intro pfx u n h hs hp
    unfold quoteBlock at h
    split at h
    · simp only [Option.some.injEq] at h
      subst h
      have hblock : knownTags (u.take (quoteScan u)) = true :=
        knownTags_take _ _ hs (breakAt_drop_quoteScan u)
      have hlines := knownTags_splitChar '\n' (by decide) _ hblock
      unfold renderQuote
      refine knownTags_append _ _ (knownTags_append _ _ (knownTags_append _ _ hp (by decide))
        (knownTags_joinWith _ (by decide) _ ?_)) (by decide)
      intro l hl
      obtain ⟨line, hline, rfl⟩ := List.mem_map.mp hl
      exact knownTags_stripQuoteMarker line (hlines line hline)
    · simp at h

theorem breakAt_drop_listScan (ordered : Bool) (u : Str) :
    ∀ st, breakAt (u.drop (listScan ordered st u)) = true := by
  induction u with
  | nil =>
    intro st
    cases st <;> rfl
  | cons c rest ih =>
    intro st
    cases st with
    | marker =>
      unfold listScan
      split
      · simpa using ih .space
      · simpa using ih .marker
    | space =>
      unfold listScan
      split
      · simpa using ih .space
      · simpa using ih .content
    | content =>
      unfold listScan
      split
      · simpa using ih .content
      · split
        · simpa using ih .marker
        · rename_i h _
          simp only [Bool.not_eq_true', Bool.not_eq_false] at h
          simpa [breakAt] using breakChar_of_isLineTerminator c h

theorem breakChar_of_isDigit (c : Char) (h : isDigit c = true) : breakChar c = true := by
  by_contra hc
  simp only [breakChar, tagHead, Bool.not_eq_true', Bool.not_eq_false, Bool.or_eq_true,
    beq_iff_eq] at hc
  rcases hc with ((((((((((rfl | rfl) | rfl) | rfl) | rfl) | rfl) | rfl) | rfl) | rfl) | rfl) | rfl) | rfl <;>
    exact absurd h (by decide)

theorem breakAt_of_itemStart (ordered : Bool) (u : Str) (h : itemStart ordered u = true) :
    breakAt u = true := by
  cases ordered with
  | true =>
    cases u with
    | nil => rfl
    | cons c rest =>
      by_cases hd : isDigit c = true
      · simpa [breakAt] using breakChar_of_isDigit c hd
      · simp [itemStart, List.takeWhile, hd] at h
  | false =>
    rcases u with _ | ⟨m, _ | ⟨w, rest⟩⟩
    · rfl
    · simp [itemStart] at h
    · simp only [itemStart, Bool.false_eq_true, if_false, Bool.and_eq_true, Bool.or_eq_true,
        beq_iff_eq] at h
      rcases h.1 with rfl | rfl <;> rfl

theorem knownTags_stripListMarker (ordered : Bool) (line : Str) (h : knownTags line = true) :
    knownTags (stripListMarker ordered line) = true := by
  unfold stripListMarker
  split
  · split
    · exact knownTags_dropWhile _ _ (knownTags_drop _ _ (knownTags_dropWhile _ _ h))
    · exact knownTags_dropWhile _ _ (knownTags_drop _ _ h)
  · exact h

theorem knownTags_listTag (ordered : Bool) : knownTags (listTag ordered) = true := by
  cases ordered <;> decide

theorem ruleKnown_list (ordered : Bool) :
    RuleKnown (anchored (listBlock ordered) (renderList ordered)) := by
  apply ruleKnown_anchored
  · intro u n h
    unfold listBlock at h
    split at h
    · rename_i hs
      exact breakAt_of_itemStart ordered u hs
    · simp at h
  · intro pfx u n h hs hp
    unfold listBlock at h
    split at h
    · simp only [Option.some.injEq] at h
      subst h
      have hblock : knownTags (u.take (listScan ordered .marker u)) = true :=
        knownTags_take _ _ hs (breakAt_drop_listScan ordered u .marker)
      have hlines := knownTags_splitChar '\n' (by decide) _ hblock
      unfold renderList
      simp only
      split
      · exact knownTags_append _ _ hp hblock
      · have hopen : knownTags (['<'] ++ listTag ordered ++ ['>']) = true := by
          cases ordered <;> decide
        have hclose : knownTags ("</".toList ++ listTag ordered ++ ['>']) = true := by
          cases ordered <;> decide
        have hitems : knownTags ((filterNonEmpty ((splitChar '\n'
            (u.take (listScan ordered .marker u))).map
              (fun line => trim (stripListMarker ordered line)))).map
            (fun item => "<li>".toList ++ item ++ "</li>".toList)).flatten = true := by
          apply knownTags_flatten
          intro l hl
          obtain ⟨item, hitem, rfl⟩ := List.mem_map.mp hl
          unfold filterNonEmpty at hitem
          obtain ⟨line, hline, rfl⟩ := List.mem_map.mp (List.mem_filter.mp hitem).1
          exact knownTags_append _ _ (knownTags_append _ _ (by decide)
            (knownTags_trim _ (knownTags_stripListMarker ordered line (hlines line hline))))
            (by decide)
        have h1 := knownTags_append _ _ (knownTags_append _ _ (knownTags_append _ _ hp hopen)
          hitems) hclose
        simpa [List.append_assoc] using h1
    · simp at h

theorem ruleKnown_span (delim opening closing : Str) (hne : delim ≠ [])
    (hd : breakAt delim = true) (ho : knownTags opening = true)
    (hc : knownTags closing = true) : RuleKnown (spanRule delim opening closing) := by
  intro prev t r h hs
  unfold spanRule at h
  split at h
  · rename_i hst
    cases hl : lazyPlus (fun c => !isLineTerminator c) delim (t.drop delim.length) with
    | none => simp [hl] at h
    | some content =>
      simp only [hl, Option.some.injEq] at h
      subst h
      exact ⟨breakAt_of_startsWith delim t hst hne hd,
        knownTags_append _ _ (knownTags_append _ _ ho
          (knownTags_of_lazyPlus _ delim _ content hl (knownTags_drop _ _ hs) hd hne)) hc⟩
  · simp at h

theorem ruleKnown_code : RuleKnown codeRule := by
  intro prev t r h hs
  cases t with
  | nil => simp [codeRule] at h
  | cons c u =>
    unfold codeRule at h
    simp only at h
    split at h
    · rename_i hc
      cases hl : lazyPlus (fun x => x != Char.ofNat 96) [Char.ofNat 96] u with
      | none => simp [hl] at h
      | some content =>
        simp only [hl, Option.some.injEq] at h
        subst h
        subst hc
        refine ⟨rfl, knownTags_append _ _ (knownTags_append _ _ (by decide)
          (knownTags_of_lazyPlus _ _ u content hl
            (knownTags_of_append_right [Char.ofNat 96] u hs) (by decide) (by simp)))
          (by decide)⟩
    · simp at h

theorem ruleKnown_link : RuleKnown linkRule := by
  intro prev t r h hs
  cases t with
  | nil => simp [linkRule] at h
  | cons c u =>
    unfold linkRule at h
    simp only at h
    split at h
    · rename_i hc
      have hu : knownTags u = true := knownTags_of_append_right [c] u hs
      cases hl : lazyPlus (fun x => x != ']') "](".toList u with
      | none =>
        rw [hl] at h
        simp at h
      | some text =>
        rw [hl] at h
        simp only at h
        cases hl2 : lazyPlus (fun x => x != ')') [')'] (u.drop (text.length + 2)) with
        | none =>
          rw [hl2] at h
          simp at h
        | some url =>
          rw [hl2] at h
          simp only [Option.some.injEq] at h
          subst h
          subst hc
          have htext := knownTags_of_lazyPlus _ _ u text hl hu (by decide) (by decide)
          have hurl := knownTags_of_lazyPlus _ _ _ url hl2 (knownTags_drop _ _ hu)
            (by decide) (by simp)
          exact ⟨rfl, knownTags_append _ _ (knownTags_append _ _ (knownTags_append _ _
            (knownTags_append _ _ (by decide) hurl) (by decide)) htext) (by decide)⟩
    · simp at h

theorem ruleKnown_break : RuleKnown breakRule := by
  intro prev t r h hs
  cases t with
  | nil => simp [breakRule] at h
  | cons c u =>
    unfold breakRule at h
    simp only at h
    split at h
    · rename_i hc
      simp only [Option.some.injEq] at h
      subst h
      subst hc
      exact ⟨rfl, by decide⟩
    · simp at h

theorem ruleKnown_placeholder (codeBlocks : List Str)
    (hb : ∀ b ∈ codeBlocks, knownTags b = true) : RuleKnown (placeholderRule codeBlocks) := by
  intro prev t r h hs
  unfold placeholderRule at h
  split at h
  · rename_i hst
    simp only at h
    split at h
    · simp only [Option.some.injEq] at h
      subst h
      refine ⟨breakAt_of_startsWith _ t hst (by decide) (by decide), ?_⟩
      cases hg : codeBlocks.get? (digitsToNat ((t.drop 5).takeWhile isDigit)) with
      | none => rfl
      | some b => exact hb b (List.get?_mem hg)
    · simp at h
  · simp at h

theorem okAfterOpen_head_splitBlocks (s b : Str) (bs : List Str)
    (hb : splitBlocks false s = b :: bs) (h : okAfterOpen s = true) : okAfterOpen b = true := by
  rcases s with _ | ⟨x, s⟩
  · simp [okAfterOpen] at h
  · simp only [okAfterOpen, Bool.or_eq_true, Bool.and_eq_true, beq_iff_eq] at h
    have hx : x ≠ '\n' := by
      rintro rfl
      rcases h with h | ⟨h1, _⟩
      · exact absurd h (by decide)
      · exact absurd h1 (by decide)
    rw [splitBlocks_cons_ne false x s hx] at hb
    simp only [List.cons.injEq] at hb
    rw [← hb.1]
    rcases h with h | ⟨h1, h2⟩
    · simp [okAfterOpen, h]
    · rcases s with _ | ⟨y, s⟩
      · simp at h2
      · simp only [List.head?_cons, Option.some.injEq] at h2
        have hy : y ≠ '\n' := by
          rintro rfl
          exact absurd h2 (by decide)
        rw [splitBlocks_cons_ne false y s hy]
        simp [okAfterOpen, h1, h2]

theorem knownTags_splitBlocks (s : Str) :
    ∀ k, knownTags s = true → ∀ b ∈ splitBlocks k s, knownTags b = true := by
  induction s with
  | nil =>
    intro k _ b hb
    simp only [splitBlocks, List.mem_singleton] at hb
    subst hb
    rfl
  | cons c rest ih =>
    intro k h b hb
    have hrest : knownTags rest = true := knownTags_of_append_right [c] rest h
    rw [splitBlocks] at hb
    split at hb
    · split at hb
      · exact ih true hrest b hb
      · rcases List.mem_cons.mp hb with rfl | hb
        · rfl
        · exact ih true hrest b hb
    · split at hb
      · rename_i heq
        exact absurd heq (splitBlocks_ne_nil rest false)
      · rename_i b0 bs heq
        have ih := ih false hrest
        rw [heq] at ih
        rcases List.mem_cons.mp hb with rfl | hb
        · simp only [knownTags, Bool.and_eq_true, Bool.or_eq_true]
          refine ⟨?_, ih b0 (List.mem_cons_self _ _)⟩
          simp only [knownTags, Bool.and_eq_true, Bool.or_eq_true] at h
          rcases h.1 with h1 | h1
          · exact Or.inl h1
          · exact Or.inr (okAfterOpen_head_splitBlocks rest b0 bs heq h1)
        · exact ih b (List.mem_cons_of_mem _ hb)

theorem knownTags_wrapBlock (block : Str) (h : knownTags block = true) :
    knownTags (wrapBlock block) = true := by
  have ht := knownTags_trim block h
  unfold wrapBlock
  simp only
  split
  · exact ht
  · exact knownTags_append _ _ (knownTags_append _ _ (by decide)
      (knownTags_replaceAll breakRule ruleKnown_break _ none 0 (by simpa using ht))) (by decide)

/-- The rules of `markdownToHtml` keep `knownTags`. -/
theorem knownTags_renderRules (html : Str) (h : knownTags html = true) :
    knownTags (renderRules html) = true := by
  have step : ∀ (rule : Option Char → Str → Option (Nat × Str)) (t : Str),
      RuleKnown rule → knownTags t = true → knownTags (replaceAll rule none 0 t) = true :=
    fun rule t hr ht => knownTags_replaceAll rule hr t none 0 (by simpa using ht)
  unfold renderRules
  simp only
  apply knownTags_joinWith _ (by decide)
  intro l hl
  unfold filterNonEmpty at hl
  obtain ⟨block, hblock, rfl⟩ := List.mem_map.mp (List.mem_filter.mp hl).1
  apply knownTags_wrapBlock
  refine knownTags_splitBlocks _ false ?_ block hblock
  apply step _ _ ruleKnown_link
  apply step _ _ ruleKnown_code
  apply step _ _ (ruleKnown_span _ _ _ (by decide) (by decide) (by decide) (by decide))
  apply step _ _ (ruleKnown_span _ _ _ (by decide) (by decide) (by decide) (by decide))
  apply step _ _ (ruleKnown_list true)
  apply step _ _ (ruleKnown_list false)
  apply step _ _ ruleKnown_quote
  apply step _ _ (ruleKnown_heading 1)
  apply step _ _ (ruleKnown_heading 2)
  apply step _ _ (ruleKnown_heading 3)
  apply step _ _ (ruleKnown_heading 4)
  apply step _ _ (ruleKnown_heading 5)
  apply step _ _ (ruleKnown_heading 6)
  exact h

theorem knownTags_no_pre (s : Str) (h : knownTags s = true) :
    hasSubstr "<pre".toList s = false := by
  induction s with
  | nil => rfl
  | cons c rest ih =>
    simp only [knownTags, Bool.and_eq_true, Bool.or_eq_true] at h
    simp only [hasSubstr, Bool.or_eq_false_iff]
    refine ⟨?_, ih h.2⟩
    rw [Bool.eq_false_iff]
    intro hs
    have heq := startsWith_eq_append hs
    have hc : c = '<' := by
      have := congrArg List.head? heq
      simpa using this
    have hr : rest = "pre".toList ++ (c :: rest).drop 4 := by
      have := congrArg List.tail heq
      simpa using this
    rcases h.1 with h1 | h1
    · simp [hc] at h1
    · rw [hr] at h1
      simp [okAfterOpen, tagHead] at h1

theorem hasSubstr_of_append (p a b : Str) : hasSubstr p (a ++ (p ++ b)) = true := by
  induction a with
  | nil =>
    rw [List.nil_append]
    cases h : p ++ b with
    | nil =>
      have : p = [] := (List.append_eq_nil.mp h).1
      subst this
      rfl
    | cons c rest =>
      rw [hasSubstr, ← h]
      simp [startsWith]
  | cons c a ih =>
    rw [List.cons_append, hasSubstr, ih]
    simp

theorem hasSubstr_append_right (p a b : Str) (h : hasSubstr p (a ++ b) = false) :
    hasSubstr p b = false := by
  induction a with
  | nil => exact h
  | cons c a ih => exact ih (hasSubstr_cons_false h).2

theorem hasSubstr_drop (p s : Str) (k : Nat) (h : hasSubstr p s = false) :
    hasSubstr p (s.drop k) = false :=
  hasSubstr_append_right p (s.take k) (s.drop k) (by rwa [List.take_append_drop])

theorem lazyScan_none (ok : Char → Bool) (pat v : Str) (h : hasSubstr pat v = false) :
    lazyScan ok pat v = none := by
  cases hl : lazyScan ok pat v with
  | none => rfl
  | some content =>
    obtain ⟨rest, hrest⟩ := lazyScan_eq ok pat v content hl
    rw [hrest, List.append_assoc, hasSubstr_of_append] at h
    exact absurd h (by decide)

/-- No fence is matched where no three backticks follow the opening ones. -/
theorem matchFence_open (t : Str) (h : hasSubstr "```".toList (t.drop 3) = false) :
    matchFence t = none := by
  unfold matchFence
  split
  · simp only
    split
    · rename_i c v heq
      split
      · have hv : hasSubstr "```".toList v = false := by
          have e := List.takeWhile_append_dropWhile isLangChar (t.drop 3)
          rw [heq] at e
          rw [← e] at h
          have h2 := hasSubstr_append_right _ _ _ h
          exact (hasSubstr_cons_false h2).2
        rw [lazyScan_none _ _ _ hv]
      · rfl
    · rfl
  · rfl

theorem extractFences_open (r : Str) (h : hasSubstr "```".toList r = false) (n : Nat) :
    extractFences n 0 ("```".toList ++ r) = ("```".toList ++ r, []) := by
  have h0 : matchFence (Char.ofNat 96 :: Char.ofNat 96 :: Char.ofNat 96 :: r) = none :=
    matchFence_open _ (by simpa using h)
  have h1 : matchFence (Char.ofNat 96 :: Char.ofNat 96 :: r) = none :=
    matchFence_open _ (by
      have := hasSubstr_drop _ r 1 h
      simpa using this)
  have h2 : matchFence (Char.ofNat 96 :: r) = none :=
    matchFence_open _ (by
      have := hasSubstr_drop _ r 2 h
      simpa using this)
  have h3 := extractFences_text r [] h (Or.inl rfl) n
  simp only [List.append_nil] at h3
  have e : extractFences n 0 ([] : Str) = ([], []) := rfl
  rw [e] at h3
  simp only [List.append_nil] at h3
  show extractFences n 0 (Char.ofNat 96 :: Char.ofNat 96 :: Char.ofNat 96 :: r) = _
  rw [extractFences, h0]
  simp only
  rw [extractFences, h1]
  simp only
  rw [extractFences, h2]
  simp only
  rw [h3]
  rfl

/-- An input with three backticks in a row and no three backticks before or after them
has no fence for the renderer: the extraction leaves the text as it is and pushes no code
block. -/
theorem extractFences_unclosed (before after : Str)
    (hb : hasSubstr "```".toList before = false)
    (ha : hasSubstr "```".toList after = false) :
    extractFences 0 0
        (normalizeNewlines (escapeHtml (before ++ ("```".toList ++ after)))) =
      (normalizeNewlines (escapeHtml before) ++
        ("```".toList ++ normalizeNewlines (escapeHtml after)), []) := by
  have hn : normalizeNewlines (escapeHtml (before ++ ("```".toList ++ after))) =
      normalizeNewlines (escapeHtml before) ++
        ("```".toList ++ normalizeNewlines (escapeHtml after)) := by
    rw [escapeHtml_append, escapeHtml_append,
      show escapeHtml "```".toList = "```".toList by decide,
      normalizeNewlines_append _ _ (by simp),
      normalizeNewlines_append_left "```".toList _ (by decide)]
  have hb2 : hasSubstr "```".toList (normalizeNewlines (escapeHtml before)) = false := by
    have := no_ticks_normalized before [] (by simpa using hb)
    simpa using this
  have ha2 : hasSubstr "```".toList (normalizeNewlines (escapeHtml after)) = false := by
    have := no_ticks_normalized after [] (by simpa using ha)
    simpa using this
  rw [hn, extractFences_text _ _ hb2 (Or.inr ⟨_, rfl⟩) 0, extractFences_open _ ha2 0]

theorem no_pre_unclosed (before after : Str)
    (hb : hasSubstr "```".toList before = false)
    (ha : hasSubstr "```".toList after = false) :
    hasSubstr "<pre".toList (markdownToHtml (before ++ ("```".toList ++ after))) = false := by
  apply knownTags_no_pre
  rw [markdownToHtml_eq _ (by simp), extractFences_unclosed before after hb ha]
  simp only
  apply knownTags_replaceAll _ (ruleKnown_placeholder [] (by simp)) _ none 0
  simp only [List.drop_zero]
  apply knownTags_renderRules
  apply knownTags_of_no_lt
  intro c hc
  have hx : ∀ x ∈ normalizeNewlines (escapeHtml before) ++
      ("```".toList ++ normalizeNewlines (escapeHtml after)), x ≠ '<' := by
    intro x hx
    simp only [List.mem_append] at hx
    rcases hx with hx | hx | hx
    · exact (escapeHtml_chars before x (mem_normalizeNewlines _ x hx)).1
    · rintro rfl
      exact absurd hx (by decide)
    · exact (escapeHtml_chars after x (mem_normalizeNewlines _ x hx)).1
  exact hx c hc

theorem mem_afterBreaks_cons (c : Char) (rest u : Str) (h : u ∈ afterBreaks rest) :
    u ∈ afterBreaks (c :: rest) := by
  unfold afterBreaks
  split
  · exact List.mem_cons_of_mem _ h
  · exact h

theorem neverMatches_heading (level : Nat) (s : Str)
    (hlt : ∀ c ∈ s, isLineTerminator c = true → c = '\n') :
    ∀ prev, headingRule level prev s = none →
      (∀ u ∈ afterBreaks s,
        startsWith (List.replicate level '#' ++ [' ']) u = false) →
      neverMatches (headingRule level) prev s = true := by
  induction s with
  | nil => intro _ _ _; rfl
  | cons c rest ih =>
    intro prev h0 hu
    simp only [neverMatches, Bool.and_eq_true, Option.isNone_iff_eq_none]
    refine ⟨h0, ih (fun x hx => hlt x (List.mem_cons_of_mem _ hx)) (some c) ?_
      (fun u hu2 => hu u (mem_afterBreaks_cons c rest u hu2))⟩
    by_cases hc : c = '\n'
    · have : rest ∈ afterBreaks (c :: rest) := by
        unfold afterBreaks
        rw [if_pos hc]
        exact List.mem_cons_self _ _
      have h1 := hu rest this
      simp [headingRule, h1]
    · have h1 : isLineTerminator c = false := by
        by_contra hh
        simp only [Bool.not_eq_false] at hh
        exact hc (hlt c (List.mem_cons_self _ _) hh)
      simp [headingRule, atLineStart, h1]

theorem neverMatches_anchored_lines (blockLen : Str → Option Nat)
    (render : Str → Str → Str) (s : Str) :
    ∀ prev, (prev = none → blockLen s = none) → (∀ u ∈ afterBreaks s, blockLen u = none) →
      neverMatches (anchored blockLen render) prev s = true := by
  induction s with
  | nil => intro _ _ _; rfl
  | cons c rest ih =>
    intro prev h0 hu
    simp only [neverMatches, Bool.and_eq_true, Option.isNone_iff_eq_none]
    refine ⟨?_, ih (some c) (fun h => absurd h (by simp))
      (fun u hu2 => hu u (mem_afterBreaks_cons c rest u hu2))⟩
    have h1 : (if prev.isNone then blockLen (c :: rest) else none) = none := by
      cases prev with
      | none => simpa using h0 rfl
      | some p => rfl
    unfold anchored
    rw [h1]
    simp only
    split
    · rename_i hc
      have : rest ∈ afterBreaks (c :: rest) := by
        unfold afterBreaks
        rw [if_pos hc]
        exact List.mem_cons_self _ _
      rw [hu rest this]
    · rfl

theorem replaceAll_code_before (pre s : Str) (h : Char.ofNat 96 ∉ pre) :
    ∀ p, replaceAll codeRule p 0 (pre ++ s) = pre ++ replaceAll codeRule none 0 s := by
  induction pre with
  | nil =>
    intro p
    exact replaceAll_prev codeRule (fun _ _ _ => rfl) s p none 0
  | cons c pre ih =>
    intro p
    have hc : (c == Char.ofNat 96) = false := by
      simp only [beq_eq_false_iff_ne, ne_eq]
      exact fun hh => h (hh ▸ List.mem_cons_self _ _)
    rw [List.cons_append, replaceAll_zero_cons, codeRule_trigger p c _ hc]
    simp only
    rw [ih (fun hh => h (List.mem_cons_of_mem _ hh))]
    rfl

theorem replaceAll_break (t : Str) :
    ∀ p, replaceAll breakRule p 0 t = joinWith "<br/>".toList (splitChar '\n' t) := by
  induction t with
  | nil => intro p; rfl
  | cons c rest ih =>
    intro p
    rw [replaceAll_zero_cons, splitChar]
    by_cases hc : c = '\n'
    · subst hc
      simp only [breakRule, if_true]
      rw [ih]
      cases h : splitChar '\n' rest with
      | nil => exact absurd h (splitChar_ne_nil _ _)
      | cons l ls => rfl
    · simp only [breakRule, if_neg hc]
      rw [ih]
      cases h : splitChar '\n' rest with
      | nil => exact absurd h (splitChar_ne_nil _ _)
      | cons l ls =>
        cases ls with
        | nil => rfl
        | cons l2 ls2 => rfl

theorem mem_splitBlocks (s : Str) :
    ∀ k, ∀ b ∈ splitBlocks k s, ∀ c ∈ b, c ∈ s := by
  induction s with
  | nil =>
    intro k b hb c hc
    simp only [splitBlocks, List.mem_singleton] at hb
    subst hb
    exact absurd hc (by simp)
  | cons x rest ih =>
    intro k b hb c hc
    unfold splitBlocks at hb
    split at hb
    · split at hb
      · exact List.mem_cons_of_mem _ (ih true b hb c hc)
      · rcases List.mem_cons.mp hb with rfl | hb
        · exact absurd hc (by simp)
        · exact List.mem_cons_of_mem _ (ih true b hb c hc)
    · split at hb
      · simp only [List.mem_singleton] at hb
        subst hb
        simp only [List.mem_singleton] at hc
        subst hc
        exact List.mem_cons_self _ _
      · rename_i b0 bs heq
        rcases List.mem_cons.mp hb with rfl | hb
        · rcases List.mem_cons.mp hc with rfl | hc
          · exact List.mem_cons_self _ _
          · exact List.mem_cons_of_mem _ (ih false b0 (by rw [heq]; exact List.mem_cons_self _ _) c hc)
        · exact List.mem_cons_of_mem _ (ih false b (by rw [heq]; exact List.mem_cons_of_mem _ hb) c hc)

theorem wrapBlock_literal (b : Str) (hb : ∀ c ∈ b, c ≠ '\x00' ∧ c ≠ '<') :
    wrapBlock b = paragraphOf (trim b) := by
  have ht : ∀ c ∈ trim b, c ≠ '\x00' ∧ c ≠ '<' := fun c hc => hb c (mem_trim b c hc)
  have h1 : isPlaceholder (trim b) = false := by
    rcases h : trim b with _ | ⟨c, t⟩
    · rfl
    · have := (ht c (by rw [h]; exact List.mem_cons_self _ _)).1
      simp [isPlaceholder, startsWith, List.isPrefixOf, Ne.symm this]
  have h2 : startsWithBlockTag (trim b) = false := by
    unfold startsWithBlockTag
    split
    · rename_i c v heq
      have hc : c ∈ trim b := by
        have : c ∈ (trim b).dropWhile isWhiteSpace := by
          rw [heq]
          exact List.mem_cons_self _ _
        exact (List.dropWhile_sublist _).subset this
      have := (ht c hc).2
      simp [this]
    · rfl
  unfold wrapBlock paragraphOf
  simp only [h1, h2, Bool.or_false]
  split
  · rename_i he
    simpa using he
  · rw [replaceAll_break]

theorem restore_no_marks (codeBlocks : List Str) {s : Str} {ms : List Str}
    (h : Marked s ms) (hms : ms = []) :
    replaceAll (placeholderRule codeBlocks) none 0 s = s := by
  induction h with
  | nil => rfl
  | char c s ms hc _ ih => rw [restore_char codeBlocks c s hc, ih hms]
  | mark d s ms _ _ _ _ => exact absurd hms (by simp)

theorem startsHeading_false (u : Str) (h : startsHeading u = false) (k : Nat)
    (hk1 : 1 ≤ k) (hk6 : k ≤ 6) :
    startsWith (List.replicate k '#' ++ [' ']) u = false := by
  simp only [startsHeading, Bool.or_eq_false_iff] at h
  obtain ⟨⟨⟨⟨⟨h1, h2⟩, h3⟩, h4⟩, h5⟩, h6⟩ := h
  interval_cases k
  · exact h1
  · exact h2
  · exact h3
  · exact h4
  · exact h5
  · exact h6

theorem heading_literal (k : Nat) (hk1 : 1 ≤ k) (hk6 : k ≤ 6) (s : Str)
    (hlt : ∀ c ∈ s, isLineTerminator c = true → c = '\n')
    (hs : ∀ u ∈ lineStarts s, startsHeading u = false) :
    replaceAll (headingRule k) none 0 s = s := by
  apply replaceAll_of_neverMatches
  apply neverMatches_heading k s hlt
  · have := startsHeading_false s (hs s (List.mem_cons_self _ _)) k hk1 hk6
    simp [headingRule, this]
  · intro u hu
    exact startsHeading_false u (hs u (List.mem_cons_of_mem _ hu)) k hk1 hk6

theorem anchored_literal (blockLen : Str → Option Nat) (render : Str → Str → Str)
    (s : Str) (hs : ∀ u ∈ lineStarts s, blockLen u = none) :
    replaceAll (anchored blockLen render) none 0 s = s := by
  apply replaceAll_of_neverMatches
  exact neverMatches_anchored_lines blockLen render s none
    (fun _ => hs s (List.mem_cons_self _ _))
    (fun u hu => hs u (List.mem_cons_of_mem _ hu))

/-- The rules of `markdownToHtml` on a text with one run of three backticks in which no
rule finds a match: the text is written as paragraphs and nothing else. -/
theorem renderRules_literal (P R : Str) (hP : Char.ofNat 96 ∉ P) (hR : Char.ofNat 96 ∉ R)
    (hc : ∀ c ∈ P ++ ("```".toList ++ R), c ≠ '*' ∧ c ≠ '[' ∧ c ≠ '\x00' ∧ c ≠ '<' ∧
      (isLineTerminator c = true → c = '\n'))
    (hs : ∀ u ∈ lineStarts (P ++ ("```".toList ++ R)), startsHeading u = false ∧
      startsWith "&gt;".toList u = false ∧ itemStart false u = false ∧
      itemStart true u = false) :
    renderRules (P ++ ("```".toList ++ R)) = plainParagraphs (P ++ ("```".toList ++ R)) := by
  have hlt : ∀ c ∈ P ++ ("```".toList ++ R), isLineTerminator c = true → c = '\n' :=
    fun c h => (hc c h).2.2.2.2
  have hh : ∀ k, 1 ≤ k → k ≤ 6 →
      replaceAll (headingRule k) none 0 (P ++ ("```".toList ++ R)) =
        P ++ ("```".toList ++ R) :=
    fun k h1 h6 => heading_literal k h1 h6 _ hlt (fun u hu => (hs u hu).1)
  have hq : replaceAll (anchored quoteBlock renderQuote) none 0 (P ++ ("```".toList ++ R)) =
      P ++ ("```".toList ++ R) :=
    anchored_literal _ _ _ (fun u hu => by
      unfold quoteBlock
      rw [(hs u hu).2.1]
      rfl)
  have hl : ∀ o, replaceAll (anchored (listBlock o) (renderList o)) none 0
      (P ++ ("```".toList ++ R)) = P ++ ("```".toList ++ R) := by
    intro o
    apply anchored_literal
    intro u hu
    unfold listBlock
    cases o
    · rw [(hs u hu).2.2.1]
      rfl
    · rw [(hs u hu).2.2.2]
      rfl
  have hstar : ∀ (delim opening closing : Str),
      replaceAll (spanRule ('*' :: delim) opening closing) none 0
        (P ++ ("```".toList ++ R)) = P ++ ("```".toList ++ R) := by
    intro delim opening closing
    apply replaceAll_of_neverMatches
    exact neverMatches_of_trigger _ (fun c => c == '*')
      (fun prev c rest h => spanRule_trigger delim opening closing prev c rest h) _
      (fun c h => by simpa using (hc c h).1) none
  have hcode : replaceAll codeRule none 0 (P ++ ("```".toList ++ R)) =
      P ++ ("```".toList ++ R) := by
    rw [replaceAll_code_before P _ hP none, code_open_fence R hR]
  have hlink : replaceAll linkRule none 0 (P ++ ("```".toList ++ R)) =
      P ++ ("```".toList ++ R) := by
    apply replaceAll_of_neverMatches
    exact neverMatches_of_trigger _ (fun c => c == '[')
      (fun prev c rest h => linkRule_trigger prev c rest h) _
      (fun c h => by simpa using (hc c h).2.1) none
  have h2 : replaceAll (spanRule "**".toList "<strong>".toList "</strong>".toList) none 0
      (P ++ ("```".toList ++ R)) = P ++ ("```".toList ++ R) := hstar ['*'] _ _
  have h1 : replaceAll (spanRule "*".toList "<em>".toList "</em>".toList) none 0
      (P ++ ("```".toList ++ R)) = P ++ ("```".toList ++ R) := hstar [] _ _
  unfold renderRules plainParagraphs
  simp only
  rw [hh 6 (by decide) (by decide), hh 5 (by decide) (by decide),
    hh 4 (by decide) (by decide), hh 3 (by decide) (by decide),
    hh 2 (by decide) (by decide), hh 1 (by decide) (by decide), hq, hl false, hl true,
    h2, h1, hcode, hlink]
  congr 2
  apply List.map_congr_left
  intro b hb
  apply wrapBlock_literal
  intro c hcb
  have := hc c (mem_splitBlocks _ false b hb c hcb)
  exact ⟨this.2.2.1, this.2.2.2.1⟩

theorem escapeChar_head (c : Char) :
    escapeChar c = [c] ∨ ∃ tl, escapeChar c = '&' :: tl ∧ escapeChar c ≠ [c] ∧
      ∀ x ∈ escapeChar c, x ∈ "&amp;lt;gt;quot;#39;".toList := by
  unfold escapeChar
  split_ifs with h1 h2 h3 h4 h5
  · right
    subst h1
    exact ⟨_, rfl, by decide, by decide⟩
  · right
    subst h2
    exact ⟨_, rfl, by decide, by decide⟩
  · right
    subst h3
    exact ⟨_, rfl, by decide, by decide⟩
  · right
    subst h4
    exact ⟨_, rfl, by decide, by decide⟩
  · right
    rw [h5]
    exact ⟨_, rfl, by decide, by decide⟩
  · left
    rfl

theorem mem_escapeHtml (s : Str) :
    ∀ c ∈ escapeHtml s, c ∈ s ∨ c ∈ "&amp;lt;gt;quot;#39;".toList := by
  induction s with
  | nil => simp [escapeHtml]
  | cons x rest ih =>
    intro c hc
    rw [escapeHtml] at hc
    rcases List.mem_append.mp hc with h | h
    · rcases escapeChar_head x with h1 | ⟨tl, _, _, h3⟩
      · rw [h1] at h
        simp only [List.mem_singleton] at h
        exact Or.inl (h ▸ List.mem_cons_self _ _)
      · exact Or.inr (h3 c h)
    · rcases ih c h with h1 | h1
      · exact Or.inl (List.mem_cons_of_mem _ h1)
      · exact Or.inr h1

theorem afterBreaks_append_left (x y : Str) (h : '\n' ∉ x) :
    afterBreaks (x ++ y) = afterBreaks y := by
  induction x with
  | nil => rfl
  | cons c x ih =>
    have hc : c ≠ '\n' := fun hh => h (hh ▸ List.mem_cons_self _ _)
    rw [List.cons_append, afterBreaks, if_neg hc,
      ih (fun hh => h (List.mem_cons_of_mem _ hh))]

theorem escapeChar_no_nl (c : Char) (hc : c ≠ '\n') : '\n' ∉ escapeChar c := by
  rcases escapeChar_head c with h | ⟨tl, _, _, h⟩
  · rw [h]
    simpa using hc.symm
  · intro h0
    exact absurd (h _ h0) (by decide)

theorem afterBreaks_escapeHtml (s : Str) :
    afterBreaks (escapeHtml s) = (afterBreaks s).map escapeHtml := by
  induction s with
  | nil => rfl
  | cons c rest ih =>
    rw [escapeHtml]
    by_cases hc : c = '\n'
    · subst hc
      have : escapeChar '\n' = ['\n'] := by decide
      rw [this]
      simp [afterBreaks, ih]
    · rw [afterBreaks_append_left _ _ (escapeChar_no_nl c hc), ih, afterBreaks, if_neg hc]

theorem lineStarts_escapeHtml (s : Str) :
    lineStarts (escapeHtml s) = (lineStarts s).map escapeHtml := by
  simp [lineStarts, afterBreaks_escapeHtml]

theorem startsWith_escapeHtml (t : Str) :
    ∀ q : Str, (∀ c ∈ q, escapeChar c = [c] ∧ c ≠ '&') →
      startsWith q (escapeHtml t) = startsWith q t := by
  induction t with
  | nil => intro q _; rfl
  | cons c rest ih =>
    intro q hq
    rcases q with _ | ⟨b, q⟩
    · simp [startsWith]
    · have hb := hq b (List.mem_cons_self _ _)
      rw [escapeHtml]
      by_cases hc : c = b
      · subst hc
        rw [hb.1]
        have := ih q (fun x hx => hq x (List.mem_cons_of_mem _ hx))
        simpa [startsWith, List.isPrefixOf] using this
      · have h1 : startsWith (b :: q) (c :: rest) = false := by
          simp [startsWith, List.isPrefixOf, Ne.symm hc]
        rw [h1]
        rcases escapeChar_head c with h | ⟨tl, h, _, _⟩
        · rw [h]
          simp [startsWith, List.isPrefixOf, Ne.symm hc]
        · rw [h]
          simp [startsWith, List.isPrefixOf, hb.2]

theorem startsHeading_escapeHtml (t : Str) :
    startsHeading (escapeHtml t) = startsHeading t := by
  unfold startsHeading
  rw [startsWith_escapeHtml t "# ".toList (by decide),
    startsWith_escapeHtml t "## ".toList (by decide),
    startsWith_escapeHtml t "### ".toList (by decide),
    startsWith_escapeHtml t "#### ".toList (by decide),
    startsWith_escapeHtml t "##### ".toList (by decide),
    startsWith_escapeHtml t "###### ".toList (by decide)]

theorem startsQuote_escapeHtml (t : Str) :
    startsWith "&gt;".toList (escapeHtml t) = startsWith ">".toList t := by
  cases t with
  | nil => rfl
  | cons c rest =>
    rw [escapeHtml]
    unfold escapeChar
    split_ifs with h1 h2 h3 h4 h5
    · subst h1
      simp [startsWith, List.isPrefixOf]
    · subst h2
      simp [startsWith, List.isPrefixOf]
    · subst h3
      simp [startsWith, List.isPrefixOf]
    · subst h4
      simp [startsWith, List.isPrefixOf]
    · rw [h5]
      simp [startsWith, List.isPrefixOf]
    · have e1 : ('&' == c) = false := beq_eq_false_iff_ne.mpr (Ne.symm h1)
      have e3 : ('>' == c) = false := beq_eq_false_iff_ne.mpr (Ne.symm h3)
      simp [startsWith, List.isPrefixOf, e1, e3]

theorem not_whiteSpace_of_escaped (w : Char) (h : escapeChar w ≠ [w]) :
    isWhiteSpace w = false := by
  unfold escapeChar at h
  split_ifs at h with h1 h2 h3 h4 h5
  · subst h1; decide
  · subst h2; decide
  · subst h3; decide
  · subst h4; decide
  · rw [h5]; decide
  · exact absurd rfl h

theorem second_escapeHtml (test : Char → Bool)
    (h1 : ∀ c, test c = true → escapeChar c = [c]) (h2 : test '&' = false) (d : Str) :
    (match escapeHtml d with
      | p :: w :: _ => test p && isWhiteSpace w
      | _ => false) =
    (match d with
      | p :: w :: _ => test p && isWhiteSpace w
      | _ => false) := by
  have hamp : isWhiteSpace '&' = false := by decide
  rcases d with _ | ⟨p, _ | ⟨w, r⟩⟩
  · rfl
  · rw [escapeHtml, escapeHtml, List.append_nil]
    rcases escapeChar_head p with h | ⟨tl, h, _, _⟩
    · rw [h]
    · rw [h]
      rcases tl with _ | ⟨x, tl⟩
      · rfl
      · simp [h2]
  · rw [escapeHtml, escapeHtml]
    by_cases hp : test p = true
    · rw [h1 p hp]
      rcases escapeChar_head w with h | ⟨tl, h, hne, _⟩
      · rw [h]
        rfl
      · rw [h]
        simp [hamp, not_whiteSpace_of_escaped w hne]
    · have hp2 : test p = false := by simpa using hp
      rcases escapeChar_head p with h | ⟨tl, h, _, _⟩
      · rw [h]
        rcases hx : escapeChar w ++ escapeHtml r with _ | ⟨x, xs⟩
        · simp [hp2]
        · simp [hp2]
      · rw [h]
        rcases hx : tl ++ (escapeChar w ++ escapeHtml r) with _ | ⟨x, xs⟩
        · simp [hx, hp2]
        · simp [hx, h2, hp2]

theorem digits_escapeHtml (t : Str) :
    (escapeHtml t).takeWhile isDigit = t.takeWhile isDigit ∧
      (escapeHtml t).dropWhile isDigit = escapeHtml (t.dropWhile isDigit) := by
  induction t with
  | nil => exact ⟨rfl, rfl⟩
  | cons c rest ih =>
    by_cases hd : isDigit c = true
    · rw [escapeHtml, escapeChar_of_digit c hd]
      show (c :: escapeHtml rest).takeWhile isDigit = _ ∧
        (c :: escapeHtml rest).dropWhile isDigit = _
      simp only [List.takeWhile_cons, List.dropWhile_cons, hd, if_true]
      exact ⟨by rw [ih.1], ih.2⟩
    · have hd2 : isDigit c = false := by simpa using hd
      have e1 : (c :: rest).takeWhile isDigit = [] := by simp [List.takeWhile, hd2]
      have e2 : (c :: rest).dropWhile isDigit = c :: rest := by simp [List.dropWhile, hd2]
      rw [e1, e2, escapeHtml]
      rcases escapeChar_head c with h | ⟨tl, h, _, _⟩
      · rw [h]
        simp [List.takeWhile, List.dropWhile, hd2]
      · rw [h]
        have : isDigit '&' = false := by decide
        simp [List.takeWhile, List.dropWhile, this]

theorem itemStart_escapeHtml (ordered : Bool) (t : Str) :
    itemStart ordered (escapeHtml t) = itemStart ordered t := by
  cases ordered with
  | false =>
    have := second_escapeHtml (fun m => m == '-' || m == '*')
      (fun c hc => by
        simp only [Bool.or_eq_true, beq_iff_eq] at hc
        rcases hc with rfl | rfl <;> decide)
      (by decide) t
    simpa [itemStart] using this
  | true =>
    have h := digits_escapeHtml t
    have := second_escapeHtml (fun p => p == '.')
      (fun c hc => by
        simp only [beq_iff_eq] at hc
        subst hc
        decide)
      (by decide) (t.dropWhile isDigit)
    simp only [itemStart, if_true, h.1, h.2]
    congr 1

theorem no_ticks_of_not_mem (s : Str) (h : Char.ofNat 96 ∉ s) :
    hasSubstr "```".toList s = false := by
  induction s with
  | nil => rfl
  | cons c rest ih =>
    have hc : (Char.ofNat 96 == c) = false := by
      simp only [beq_eq_false_iff_ne, ne_eq]
      exact fun hh => h (hh ▸ List.mem_cons_self _ _)
    rw [hasSubstr, ih (fun hh => h (List.mem_cons_of_mem _ hh))]
    simp [startsWith, List.isPrefixOf, hc]

theorem literal_facts (c : Char) (h : isLiteralChar c = true) :
    c ≠ '*' ∧ c ≠ Char.ofNat 96 ∧ c ≠ '[' ∧ c ≠ '\x00' ∧
      (isLineTerminator c = true → c = '\n') := by
  simp only [isLiteralChar, Bool.and_eq_true, Bool.or_eq_true, Bool.not_eq_true',
    beq_iff_eq, bne_iff_ne, ne_eq] at h
  refine ⟨h.1.1.1.2, h.1.1.2, h.1.2, h.2, ?_⟩
  intro hl
  rcases h.1.1.1.1 with h1 | h1
  · rw [hl] at h1
    exact absurd h1 (by decide)
  · exact h1

theorem escaped_literal (s : Str) (h : ∀ c ∈ s, isLiteralChar c = true) :
    ∀ c ∈ escapeHtml s, c ≠ '*' ∧ c ≠ Char.ofNat 96 ∧ c ≠ '[' ∧ c ≠ '\x00' ∧ c ≠ '<' ∧
      c ≠ '\r' ∧ (isLineTerminator c = true → c = '\n') := by
  intro c hc
  have hlt := (escapeHtml_chars s c hc).1
  rcases mem_escapeHtml s c hc with h1 | h1
  · obtain ⟨a1, a2, a3, a4, a5⟩ := literal_facts c (h c h1)
    refine ⟨a1, a2, a3, a4, hlt, ?_, a5⟩
    rintro rfl
    exact absurd (a5 (by decide)) (by decide)
  · have : ∀ x ∈ "&amp;lt;gt;quot;#39;".toList, x ≠ '*' ∧ x ≠ Char.ofNat 96 ∧ x ≠ '[' ∧
        x ≠ '\x00' ∧ x ≠ '<' ∧ x ≠ '\r' ∧ (isLineTerminator x = true → x = '\n') := by
      decide
    exact this c h1

/-- The rendering of a text with one run of three backticks in which no rule of
`markdownToHtml` finds a match: the escaped text, written as paragraphs. -/
theorem markdownToHtml_literal (before after : Str)
    (hc : ∀ c ∈ before ++ after, isLiteralChar c = true)
    (hl : ∀ u ∈ lineStarts (before ++ ("```".toList ++ after)), startsBlock u = false) :
    markdownToHtml (before ++ ("```".toList ++ after)) =
      plainParagraphs (escapeHtml (before ++ ("```".toList ++ after))) := by
  have hb := escaped_literal before (fun c h => hc c (List.mem_append_left _ h))
  have ha := escaped_literal after (fun c h => hc c (List.mem_append_right _ h))
  have hbt : Char.ofNat 96 ∉ before :=
    fun h => (literal_facts _ (hc _ (List.mem_append_left _ h))).2.1 rfl
  have hat : Char.ofNat 96 ∉ after :=
    fun h => (literal_facts _ (hc _ (List.mem_append_right _ h))).2.1 rfl
  have he : escapeHtml (before ++ ("```".toList ++ after)) =
      escapeHtml before ++ ("```".toList ++ escapeHtml after) := by
    rw [escapeHtml_append, escapeHtml_append, show escapeHtml "```".toList = "```".toList by decide]
  have hx : ∀ c ∈ escapeHtml before ++ ("```".toList ++ escapeHtml after),
      c ≠ '*' ∧ c ≠ '[' ∧ c ≠ '\x00' ∧ c ≠ '<' ∧ (isLineTerminator c = true → c = '\n') := by
    intro c h
    simp only [List.mem_append] at h
    rcases h with h | h | h
    · have := hb c h
      exact ⟨this.1, this.2.2.1, this.2.2.2.1, this.2.2.2.2.1, this.2.2.2.2.2.2⟩
    · have : ∀ x ∈ "```".toList, x ≠ '*' ∧ x ≠ '[' ∧ x ≠ '\x00' ∧ x ≠ '<' ∧
          (isLineTerminator x = true → x = '\n') := by decide
      exact this c h
    · have := ha c h
      exact ⟨this.1, this.2.2.1, this.2.2.2.1, this.2.2.2.2.1, this.2.2.2.2.2.2⟩
  have hs : ∀ u ∈ lineStarts (escapeHtml before ++ ("```".toList ++ escapeHtml after)),
      startsHeading u = false ∧ startsWith "&gt;".toList u = false ∧
        itemStart false u = false ∧ itemStart true u = false := by
    intro u hu
    rw [← he, lineStarts_escapeHtml] at hu
    obtain ⟨t, ht, rfl⟩ := List.mem_map.mp hu
    have h1 := hl t ht
    simp only [startsBlock, Bool.or_eq_false_iff] at h1
    rw [startsHeading_escapeHtml, startsQuote_escapeHtml, itemStart_escapeHtml,
      itemStart_escapeHtml]
    exact ⟨h1.1.1.1, h1.1.1.2, h1.1.2, h1.2⟩
  have hn1 : normalizeNewlines (escapeHtml before) = escapeHtml before :=
    normalizeNewlines_id _ (fun c h => (hb c h).2.2.2.2.2.1)
  have hn2 : normalizeNewlines (escapeHtml after) = escapeHtml after :=
    normalizeNewlines_id _ (fun c h => (ha c h).2.2.2.2.2.1)
  have hm : Marked (escapeHtml before ++ ("```".toList ++ escapeHtml after)) [] :=
    marked_of_no_nul _ (fun h => (hx _ h).2.2.1 rfl)
  obtain ⟨ms2, h1, h2⟩ := marked_renderRules _ _ hm
  rw [markdownToHtml_eq _ (by simp),
    extractFences_unclosed before after (no_ticks_of_not_mem _ hbt) (no_ticks_of_not_mem _ hat),
    hn1, hn2]
  simp only
  rw [restore_no_marks [] h1 h2.eq_nil,
    renderRules_literal _ _ (fun h => (hb _ h).2.1 rfl) (fun h => (ha _ h).2.1 rfl) hx hs, he]

/-- Where the extraction of the fences pushes no code block, it leaves the text as it
is. -/
theorem extractFences_no_block (t : Str) :
    ∀ n : Nat, (extractFences n 0 t).2 = [] → (extractFences n 0 t).1 = t := by
  induction t with
  | nil => intro n _; rfl
  | cons c rest ih =>
    intro n h
    rw [extractFences] at h ⊢
    cases hm : matchFence (c :: rest) with
    | some m =>
      rw [hm] at h
      simp at h
    | none =>
      rw [hm] at h
      simp only at h ⊢
      rw [ih n h]

/-- Where no fence is matched in a text, the output of `markdownToHtml` has no `<pre`. -/
theorem no_pre_of_no_block (text : Str)
    (h : (extractFences 0 0 (normalizeNewlines (escapeHtml text))).2 = []) :
    hasSubstr "<pre".toList (markdownToHtml text) = false := by
  by_cases hz : text = []
  · rw [hz]
    decide
  apply knownTags_no_pre
  rw [markdownToHtml_eq _ hz]
  have h1 := extractFences_no_block _ 0 h
  rw [h, h1]
  apply knownTags_replaceAll _ (ruleKnown_placeholder [] (by simp)) _ none 0
  simp only [List.drop_zero]
  apply knownTags_renderRules
  apply knownTags_of_no_lt
  intro c hc
  exact (escapeHtml_chars text c (mem_normalizeNewlines _ c hc)).1

/-- C17, amended: an input with an opening fence and no closing fence.  First, for every
text in which the pattern of a fence matches nowhere (the array `codeBlocks` stays
empty), `markdownToHtml` writes no code block: the output has no `<pre`.  Second, every
text with three backticks in a row and no three backticks in a row before or after them
is such a text; and when no rule of the renderer has a match in it (the text around the
three backticks has no `*`, no backtick, no `[`, no U+0000, no line terminator other than
the line feed, and none of its lines begins like a heading, a quote or an item of a
list), the output is the escaped text written as paragraphs, with the backticks and all
the text after them as they were: the text is cut at its blank lines, every block is
trimmed and put between `<p>` and `</p>`, with `<br/>` for its line feeds. -/
theorem markdownToHtml_unclosed_fence :
    (∀ text : Str, (extractFences 0 0 (normalizeNewlines (escapeHtml text))).2 = [] →
      hasSubstr "<pre".toList (markdownToHtml text) = false) ∧
    (∀ before after : Str, hasSubstr "```".toList before = false →
      hasSubstr "```".toList after = false →
      (extractFences 0 0
        (normalizeNewlines (escapeHtml (before ++ ("```".toList ++ after))))).2 = [] ∧
      ((∀ c ∈ before ++ after, isLiteralChar c = true) →
        (∀ u ∈ lineStarts (before ++ ("```".toList ++ after)), startsBlock u = false) →
        markdownToHtml (before ++ ("```".toList ++ after)) =
          plainParagraphs (escapeHtml (before ++ ("```".toList ++ after))))) :=
  ⟨no_pre_of_no_block, fun before after hb ha =>
    ⟨by rw [extractFences_unclosed before after hb ha], markdownToHtml_literal before after⟩⟩

/-- C17, amended, on three examples: a text with two runs of three backticks and no
line feed after the first, in which no fence is matched and which the inline code rule
rewrites, with no `<pre` in the output; a text with one run of three backticks, in which
no fence is matched; and a text of two paragraphs with an opening fence and two lines of
code in the second, which passes through with its characters escaped. -/
theorem markdownToHtml_unclosed_fence_witness :
    hasSubstr "<pre".toList (markdownToHtml "```js ``` b".toList) = false ∧
    (extractFences 0 0 (normalizeNewlines (escapeHtml
      ("intro `a` ".toList ++ ("```".toList ++ "js\n`x`".toList))))).2 = [] ∧
    markdownToHtml ("intro\n\n".toList ++ ("```".toList ++ "js\nif (a < 1)\n  b = 2;".toList)) =
      ("<p>intro</p>\n<p>" ++ "```" ++ "js<br/>if (a &lt; 1)<br/>  b = 2;</p>").toList :=
  ⟨markdownToHtml_unclosed_fence.1 "```js ``` b".toList (by decide),
    (markdownToHtml_unclosed_fence.2 "intro `a` ".toList "js\n`x`".toList (by decide)
      (by decide)).1,
    ((markdownToHtml_unclosed_fence.2 "intro\n\n".toList "js\nif (a < 1)\n  b = 2;".toList
      (by decide) (by decide)).2 (by decide) (by decide)).trans (by decide)⟩

end SovereignBlog
